import Mathlib

/-!
# Randomized greedy modularity clustering and the CGGC scheme

A shallow embedding of `src/modoptimizer.cpp` (class `ModOptimizer`).

Conventions of the embedding.

* `std::vector<T>` indexed by a vertex or cluster id is a `List T`; a read
  `v[i]` is `List.getD`, a write `v[i] = x` is `List.set`, and the checked
  accessor `v.at(i)` fails (`none`) when `i` is out of range.
* `boost::unordered_map<int, T>` is an association list of `(key, value)` pairs
  (newly inserted keys are appended); the iteration order of the container
  is unspecified in the source and no statement below depends on it.
* `double` values are exact rationals (`ℚ`); every division by the edge count
  is checked, so that a division by zero is visible in the result.
* `int` values are unbounded (`Nat` for ids and counts, `Int` where the source
  can go negative); all of them are bounded by the number of adjacency
  entries of the graph, which is assumed to fit the machine type.
-/

namespace CGGC

/-! ## Data model -/

/-- Modelled from the spec: the `Graph` collaborator (graph.h is not among the sources).
"Operations: vertex_count() and neighbors(v), a read-only ordered sequence of int." -/
structure Graph where
  /-- Value of `get_vertex_count()`. -/
  vertex_count : Nat
  /-- Value of `GetNeighbors(v)`. -/
  GetNeighbors : Nat → List Nat

/-- Modelled from the spec: the partition vector of class `Partition` (partition.h is not among
the sources): "Ordered sequence of clusters; each cluster is an ordered list of vertex ids". -/
abbrev Partition := List (List Nat)

/-- A slot survives the compaction when it holds a non-empty list. -/
def nonEmptySlot (s : Option (List Nat)) : Option (List Nat) :=
  match s with
  | some (x :: xs) => some (x :: xs)
  | _ => none

/-- Modelled from the spec: `Partition::RemoveEmptyEntries` (partition.cpp is not among the
sources): "Compact: remove empty slots preserving relative order", "no cluster is empty after
compaction". A slot of the partition vector is either `NULL` (`none`) or a list. -/
def RemoveEmptyEntries (slots : List (Option (List Nat))) : Partition :=
  slots.filterMap nonEmptySlot

/-- Every vertex of `{0..n-1}` lies in exactly one cluster of `P`, exactly once. -/
def IsPartition (n : Nat) (P : Partition) : Prop :=
  P.flatten.Nodup ∧ (∀ v ∈ P.flatten, v < n) ∧ (∀ v, v < n → v ∈ P.flatten)

instance (n : Nat) (P : Partition) : Decidable (IsPartition n P) := by
  unfold IsPartition; infer_instance

/-- Vertices `u` and `v` lie in a common cluster of `P`. -/
def SameCluster (P : Partition) (u v : Nat) : Prop :=
  ∃ C ∈ P, u ∈ C ∧ v ∈ C

/-! ## GetMembershipFromPartition and CompareClusters -/

/-- The checked write `vec->at(i) = a`. -/
def setAt {α : Type} (xs : List α) (i : Nat) (a : α) : Option (List α) :=
  if i < xs.length then some (xs.set i a) else none

/-- The loop `for i in 0 .. size` of `GetMembershipFromPartition`, started at cluster index `i`. -/
def membershipLoop : List (List Nat) → Nat → List Nat → Option (List Nat)
  | [], _, membership => some membership
  | cluster :: rest, i, membership =>
    (cluster.foldlM (fun m vertex_id => setAt m vertex_id i) membership).bind
      (membershipLoop rest (i + 1))

/-- `ModOptimizer::GetMembershipFromPartition`: a zero-initialised vector of `vertex_count`
entries in which every listed vertex receives the index of its cluster. -/
def GetMembershipFromPartition (partition : Partition) (vertex_count : Nat) :
    Option (List Nat) :=
  membershipLoop partition 0 (List.replicate vertex_count 0)

/-- Body of the inner `BOOST_FOREACH(int vertex2, *cluster)` of `CompareClusters`;
the state is `(newcluster, assigned)`. -/
def sweepStep (maps1 : List Nat) (vertex1 : Nat) (st : List Nat × List Bool) (vertex2 : Nat) :
    List Nat × List Bool :=
  if st.2.getD vertex2 false = false then
    if maps1.getD vertex1 0 = maps1.getD vertex2 0 then
      (st.1 ++ [vertex2], st.2.set vertex2 true)
    else st
  else st

/-- Body of the outer `BOOST_FOREACH(int vertex1, *cluster)` of `CompareClusters`;
the state is `(result_clustering, assigned)`. Every vertex met here was already accepted by
`GetMembershipFromPartition(partition1, n)`, so the accesses are in range. -/
def seedStep (maps1 : List Nat) (cluster : List Nat) (st : Partition × List Bool)
    (vertex1 : Nat) : Partition × List Bool :=
  if st.2.getD vertex1 false = false then
    let r := cluster.foldl (sweepStep maps1 vertex1) ([vertex1], st.2.set vertex1 true)
    (st.1 ++ [r.1], r.2)
  else st

/-- The loop over the clusters of `partition1` in `CompareClusters`. -/
def compareLoop (maps1 : List Nat) (partition1 : Partition) (st : Partition × List Bool) :
    Partition × List Bool :=
  partition1.foldl (fun s cluster => cluster.foldl (seedStep maps1 cluster) s) st

/-- `ModOptimizer::CompareClusters`. -/
def CompareClusters (graph : Graph) (partition1 partition2 : Partition) : Option Partition :=
  (GetMembershipFromPartition partition1 graph.vertex_count).bind fun _ =>
  (GetMembershipFromPartition partition2 graph.vertex_count).bind fun maps1 =>
  some (compareLoop maps1 partition1 ([], List.replicate graph.vertex_count false)).1

/-! ## Hash maps as association lists -/

/-- Lookup `map.find(k)`: the value stored under `k`, if the key is present. -/
def mapFind {α : Type} : List (Nat × α) → Nat → Option α
  | [], _ => none
  | (k1, v) :: r, k => if k1 = k then some v else mapFind r k

/-- The read-modify-write `map.at(k) = f (map.at(k))` on a present key. -/
def mapUpdate {α : Type} (f : α → α) : List (Nat × α) → Nat → List (Nat × α)
  | [], _ => []
  | (k1, v) :: r, k => if k1 = k then (k1, f v) :: r else (k1, v) :: mapUpdate f r k

/-- The assignment `map[k] = v`: overwrite a present key, insert an absent one. -/
def mapSet {α : Type} (row : List (Nat × α)) (k : Nat) (v : α) : List (Nat × α) :=
  if (mapFind row k).isSome then mapUpdate (fun _ => v) row k else row ++ [(k, v)]

/-- The read `map[k]` of `operator[]`, whose value is the default `d` on an absent key. -/
def mapGet {α : Type} (row : List (Nat × α)) (k : Nat) (d : α) : α :=
  (mapFind row k).getD d

/-- The side effect of evaluating `map[k]`: an absent key is inserted with the default. -/
def mapTouch {α : Type} (row : List (Nat × α)) (k : Nat) (d : α) : List (Nat × α) :=
  if (mapFind row k).isSome then row else row ++ [(k, d)]

/-- A division of doubles by the edge count; `none` records a division by zero. -/
def fdiv (x d : ℚ) : Option ℚ :=
  if d = 0 then none else some (x / d)

/-! ## GetModularityFromClustering -/

/-- The loops that fill `clustermap` (unchecked writes `clustermap[vertex_id] = i`),
started at cluster index `i`. -/
def clustermapLoop : List (List Nat) → Nat → List Nat → List Nat
  | [], _, clustermap => clustermap
  | cluster :: rest, i, clustermap =>
    clustermapLoop rest (i + 1) (cluster.foldl (fun m vertex_id => m.set vertex_id i) clustermap)

/-- Body of the loop over `neighbors->at(j)` in `GetModularityFromClustering`;
the state is `(e, edge_count)`. -/
def evalEdgeStep (clustermap : List Nat) (i : Nat) (st : List (List (Nat × ℚ)) × Nat)
    (nb : Nat) : List (List (Nat × ℚ)) × Nat :=
  if i = nb then st
  else
    let cfrom := clustermap.getD i 0
    let cto := clustermap.getD nb 0
    let row := st.1.getD cfrom []
    let row2 := if (mapFind row cto).isSome then mapUpdate (fun x => x + 1) row cto
      else row ++ [(cto, 1)]
    (st.1.set cfrom row2, st.2 + 1)

/-- The double loop over vertices and their neighbours that fills `e` and `edge_count`. -/
def evalEdgeLoop (graph : Graph) (clustermap : List Nat) (cluster_count : Nat) :
    List (List (Nat × ℚ)) × Nat :=
  (List.range graph.vertex_count).foldl
    (fun st i => (graph.GetNeighbors i).foldl (evalEdgeStep clustermap i) st)
    (List.replicate cluster_count [], 0)

/-- Body of the loop over the entries of row `e[i]`: `e[i]->at(column) /= edge_count;
a[i] += e[i]->at(column)`; the state is `(e[i], a[i])`. -/
def normStep (edge_count : ℚ) (st : List (Nat × ℚ) × ℚ) (column : Nat) :
    Option (List (Nat × ℚ) × ℚ) :=
  (fdiv (mapGet st.1 column 0) edge_count).map fun q =>
    let row := mapUpdate (fun _ => q) st.1 column
    (row, st.2 + mapGet row column 0)

/-- Normalisation of one row; returns the row and its sum `a[i]`. -/
def normRow (edge_count : ℚ) (row : List (Nat × ℚ)) : Option (List (Nat × ℚ) × ℚ) :=
  (row.map Prod.fst).foldlM (normStep edge_count) (row, 0)

/-- Body of the final loop `Q += e[i][i] - a[i]*a[i]` (or `0 - a[i]*a[i]`). -/
def qStep (rows : List (List (Nat × ℚ) × ℚ)) (Q : ℚ) (i : Nat) : ℚ :=
  let r := rows.getD i ([], 0)
  match mapFind r.1 i with
  | some x => Q + (x - r.2 * r.2)
  | none => Q + (0 - r.2 * r.2)

/-- `ModOptimizer::GetModularityFromClustering`; `none` means that a division by a zero
edge count was executed. -/
def GetModularityFromClustering (graph : Graph) (clusters : Partition) : Option ℚ :=
  let cluster_count := clusters.length
  let clustermap := clustermapLoop clusters 0 (List.replicate graph.vertex_count 0)
  let r := evalEdgeLoop graph clustermap cluster_count
  (r.1.mapM (normRow (r.2 : ℚ))).map fun rows =>
    (List.range cluster_count).foldl (qStep rows) 0

/-! ## RefineCluster -/

/-- What can stop a run of the model short of a result. -/
inductive Fault where
  /-- A division by a zero edge count. -/
  | divisionByZero
  /-- A checked access `at(i)` out of range. -/
  | outOfRange
  /-- A member call through a `NULL` pointer. -/
  | nullPointer
  /-- The iteration budget given to an unbounded loop was used up. -/
  | outOfFuel
  deriving DecidableEq, Repr

/-- The working data of `RefineCluster`. -/
structure RefineState where
  /-- Sum of neighbour-list sizes per cluster id. -/
  clusterdegree : List Int
  /-- Cluster id per vertex. -/
  clustermap : List Nat
  /-- Per vertex, the map cluster id to number of links. -/
  links : List (List (Nat × Int))
  deriving DecidableEq, Repr

/-- The first initialisation loop: fills `clusterdegree` and `clustermap`, started at
cluster index `i`. -/
def refineInitClusters (graph : Graph) : List (List Nat) → Nat → List Int × List Nat →
    List Int × List Nat
  | [], _, st => st
  | cluster :: rest, i, st =>
    let r := cluster.foldl
      (fun (s : Int × List Nat) vertexid =>
        (s.1 + ((graph.GetNeighbors vertexid).length : Int), s.2.set vertexid i))
      (0, st.2)
    refineInitClusters graph rest (i + 1) (st.1.set i r.1, r.2)

/-- Body of the loop over `neighbors->at(j)` that fills `links` and `edgeCount`. -/
def refineLinkStep (clustermap : List Nat) (i : Nat) (st : List (List (Nat × Int)) × ℚ)
    (neighbor_id : Nat) : List (List (Nat × Int)) × ℚ :=
  if i = neighbor_id then st
  else
    let neighborcluster := clustermap.getD neighbor_id 0
    let row := st.1.getD i []
    let newvalue : Int :=
      match mapFind row neighborcluster with
      | some x => 1 + x
      | none => 1
    (st.1.set i (mapSet row neighborcluster newvalue), st.2 + 1)

/-- The initialisation of `RefineCluster`: the compacted input, the state and `edgeCount`. -/
def refineInit (graph : Graph) (clusters : Partition) : RefineState × ℚ :=
  let compacted := RemoveEmptyEntries (clusters.map some)
  let cluster_count := compacted.length
  let c := refineInitClusters graph compacted 0
    (List.replicate cluster_count 0, List.replicate graph.vertex_count 0)
  let l := (List.range graph.vertex_count).foldl
    (fun st i => (graph.GetNeighbors i).foldl (refineLinkStep c.2 i) st)
    (List.replicate graph.vertex_count [], 0)
  (⟨c.1, c.2, l.1⟩, l.2 / 2)

/-- The value `deltaQ = term1 - term2` of moving `vertex_id` to `cluster_id`, given the row
`links[vertex_id]`. -/
def deltaQ (graph : Graph) (edgeCount : ℚ) (clusterdegree : List Int) (row : List (Nat × Int))
    (vertex_id current_cluster_id cluster_id : Nat) : Option ℚ :=
  let size : ℚ := ((graph.GetNeighbors vertex_id).length : ℚ)
  (fdiv ((mapGet row cluster_id 0 - mapGet row current_cluster_id 0 : Int) : ℚ) edgeCount).bind
    fun term1 =>
  (fdiv ((((clusterdegree.getD cluster_id 0 - clusterdegree.getD current_cluster_id 0 : Int) : ℚ)
      + size) * size / 2) edgeCount).bind fun t =>
  (fdiv t edgeCount).map fun term2 => term1 - term2

/-- Body of the loop over the keys of `links[vertex_id]`; the state is
`(links[vertex_id], best_move_cluster, bestDeltaQ)`. -/
def scanStep (graph : Graph) (edgeCount : ℚ) (clusterdegree : List Int)
    (vertex_id current_cluster_id : Nat) (st : List (Nat × Int) × Int × ℚ) (cluster_id : Nat) :
    Option (List (Nat × Int) × Int × ℚ) :=
  if current_cluster_id = cluster_id then some st
  else
    let row := mapTouch st.1 current_cluster_id 0
    (deltaQ graph edgeCount clusterdegree row vertex_id current_cluster_id cluster_id).map
      fun dq => if dq > st.2.2 then (row, (cluster_id : Int), dq) else (row, st.2.1, st.2.2)

/-- Body of the loop `for i < GetNeighbors(vertex_id)->size()` of an executed move. -/
def moveLinkStep (current_cluster_id best_move_cluster : Nat) (links : List (List (Nat × Int)))
    (neighborid : Nat) : List (List (Nat × Int)) :=
  let row := mapTouch (links.getD neighborid []) current_cluster_id 0
  let row1 := mapUpdate (fun x => x - 1) row current_cluster_id
  let row2 := if (mapFind row1 best_move_cluster).isSome
    then mapUpdate (fun x => x + 1) row1 best_move_cluster
    else mapSet row1 best_move_cluster 1
  links.set neighborid row2

/-- The block `// move vertex` of `RefineCluster`. -/
def applyMove (graph : Graph) (st : RefineState) (vertex_id current_cluster_id
    best_move_cluster : Nat) : RefineState :=
  let size : Int := ((graph.GetNeighbors vertex_id).length : Int)
  let cd1 := st.clusterdegree.set current_cluster_id
    (st.clusterdegree.getD current_cluster_id 0 - size)
  let cd2 := cd1.set best_move_cluster (cd1.getD best_move_cluster 0 + size)
  ⟨cd2, st.clustermap.set vertex_id best_move_cluster,
    (graph.GetNeighbors vertex_id).foldl (moveLinkStep current_cluster_id best_move_cluster)
      st.links⟩

/-- The loop over the keys of `links[vertex_id]` ("for all adjacent clusters"); the result
is `(links[vertex_id], best_move_cluster, bestDeltaQ)`. -/
def scanVertex (graph : Graph) (edgeCount : ℚ) (st : RefineState) (vertex_id : Nat) :
    Option (List (Nat × Int) × Int × ℚ) :=
  let current_cluster_id := st.clustermap.getD vertex_id 0
  let row := st.links.getD vertex_id []
  (row.map Prod.fst).foldlM
    (scanStep graph edgeCount st.clusterdegree vertex_id current_cluster_id)
    (row, (-1 : Int), (0 : ℚ))

/-- The state after the scan of `vertex_id` with result `r`: the move is executed when
`bestDeltaQ > 0`. -/
def afterScan (graph : Graph) (st : RefineState) (vertex_id : Nat)
    (r : List (Nat × Int) × Int × ℚ) : RefineState :=
  let s1 : RefineState := ⟨st.clusterdegree, st.clustermap, st.links.set vertex_id r.1⟩
  if r.2.2 > 0 then
    applyMove graph s1 vertex_id (st.clustermap.getD vertex_id 0) r.2.1.toNat
  else s1

/-- Body of the loop over `vertex_id`; the state is the working data and
`improvement_found`. -/
def vertexStep (graph : Graph) (edgeCount : ℚ) (st : RefineState × Bool) (vertex_id : Nat) :
    Option (RefineState × Bool) :=
  (scanVertex graph edgeCount st.1 vertex_id).map fun r =>
    (afterScan graph st.1 vertex_id r, if r.2.2 > 0 then true else st.2)

/-- One execution of the body of `while (improvement_found)`. -/
def refinePass (graph : Graph) (edgeCount : ℚ) (st : RefineState) :
    Option (RefineState × Bool) :=
  (List.range graph.vertex_count).foldlM (vertexStep graph edgeCount) (st, false)

/-- The loop `while (improvement_found)`, with a budget of passes. -/
def refineLoop (graph : Graph) (edgeCount : ℚ) : Nat → RefineState → Except Fault RefineState
  | 0, _ => .error .outOfFuel
  | fuel + 1, st =>
    match refinePass graph edgeCount st with
    | none => .error .divisionByZero
    | some (st2, true) => refineLoop graph edgeCount fuel st2
    | some (st2, false) => .ok st2

/-- Body of the loop that rebuilds the partition: `resultclusters->at(clustermap[i])
->push_back(i)`. -/
def rebuildStep (clustermap : List Nat) (res : List (List Nat)) (i : Nat) :
    Option (List (List Nat)) :=
  let x := clustermap.getD i 0
  if x < res.length then some (res.set x (res.getD x [] ++ [i])) else none

/-- The tail of `RefineCluster`: `new Partition(cluster_count)` (that many empty lists),
the rebuilding loop and the compaction. -/
def rebuildPartition (vertex_count cluster_count : Nat) (clustermap : List Nat) :
    Option Partition :=
  ((List.range vertex_count).foldlM (rebuildStep clustermap)
    (List.replicate cluster_count [])).map fun res => RemoveEmptyEntries (res.map some)

/-- `ModOptimizer::RefineCluster` on a non-`NULL` partition, with a budget of passes for
the loop `while (improvement_found)`. -/
def RefineCluster (fuel : Nat) (graph : Graph) (clusters : Partition) :
    Except Fault Partition :=
  let cluster_count := (RemoveEmptyEntries (clusters.map some)).length
  let init := refineInit graph clusters
  match refineLoop graph init.2 fuel init.1 with
  | .error f => .error f
  | .ok st =>
    match rebuildPartition graph.vertex_count cluster_count st.clustermap with
    | none => .error .outOfRange
    | some P => .ok P

/-! ## GetPartitionFromJoins -/

/-- Body of the loop `for step <= bestStep`: `list1->splice(list1->end(), *list2)`, then the
second slot is deleted and set to `NULL`. An access `at()` out of range, a `NULL` list and
the splice of a list into itself have no result. -/
def joinStep (slots : List (Option (List Nat))) (join : Nat × Nat) :
    Option (List (Option (List Nat))) :=
  match slots[join.1]?, slots[join.2]? with
  | some (some list1), some (some list2) =>
    if join.1 = join.2 then none
    else some ((slots.set join.1 (some (list1 ++ list2))).set join.2 none)
  | _, _ => none

/-- The loop `for (int step = 0; step <= bestStep; step++)`; reading `joins[step]` past the
end of the vector has no result. -/
def replayJoins (joins : List (Nat × Nat)) (bestStep : Int)
    (slots : List (Option (List Nat))) : Option (List (Option (List Nat))) :=
  (List.range (bestStep + 1).toNat).foldlM
    (fun s step => (joins[step]?).bind (joinStep s)) slots

/-- The statement `result->at(pos)->push_back(vertex)`. -/
def placeVertex (pos : Nat) (slots : List (Option (List Nat))) (vertex : Nat) :
    Option (List (Option (List Nat))) :=
  match slots[pos]? with
  | some (some l) => some (slots.set pos (some (l ++ [vertex])))
  | _ => none

/-- One cluster of `partial_partition` is copied to the slot named by its first element
(`*begin()` of an empty list has no result). -/
def placeCluster (slots : List (Option (List Nat))) (cluster : List Nat) :
    Option (List (Option (List Nat))) :=
  match cluster with
  | [] => none
  | pos :: _ => cluster.foldlM (placeVertex pos) slots

/-- `ModOptimizer::GetPartitionFromJoins`; `partial_partition = none` is the `NULL` argument. -/
def GetPartitionFromJoins (graph : Graph) (joins : List (Nat × Nat)) (bestStep : Int)
    (partial_partition : Option Partition) : Option Partition :=
  let init : Option (List (Option (List Nat))) :=
    match partial_partition with
    | none => some ((List.range graph.vertex_count).map fun i => some [i])
    | some P => P.foldlM placeCluster (List.replicate graph.vertex_count (some []))
  init.bind fun slots => (replayJoins joins bestStep slots).map RemoveEmptyEntries

/-! ## Quantities the statements are about -/

/-- All neighbour ids are vertices of the graph. -/
def Graph.WellFormed (g : Graph) : Prop :=
  ∀ u, u < g.vertex_count → ∀ w ∈ g.GetNeighbors u, w < g.vertex_count

/-- Symmetric adjacency: `w` is listed for `u` exactly when `u` is listed for `w`. -/
def Graph.Symmetric (g : Graph) : Prop :=
  ∀ u, u < g.vertex_count → ∀ w, w < g.vertex_count →
    (w ∈ g.GetNeighbors u ↔ u ∈ g.GetNeighbors w)

/-- No vertex lists itself as a neighbour. -/
def Graph.NoSelfLoops (g : Graph) : Prop :=
  ∀ u, u < g.vertex_count → u ∉ g.GetNeighbors u

/-- No neighbour is listed twice. -/
def Graph.NoDuplicates (g : Graph) : Prop :=
  ∀ u, u < g.vertex_count → (g.GetNeighbors u).Nodup

/-- Symmetric adjacency with multiplicities: `w` is listed for `u` as often as `u` is
listed for `w` (the adjacency matrix is symmetric). -/
def Graph.CountSymmetric (g : Graph) : Prop :=
  ∀ u, u < g.vertex_count → ∀ w, w < g.vertex_count →
    (g.GetNeighbors u).count w = (g.GetNeighbors w).count u

instance (g : Graph) : Decidable g.CountSymmetric := by
  unfold Graph.CountSymmetric; infer_instance

/-- A simple undirected graph on `{0..n-1}`. -/
def Graph.Simple (g : Graph) : Prop :=
  g.WellFormed ∧ g.Symmetric ∧ g.NoSelfLoops ∧ g.NoDuplicates

instance (g : Graph) : Decidable g.WellFormed := by
  unfold Graph.WellFormed; infer_instance

instance (g : Graph) : Decidable g.Symmetric := by
  unfold Graph.Symmetric; infer_instance

instance (g : Graph) : Decidable g.NoSelfLoops := by
  unfold Graph.NoSelfLoops; infer_instance

instance (g : Graph) : Decidable g.NoDuplicates := by
  unfold Graph.NoDuplicates; infer_instance

instance (g : Graph) : Decidable g.Simple := by
  unfold Graph.Simple; infer_instance

/-- The adjacency entries `(u, w)` with `u ≠ w` of the vertices `us`, in the order the
loops visit them. -/
def Graph.entriesOf (g : Graph) (us : List Nat) : List (Nat × Nat) :=
  us.flatMap fun u => ((g.GetNeighbors u).filter fun w => decide (u ≠ w)).map fun w => (u, w)

/-- The adjacency entries `(u, w)` with `u ≠ w` of the whole graph. -/
def Graph.entries (g : Graph) : List (Nat × Nat) :=
  g.entriesOf (List.range g.vertex_count)

/-- The number `E_ij` of adjacency entries `(u, w)`, `u ≠ w`, with `u` in cluster `i` and
`w` in cluster `j` of `P`. -/
def entryCount (g : Graph) (P : Partition) (i j : Nat) : Nat :=
  g.entries.countP fun e => decide (e.1 ∈ P.getD i [] ∧ e.2 ∈ P.getD j [])

/-- The closed form `Σ_i (E_ii / T - (Σ_j E_ij / T)^2)` with `T` the number of entries. -/
def closedFormQ (g : Graph) (P : Partition) : ℚ :=
  ∑ i in Finset.range P.length,
    ((entryCount g P i i : ℚ) / (g.entries.length : ℚ)
      - ((∑ j in Finset.range P.length, (entryCount g P i j : ℚ)) / (g.entries.length : ℚ)) ^ 2)

/-- The partition `P` with vertex `v` moved to the end of cluster `c`. -/
def moveVertex (P : Partition) (v c : Nat) : Partition :=
  (P.map fun C => C.erase v).set c ((P.getD c []).erase v ++ [v])

/-- The number of adjacency entries `(u, w)`, `u ≠ w`, whose ends have the same cluster
under the cluster map `c`. -/
def intraCount (g : Graph) (c : Nat → Nat) : Nat :=
  g.entries.countP fun e => decide (c e.1 = c e.2)

/-- The number of adjacency entries `(u, w)`, `u ≠ w`, with `u` in cluster `X` under the
cluster map `c`. -/
def clusterEntries (g : Graph) (c : Nat → Nat) (X : Nat) : Nat :=
  g.entries.countP fun e => decide (c e.1 = X)

/-- Modularity of a cluster map with cluster ids below `K`:
`Σ_c e_cc - Σ_c a_c^2` with `e_cc`, `a_c` the fractions of the adjacency entries. -/
def modularityOfMap (g : Graph) (K : Nat) (c : Nat → Nat) : ℚ :=
  (intraCount g c : ℚ) / (g.entries.length : ℚ)
    - ∑ X ∈ Finset.range K, ((clusterEntries g c X : ℚ) / (g.entries.length : ℚ)) ^ 2

/-- The number of neighbours of `u` that the cluster map puts in cluster `X`. -/
def linkCount (g : Graph) (cm : List Nat) (u X : Nat) : Nat :=
  (g.GetNeighbors u).countP fun w => decide (cm.getD w 0 = X)

/-- The sum of the neighbour-list sizes of the vertices that the cluster map puts in
cluster `X`. -/
def degreeSum (g : Graph) (cm : List Nat) (X : Nat) : Int :=
  ∑ u ∈ Finset.range g.vertex_count,
    if cm.getD u 0 = X then ((g.GetNeighbors u).length : Int) else 0

/-- The states of `RefineCluster` on input `P`: the state after initialisation and every
state after the scan of a vertex (with the move executed when one was accepted). -/
inductive Reachable (g : Graph) (P : Partition) : RefineState → Prop where
  | init : Reachable g P (refineInit g P).1
  | step (st : RefineState) (v : Nat) (r : List (Nat × Int) × Int × ℚ) :
      Reachable g P st → v < g.vertex_count →
      scanVertex g (refineInit g P).2 st v = some r → Reachable g P (afterScan g st v r)

/-- Graph of two disjoint triangles on `{0..5}`. -/
def twoTriangles : Graph :=
  ⟨6, fun v => [[1, 2], [0, 2], [0, 1], [4, 5], [3, 5], [3, 4]].getD v []⟩

/-- Graph with three vertices: the edge `(0, 1)` and the isolated vertex `2`. -/
def edgeAndIsolated : Graph :=
  ⟨3, fun v => [[1], [0], []].getD v []⟩

/-- Graph with `n` vertices and no edge. -/
def edgeless (n : Nat) : Graph :=
  ⟨n, fun _ => []⟩

/-- Validity of a list of join records against the slots `live` that hold a cluster: each
record `(a, b)` has `a ≠ b` and names two slots that hold a cluster; `b` is retired. -/
def validJoins : List Nat → List (Nat × Nat) → Bool
  | _, [] => true
  | live, (a, b) :: rest =>
    decide (a ≠ b) && decide (a ∈ live) && decide (b ∈ live) && validJoins (live.erase b) rest

/-- The seed in the words of the spec: "n singletons in vertex-id order". -/
def singletonSlots (n : Nat) : Nat → Option (List Nat) :=
  fun i => if i < n then some [i] else none

/-- The replay of one join in the words of the spec, on slots as a function of the slot id:
"for join (a, b), splice slot b's vertex list onto the end of slot a's list and mark slot b
as empty". -/
def specJoin (s : Nat → Option (List Nat)) (j : Nat × Nat) : Nat → Option (List Nat) :=
  fun i =>
    if i = j.2 then none
    else if i = j.1 then some ((s j.1).getD [] ++ (s j.2).getD [])
    else s i

/-- The replay of a list of joins in the words of the spec. -/
def specReplay (js : List (Nat × Nat)) (s : Nat → Option (List Nat)) : Nat → Option (List Nat) :=
  js.foldl specJoin s

/-- The compaction in the words of the spec: the non-empty slots in increasing slot id. -/
def specCompact (n : Nat) (s : Nat → Option (List Nat)) : Partition :=
  (List.range n).filterMap fun i => nonEmptySlot (s i)

/-! ## The join driver of the plain RG entry point -/

/-- Modelled from the spec: the pseudo-random source ("uniform integer in [0, n)"), here a
stream of raw draws read through a cursor; `rand() % upper` is the next draw modulo
`upper`. Every statement about a run quantifies over the stream. -/
structure Rand where
  /-- The raw draws. -/
  draws : Nat → Nat
  /-- The number of draws used so far. -/
  cursor : Nat

/-- The next draw, reduced to `[0, upper)`. -/
def Rand.next (r : Rand) (upper : Nat) : Nat × Rand :=
  (r.draws r.cursor % upper, ⟨r.draws, r.cursor + 1⟩)

/-- Modelled from the spec: `ActiveRowSet::Get`, "positional iteration A.get(k) returning the
k-th live id" (activerowset.h is not among the sources); the set is the list of live ids. -/
def ActiveRowSet.Get (A : List Nat) (k : Nat) : Nat :=
  A.getD k 0

/-- Modelled from the spec: `ActiveRowSet::GetRandomElement`, "random row sampling uses one
draw per sample from [0, |A|)". -/
def ActiveRowSet.GetRandomElement (A : List Nat) (r : Rand) : Nat × Rand :=
  ((r.next A.length).1 |> fun i => A.getD i 0, (r.next A.length).2)

/-- Modelled from the spec: `ActiveRowSet::Remove`, removal of a live id from "a
swap-with-last array keyed by live position". -/
def ActiveRowSet.Remove (A : List Nat) (id : Nat) : List Nat :=
  if id ∈ A then (A.set (A.indexOf id) (A.getLastD 0)).dropLast else A

/-- Modelled from the spec: the state of `SparseClusteringMatrix` (sparseclusteringmatrix.h is
not among the sources): the sparse rows `e[i][j]` and the row sums `a[i]`. -/
structure SparseClusteringMatrix where
  /-- Row `i` as a map from column to value. -/
  rows : List (List (Nat × ℚ))
  /-- Row sums `a[i]`. -/
  rowsum : List ℚ

/-- Modelled from the spec: the constructor from a graph, "each vertex its own singleton
cluster: M[i][j] = 1/(2m) for each edge (i, j), diagonal zero (self-loops ignored)";
`a[i]` is the sum of row `i`. With no entry nothing is stored and nothing is divided. -/
def SparseClusteringMatrix.ofGraph (g : Graph) : SparseClusteringMatrix :=
  let w : ℚ := 1 / (g.entries.length : ℚ)
  let rows := (List.range g.vertex_count).map fun i =>
    (g.GetNeighbors i).foldl (fun row j => if i = j then row else mapSet row j w) []
  ⟨rows, rows.map fun row => (row.map Prod.snd).sum⟩

/-- Modelled from the spec: `row_sum(i)`. -/
def SparseClusteringMatrix.GetRowSum (M : SparseClusteringMatrix) (i : Nat) : ℚ :=
  M.rowsum.getD i 0

/-- Modelled from the spec: `row(i)`, the `(column, value)` pairs of row `i`. -/
def SparseClusteringMatrix.GetRow (M : SparseClusteringMatrix) (i : Nat) : List (Nat × ℚ) :=
  M.rows.getD i []

/-- Modelled from the spec: `row_entries(i)`, the number of entries of row `i`. -/
def SparseClusteringMatrix.GetRowEntries (M : SparseClusteringMatrix) (i : Nat) : Nat :=
  (M.rows.getD i []).length

/-- Removal of a key from a map. -/
def mapErase {α : Type} (row : List (Nat × α)) (k : Nat) : List (Nat × α) :=
  row.filter fun e => decide (e.1 ≠ k)

/-- Modelled from the spec: `join(a, b)`. "For every j with j ≠ a and j ≠ b:
M[a][j] ← M[a][j] + M[b][j]; M[j][a] ← M[a][j]; delete M[j][b] and M[b][j].
M[a][a] ← M[a][a] + M[b][b] + 2·M[a][b]. Delete row b entirely. a[a] ← a[a] + a[b]." -/
def SparseClusteringMatrix.JoinCluster (M : SparseClusteringMatrix) (a b : Nat) :
    SparseClusteringMatrix :=
  let rowA := M.rows.getD a []
  let rowB := M.rows.getD b []
  let diag := mapGet rowA a 0 + mapGet rowB b 0 + 2 * mapGet rowA b 0
  let rows1 := rowB.foldl
    (fun (rows : List (List (Nat × ℚ))) e =>
      if e.1 = a ∨ e.1 = b then rows
      else
        let v := mapGet (rows.getD a []) e.1 0 + e.2
        let rows2 := rows.set a (mapSet (rows.getD a []) e.1 v)
        rows2.set e.1 (mapSet (mapErase (rows2.getD e.1 []) b) a v))
    M.rows
  let rows2 := rows1.set a (mapSet (mapErase (rows1.getD a []) b) a diag)
  ⟨rows2.set b [], (M.rowsum.set a (M.rowsum.getD a 0 + M.rowsum.getD b 0)).set b 0⟩

/-- The working data of `PerformJoins`. -/
structure JoinState where
  /-- The random source. -/
  rand : Rand
  /-- The live cluster ids. -/
  active_rows : List Nat
  /-- The cluster interaction matrix. -/
  cluster_matrix : SparseClusteringMatrix
  /-- The recorded joins; unused records are `(0, 0)`. -/
  joins : List (Nat × Nat)
  /-- The running modularity. -/
  Q : ℚ
  /-- Index of the step with the best modularity, `-1` for none. -/
  best_step : Int
  /-- The best modularity seen, `-1` at the start. -/
  best_step_q : ℚ

/-- The choice of `max_sample` in `PerformJoins`. -/
def maxSample (sample_size n step : Nat) : Nat :=
  if sample_size < n / 2 then 1
  else if sample_size < n - 1 - step then sample_size
  else n - 1 - step

/-- Body of the loop over the entries of the sampled row; the state is
`(max_delta_q, bestJoins)`. -/
def candidateStep (M : SparseClusteringMatrix) (row_num : Nat) (st : ℚ × List (Nat × Nat))
    (entry : Nat × ℚ) : ℚ × List (Nat × Nat) :=
  if entry.1 = row_num then st
  else
    let delta_q := 2 * (entry.2 - M.GetRowSum row_num * M.GetRowSum entry.1)
    if delta_q ≥ st.1 then
      let kept := if delta_q > st.1 then [] else st.2
      if M.GetRowEntries row_num ≥ M.GetRowEntries entry.1 then
        (delta_q, kept ++ [(row_num, entry.1)])
      else (delta_q, kept ++ [(entry.1, row_num)])
    else st

/-- Body of the loop `for sample_num < max_sample`; the state is the random source with
`(max_delta_q, bestJoins)`. -/
def sampleStep (n step max_sample : Nat) (M : SparseClusteringMatrix) (A : List Nat)
    (st : Rand × ℚ × List (Nat × Nat)) (sample_num : Nat) : Rand × ℚ × List (Nat × Nat) :=
  let pick : Nat × Rand :=
    if max_sample = n - 1 - step then (ActiveRowSet.Get A sample_num, st.1)
    else ActiveRowSet.GetRandomElement A st.1
  (pick.2, (M.GetRow pick.1).foldl (candidateStep M pick.1) st.2)

/-- The loop `for step < vertex_count - 1` of `PerformJoins`, with the number of steps
that remain; the loop ends early when no candidate join is found. -/
def joinLoop (n sample_size : Nat) : Nat → Nat → JoinState → JoinState
  | 0, _, st => st
  | remaining + 1, step, st =>
    let max_sample := maxSample sample_size n step
    let s := (List.range max_sample).foldl
      (sampleStep n step max_sample st.cluster_matrix st.active_rows) (st.rand, -1, [])
    if s.2.2.length = 0 then { st with rand := s.1 }
    else
      let sel := s.1.next s.2.2.length
      let join := s.2.2.getD sel.1 (0, 0)
      let Q := st.Q + s.2.1
      joinLoop n sample_size remaining (step + 1)
        { rand := sel.2
          active_rows := ActiveRowSet.Remove st.active_rows join.2
          cluster_matrix := st.cluster_matrix.JoinCluster join.1 join.2
          joins := st.joins.set step join
          Q := Q
          best_step := if Q > st.best_step_q then (step : Int) else st.best_step
          best_step_q := if Q > st.best_step_q then Q else st.best_step_q }

/-- `ModOptimizer::PerformJoins`: the returned `best_step_q`, the partition stored in
`clusters_` and the random source after the run. There is no result when an exception is
thrown: by the vector of `dimension - 1` join records for a graph without vertex, or in
`GetPartitionFromJoins`. -/
def PerformJoins (graph : Graph) (rand : Rand) (sample_size : Nat) :
    Option (ℚ × Partition × Rand) :=
  let dimension := graph.vertex_count
  if dimension = 0 then none else
  let cluster_matrix := SparseClusteringMatrix.ofGraph graph
  let Q := (List.range dimension).foldl
    (fun Q i => Q - cluster_matrix.GetRowSum i * cluster_matrix.GetRowSum i) 0
  let st := joinLoop dimension sample_size (dimension - 1) 0
    ⟨rand, List.range dimension, cluster_matrix, List.replicate (dimension - 1) (0, 0), Q, -1, -1⟩
  (GetPartitionFromJoins graph st.joins st.best_step none).map fun P =>
    (st.best_step_q, P, st.rand)

/-- The loop `for i < runs` of `ClusterRG`; the state is the random source,
`best_partition` (`none` is `NULL`) and `best_q`. A run that is not better than `best_q`
has its partition deleted. -/
def clusterRGLoop (graph : Graph) (k : Nat) :
    Nat → Rand × Option Partition × ℚ → Except Fault (Rand × Option Partition × ℚ)
  | 0, st => .ok st
  | runs + 1, st =>
    match PerformJoins graph st.1 k with
    | none => .error .outOfRange
    | some r =>
      if r.1 > st.2.2 then clusterRGLoop graph k runs (r.2.2, some r.2.1, r.1)
      else clusterRGLoop graph k runs (r.2.2, st.2.1, st.2.2)

/-- `ModOptimizer::ClusterRG`: the partition left in `clusters_`. `RefineCluster` starts by
calling `clusters->RemoveEmptyEntries()`, a `NULL` dereference when `best_partition` is
still `NULL`. -/
def ClusterRG (fuel : Nat) (graph : Graph) (rand : Rand) (k runs : Nat) :
    Except Fault Partition :=
  match clusterRGLoop graph k runs (rand, none, -1) with
  | .error f => .error f
  | .ok st =>
    match st.2.1 with
    | none => .error .nullPointer
    | some best_partition => RefineCluster fuel graph best_partition

/-- `ModOptimizer::ClusterRG` together with the random source it leaves behind, for the
callers that go on drawing from it. -/
def ClusterRGRand (fuel : Nat) (graph : Graph) (rand : Rand) (k runs : Nat) :
    Except Fault (Partition × Rand) :=
  match clusterRGLoop graph k runs (rand, none, -1) with
  | .error f => .error f
  | .ok st =>
    match st.2.1 with
    | none => .error .nullPointer
    | some best_partition =>
      match RefineCluster fuel graph best_partition with
      | .error f => .error f
      | .ok P => .ok (P, st.1)

/-- The results `(best_step_q, clusters_)` of `runs` successive calls of `PerformJoins`, each
started with the random source left by the call before it. -/
def rgRuns (graph : Graph) (k : Nat) : Nat → Rand → Option (List (ℚ × Partition))
  | 0, _ => some []
  | runs + 1, rand =>
    match PerformJoins graph rand k with
    | none => none
    | some r => (rgRuns graph k runs r.2.2).map fun rs => (r.1, r.2.1) :: rs

/-- The update of `(best_partition, best_q)` by one run of `ClusterRG`. -/
def keepBest (st : Option Partition × ℚ) (r : ℚ × Partition) : Option Partition × ℚ :=
  if r.1 > st.2 then (some r.2, r.1) else st

/-! ## The restart driver and the CGGC scheme -/

/-- The two constructors from a partition that `PerformJoinsRestart` calls,
`SparseClusteringMatrix(graph, clusters)` and `ActiveRowSet(clusters)`. Their sources are
not in the repository files at hand, so the restart driver takes them as parameters. -/
structure RestartSeed where
  /-- The matrix built by `SparseClusteringMatrix(graph, clusters)`. -/
  matrix : Graph → Partition → SparseClusteringMatrix
  /-- The live ids of `ActiveRowSet(clusters)`. -/
  rows : Partition → List Nat

/-- Modelled from the spec: the matrix "initialized from a partition: collapse per the
partition, summing contributions", a matrix "indexed by cluster id" whose entry `(i, j)`
counts the adjacency entries between cluster `i` and cluster `j` over `2m`. -/
def SparseClusteringMatrix.ofPartition (g : Graph) (P : Partition) : SparseClusteringMatrix :=
  let w : ℚ := 1 / (g.entries.length : ℚ)
  let cm := clustermapLoop P 0 (List.replicate g.vertex_count 0)
  let rows := g.entries.foldl
    (fun (rows : List (List (Nat × ℚ))) e =>
      let i := cm.getD e.1 0
      let j := cm.getD e.2 0
      rows.set i (mapSet (rows.getD i []) j (mapGet (rows.getD i []) j 0 + w)))
    (List.replicate P.length [])
  ⟨rows, rows.map fun row => (row.map Prod.snd).sum⟩

/-- Modelled from the spec: the seed of the restart driver, with the active row set whose
"construction-from-partition enumerates partition indices 0..c-1". -/
def specSeed : RestartSeed :=
  ⟨SparseClusteringMatrix.ofPartition, fun P => List.range P.length⟩

/-- The loop `for (sample_num = 0; sample_num < max_sample; sample_num++)` of
`PerformJoinsRestart`, whose bound `max_sample` grows by one when the last sample leaves
`max_delta_q < 0` and `max_sample` is below `bound = dimension - 1 - step`. The first
argument is a budget of iterations; `bound` of them are enough. -/
def restartSampleLoop (bound : Nat) (M : SparseClusteringMatrix) (A : List Nat) :
    Nat → Nat → Nat → Rand × ℚ × List (Nat × Nat) → Rand × ℚ × List (Nat × Nat)
  | 0, _, _, st => st
  | fuel + 1, sample_num, max_sample, st =>
    if sample_num < max_sample then
      let pick : Nat × Rand :=
        if max_sample = bound then (ActiveRowSet.Get A sample_num, st.1)
        else ActiveRowSet.GetRandomElement A st.1
      let r := (M.GetRow pick.1).foldl (candidateStep M pick.1) st.2
      let max_sample2 :=
        if sample_num = max_sample - 1 ∧ r.1 < 0 ∧ max_sample < bound then max_sample + 1
        else max_sample
      restartSampleLoop bound M A fuel (sample_num + 1) max_sample2 (pick.2, r)
    else st

/-- The loop `for step < size - 1` of `PerformJoinsRestart`, with the number of steps that
remain; field `Q` of the state is the variable `modularity`. -/
def restartLoop (dimension k_restart : Nat) : Nat → Nat → JoinState → JoinState
  | 0, _, st => st
  | remaining + 1, step, st =>
    let bound := dimension - 1 - step
    let max_sample := if k_restart < bound then k_restart else bound
    let s := restartSampleLoop bound st.cluster_matrix st.active_rows bound 0 max_sample
      (st.rand, -1, [])
    if s.2.2.length = 0 then { st with rand := s.1 }
    else
      let sel := s.1.next s.2.2.length
      let join := s.2.2.getD sel.1 (0, 0)
      let modularity := st.Q + s.2.1
      restartLoop dimension k_restart remaining (step + 1)
        { rand := sel.2
          active_rows := ActiveRowSet.Remove st.active_rows join.2
          cluster_matrix := st.cluster_matrix.JoinCluster join.1 join.2
          joins := st.joins.set step join
          Q := modularity
          best_step := if modularity > st.best_step_q then (step : Int) else st.best_step
          best_step_q := if modularity > st.best_step_q then modularity else st.best_step_q }

/-- The state in which `PerformJoinsRestart` leaves its loop. -/
def restartFinal (seed : RestartSeed) (graph : Graph) (clusters : Partition) (rand : Rand)
    (k_restart : Nat) : JoinState :=
  restartLoop clusters.length k_restart (clusters.length - 1) 0
    ⟨rand, seed.rows clusters, seed.matrix graph clusters,
      List.replicate (clusters.length - 1) (0, 0), 0, -1, -1⟩

/-- `ModOptimizer::PerformJoinsRestart`: the new partition and the random source after the
run. There is no result when an exception is thrown: by the vector of `dimension - 1` join
records for a partition without cluster, or in `GetPartitionFromJoins`. -/
def PerformJoinsRestart (seed : RestartSeed) (graph : Graph) (clusters : Partition)
    (rand : Rand) (k_restart : Nat) : Option (Partition × Rand) :=
  if clusters.length = 0 then none else
  let st := restartFinal seed graph clusters rand k_restart
  (GetPartitionFromJoins graph st.joins st.best_step (some clusters)).map fun P =>
    (P, st.rand)

/-- `PerformJoinsRestart` as a step of the callers, an exception being a fault. -/
def restartRun (seed : RestartSeed) (graph : Graph) (clusters : Partition) (k_restart : Nat)
    (rand : Rand) : Except Fault (Partition × Rand) :=
  match PerformJoinsRestart seed graph clusters rand k_restart with
  | none => .error .outOfRange
  | some r => .ok r

/-- The loop `for (int i = 1; i < initclusters; i++)` of `ClusterCGGC`, with the number of
iterations that remain: one more run, intersected with `lastCluster` by `CompareClusters`. -/
def cggcIntersect (graph : Graph) (run : Rand → Except Fault (Partition × Rand)) :
    Nat → Partition × Rand → Except Fault (Partition × Rand)
  | 0, st => .ok st
  | i + 1, st =>
    match run st.2 with
    | .error f => .error f
    | .ok currentCluster =>
      match CompareClusters graph st.1 currentCluster.1 with
      | none => .error .outOfRange
      | some tmpCluster => cggcIntersect graph run i (tmpCluster, currentCluster.2)

/-- One ensemble of `ClusterCGGC`: a first run, then `initclusters - 1` further runs, each
intersected with the partition accumulated so far. -/
def cggcPhase (graph : Graph) (run : Rand → Except Fault (Partition × Rand))
    (initclusters : Nat) (rand : Rand) : Except Fault (Partition × Rand) :=
  match run rand with
  | .error f => .error f
  | .ok lastCluster => cggcIntersect graph run (initclusters - 1) lastCluster

/-- The first phase of `ClusterCGGC`: the ensemble of calls `ClusterRG(1, 1)`. -/
def cggcInitial (fuel : Nat) (graph : Graph) (initclusters : Nat) (rand : Rand) :
    Except Fault (Partition × Rand) :=
  cggcPhase graph (fun r => ClusterRGRand fuel graph r 1 1) initclusters rand

/-- The variables of the loop `while ((cur_q - last_q) > 0.0001)` of `ClusterCGGC`. -/
structure CggcState where
  /-- The random source. -/
  rand : Rand
  /-- The partition `bestClustering`. -/
  bestClustering : Partition
  /-- The variable `cur_q`. -/
  cur_q : ℚ
  /-- The variable `last_q`. -/
  last_q : ℚ

/-- The candidate of one iteration: the ensemble of calls
`PerformJoinsRestart(graph_, bestClustering, 1)`. -/
def cggcCandidate (seed : RestartSeed) (graph : Graph) (initclusters : Nat)
    (st : CggcState) : Except Fault (Partition × Rand) :=
  cggcPhase graph (restartRun seed graph st.bestClustering 1) initclusters st.rand

/-- The body of the loop `while ((cur_q - last_q) > 0.0001)`. -/
def cggcIter (seed : RestartSeed) (graph : Graph) (initclusters : Nat) (st : CggcState) :
    Except Fault CggcState :=
  match cggcCandidate seed graph initclusters st with
  | .error f => .error f
  | .ok lastCluster =>
    match GetModularityFromClustering graph lastCluster.1 with
    | none => .error .divisionByZero
    | some q =>
      .ok ⟨lastCluster.2, if q > st.cur_q then lastCluster.1 else st.bestClustering, q,
        st.cur_q⟩

/-- The loop `while ((cur_q - last_q) > 0.0001)`, with a budget of iterations. -/
def cggcLoop (seed : RestartSeed) (graph : Graph) (initclusters : Nat) :
    Nat → CggcState → Except Fault CggcState
  | 0, st => if st.cur_q - st.last_q > 1 / 10000 then .error .outOfFuel else .ok st
  | fuel + 1, st =>
    if st.cur_q - st.last_q > 1 / 10000 then
      match cggcIter seed graph initclusters st with
      | .error f => .error f
      | .ok st2 => cggcLoop seed graph initclusters fuel st2
    else .ok st

/-- The number of executions of the body of the loop `while ((cur_q - last_q) > 0.0001)`
under a budget of iterations; an execution that ends in an exception is counted. -/
def cggcCount (seed : RestartSeed) (graph : Graph) (initclusters : Nat) :
    Nat → CggcState → Nat
  | 0, _ => 0
  | fuel + 1, st =>
    if st.cur_q - st.last_q > 1 / 10000 then
      match cggcIter seed graph initclusters st with
      | .error _ => 1
      | .ok st2 => 1 + cggcCount seed graph initclusters fuel st2
    else 0

/-- The part `if (iterative)` of `ClusterCGGC`: the partition `bestClustering` handed to
the final restart, and the random source. -/
def cggcIterative (fuel : Nat) (seed : RestartSeed) (graph : Graph) (initclusters : Nat)
    (iterative : Bool) (start : Partition × Rand) : Except Fault (Partition × Rand) :=
  if iterative then
    match GetModularityFromClustering graph start.1 with
    | none => .error .divisionByZero
    | some q =>
      match cggcLoop seed graph initclusters fuel ⟨start.2, start.1, q, 0⟩ with
      | .error f => .error f
      | .ok st => .ok (st.bestClustering, st.rand)
  else .ok start

/-- `ModOptimizer::ClusterCGGC`: the partition left in `clusters_`, with one budget for the
loops of `RefineCluster` and for the iterative loop. -/
def ClusterCGGC (fuel : Nat) (seed : RestartSeed) (graph : Graph) (rand : Rand)
    (initclusters restartk : Nat) (iterative : Bool) : Except Fault Partition :=
  match cggcInitial fuel graph initclusters rand with
  | .error f => .error f
  | .ok lastCluster =>
    match cggcIterative fuel seed graph initclusters iterative lastCluster with
    | .error f => .error f
    | .ok best =>
      match restartRun seed graph best.1 restartk best.2 with
      | .error f => .error f
      | .ok joinrestartclusters => RefineCluster fuel graph joinrestartclusters.1

/-- The states of the loop variables at the head of the loop `while ((cur_q - last_q) >
0.0001)` in a run started in `st0`: `st0` itself and the state after every executed
iteration. -/
inductive CggcReach (seed : RestartSeed) (graph : Graph) (initclusters : Nat)
    (st0 : CggcState) : CggcState → Prop where
  | start : CggcReach seed graph initclusters st0 st0
  | iter (st st2 : CggcState) : CggcReach seed graph initclusters st0 st →
      st.cur_q - st.last_q > 1 / 10000 → cggcIter seed graph initclusters st = .ok st2 →
      CggcReach seed graph initclusters st0 st2

/-! ## The steps of the join drivers -/

/-- The scan of one sampled row in the join drivers: the loop over its entries; the state
is `(max_delta_q, bestJoins)`. -/
def rowScan (M : SparseClusteringMatrix) (st : ℚ × List (Nat × Nat)) (row_num : Nat) :
    ℚ × List (Nat × Nat) :=
  (M.GetRow row_num).foldl (candidateStep M row_num) st

/-- The part `find join` of a step of `PerformJoins`: the random source after the sampling,
`max_delta_q` and `bestJoins`. -/
def joinScan (n sample_size step : Nat) (st : JoinState) : Rand × ℚ × List (Nat × Nat) :=
  (List.range (maxSample sample_size n step)).foldl
    (sampleStep n step (maxSample sample_size n step) st.cluster_matrix st.active_rows)
    (st.rand, -1, [])

/-- The part `find join` of a step of `PerformJoinsRestart`. -/
def restartScan (dimension k_restart step : Nat) (st : JoinState) :
    Rand × ℚ × List (Nat × Nat) :=
  restartSampleLoop (dimension - 1 - step) st.cluster_matrix st.active_rows
    (dimension - 1 - step) 0
    (if k_restart < dimension - 1 - step then k_restart else dimension - 1 - step)
    (st.rand, -1, [])

/-- The join `bestJoins.at(rand() % bestJoins.size())` picked after a scan. -/
def chosenJoin (s : Rand × ℚ × List (Nat × Nat)) : Nat × Nat :=
  s.2.2.getD (s.1.next s.2.2.length).1 (0, 0)

/-- The part `execute join` of a step of the join drivers, after a scan with result `s`. -/
def joinExecute (step : Nat) (st : JoinState) (s : Rand × ℚ × List (Nat × Nat)) : JoinState :=
  { rand := (s.1.next s.2.2.length).2
    active_rows := ActiveRowSet.Remove st.active_rows (chosenJoin s).2
    cluster_matrix := st.cluster_matrix.JoinCluster (chosenJoin s).1 (chosenJoin s).2
    joins := st.joins.set step (chosenJoin s)
    Q := st.Q + s.2.1
    best_step := if st.Q + s.2.1 > st.best_step_q then (step : Int) else st.best_step
    best_step_q := if st.Q + s.2.1 > st.best_step_q then st.Q + s.2.1 else st.best_step_q }

/-- The state in which `PerformJoins` leaves its loop. -/
def joinFinal (graph : Graph) (rand : Rand) (sample_size : Nat) : JoinState :=
  joinLoop graph.vertex_count sample_size (graph.vertex_count - 1) 0
    ⟨rand, List.range graph.vertex_count, SparseClusteringMatrix.ofGraph graph,
      List.replicate (graph.vertex_count - 1) (0, 0),
      (List.range graph.vertex_count).foldl
        (fun Q i => Q - (SparseClusteringMatrix.ofGraph graph).GetRowSum i
          * (SparseClusteringMatrix.ofGraph graph).GetRowSum i) 0, -1, -1⟩

/-- The joins that the loop of `PerformJoins` executes, in order, when it is entered at
`step` in state `st`. -/
def joinTrace (n sample_size : Nat) : Nat → Nat → JoinState → List (Nat × Nat)
  | 0, _, _ => []
  | remaining + 1, step, st =>
    if (joinScan n sample_size step st).2.2.length = 0 then []
    else chosenJoin (joinScan n sample_size step st) ::
      joinTrace n sample_size remaining (step + 1)
        (joinExecute step st (joinScan n sample_size step st))

/-- The states after the joins that the loop of `PerformJoins` executes, in order. -/
def joinStates (n sample_size : Nat) : Nat → Nat → JoinState → List JoinState
  | 0, _, _ => []
  | remaining + 1, step, st =>
    if (joinScan n sample_size step st).2.2.length = 0 then []
    else joinExecute step st (joinScan n sample_size step st) ::
      joinStates n sample_size remaining (step + 1)
        (joinExecute step st (joinScan n sample_size step st))

/-- The values `max_delta_q` added to `Q` by the joins that the loop of `PerformJoins`
executes, in order. -/
def joinDeltas (n sample_size : Nat) : Nat → Nat → JoinState → List ℚ
  | 0, _, _ => []
  | remaining + 1, step, st =>
    if (joinScan n sample_size step st).2.2.length = 0 then []
    else (joinScan n sample_size step st).2.1 ::
      joinDeltas n sample_size remaining (step + 1)
        (joinExecute step st (joinScan n sample_size step st))

/-- The joins that the loop of `PerformJoinsRestart` executes, in order. -/
def restartTrace (dimension k_restart : Nat) : Nat → Nat → JoinState → List (Nat × Nat)
  | 0, _, _ => []
  | remaining + 1, step, st =>
    if (restartScan dimension k_restart step st).2.2.length = 0 then []
    else chosenJoin (restartScan dimension k_restart step st) ::
      restartTrace dimension k_restart remaining (step + 1)
        (joinExecute step st (restartScan dimension k_restart step st))

/-- The rows sampled in a step of `PerformJoins`, in order, for the sample numbers
`nums`. -/
def sampledRows (n step max_sample : Nat) (A : List Nat) : List Nat → Rand → List Nat
  | [], _ => []
  | sample_num :: rest, rand =>
    (if max_sample = n - 1 - step then (ActiveRowSet.Get A sample_num, rand)
      else ActiveRowSet.GetRandomElement A rand).1 ::
    sampledRows n step max_sample A rest
      (if max_sample = n - 1 - step then (ActiveRowSet.Get A sample_num, rand)
        else ActiveRowSet.GetRandomElement A rand).2

/-- The rows sampled in a step of `PerformJoinsRestart`, in order. -/
def restartSampledRows (bound : Nat) (M : SparseClusteringMatrix) (A : List Nat) :
    Nat → Nat → Nat → Rand × ℚ × List (Nat × Nat) → List Nat
  | 0, _, _, _ => []
  | fuel + 1, sample_num, max_sample, st =>
    if sample_num < max_sample then
      let pick : Nat × Rand :=
        if max_sample = bound then (ActiveRowSet.Get A sample_num, st.1)
        else ActiveRowSet.GetRandomElement A st.1
      let r := (M.GetRow pick.1).foldl (candidateStep M pick.1) st.2
      let max_sample2 :=
        if sample_num = max_sample - 1 ∧ r.1 < 0 ∧ max_sample < bound then max_sample + 1
        else max_sample
      pick.1 :: restartSampledRows bound M A fuel (sample_num + 1) max_sample2 (pick.2, r)
    else []

/-- The state in which `PerformJoins` enters its loop. -/
def joinInit (graph : Graph) (rand : Rand) : JoinState :=
  ⟨rand, List.range graph.vertex_count, SparseClusteringMatrix.ofGraph graph,
    List.replicate (graph.vertex_count - 1) (0, 0),
    (List.range graph.vertex_count).foldl
      (fun Q i => Q - (SparseClusteringMatrix.ofGraph graph).GetRowSum i
        * (SparseClusteringMatrix.ofGraph graph).GetRowSum i) 0, -1, -1⟩

/-- The state in which `PerformJoinsRestart` enters its loop. -/
def restartInit (seed : RestartSeed) (graph : Graph) (clusters : Partition) (rand : Rand) :
    JoinState :=
  ⟨rand, seed.rows clusters, seed.matrix graph clusters,
    List.replicate (clusters.length - 1) (0, 0), 0, -1, -1⟩

/-- The joins executed by a run of `PerformJoins`, in order. -/
def executedJoins (graph : Graph) (rand : Rand) (sample_size : Nat) : List (Nat × Nat) :=
  joinTrace graph.vertex_count sample_size (graph.vertex_count - 1) 0 (joinInit graph rand)

/-- The states after the joins executed by a run of `PerformJoins`, in order. -/
def executedStates (graph : Graph) (rand : Rand) (sample_size : Nat) : List JoinState :=
  joinStates graph.vertex_count sample_size (graph.vertex_count - 1) 0 (joinInit graph rand)

/-- The values `max_delta_q` of the joins executed by a run of `PerformJoins`, in order. -/
def executedDeltas (graph : Graph) (rand : Rand) (sample_size : Nat) : List ℚ :=
  joinDeltas graph.vertex_count sample_size (graph.vertex_count - 1) 0 (joinInit graph rand)

/-- The joins executed by a run of `PerformJoinsRestart`, in order. -/
def restartExecuted (seed : RestartSeed) (graph : Graph) (clusters : Partition) (rand : Rand)
    (k_restart : Nat) : List (Nat × Nat) :=
  restartTrace clusters.length k_restart (clusters.length - 1) 0
    (restartInit seed graph clusters rand)

/-- The off-diagonal entries `(r, c, M[r][c])` met by the scan of the rows `rows`, in the
order of the scan. -/
def scannedEntries (M : SparseClusteringMatrix) (rows : List Nat) : List (Nat × Nat × ℚ) :=
  rows.flatMap fun r =>
    ((M.GetRow r).filter fun e => decide (e.1 ≠ r)).map fun e => (r, e.1, e.2)

/-- The value `2 * (M[r][c] - a[r] * a[c])` of a scanned entry. -/
def entryDeltaQ (M : SparseClusteringMatrix) (e : Nat × Nat × ℚ) : ℚ :=
  2 * (e.2.2 - M.GetRowSum e.1 * M.GetRowSum e.2.1)

/-- The record stored for a scanned entry `(r, c)`: `(r, c)` when row `r` has at least as
many entries as row `c`, else `(c, r)`. -/
def orientJoin (M : SparseClusteringMatrix) (e : Nat × Nat × ℚ) : Nat × Nat :=
  if M.GetRowEntries e.1 ≥ M.GetRowEntries e.2.1 then (e.1, e.2.1) else (e.2.1, e.1)

/-- The result `(max_delta_q, bestJoins)` of the best-tie collection over the scanned
entries `L`: `max_delta_q` is at least its initial `-1` and bounds every scanned value, it is
`-1` or the value of a scanned entry, and `bestJoins` holds one record per scanned entry of
that value, in the order of the scan. -/
def BestTies (M : SparseClusteringMatrix) (L : List (Nat × Nat × ℚ))
    (r : ℚ × List (Nat × Nat)) : Prop :=
  -1 ≤ r.1 ∧ (∀ e ∈ L, entryDeltaQ M e ≤ r.1) ∧
    (r.1 = -1 ∨ ∃ e ∈ L, entryDeltaQ M e = r.1) ∧
    r.2 = (L.filter fun e => decide (entryDeltaQ M e = r.1)).map (orientJoin M)

/-! ## Invariants used by the proofs -/

/-- The common shape of the loops of the two join drivers, over the scan of a step. -/
def genLoop (scan : Nat → JoinState → Rand × ℚ × List (Nat × Nat)) :
    Nat → Nat → JoinState → JoinState
  | 0, _, st => st
  | remaining + 1, step, st =>
    if (scan step st).2.2.length = 0 then { st with rand := (scan step st).1 }
    else genLoop scan remaining (step + 1) (joinExecute step st (scan step st))

/-- The states after the joins executed by the common loop, in order. -/
def genStates (scan : Nat → JoinState → Rand × ℚ × List (Nat × Nat)) :
    Nat → Nat → JoinState → List JoinState
  | 0, _, _ => []
  | remaining + 1, step, st =>
    if (scan step st).2.2.length = 0 then []
    else joinExecute step st (scan step st) ::
      genStates scan remaining (step + 1) (joinExecute step st (scan step st))

/-- The values `max_delta_q` of the joins executed by the common loop, in order. -/
def genDeltas (scan : Nat → JoinState → Rand × ℚ × List (Nat × Nat)) :
    Nat → Nat → JoinState → List ℚ
  | 0, _, _ => []
  | remaining + 1, step, st =>
    if (scan step st).2.2.length = 0 then []
    else (scan step st).2.1 ::
      genDeltas scan remaining (step + 1) (joinExecute step st (scan step st))

/-- The joins executed by the common loop, in order. -/
def genTrace (scan : Nat → JoinState → Rand × ℚ × List (Nat × Nat)) :
    Nat → Nat → JoinState → List (Nat × Nat)
  | 0, _, _ => []
  | remaining + 1, step, st =>
    if (scan step st).2.2.length = 0 then []
    else chosenJoin (scan step st) ::
      genTrace scan remaining (step + 1) (joinExecute step st (scan step st))



/-- Invariant of the `CompareClusters` loops: `assigned` marks exactly the vertices already
placed in `res`, no vertex is placed twice, and every cluster of `res` is a non-empty class
"members of one cluster of `P1` with one value of `maps1`". -/
structure CmpInv (n : Nat) (P1 : Partition) (maps1 : List Nat) (res : Partition)
    (asg : List Bool) : Prop where
  len : asg.length = n
  asg_iff : ∀ v, asg.getD v false = true ↔ v ∈ res.flatten
  nodup : res.flatten.Nodup
  cls : ∀ R ∈ res, R ≠ [] ∧ ∃ C ∈ P1, ∃ k, ∀ v, v ∈ R ↔ (v ∈ C ∧ maps1.getD v 0 = k)

/-- The slot vector read as a function of the slot id (`NULL` outside the vector). -/
def slotFun (sl : List (Option (List Nat))) : Nat → Option (List Nat) :=
  fun i => sl.getD i none

/-- The vertex list held by slot `i` (empty for a `NULL` slot). -/
def content (s : Nat → Option (List Nat)) (i : Nat) : List Nat :=
  (s i).getD []

/-- Invariant of the slots: the slots `live` are exactly the non-empty ones, they lie
below `m`, and the slot contents split `{0..n-1}` into duplicate-free disjoint lists. -/
structure SlotInv (m n : Nat) (s : Nat → Option (List Nat)) (live : List Nat) : Prop where
  live_nodup : live.Nodup
  live_iff : ∀ i, i ∈ live ↔ content s i ≠ []
  bound : ∀ i, content s i ≠ [] → i < m
  nodup : ∀ i, (content s i).Nodup
  disj : ∀ i j v, v ∈ content s i → v ∈ content s j → i = j
  cover : ∀ v, v < n ↔ ∃ i, v ∈ content s i

/-- The vertices mapped to cluster `c` by a cluster map, in ascending vertex id. -/
def clusterOf (n : Nat) (cm : List Nat) (c : Nat) : List Nat :=
  (List.range n).filter fun v => decide (cm.getD v 0 = c)

/-- Weak invariant of `RefineCluster`: the cluster map and the keys of the link maps hold
cluster ids below the cluster count `K`. -/
structure RInvW (n K : Nat) (st : RefineState) : Prop where
  cm_len : st.clustermap.length = n
  cm_lt : ∀ v, v < n → st.clustermap.getD v 0 < K
  keys_lt : ∀ u, ∀ k ∈ (st.links.getD u []).map Prod.fst, k < K

/-- Bookkeeping invariant of `RefineCluster`: `clusterdegree` and `links` agree with the
cluster map. -/
structure RInv (g : Graph) (K : Nat) (st : RefineState) : Prop where
  weak : RInvW g.vertex_count K st
  links_len : st.links.length = g.vertex_count
  cd_len : st.clusterdegree.length = K
  cd_eq : ∀ X, X < K → st.clusterdegree.getD X 0 = degreeSum g st.clustermap X
  links_eq : ∀ u, u < g.vertex_count → ∀ X,
    mapGet (st.links.getD u []) X 0 = (linkCount g st.clustermap u X : Int)

/-- The cluster map of a state as an assignment of cluster ids to the vertices. -/
def assignmentOf (n K : Nat) (c : Fin n → Fin K) : Nat → Nat :=
  fun u => if h : u < n then (c ⟨u, h⟩).1 else 0

/-- The number of assignments of cluster ids below `K` to the `n` vertices whose
modularity is above `q`. -/
def betterCount (g : Graph) (K : Nat) (q : ℚ) : Nat :=
  (Finset.univ.filter fun c : Fin g.vertex_count → Fin K =>
    q < modularityOfMap g K (assignmentOf g.vertex_count K c)).card

/-- The number of adjacency entries `(u, w)`, `u ≠ w`, that lead from cluster `i` to
cluster `j` under the cluster map `c`. -/
def linkEntries (g : Graph) (c : Nat → Nat) (i j : Nat) : Nat :=
  g.entries.countP fun e => decide (c e.1 = i ∧ c e.2 = j)

/-- The cluster map after the join `(a, b)`: the members of cluster `b` go to cluster `a`. -/
def cmJoin (c : Nat → Nat) (j : Nat × Nat) : Nat → Nat :=
  fun v => if c v = j.2 then j.1 else c v

/-- The cluster map after a list of joins, started from the singletons. -/
def cmReplay (js : List (Nat × Nat)) : Nat → Nat :=
  js.foldl cmJoin id

/-- The body of the loop of `JoinCluster` over the entries of row `b`. -/
def joinRowStep (a b : Nat) (rows : List (List (Nat × ℚ))) (e : Nat × ℚ) :
    List (List (Nat × ℚ)) :=
  if e.1 = a ∨ e.1 = b then rows
  else
    (rows.set a (mapSet (rows.getD a []) e.1 (mapGet (rows.getD a []) e.1 0 + e.2))).set e.1
      (mapSet (mapErase ((rows.set a (mapSet (rows.getD a []) e.1
        (mapGet (rows.getD a []) e.1 0 + e.2))).getD e.1 []) b) a
        (mapGet (rows.getD a []) e.1 0 + e.2))

/-- Invariant of the cluster matrix of the join drivers under the cluster map `c`: the
columns of a row are distinct, row `i` has a column `j` exactly when adjacency entries lead
from cluster `i` to cluster `j`, its value is their number over the number of all entries,
and the row sum of `i` is the number of entries that start in cluster `i` over the number of
all entries. -/
structure MInv (g : Graph) (c : Nat → Nat) (M : SparseClusteringMatrix) : Prop where
  rows_len : M.rows.length = g.vertex_count
  sum_len : M.rowsum.length = g.vertex_count
  nodup : ∀ i, ((M.rows.getD i []).map Prod.fst).Nodup
  key_iff : ∀ i j, j ∈ (M.rows.getD i []).map Prod.fst ↔ 0 < linkEntries g c i j
  val_eq : ∀ i j, mapGet (M.rows.getD i []) j 0 =
    (linkEntries g c i j : ℚ) / (g.entries.length : ℚ)
  sum_eq : ∀ i, M.rowsum.getD i 0 = (clusterEntries g c i : ℚ) / (g.entries.length : ℚ)
  cm_lt : ∀ v, v < g.vertex_count → c v < g.vertex_count

/-- A list of joins, each between two different clusters that are linked by an adjacency
entry under the cluster map reached by the joins before it. -/
def LinkedJoins (g : Graph) : (Nat → Nat) → List (Nat × Nat) → Prop
  | _, [] => True
  | c, j :: js => j.1 ≠ j.2 ∧ 0 < linkEntries g c j.1 j.2 ∧ LinkedJoins g (cmJoin c j) js

/-- Invariant of `RefineCluster` for a relation `ok` between vertices and cluster ids that
is the same for the two ends of every edge: the cluster of every vertex and the keys of its
link map are related to it. -/
structure SideInv (g : Graph) (ok : Nat → Nat → Prop) (st : RefineState) : Prop where
  cm_ok : ∀ v, v < g.vertex_count → ok v (st.clustermap.getD v 0)
  keys_ok : ∀ u, u < g.vertex_count → ∀ k ∈ (st.links.getD u []).map Prod.fst, ok u k

/-- A partition whose clusters lie each on one side of the vertex set, the clusters of the
side `true` coming first. -/
def SideSorted (side : Nat → Bool) (P : Partition) : Prop :=
  (∀ C ∈ P, ∀ u ∈ C, ∀ w ∈ C, side u = side w) ∧
    P.Pairwise fun C D => ∀ u ∈ C, ∀ w ∈ D, side w = true → side u = true

/-- The side of a vertex of `twoTriangles`: `true` for the triangle `{0, 1, 2}`. -/
def triSide (v : Nat) : Bool :=
  decide (v < 3)

/-- In a triangle whose vertices have the cluster ids `u`, `v`, `w`, no cluster id being
used outside the triangle, the move of the first vertex to the cluster of the second one is
not a gain: `6 * (l_v - l_u) ≤ D_v - D_u + 2`, with `l` the links of the first vertex and `D`
the degree sums of the clusters. -/
def triBlocked (u v w : Nat) : Prop :=
  v ≠ u → 6 * (((if v = v then (1 : Int) else 0) + (if w = v then 1 else 0))
      - ((if v = u then 1 else 0) + (if w = u then 1 else 0)))
    ≤ 2 * ((if u = v then 1 else 0) + (if v = v then 1 else 0) + (if w = v then 1 else 0))
      - 2 * ((if u = u then (1 : Int) else 0) + (if v = u then 1 else 0)
        + (if w = u then 1 else 0)) + 2

end CGGC


namespace CGGC

/-! ## Vectors -/

theorem getD_set_eq {α : Type} (xs : List α) (i j : Nat) (a d : α) :
    (xs.set i a).getD j d = if i = j ∧ i < xs.length then a else xs.getD j d := by
  simp only [List.getD_eq_getElem?_getD, List.getElem?_set]
  by_cases h : i = j
  · subst h
    by_cases h2 : i < xs.length
    · simp [h2]
    · have : xs[i]? = none := List.getElem?_eq_none (Nat.le_of_not_lt h2)
      simp [h2, this]
  · simp [h]

theorem getD_set_true (a : List Bool) (i v : Nat) (hi : i < a.length) :
    (a.set i true).getD v false = true ↔ (v = i ∨ a.getD v false = true) := by
  rw [getD_set_eq]
  by_cases h : i = v
  · subst h; simp [hi]
  · simp [h]; intro h2; exact absurd h2.symm h

/-! ## Partitions -/

theorem IsPartition.eq_of_mem {n : Nat} {P : Partition} (hP : IsPartition n P)
    {C D : List Nat} (hC : C ∈ P) (hD : D ∈ P) {v : Nat} (hvC : v ∈ C) (hvD : v ∈ D) :
    C = D := by
  by_contra hne
  have hpw := (List.nodup_flatten.1 hP.1).2
  have hsym : Symmetric (List.Disjoint : List Nat → List Nat → Prop) :=
    fun _ _ h => h.symm
  exact (hpw.forall hsym hC hD hne) hvC hvD

theorem IsPartition.lt_of_mem {n : Nat} {P : Partition} (hP : IsPartition n P)
    {C : List Nat} (hC : C ∈ P) {v : Nat} (hv : v ∈ C) : v < n :=
  hP.2.1 v (List.mem_flatten.2 ⟨C, hC, hv⟩)

theorem IsPartition.exists_mem {n : Nat} {P : Partition} (hP : IsPartition n P)
    {v : Nat} (hv : v < n) : ∃ C ∈ P, v ∈ C :=
  List.mem_flatten.1 (hP.2.2 v hv)

/-! ## GetMembershipFromPartition -/

theorem foldlM_setAt_spec (i : Nat) (cluster : List Nat) :
    ∀ m : List Nat, (∀ v ∈ cluster, v < m.length) →
      ∃ m2, cluster.foldlM (fun m vertex_id => setAt m vertex_id i) m = some m2 ∧
        m2.length = m.length ∧
        ∀ v, m2.getD v 0 = if v ∈ cluster then i else m.getD v 0 := by
  induction cluster with
  | nil => intro m _; exact ⟨m, rfl, rfl, by simp⟩
  | cons x xs ih =>
    intro m hlt
    have hx : x < m.length := hlt x (List.mem_cons_self _ _)
    obtain ⟨m2, h1, h2, h3⟩ := ih (m.set x i) (by
      intro v hv; rw [List.length_set]; exact hlt v (List.mem_cons_of_mem _ hv))
    refine ⟨m2, ?_, ?_, ?_⟩
    · simp only [List.foldlM, setAt, hx, if_true]
      exact h1
    · rw [h2, List.length_set]
    · intro v
      rw [h3 v, getD_set_eq]
      by_cases hv : v ∈ xs
      · simp [hv]
      · by_cases hvx : v = x
        · subst hvx; simp [hx]
        · have : ¬ x = v := fun h => hvx h.symm
          simp [hv, hvx, this]

theorem membershipLoop_spec :
    ∀ (rest : List (List Nat)) (i : Nat) (m : List Nat),
      (∀ v ∈ rest.flatten, v < m.length) →
      ∃ m2, membershipLoop rest i m = some m2 ∧ m2.length = m.length ∧
        (∀ v, v ∉ rest.flatten → m2.getD v 0 = m.getD v 0) ∧
        (rest.flatten.Nodup → ∀ j (hj : j < rest.length), ∀ v ∈ rest[j],
          m2.getD v 0 = i + j) := by
  intro rest
  induction rest with
  | nil =>
    intro i m _
    exact ⟨m, rfl, rfl, fun _ _ => rfl, fun _ j hj => absurd hj (by simp)⟩
  | cons C rest ih =>
    intro i m hlt
    obtain ⟨ma, ha1, ha2, ha3⟩ := foldlM_setAt_spec i C m (by
      intro v hv; exact hlt v (by simp [hv]))
    obtain ⟨m2, hb1, hb2, hb3, hb4⟩ := ih (i + 1) ma (by
      intro v hv; rw [ha2]; exact hlt v (by simp only [List.flatten_cons, List.mem_append]; exact Or.inr hv))
    refine ⟨m2, ?_, ?_, ?_, ?_⟩
    · simp only [membershipLoop, ha1, Option.bind]
      exact hb1
    · rw [hb2, ha2]
    · intro v hv
      simp only [List.flatten_cons, List.mem_append, not_or] at hv
      rw [hb3 v hv.2, ha3 v, if_neg hv.1]
    · intro hnd j hj v hv
      simp only [List.flatten_cons] at hnd
      have hnd2 := List.nodup_append.1 hnd
      cases j with
      | zero =>
        simp only [List.getElem_cons_zero] at hv
        have hvr : v ∉ rest.flatten := fun h => hnd2.2.2 hv h
        rw [hb3 v hvr, ha3 v, if_pos hv]; rfl
      | succ j =>
        simp only [List.getElem_cons_succ] at hv
        have := hb4 hnd2.2.1 j (by simpa using hj) v hv
        rw [this]; omega

/-- On a partition of `{0..n-1}` the membership vector exists and maps every vertex to the
index of its cluster. -/
theorem GetMembershipFromPartition_spec {n : Nat} {P : Partition} (hP : IsPartition n P) :
    ∃ m, GetMembershipFromPartition P n = some m ∧ m.length = n ∧
      ∀ j (hj : j < P.length), ∀ v ∈ P[j], m.getD v 0 = j := by
  obtain ⟨m, h1, h2, _, h4⟩ := membershipLoop_spec P 0 (List.replicate n 0) (by
    intro v hv; simpa using hP.2.1 v hv)
  refine ⟨m, h1, by simpa using h2, ?_⟩
  intro j hj v hv
  simpa using h4 hP.1 j hj v hv

theorem membership_eq_iff {n : Nat} {P : Partition} (hP : IsPartition n P) {m : List Nat}
    (hm : ∀ j (hj : j < P.length), ∀ v ∈ P[j], m.getD v 0 = j)
    {u v : Nat} (hu : u < n) (hv : v < n) :
    m.getD u 0 = m.getD v 0 ↔ SameCluster P u v := by
  obtain ⟨C, hC, huC⟩ := hP.exists_mem hu
  obtain ⟨D, hD, hvD⟩ := hP.exists_mem hv
  obtain ⟨jc, hjc, rfl⟩ := List.getElem_of_mem hC
  obtain ⟨jd, hjd, rfl⟩ := List.getElem_of_mem hD
  rw [hm jc hjc u huC, hm jd hjd v hvD]
  constructor
  · intro h; subst h; exact ⟨P[jc], hC, huC, hvD⟩
  · rintro ⟨E, hE, huE, hvE⟩
    have h1 := hP.eq_of_mem hC hE huC huE
    have h2 := hP.eq_of_mem hD hE hvD hvE
    have := hm jc hjc v (by rw [h1]; exact hvE)
    rw [hm jd hjd v hvD] at this
    exact this.symm

/-! ## CompareClusters -/

theorem sweep_spec (m1 : List Nat) (v1 : Nat) (L : List Nat) :
    ∀ (nc : List Nat) (a : List Bool), (∀ v ∈ L, v < a.length) →
      a.length = (L.foldl (sweepStep m1 v1) (nc, a)).2.length ∧
      (∀ v, (L.foldl (sweepStep m1 v1) (nc, a)).2.getD v false = true ↔
        (a.getD v false = true ∨ (v ∈ L ∧ m1.getD v1 0 = m1.getD v 0))) ∧
      (∀ v, v ∈ (L.foldl (sweepStep m1 v1) (nc, a)).1 ↔
        (v ∈ nc ∨ (v ∈ L ∧ a.getD v false = false ∧ m1.getD v1 0 = m1.getD v 0))) ∧
      (nc.Nodup → (∀ v ∈ nc, a.getD v false = true) →
        (L.foldl (sweepStep m1 v1) (nc, a)).1.Nodup) := by
  induction L with
  | nil => intro nc a _; exact ⟨rfl, by simp, by simp, fun h _ => h⟩
  | cons x xs ih =>
    intro nc a hlt
    have hx : x < a.length := hlt x (List.mem_cons_self _ _)
    have hxs : ∀ v ∈ xs, v < a.length := fun v hv => hlt v (List.mem_cons_of_mem _ hv)
    simp only [List.foldl_cons]
    by_cases hax : a.getD x false = false
    · by_cases hm : m1.getD v1 0 = m1.getD x 0
      · have hstep : sweepStep m1 v1 (nc, a) x = (nc ++ [x], a.set x true) := by
          rw [sweepStep]; dsimp only; rw [if_pos hax, if_pos hm]
        rw [hstep]
        obtain ⟨h1, h2, h3, h4⟩ := ih (nc ++ [x]) (a.set x true) (by
          intro v hv; rw [List.length_set]; exact hxs v hv)
        refine ⟨?_, ?_, ?_, ?_⟩
        · rw [← h1, List.length_set]
        · intro v
          rw [h2 v, getD_set_true a x v hx]
          constructor
          · rintro ((rfl | h) | ⟨h, h5⟩)
            · exact Or.inr ⟨List.mem_cons_self _ _, hm⟩
            · exact Or.inl h
            · exact Or.inr ⟨List.mem_cons_of_mem _ h, h5⟩
          · rintro (h | ⟨h, h5⟩)
            · exact Or.inl (Or.inr h)
            · rcases List.mem_cons.1 h with rfl | h
              · exact Or.inl (Or.inl rfl)
              · exact Or.inr ⟨h, h5⟩
        · intro v
          rw [h3 v, List.mem_append, List.mem_singleton, List.mem_cons]
          constructor
          · rintro ((h | rfl) | ⟨h, h5, h6⟩)
            · exact Or.inl h
            · exact Or.inr ⟨Or.inl rfl, hax, hm⟩
            · refine Or.inr ⟨Or.inr h, ?_, h6⟩
              by_contra hc
              have : (a.set x true).getD v false = true :=
                (getD_set_true a x v hx).2 (Or.inr (by simpa using hc))
              rw [this] at h5; exact Bool.noConfusion h5
          · rintro (h | ⟨rfl | h, h5, h6⟩)
            · exact Or.inl (Or.inl h)
            · exact Or.inl (Or.inr rfl)
            · by_cases hvx : v = x
              · exact Or.inl (Or.inr hvx)
              · refine Or.inr ⟨h, ?_, h6⟩
                by_contra hc
                have := (getD_set_true a x v hx).1 (by simpa using hc)
                rcases this with h7 | h7
                · exact hvx h7
                · rw [h7] at h5; exact Bool.noConfusion h5
        · intro hnd hall
          apply h4
          · rw [List.nodup_append]
            refine ⟨hnd, List.nodup_singleton _, ?_⟩
            intro v hv hv2
            rw [List.mem_singleton] at hv2
            subst hv2
            have := hall v hv
            rw [this] at hax; exact Bool.noConfusion hax
          · intro v hv
            rw [getD_set_true a x v hx]
            rcases List.mem_append.1 hv with h | h
            · exact Or.inr (hall v h)
            · exact Or.inl (List.mem_singleton.1 h)
      · have hstep : sweepStep m1 v1 (nc, a) x = (nc, a) := by
          rw [sweepStep]; dsimp only; rw [if_pos hax, if_neg hm]
        rw [hstep]
        obtain ⟨h1, h2, h3, h4⟩ := ih nc a hxs
        refine ⟨h1, ?_, ?_, h4⟩
        · intro v
          rw [h2 v]
          constructor
          · rintro (h | ⟨h, h5⟩)
            · exact Or.inl h
            · exact Or.inr ⟨List.mem_cons_of_mem _ h, h5⟩
          · rintro (h | ⟨h, h5⟩)
            · exact Or.inl h
            · rcases List.mem_cons.1 h with rfl | h
              · exact absurd h5 hm
              · exact Or.inr ⟨h, h5⟩
        · intro v
          rw [h3 v]
          constructor
          · rintro (h | ⟨h, h5, h6⟩)
            · exact Or.inl h
            · exact Or.inr ⟨List.mem_cons_of_mem _ h, h5, h6⟩
          · rintro (h | ⟨h, h5, h6⟩)
            · exact Or.inl h
            · rcases List.mem_cons.1 h with rfl | h
              · exact absurd h6 hm
              · exact Or.inr ⟨h, h5, h6⟩
    · have hax2 : a.getD x false = true := by simpa using hax
      have hstep : sweepStep m1 v1 (nc, a) x = (nc, a) := by
        rw [sweepStep]; dsimp only; rw [if_neg hax]
      rw [hstep]
      obtain ⟨h1, h2, h3, h4⟩ := ih nc a hxs
      refine ⟨h1, ?_, ?_, h4⟩
      · intro v
        rw [h2 v]
        constructor
        · rintro (h | ⟨h, h5⟩)
          · exact Or.inl h
          · exact Or.inr ⟨List.mem_cons_of_mem _ h, h5⟩
        · rintro (h | ⟨h, h5⟩)
          · exact Or.inl h
          · rcases List.mem_cons.1 h with rfl | h
            · exact Or.inl hax2
            · exact Or.inr ⟨h, h5⟩
      · intro v
        rw [h3 v]
        constructor
        · rintro (h | ⟨h, h5, h6⟩)
          · exact Or.inl h
          · exact Or.inr ⟨List.mem_cons_of_mem _ h, h5, h6⟩
        · rintro (h | ⟨h, h5, h6⟩)
          · exact Or.inl h
          · rcases List.mem_cons.1 h with rfl | h
            · rw [hax2] at h5; exact Bool.noConfusion h5
            · exact Or.inr ⟨h, h5, h6⟩

theorem seedStep_spec {n : Nat} {P1 : Partition} (hP : IsPartition n P1) (m1 : List Nat)
    {C : List Nat} (hC : C ∈ P1) {res : Partition} {asg : List Bool}
    (hinv : CmpInv n P1 m1 res asg) {v1 : Nat} (hv1 : v1 ∈ C) :
    CmpInv n P1 m1 (seedStep m1 C (res, asg) v1).1 (seedStep m1 C (res, asg) v1).2 ∧
      v1 ∈ (seedStep m1 C (res, asg) v1).1.flatten ∧
      (∀ v ∈ res.flatten, v ∈ (seedStep m1 C (res, asg) v1).1.flatten) := by
  by_cases ha : asg.getD v1 false = false
  · have hv1n : v1 < asg.length := by rw [hinv.len]; exact hP.lt_of_mem hC hv1
    have hCn : ∀ v ∈ C, v < (asg.set v1 true).length := by
      intro v hv; rw [List.length_set, hinv.len]; exact hP.lt_of_mem hC hv
    obtain ⟨h1, h2, h3, h4⟩ := sweep_spec m1 v1 C [v1] (asg.set v1 true) hCn
    have hstep : seedStep m1 C (res, asg) v1 =
        (res ++ [(C.foldl (sweepStep m1 v1) ([v1], asg.set v1 true)).1],
          (C.foldl (sweepStep m1 v1) ([v1], asg.set v1 true)).2) := by
      rw [seedStep]; dsimp only; rw [if_pos ha]
    rw [hstep]
    dsimp only
    generalize (C.foldl (sweepStep m1 v1) ([v1], asg.set v1 true)) = r at h1 h2 h3 h4
    have hv1res : v1 ∉ res.flatten := by
      intro h
      have := (hinv.asg_iff v1).2 h
      rw [this] at ha; exact Bool.noConfusion ha
    -- members of the new cluster
    have hR : ∀ v, v ∈ r.1 ↔ (v ∈ C ∧ m1.getD v 0 = m1.getD v1 0) := by
      intro v
      rw [h3 v, List.mem_singleton]
      constructor
      · rintro (rfl | ⟨h, _, h6⟩)
        · exact ⟨hv1, rfl⟩
        · exact ⟨h, h6.symm⟩
      · rintro ⟨h, h6⟩
        by_cases hvv : v = v1
        · exact Or.inl hvv
        · refine Or.inr ⟨h, ?_, h6.symm⟩
          by_contra hc
          have hc2 : (asg.set v1 true).getD v false = true := by simpa using hc
          rcases (getD_set_true asg v1 v hv1n).1 hc2 with h7 | h7
          · exact hvv h7
          · obtain ⟨R, hRr, hvR⟩ := List.mem_flatten.1 ((hinv.asg_iff v).1 h7)
            obtain ⟨_, D, hD, k, hk⟩ := hinv.cls R hRr
            have hvD := (hk v).1 hvR
            have hDC : D = C := hP.eq_of_mem hD hC hvD.1 h
            have : v1 ∈ R := (hk v1).2 ⟨by rw [hDC]; exact hv1, by rw [← h6, hvD.2]⟩
            exact hv1res (List.mem_flatten.2 ⟨R, hRr, this⟩)
    have hv1R : v1 ∈ r.1 := (hR v1).2 ⟨hv1, rfl⟩
    have hflat : (res ++ [r.1]).flatten = res.flatten ++ r.1 := by simp
    have hdisj : ∀ v, v ∈ res.flatten → v ∈ r.1 → False := by
      intro v hv hvr
      obtain ⟨R, hRr, hvR⟩ := List.mem_flatten.1 hv
      obtain ⟨_, D, hD, k, hk⟩ := hinv.cls R hRr
      have hvD := (hk v).1 hvR
      have hvC := (hR v).1 hvr
      have hDC : D = C := hP.eq_of_mem hD hC hvD.1 hvC.1
      have : v1 ∈ R := (hk v1).2 ⟨by rw [hDC]; exact hv1, by rw [← hvC.2, hvD.2]⟩
      exact hv1res (List.mem_flatten.2 ⟨R, hRr, this⟩)
    refine ⟨⟨?_, ?_, ?_, ?_⟩, ?_, ?_⟩
    · rw [← h1, List.length_set, hinv.len]
    · intro v
      rw [h2 v, hflat, List.mem_append, getD_set_true asg v1 v hv1n, hR v, hinv.asg_iff v]
      constructor
      · rintro ((rfl | h) | ⟨h, h5⟩)
        · exact Or.inr ⟨hv1, rfl⟩
        · exact Or.inl h
        · exact Or.inr ⟨h, h5.symm⟩
      · rintro (h | ⟨h, h5⟩)
        · exact Or.inl (Or.inr h)
        · exact Or.inr ⟨h, h5.symm⟩
    · rw [hflat, List.nodup_append]
      refine ⟨hinv.nodup, ?_, fun v hv hvr => hdisj v hv hvr⟩
      apply h4 (List.nodup_singleton _)
      intro v hv
      rw [List.mem_singleton] at hv
      subst hv
      exact (getD_set_true asg v v hv1n).2 (Or.inl rfl)
    · intro R hRr
      rcases List.mem_append.1 hRr with h | h
      · exact hinv.cls R h
      · rw [List.mem_singleton] at h
        subst h
        exact ⟨List.ne_nil_of_mem hv1R, C, hC, m1.getD v1 0, hR⟩
    · rw [hflat]; exact List.mem_append_right _ hv1R
    · intro v hv; rw [hflat]; exact List.mem_append_left _ hv
  · have ha2 : asg.getD v1 false = true := by simpa using ha
    have hstep : seedStep m1 C (res, asg) v1 = (res, asg) := by
      rw [seedStep]; dsimp only; rw [if_neg ha]
    rw [hstep]
    exact ⟨hinv, (hinv.asg_iff v1).1 ha2, fun v hv => hv⟩

theorem seedLoop_spec {n : Nat} {P1 : Partition} (hP : IsPartition n P1) (m1 : List Nat)
    {C : List Nat} (hC : C ∈ P1) (L : List Nat) :
    ∀ (st : Partition × List Bool), (∀ v ∈ L, v ∈ C) → CmpInv n P1 m1 st.1 st.2 →
      CmpInv n P1 m1 (L.foldl (seedStep m1 C) st).1 (L.foldl (seedStep m1 C) st).2 ∧
      (∀ v ∈ L, v ∈ (L.foldl (seedStep m1 C) st).1.flatten) ∧
      (∀ v ∈ st.1.flatten, v ∈ (L.foldl (seedStep m1 C) st).1.flatten) := by
  induction L with
  | nil => intro st _ hinv; exact ⟨hinv, fun _ h => absurd h (List.not_mem_nil _), fun _ h => h⟩
  | cons x xs ih =>
    intro st hsub hinv
    obtain ⟨res, asg⟩ := st
    obtain ⟨h1, h2, h3⟩ := seedStep_spec hP m1 hC hinv (hsub x (List.mem_cons_self _ _))
    obtain ⟨h4, h5, h6⟩ := ih (seedStep m1 C (res, asg) x)
      (fun v hv => hsub v (List.mem_cons_of_mem _ hv)) h1
    simp only [List.foldl_cons]
    refine ⟨h4, ?_, fun v hv => h6 v (h3 v hv)⟩
    intro v hv
    rcases List.mem_cons.1 hv with rfl | hv
    · exact h6 v h2
    · exact h5 v hv

theorem compareLoop_spec {n : Nat} {P1 : Partition} (hP : IsPartition n P1) (m1 : List Nat)
    (Q : List (List Nat)) :
    ∀ (st : Partition × List Bool), (∀ C ∈ Q, C ∈ P1) → CmpInv n P1 m1 st.1 st.2 →
      CmpInv n P1 m1 (compareLoop m1 Q st).1 (compareLoop m1 Q st).2 ∧
      (∀ v ∈ Q.flatten, v ∈ (compareLoop m1 Q st).1.flatten) ∧
      (∀ v ∈ st.1.flatten, v ∈ (compareLoop m1 Q st).1.flatten) := by
  induction Q with
  | nil => intro st _ hinv; exact ⟨hinv, fun _ h => absurd h (by simp), fun _ h => h⟩
  | cons C Q ih =>
    intro st hsub hinv
    obtain ⟨h1, h2, h3⟩ := seedLoop_spec hP m1 (hsub C (List.mem_cons_self _ _)) C st
      (fun _ h => h) hinv
    obtain ⟨h4, h5, h6⟩ := ih (C.foldl (seedStep m1 C) st)
      (fun D hD => hsub D (List.mem_cons_of_mem _ hD)) h1
    have hunf : compareLoop m1 (C :: Q) st = compareLoop m1 Q (C.foldl (seedStep m1 C) st) := by
      simp only [compareLoop, List.foldl_cons]
    rw [hunf]
    refine ⟨h4, ?_, fun v hv => h6 v (h3 v hv)⟩
    intro v hv
    rw [List.flatten_cons, List.mem_append] at hv
    rcases hv with hv | hv
    · exact h6 v (h2 v hv)
    · exact h5 v hv

theorem CmpInv_init (n : Nat) (P1 : Partition) (m1 : List Nat) :
    CmpInv n P1 m1 [] (List.replicate n false) := by
  refine ⟨by simp, ?_, by simp, by simp⟩
  intro v
  have : (List.replicate n false).getD v false = false := by
    rw [List.getD_eq_getElem?_getD]
    by_cases h : v < n
    · simp [List.getElem?_replicate, h]
    · simp [List.getElem?_replicate, h]
  rw [this]; simp

/-- Characterisation of the result of `CompareClusters` on two partitions. -/
theorem CompareClusters_spec (graph : Graph) {P1 P2 : Partition}
    (h1 : IsPartition graph.vertex_count P1) (h2 : IsPartition graph.vertex_count P2) :
    ∃ R, CompareClusters graph P1 P2 = some R ∧
      IsPartition graph.vertex_count R ∧
      (∀ C ∈ R, C ≠ []) ∧
      (∀ u v, SameCluster R u v ↔ (SameCluster P1 u v ∧ SameCluster P2 u v)) ∧
      (∀ C ∈ R, (∃ D ∈ P1, ∀ v ∈ C, v ∈ D) ∧ (∃ D ∈ P2, ∀ v ∈ C, v ∈ D)) := by
  obtain ⟨m0, hm0, _, _⟩ := GetMembershipFromPartition_spec h1
  obtain ⟨m1, hm1, _, hm1s⟩ := GetMembershipFromPartition_spec h2
  obtain ⟨hinv, hcov, _⟩ := compareLoop_spec h1 m1 P1 ([], List.replicate graph.vertex_count false)
    (fun _ h => h) (CmpInv_init _ _ _)
  have hrun : CompareClusters graph P1 P2 =
      some (compareLoop m1 P1 ([], List.replicate graph.vertex_count false)).1 := by
    simp only [CompareClusters, hm0, hm1, Option.bind]
  refine ⟨_, hrun, ?_, ?_, ?_, ?_⟩
  · refine ⟨hinv.nodup, ?_, fun v hv => hcov v (h1.2.2 v hv)⟩
    intro v hv
    obtain ⟨R, hR, hvR⟩ := List.mem_flatten.1 hv
    obtain ⟨_, D, hD, k, hk⟩ := hinv.cls R hR
    exact h1.lt_of_mem hD ((hk v).1 hvR).1
  · intro C hC; exact (hinv.cls C hC).1
  · intro u v
    constructor
    · rintro ⟨R, hR, huR, hvR⟩
      obtain ⟨_, D, hD, k, hk⟩ := hinv.cls R hR
      have hu := (hk u).1 huR
      have hv := (hk v).1 hvR
      refine ⟨⟨D, hD, hu.1, hv.1⟩, ?_⟩
      exact (membership_eq_iff h2 hm1s (h1.lt_of_mem hD hu.1) (h1.lt_of_mem hD hv.1)).1
        (by rw [hu.2, hv.2])
    · rintro ⟨⟨D, hD, huD, hvD⟩, hs2⟩
      have hun := h1.lt_of_mem hD huD
      have hvn := h1.lt_of_mem hD hvD
      have hmeq := (membership_eq_iff h2 hm1s hun hvn).2 hs2
      obtain ⟨R, hR, huR⟩ := List.mem_flatten.1 (hcov u (h1.2.2 u hun))
      obtain ⟨_, E, hE, k, hk⟩ := hinv.cls R hR
      have hu := (hk u).1 huR
      have hED : E = D := h1.eq_of_mem hE hD hu.1 huD
      exact ⟨R, hR, huR, (hk v).2 ⟨by rw [hED]; exact hvD, by rw [← hmeq]; exact hu.2⟩⟩
  · intro C hC
    obtain ⟨hne, D, hD, k, hk⟩ := hinv.cls C hC
    refine ⟨⟨D, hD, fun v hv => ((hk v).1 hv).1⟩, ?_⟩
    obtain ⟨w, hw⟩ := List.exists_mem_of_ne_nil C hne
    have hwD := (hk w).1 hw
    have hwn := h1.lt_of_mem hD hwD.1
    obtain ⟨E, hE, hwE⟩ := h2.exists_mem hwn
    refine ⟨E, hE, ?_⟩
    intro v hv
    have hvD := (hk v).1 hv
    have hvn := h1.lt_of_mem hD hvD.1
    obtain ⟨F, hF, hwF, hvF⟩ := (membership_eq_iff h2 hm1s hwn hvn).1 (by rw [hwD.2, hvD.2])
    have : F = E := h2.eq_of_mem hF hE hwF hwE
    rw [← this]; exact hvF

/-- **C1.** For two partitions `P1`, `P2` of `{0..n-1}`, `CompareClusters` returns a partition
of `{0..n-1}` without empty cluster in which two vertices share a cluster exactly when they
share a cluster of `P1` and a cluster of `P2`; every result cluster lies inside one cluster
of `P1` and inside one cluster of `P2` (the result refines both). -/
theorem C1_CompareClusters_intersection (graph : Graph) (P1 P2 : Partition)
    (h1 : IsPartition graph.vertex_count P1) (h2 : IsPartition graph.vertex_count P2) :
    ∃ R, CompareClusters graph P1 P2 = some R ∧
      IsPartition graph.vertex_count R ∧
      (∀ C ∈ R, C ≠ []) ∧
      (∀ u v, SameCluster R u v ↔ (SameCluster P1 u v ∧ SameCluster P2 u v)) ∧
      (∀ C ∈ R, (∃ D ∈ P1, ∀ v ∈ C, v ∈ D) ∧ (∃ D ∈ P2, ∀ v ∈ C, v ∈ D)) :=
  CompareClusters_spec graph h1 h2

/-- Witness for C1: two partitions of the six vertices of the two-triangle graph. -/
theorem C1_CompareClusters_intersection_witness :
    IsPartition twoTriangles.vertex_count [[0, 1, 2], [], [3, 4, 5]] ∧
    IsPartition twoTriangles.vertex_count [[5, 1, 3], [2, 4, 0]] ∧
    ∃ R, CompareClusters twoTriangles [[0, 1, 2], [], [3, 4, 5]] [[5, 1, 3], [2, 4, 0]] = some R ∧
      IsPartition twoTriangles.vertex_count R ∧
      (∀ C ∈ R, C ≠ []) ∧
      (∀ u v, SameCluster R u v ↔
        (SameCluster [[0, 1, 2], [], [3, 4, 5]] u v ∧ SameCluster [[5, 1, 3], [2, 4, 0]] u v)) ∧
      (∀ C ∈ R, (∃ D ∈ [[0, 1, 2], [], [3, 4, 5]], ∀ v ∈ C, v ∈ D) ∧
        (∃ D ∈ [[5, 1, 3], [2, 4, 0]], ∀ v ∈ C, v ∈ D)) :=
  ⟨by decide, by decide,
    C1_CompareClusters_intersection twoTriangles [[0, 1, 2], [], [3, 4, 5]]
      [[5, 1, 3], [2, 4, 0]] (by decide) (by decide)⟩

end CGGC


namespace CGGC

/-! ## Association lists -/

theorem mapFind_append {α : Type} (row : List (Nat × α)) (k : Nat) (v : α) (j : Nat) :
    mapFind (row ++ [(k, v)]) j =
      match mapFind row j with
      | some x => some x
      | none => if k = j then some v else none := by
  induction row with
  | nil => simp [mapFind]
  | cons e r ih =>
    obtain ⟨k1, v1⟩ := e
    simp only [List.cons_append, mapFind]
    by_cases h : k1 = j
    · simp [h]
    · simp only [h, if_false]; exact ih

theorem mapFind_mapUpdate {α : Type} (f : α → α) (row : List (Nat × α)) (k j : Nat) :
    mapFind (mapUpdate f row k) j =
      if k = j then (mapFind row j).map f else mapFind row j := by
  induction row with
  | nil => simp [mapFind, mapUpdate]
  | cons e r ih =>
    obtain ⟨k1, v1⟩ := e
    simp only [mapUpdate]
    by_cases h1 : k1 = k
    · subst h1
      by_cases h2 : k1 = j
      · subst h2; simp [mapFind]
      · simp [mapFind, h2]
    · simp only [h1, if_false, mapFind]
      by_cases h2 : k1 = j
      · subst h2
        have : ¬ k = k1 := fun h => h1 h.symm
        simp [this]
      · simp only [h2, if_false]; exact ih

theorem mapFind_isSome_iff {α : Type} (row : List (Nat × α)) (k : Nat) :
    (mapFind row k).isSome = true ↔ k ∈ row.map Prod.fst := by
  induction row with
  | nil => simp [mapFind]
  | cons e r ih =>
    obtain ⟨k1, v1⟩ := e
    simp only [mapFind, List.map_cons, List.mem_cons]
    by_cases h : k1 = k
    · subst h; simp
    · have : ¬ k = k1 := fun h2 => h h2.symm
      simp only [h, if_false, this, false_or]; exact ih

theorem map_fst_mapUpdate {α : Type} (f : α → α) (row : List (Nat × α)) (k : Nat) :
    (mapUpdate f row k).map Prod.fst = row.map Prod.fst := by
  induction row with
  | nil => simp [mapUpdate]
  | cons e r ih =>
    obtain ⟨k1, v1⟩ := e
    simp only [mapUpdate]
    by_cases h : k1 = k
    · simp [h]
    · simp only [h, if_false, List.map_cons, ih]

theorem mapGet_mapUpdate {α : Type} (f : α → α) (row : List (Nat × α)) (k j : Nat) (d : α)
    (hk : k ∈ row.map Prod.fst) :
    mapGet (mapUpdate f row k) j d = if k = j then f (mapGet row j d) else mapGet row j d := by
  unfold mapGet
  rw [mapFind_mapUpdate]
  by_cases h : k = j
  · subst h
    obtain ⟨x, hx⟩ := Option.isSome_iff_exists.1 ((mapFind_isSome_iff row k).2 hk)
    simp [hx]
  · simp [h]

theorem mapGet_append {α : Type} (row : List (Nat × α)) (k : Nat) (v : α) (j : Nat) (d : α)
    (hk : k ∉ row.map Prod.fst) :
    mapGet (row ++ [(k, v)]) j d = if k = j then v else mapGet row j d := by
  unfold mapGet
  rw [mapFind_append]
  by_cases h : k = j
  · subst h
    have : mapFind row k = none := by
      cases hf : mapFind row k with
      | none => rfl
      | some x =>
        exact absurd ((mapFind_isSome_iff row k).1 (by rw [hf]; rfl)) hk
    simp [this]
  · cases hf : mapFind row j <;> simp [h]

theorem mapGet_of_not_mem {α : Type} (row : List (Nat × α)) (k : Nat) (d : α)
    (hk : k ∉ row.map Prod.fst) : mapGet row k d = d := by
  unfold mapGet
  cases hf : mapFind row k with
  | none => rfl
  | some x => exact absurd ((mapFind_isSome_iff row k).1 (by rw [hf]; rfl)) hk

theorem sum_mapUpdate (f : ℚ → ℚ) (row : List (Nat × ℚ)) (k : Nat)
    (hk : k ∈ row.map Prod.fst) :
    ((mapUpdate f row k).map Prod.snd).sum =
      (row.map Prod.snd).sum - mapGet row k 0 + f (mapGet row k 0) := by
  induction row with
  | nil => simp at hk
  | cons e r ih =>
    obtain ⟨k1, v1⟩ := e
    simp only [mapUpdate]
    by_cases h : k1 = k
    · subst h
      simp only [if_true, List.map_cons, List.sum_cons, mapGet, mapFind, Option.getD_some]
      ring
    · have hk2 : k ∈ r.map Prod.fst := by
        simp only [List.map_cons, List.mem_cons] at hk
        rcases hk with hk | hk
        · exact absurd hk.symm h
        · exact hk
      simp only [h, if_false, List.map_cons, List.sum_cons, ih hk2, mapGet, mapFind]
      ring

/-- The increment of `e[from][to]` in `GetModularityFromClustering`. -/
theorem bump_spec (row : List (Nat × ℚ)) (k : Nat) (hnd : (row.map Prod.fst).Nodup) :
    let row2 := if (mapFind row k).isSome then mapUpdate (fun x => x + 1) row k
      else row ++ [(k, 1)]
    (row2.map Prod.fst).Nodup ∧
      (∀ j, mapGet row2 j 0 = mapGet row j 0 + if k = j then 1 else 0) ∧
      (row2.map Prod.snd).sum = (row.map Prod.snd).sum + 1 := by
  intro row2
  by_cases h : (mapFind row k).isSome = true
  · have hk := (mapFind_isSome_iff row k).1 h
    have hr : row2 = mapUpdate (fun x => x + 1) row k := by
      simp only [row2, h, if_true]
    rw [hr]
    refine ⟨by rw [map_fst_mapUpdate]; exact hnd, ?_, ?_⟩
    · intro j
      rw [mapGet_mapUpdate _ _ _ _ _ hk]
      by_cases hj : k = j <;> simp [hj]
    · rw [sum_mapUpdate _ _ _ hk]; ring
  · have hk : k ∉ row.map Prod.fst := fun hm => h ((mapFind_isSome_iff row k).2 hm)
    have hr : row2 = row ++ [(k, 1)] := by
      simp only [row2, h, if_false]
      rfl
    rw [hr]
    refine ⟨?_, ?_, ?_⟩
    · rw [List.map_append, List.nodup_append]
      refine ⟨hnd, by simp, ?_⟩
      intro a ha ha2
      simp only [List.map_cons, List.map_nil, List.mem_singleton] at ha2
      subst ha2
      exact hk ha
    · intro j
      rw [mapGet_append _ _ _ _ _ hk]
      by_cases hj : k = j
      · subst hj; simp [mapGet_of_not_mem _ _ _ hk]
      · simp [hj]
    · simp

theorem mapFind_eq_none_of_not_mem {α : Type} (row : List (Nat × α)) (k : Nat)
    (hk : k ∉ row.map Prod.fst) : mapFind row k = none := by
  cases hf : mapFind row k with
  | none => rfl
  | some x => exact absurd ((mapFind_isSome_iff row k).1 (by rw [hf]; rfl)) hk

theorem mapSet_spec {α : Type} (row : List (Nat × α)) (k : Nat) (v d : α) :
    (∀ j, mapGet (mapSet row k v) j d = if k = j then v else mapGet row j d) ∧
      (∀ x ∈ (mapSet row k v).map Prod.fst, x ∈ row.map Prod.fst ∨ x = k) ∧
      k ∈ (mapSet row k v).map Prod.fst := by
  by_cases h : (mapFind row k).isSome = true
  · have hk := (mapFind_isSome_iff row k).1 h
    have hr : mapSet row k v = mapUpdate (fun _ => v) row k := by
      simp only [mapSet, h, if_true]
    rw [hr, map_fst_mapUpdate]
    refine ⟨fun j => mapGet_mapUpdate _ _ _ _ _ hk, fun x hx => Or.inl hx, hk⟩
  · have hk : k ∉ row.map Prod.fst := fun hm => h ((mapFind_isSome_iff row k).2 hm)
    have hr : mapSet row k v = row ++ [(k, v)] := by
      simp only [mapSet, h, if_false]
      rfl
    rw [hr]
    refine ⟨fun j => mapGet_append _ _ _ _ _ hk, ?_, ?_⟩
    · intro x hx
      rw [List.map_append, List.mem_append] at hx
      rcases hx with hx | hx
      · exact Or.inl hx
      · right; simpa using hx
    · simp

theorem mapTouch_spec {α : Type} (row : List (Nat × α)) (k : Nat) (d : α) :
    (∀ j, mapGet (mapTouch row k d) j d = mapGet row j d) ∧
      (∀ x ∈ (mapTouch row k d).map Prod.fst, x ∈ row.map Prod.fst ∨ x = k) ∧
      (∀ x ∈ row.map Prod.fst, x ∈ (mapTouch row k d).map Prod.fst) ∧
      k ∈ (mapTouch row k d).map Prod.fst := by
  by_cases h : (mapFind row k).isSome = true
  · have hk := (mapFind_isSome_iff row k).1 h
    have hr : mapTouch row k d = row := by
      simp only [mapTouch, h, if_true]
    rw [hr]
    exact ⟨fun _ => rfl, fun x hx => Or.inl hx, fun x hx => hx, hk⟩
  · have hk : k ∉ row.map Prod.fst := fun hm => h ((mapFind_isSome_iff row k).2 hm)
    have hr : mapTouch row k d = row ++ [(k, d)] := by
      simp only [mapTouch, h, if_false]
      rfl
    rw [hr]
    refine ⟨?_, ?_, ?_, ?_⟩
    · intro j
      rw [mapGet_append _ _ _ _ _ hk]
      by_cases hj : k = j
      · subst hj; rw [if_pos rfl, mapGet_of_not_mem _ _ _ hk]
      · rw [if_neg hj]
    · intro x hx
      rw [List.map_append, List.mem_append] at hx
      rcases hx with hx | hx
      · exact Or.inl hx
      · right; simpa using hx
    · intro x hx
      rw [List.map_append, List.mem_append]; exact Or.inl hx
    · simp

theorem mapTouch_idem {α : Type} (row : List (Nat × α)) (k : Nat) (d : α) :
    mapTouch (mapTouch row k d) k d = mapTouch row k d := by
  have hk := (mapTouch_spec row k d).2.2.2
  have : (mapFind (mapTouch row k d) k).isSome = true := (mapFind_isSome_iff _ k).2 hk
  conv_lhs => rw [mapTouch]
  rw [if_pos this]

theorem mapTouch_of_mem {α : Type} (row : List (Nat × α)) (k : Nat) (d : α)
    (hk : k ∈ row.map Prod.fst) : mapTouch row k d = row := by
  have : (mapFind row k).isSome = true := (mapFind_isSome_iff _ k).2 hk
  rw [mapTouch, if_pos this]

theorem mem_keys_of_mapGet_ne {α : Type} (row : List (Nat × α)) (k : Nat) (d : α)
    (h : mapGet row k d ≠ d) : k ∈ row.map Prod.fst := by
  by_contra hk
  exact h (mapGet_of_not_mem row k d hk)

end CGGC


namespace CGGC

/-! ## The cluster map of a partition -/

theorem length_foldl_set {α : Type} (i : α) (cluster : List Nat) :
    ∀ m : List α, (cluster.foldl (fun m v => m.set v i) m).length = m.length := by
  induction cluster with
  | nil => intro m; rfl
  | cons x xs ih => intro m; simp only [List.foldl_cons]; rw [ih, List.length_set]

theorem foldlM_setAt_eq (i : Nat) (cluster : List Nat) :
    ∀ m : List Nat, (∀ v ∈ cluster, v < m.length) →
      cluster.foldlM (fun m vertex_id => setAt m vertex_id i) m =
        some (cluster.foldl (fun m v => m.set v i) m) := by
  induction cluster with
  | nil => intro m _; rfl
  | cons x xs ih =>
    intro m hlt
    have hx : x < m.length := hlt x (List.mem_cons_self _ _)
    simp only [List.foldlM, setAt, hx, if_true, List.foldl_cons]
    exact ih (m.set x i) (by
      intro v hv; rw [List.length_set]; exact hlt v (List.mem_cons_of_mem _ hv))

theorem membershipLoop_eq :
    ∀ (rest : List (List Nat)) (i : Nat) (m : List Nat),
      (∀ v ∈ rest.flatten, v < m.length) →
      membershipLoop rest i m = some (clustermapLoop rest i m) := by
  intro rest
  induction rest with
  | nil => intro i m _; rfl
  | cons C rest ih =>
    intro i m hlt
    have hC : ∀ v ∈ C, v < m.length := fun v hv => hlt v (by simp [hv])
    simp only [membershipLoop, clustermapLoop, foldlM_setAt_eq i C m hC, Option.bind]
    apply ih
    intro v hv
    rw [length_foldl_set]
    exact hlt v (by simp only [List.flatten_cons, List.mem_append]; exact Or.inr hv)

/-- The cluster map built by the evaluator from a partition: every vertex is mapped to
the index of its cluster. -/
theorem clustermap_spec {n : Nat} {P : Partition} (hP : IsPartition n P) :
    (clustermapLoop P 0 (List.replicate n 0)).length = n ∧
      ∀ j (hj : j < P.length), ∀ v ∈ P[j],
        (clustermapLoop P 0 (List.replicate n 0)).getD v 0 = j := by
  obtain ⟨m, h1, h2, h3⟩ := GetMembershipFromPartition_spec hP
  have h4 := membershipLoop_eq P 0 (List.replicate n 0) (by
    intro v hv; simpa using hP.2.1 v hv)
  rw [GetMembershipFromPartition, h4] at h1
  injection h1 with h1
  rw [h1]
  exact ⟨h2, h3⟩

theorem clustermap_lt {n : Nat} {P : Partition} (hP : IsPartition n P) {v : Nat} (hv : v < n) :
    (clustermapLoop P 0 (List.replicate n 0)).getD v 0 < P.length := by
  obtain ⟨C, hC, hvC⟩ := hP.exists_mem hv
  obtain ⟨j, hj, rfl⟩ := List.getElem_of_mem hC
  rw [(clustermap_spec hP).2 j hj v hvC]
  exact hj

theorem clustermap_eq_iff {n : Nat} {P : Partition} (hP : IsPartition n P) {v : Nat}
    (hv : v < n) (i : Nat) :
    (clustermapLoop P 0 (List.replicate n 0)).getD v 0 = i ↔ v ∈ P.getD i [] := by
  obtain ⟨C, hC, hvC⟩ := hP.exists_mem hv
  obtain ⟨j, hj, rfl⟩ := List.getElem_of_mem hC
  rw [(clustermap_spec hP).2 j hj v hvC]
  constructor
  · intro h; subst h
    rw [List.getD_eq_getElem?_getD, List.getElem?_eq_getElem hj]
    exact hvC
  · intro h
    by_cases hi : i < P.length
    · rw [List.getD_eq_getElem?_getD, List.getElem?_eq_getElem hi] at h
      have := hP.eq_of_mem hC (List.getElem_mem hi) hvC h
      have h5 := (clustermap_spec hP).2 i hi v h
      rw [(clustermap_spec hP).2 j hj v hvC] at h5
      exact h5
    · rw [List.getD_eq_getElem?_getD, List.getElem?_eq_none (Nat.le_of_not_lt hi)] at h
      exact absurd h (List.not_mem_nil _)

/-! ## Counting adjacency entries -/

theorem countP_entriesOf_cons (g : Graph) (p : Nat × Nat → Bool) (u : Nat) (us : List Nat) :
    (g.entriesOf (u :: us)).countP p =
      (g.GetNeighbors u).countP (fun w => decide (u ≠ w) && p (u, w))
        + (g.entriesOf us).countP p := by
  have h1 : g.entriesOf (u :: us) =
      (((g.GetNeighbors u).filter fun w => decide (u ≠ w)).map fun w => (u, w))
        ++ g.entriesOf us := by
    simp [Graph.entriesOf, List.flatMap_cons]
  rw [h1, List.countP_append, List.countP_map, List.countP_filter]
  congr 1
  apply List.countP_congr
  intro w _
  simp [Bool.and_comm]

theorem length_entriesOf_cons (g : Graph) (u : Nat) (us : List Nat) :
    (g.entriesOf (u :: us)).length =
      (g.GetNeighbors u).countP (fun w => decide (u ≠ w)) + (g.entriesOf us).length := by
  have h1 : g.entriesOf (u :: us) =
      (((g.GetNeighbors u).filter fun w => decide (u ≠ w)).map fun w => (u, w))
        ++ g.entriesOf us := by
    simp [Graph.entriesOf, List.flatMap_cons]
  rw [h1, List.length_append, List.length_map, List.countP_eq_length_filter]

theorem mem_entriesOf {g : Graph} {us : List Nat} {e : Nat × Nat} :
    e ∈ g.entriesOf us ↔ e.1 ∈ us ∧ e.2 ∈ g.GetNeighbors e.1 ∧ e.1 ≠ e.2 := by
  obtain ⟨u, w⟩ := e
  simp only [Graph.entriesOf, List.mem_flatMap, List.mem_map, List.mem_filter,
    decide_eq_true_eq, Prod.mk.injEq]
  constructor
  · rintro ⟨a, ha, b, ⟨hb1, hb2⟩, rfl, rfl⟩
    exact ⟨ha, hb1, hb2⟩
  · rintro ⟨h1, h2, h3⟩
    exact ⟨u, h1, w, ⟨h2, h3⟩, rfl, rfl⟩

/-! ## The edge loop of the evaluator -/

theorem evalInner (cm : List Nat) (K i : Nat) (hi : cm.getD i 0 < K) (N : List Nat) :
    ∀ st : List (List (Nat × ℚ)) × Nat, st.1.length = K →
      (∀ a, ((st.1.getD a []).map Prod.fst).Nodup) →
      (N.foldl (evalEdgeStep cm i) st).1.length = K ∧
      (∀ a, (((N.foldl (evalEdgeStep cm i) st).1.getD a []).map Prod.fst).Nodup) ∧
      (∀ a b, mapGet ((N.foldl (evalEdgeStep cm i) st).1.getD a []) b 0 =
        mapGet (st.1.getD a []) b 0 + (N.countP (fun w => decide (i ≠ w) &&
          (decide (cm.getD i 0 = a) && decide (cm.getD w 0 = b))) : ℚ)) ∧
      (∀ a, (((N.foldl (evalEdgeStep cm i) st).1.getD a []).map Prod.snd).sum =
        ((st.1.getD a []).map Prod.snd).sum + (N.countP (fun w => decide (i ≠ w) &&
          decide (cm.getD i 0 = a)) : ℚ)) ∧
      (N.foldl (evalEdgeStep cm i) st).2 = st.2 + N.countP (fun w => decide (i ≠ w)) := by
  induction N with
  | nil => intro st h1 h2; simp [-List.getD_eq_getElem?_getD, h1, h2]
  | cons x xs ih =>
    intro st h1 h2
    simp only [List.foldl_cons]
    by_cases hx : i = x
    · have hstep : evalEdgeStep cm i st x = st := by
        unfold evalEdgeStep; rw [if_pos hx]
      rw [hstep]
      obtain ⟨r1, r2, r3, r4, r5⟩ := ih st h1 h2
      refine ⟨r1, r2, ?_, ?_, ?_⟩
      · intro a b; rw [r3 a b, List.countP_cons]; simp [-List.getD_eq_getElem?_getD, hx]
      · intro a; rw [r4 a, List.countP_cons]; simp [-List.getD_eq_getElem?_getD, hx]
      · rw [r5, List.countP_cons]; simp [-List.getD_eq_getElem?_getD, hx]
    · have hlt : cm.getD i 0 < st.1.length := by rw [h1]; exact hi
      obtain ⟨b1, b2, b3⟩ := bump_spec (st.1.getD (cm.getD i 0) []) (cm.getD x 0)
        (h2 (cm.getD i 0))
      have hstep : evalEdgeStep cm i st x =
          (st.1.set (cm.getD i 0)
            (if (mapFind (st.1.getD (cm.getD i 0) []) (cm.getD x 0)).isSome
              then mapUpdate (fun x => x + 1) (st.1.getD (cm.getD i 0) []) (cm.getD x 0)
              else st.1.getD (cm.getD i 0) [] ++ [(cm.getD x 0, 1)]), st.2 + 1) := by
        unfold evalEdgeStep; rw [if_neg hx]
      rw [hstep]
      generalize (if (mapFind (st.1.getD (cm.getD i 0) []) (cm.getD x 0)).isSome
              then mapUpdate (fun x => x + 1) (st.1.getD (cm.getD i 0) []) (cm.getD x 0)
              else st.1.getD (cm.getD i 0) [] ++ [(cm.getD x 0, 1)]) = row2 at b1 b2 b3
      obtain ⟨r1, r2, r3, r4, r5⟩ := ih (st.1.set (cm.getD i 0) row2, st.2 + 1)
        (by rw [List.length_set]; exact h1)
        (by
          intro a
          dsimp only
          rw [getD_set_eq]
          by_cases ha : cm.getD i 0 = a
          · rw [if_pos ⟨ha, hlt⟩]; exact b1
          · rw [if_neg (fun h => ha h.1)]; exact h2 a)
      refine ⟨r1, r2, ?_, ?_, ?_⟩
      · intro a b
        rw [r3 a b, List.countP_cons]
        dsimp only
        rw [getD_set_eq]
        by_cases ha : cm.getD i 0 = a
        · rw [if_pos ⟨ha, hlt⟩, b2 b]
          subst ha
          by_cases hb : cm.getD x 0 = b
          · simp [-List.getD_eq_getElem?_getD, hx, hb]; ring
          · simp [-List.getD_eq_getElem?_getD, hx, hb]
        · rw [if_neg (fun h => ha h.1)]
          simp [-List.getD_eq_getElem?_getD, hx, ha]
      · intro a
        rw [r4 a, List.countP_cons]
        dsimp only
        rw [getD_set_eq]
        by_cases ha : cm.getD i 0 = a
        · rw [if_pos ⟨ha, hlt⟩, b3]
          subst ha
          simp [-List.getD_eq_getElem?_getD, hx]; ring
        · rw [if_neg (fun h => ha h.1)]
          simp [-List.getD_eq_getElem?_getD, hx, ha]
      · rw [r5, List.countP_cons]
        simp [-List.getD_eq_getElem?_getD, hx]; ring

theorem evalOuter (g : Graph) (cm : List Nat) (K : Nat) (us : List Nat) :
    ∀ st : List (List (Nat × ℚ)) × Nat, (∀ u ∈ us, cm.getD u 0 < K) → st.1.length = K →
      (∀ a, ((st.1.getD a []).map Prod.fst).Nodup) →
      (us.foldl (fun st i => (g.GetNeighbors i).foldl (evalEdgeStep cm i) st) st).1.length = K ∧
      (∀ a, (((us.foldl (fun st i => (g.GetNeighbors i).foldl (evalEdgeStep cm i) st) st).1.getD
        a []).map Prod.fst).Nodup) ∧
      (∀ a b, mapGet ((us.foldl (fun st i => (g.GetNeighbors i).foldl (evalEdgeStep cm i) st)
          st).1.getD a []) b 0 =
        mapGet (st.1.getD a []) b 0 + ((g.entriesOf us).countP (fun e =>
          decide (cm.getD e.1 0 = a) && decide (cm.getD e.2 0 = b)) : ℚ)) ∧
      (∀ a, (((us.foldl (fun st i => (g.GetNeighbors i).foldl (evalEdgeStep cm i) st) st).1.getD
          a []).map Prod.snd).sum =
        ((st.1.getD a []).map Prod.snd).sum + ((g.entriesOf us).countP (fun e =>
          decide (cm.getD e.1 0 = a)) : ℚ)) ∧
      (us.foldl (fun st i => (g.GetNeighbors i).foldl (evalEdgeStep cm i) st) st).2 =
        st.2 + (g.entriesOf us).length := by
  induction us with
  | nil => intro st _ h1 h2; simp [-List.getD_eq_getElem?_getD, h1, h2, Graph.entriesOf]
  | cons u us ih =>
    intro st hlt h1 h2
    simp only [List.foldl_cons]
    obtain ⟨i1, i2, i3, i4, i5⟩ := evalInner cm K u (hlt u (List.mem_cons_self _ _))
      (g.GetNeighbors u) st h1 h2
    obtain ⟨r1, r2, r3, r4, r5⟩ := ih ((g.GetNeighbors u).foldl (evalEdgeStep cm u) st)
      (fun v hv => hlt v (List.mem_cons_of_mem _ hv)) i1 i2
    refine ⟨r1, r2, ?_, ?_, ?_⟩
    · intro a b
      rw [r3 a b, i3 a b, countP_entriesOf_cons]
      push_cast; ring
    · intro a
      rw [r4 a, i4 a, countP_entriesOf_cons]
      push_cast; ring
    · rw [r5, i5, length_entriesOf_cons]; ring

/-! ## Normalisation of a row -/

theorem sum_mapGet_keys (row : List (Nat × ℚ)) (hnd : (row.map Prod.fst).Nodup) :
    ((row.map Prod.fst).map (fun k => mapGet row k 0)).sum = (row.map Prod.snd).sum := by
  induction row with
  | nil => rfl
  | cons e r ih =>
    obtain ⟨k1, v1⟩ := e
    simp only [List.map_cons, List.nodup_cons] at hnd
    simp only [List.map_cons, List.sum_cons]
    have h1 : mapGet ((k1, v1) :: r) k1 0 = v1 := by simp [mapGet, mapFind]
    rw [h1, ← ih hnd.2]
    congr 1
    congr 1
    apply List.map_congr_left
    intro k hk
    have : k1 ≠ k := fun h => hnd.1 (h ▸ hk)
    simp [mapGet, mapFind, this]

theorem sum_map_div {α : Type} (f : α → ℚ) (c : ℚ) (l : List α) :
    (l.map (fun x => f x / c)).sum = (l.map f).sum / c := by
  induction l with
  | nil => simp
  | cons x xs ih => simp only [List.map_cons, List.sum_cons, ih]; ring

theorem normLoop_spec (ec : ℚ) (hec : ec ≠ 0) (ks : List Nat) :
    ∀ (r : List (Nat × ℚ)) (a : ℚ), ks.Nodup → (∀ k ∈ ks, k ∈ r.map Prod.fst) →
      ∃ r2, ks.foldlM (normStep ec) (r, a) =
          some (r2, a + (ks.map (fun k => mapGet r k 0 / ec)).sum) ∧
        ∀ j, mapFind r2 j = if j ∈ ks then (mapFind r j).map (fun x => x / ec)
          else mapFind r j := by
  induction ks with
  | nil => intro r a _ _; exact ⟨r, by simp [List.foldlM], by simp⟩
  | cons k ks ih =>
    intro r a hnd hsub
    have hk : k ∈ r.map Prod.fst := hsub k (List.mem_cons_self _ _)
    rw [List.nodup_cons] at hnd
    obtain ⟨v, hv⟩ := Option.isSome_iff_exists.1 ((mapFind_isSome_iff r k).2 hk)
    have hget : mapGet r k 0 = v := by simp [mapGet, hv]
    have hget1 : mapGet (mapUpdate (fun _ => v / ec) r k) k 0 = v / ec := by
      rw [mapGet_mapUpdate _ _ _ _ _ hk, if_pos rfl]
    obtain ⟨r2, h1, h2⟩ := ih (mapUpdate (fun _ => v / ec) r k) (a + v / ec) hnd.2 (by
      intro k2 hk2; rw [map_fst_mapUpdate]; exact hsub k2 (List.mem_cons_of_mem _ hk2))
    refine ⟨r2, ?_, ?_⟩
    · have hstep : normStep ec (r, a) k =
          some (mapUpdate (fun _ => v / ec) r k, a + v / ec) := by
        simp only [normStep, fdiv, hec, if_false, hget, Option.map_some', hget1]
      simp only [List.foldlM, hstep, Option.bind_eq_bind, Option.some_bind]
      rw [h1]
      have hsum : (ks.map (fun k2 => mapGet (mapUpdate (fun _ => v / ec) r k) k2 0 / ec)).sum
          = (ks.map (fun k2 => mapGet r k2 0 / ec)).sum := by
        congr 1
        apply List.map_congr_left
        intro k2 hk2
        have hne : k ≠ k2 := fun h => hnd.1 (h ▸ hk2)
        rw [mapGet_mapUpdate _ _ _ _ _ hk, if_neg hne]
      rw [hsum, List.map_cons, List.sum_cons, hget]
      congr 2
      ring
    · intro j
      rw [h2 j, mapFind_mapUpdate]
      by_cases hj : k = j
      · subst hj
        simp [hnd.1, hv]
      · have hj2 : ¬ j = k := fun h => hj h.symm
        simp [hj, hj2]

theorem normRow_spec (ec : ℚ) (hec : ec ≠ 0) (row : List (Nat × ℚ))
    (hnd : (row.map Prod.fst).Nodup) :
    ∃ r2, normRow ec row = some (r2, (row.map Prod.snd).sum / ec) ∧
      ∀ j, mapFind r2 j = (mapFind row j).map (fun x => x / ec) := by
  obtain ⟨r2, h1, h2⟩ := normLoop_spec ec hec (row.map Prod.fst) row 0 hnd (fun _ h => h)
  refine ⟨r2, ?_, ?_⟩
  · rw [normRow, h1]
    have : ((row.map Prod.fst).map (fun k => mapGet row k 0 / ec)).sum
        = (row.map Prod.snd).sum / ec := by
      rw [← sum_mapGet_keys row hnd, sum_map_div]
    rw [this, zero_add]
  · intro j
    rw [h2 j]
    by_cases hj : j ∈ row.map Prod.fst
    · rw [if_pos hj]
    · rw [if_neg hj]
      have : mapFind row j = none := by
        cases hf : mapFind row j with
        | none => rfl
        | some x => exact absurd ((mapFind_isSome_iff row j).1 (by rw [hf]; rfl)) hj
      rw [this]; rfl

theorem mapM_normRow (ec : ℚ) (hec : ec ≠ 0) (e : List (List (Nat × ℚ)))
    (hnd : ∀ row ∈ e, (row.map Prod.fst).Nodup) :
    ∃ rows, e.mapM (normRow ec) = some rows ∧
      ∀ i, (rows.getD i ([], 0)).2 = ((e.getD i []).map Prod.snd).sum / ec ∧
        ∀ j, mapFind (rows.getD i ([], 0)).1 j =
          (mapFind (e.getD i []) j).map (fun x => x / ec) := by
  induction e with
  | nil =>
    refine ⟨[], rfl, ?_⟩
    intro i
    simp [mapFind]
  | cons row e ih =>
    obtain ⟨rows, h1, h2⟩ := ih (fun r hr => hnd r (List.mem_cons_of_mem _ hr))
    obtain ⟨r2, h3, h4⟩ := normRow_spec ec hec row (hnd row (List.mem_cons_self _ _))
    refine ⟨(r2, (row.map Prod.snd).sum / ec) :: rows, ?_, ?_⟩
    · rw [List.mapM_cons, h3, h1]; rfl
    · intro i
      cases i with
      | zero => exact ⟨rfl, h4⟩
      | succ i => exact h2 i

/-! ## The final sum -/

theorem qStep_eq (rows : List (List (Nat × ℚ) × ℚ)) (Q : ℚ) (i : Nat) :
    qStep rows Q i = Q + qStep rows 0 i := by
  cases h : mapFind (rows.getD i ([], 0)).1 i <;>
    simp [-List.getD_eq_getElem?_getD, qStep, h]

theorem foldl_qStep (rows : List (List (Nat × ℚ) × ℚ)) (K : Nat) :
    (List.range K).foldl (qStep rows) 0 = ∑ i ∈ Finset.range K, qStep rows 0 i := by
  induction K with
  | zero => simp
  | succ K ih =>
    rw [List.range_succ, List.foldl_append, ih, Finset.sum_range_succ]
    simp only [List.foldl_cons, List.foldl_nil]
    rw [qStep_eq]

theorem getD_replicate_nil {α : Type} (K a : Nat) :
    (List.replicate K ([] : List α)).getD a [] = [] := by
  rw [List.getD_eq_getElem?_getD]
  by_cases h : a < K
  · simp [List.getElem?_replicate, h]
  · simp [List.getElem?_replicate, h]

/-- The evaluator in terms of its cluster map: with at least one non-loop adjacency entry the
result is `Σ_i (E_ii / T - (D_i / T)^2)`, the counts being taken under the cluster map. -/
theorem GetModularity_eq_cm (g : Graph) (P : Partition)
    (hT : g.entries.length ≠ 0)
    (hcm : ∀ u, u < g.vertex_count →
      (clustermapLoop P 0 (List.replicate g.vertex_count 0)).getD u 0 < P.length) :
    GetModularityFromClustering g P = some (∑ i ∈ Finset.range P.length,
      (((g.entries.countP (fun e =>
          decide ((clustermapLoop P 0 (List.replicate g.vertex_count 0)).getD e.1 0 = i) &&
          decide ((clustermapLoop P 0 (List.replicate g.vertex_count 0)).getD e.2 0 = i)) : ℕ) : ℚ)
          / (g.entries.length : ℚ)
        - (((g.entries.countP (fun e =>
          decide ((clustermapLoop P 0 (List.replicate g.vertex_count 0)).getD e.1 0 = i)) : ℕ) : ℚ)
          / (g.entries.length : ℚ)) * (((g.entries.countP (fun e =>
          decide ((clustermapLoop P 0 (List.replicate g.vertex_count 0)).getD e.1 0 = i)) : ℕ) : ℚ)
          / (g.entries.length : ℚ)))) := by
  generalize hcmdef : clustermapLoop P 0 (List.replicate g.vertex_count 0) = cm at hcm
  obtain ⟨e1, e2, e3, e4, e5⟩ := evalOuter g cm P.length (List.range g.vertex_count)
    (List.replicate P.length [], 0) (fun u hu => hcm u (List.mem_range.1 hu))
    (by simp) (by intro a; rw [getD_replicate_nil]; simp)
  have hloop : evalEdgeLoop g cm P.length =
      (List.range g.vertex_count).foldl
        (fun st i => (g.GetNeighbors i).foldl (evalEdgeStep cm i) st)
        (List.replicate P.length [], 0) := rfl
  rw [← hloop] at e1 e2 e3 e4 e5
  have hec : ((evalEdgeLoop g cm P.length).2 : ℚ) = (g.entries.length : ℚ) := by
    rw [e5]; simp [Graph.entries]
  have hec0 : ((evalEdgeLoop g cm P.length).2 : ℚ) ≠ 0 := by
    rw [hec]; exact_mod_cast hT
  obtain ⟨rows, hr1, hr2⟩ := mapM_normRow _ hec0 (evalEdgeLoop g cm P.length).1 (by
    intro row hrow
    obtain ⟨a, ha, rfl⟩ := List.getElem_of_mem hrow
    have := e2 a
    rw [List.getD_eq_getElem?_getD, List.getElem?_eq_getElem ha] at this
    exact this)
  have hrun : GetModularityFromClustering g P =
      some ((List.range P.length).foldl (qStep rows) 0) := by
    simp only [GetModularityFromClustering, hcmdef, hr1, Option.map_some']
  rw [hrun, foldl_qStep]
  congr 1
  apply Finset.sum_congr rfl
  intro i _
  obtain ⟨ha, hf⟩ := hr2 i
  have hget := e3 i i
  have hsum := e4 i
  rw [getD_replicate_nil] at hget hsum
  simp only [mapGet, mapFind, Option.getD_none, List.map_nil, List.sum_nil, zero_add] at hget hsum
  unfold qStep
  dsimp only
  rw [ha, hf i, hsum, hec]
  cases hfi : mapFind ((evalEdgeLoop g cm P.length).1.getD i []) i with
  | none =>
    rw [hfi] at hget
    simp only [Option.getD_none] at hget
    simp only [Option.map_none', Graph.entries]
    rw [← hget]; ring
  | some x =>
    rw [hfi] at hget
    simp only [Option.getD_some] at hget
    simp only [Option.map_some', Graph.entries]
    rw [← hget]; ring

/-! ## The closed form over the clusters of the partition -/

theorem sum_countP_fiber {α : Type} (p : α → Bool) (f : α → Nat) (K : Nat) (L : List α)
    (hf : ∀ x ∈ L, f x < K) :
    ∑ j ∈ Finset.range K, L.countP (fun x => p x && decide (f x = j)) = L.countP p := by
  induction L with
  | nil => simp
  | cons x xs ih =>
    have hx : f x < K := hf x (List.mem_cons_self _ _)
    simp only [List.countP_cons]
    rw [Finset.sum_add_distrib, ih (fun y hy => hf y (List.mem_cons_of_mem _ hy))]
    congr 1
    by_cases hp : p x = true
    · simp only [hp, Bool.true_and, decide_eq_true_eq, if_true]
      rw [Finset.sum_ite_eq]
      simp [hx]
    · simp [hp]

theorem entryCount_eq_cm (g : Graph) (hg : g.WellFormed) {P : Partition}
    (hP : IsPartition g.vertex_count P) (i j : Nat) :
    entryCount g P i j = g.entries.countP (fun e =>
      decide ((clustermapLoop P 0 (List.replicate g.vertex_count 0)).getD e.1 0 = i) &&
      decide ((clustermapLoop P 0 (List.replicate g.vertex_count 0)).getD e.2 0 = j)) := by
  unfold entryCount
  apply List.countP_congr
  intro e he
  obtain ⟨h1, h2, _⟩ := mem_entriesOf.1 he
  have hu : e.1 < g.vertex_count := List.mem_range.1 h1
  have hw : e.2 < g.vertex_count := hg e.1 hu e.2 h2
  rw [Bool.and_eq_true, decide_eq_true_eq, decide_eq_true_eq, decide_eq_true_eq,
    clustermap_eq_iff hP hu, clustermap_eq_iff hP hw]

theorem sum_entryCount (g : Graph) (hg : g.WellFormed) {P : Partition}
    (hP : IsPartition g.vertex_count P) (i : Nat) :
    ∑ j ∈ Finset.range P.length, entryCount g P i j = g.entries.countP (fun e =>
      decide ((clustermapLoop P 0 (List.replicate g.vertex_count 0)).getD e.1 0 = i)) := by
  rw [← sum_countP_fiber _ (fun e : Nat × Nat =>
    (clustermapLoop P 0 (List.replicate g.vertex_count 0)).getD e.2 0) P.length]
  · apply Finset.sum_congr rfl
    intro j _
    exact entryCount_eq_cm g hg hP i j
  · intro e he
    obtain ⟨h1, h2, _⟩ := mem_entriesOf.1 he
    exact clustermap_lt hP (hg e.1 (List.mem_range.1 h1) e.2 h2)

/-- The evaluator equals the closed form over the clusters of the partition. -/
theorem GetModularity_closedForm (g : Graph) (hg : g.WellFormed) {P : Partition}
    (hP : IsPartition g.vertex_count P) (hT : 1 ≤ g.entries.length) :
    GetModularityFromClustering g P = some (closedFormQ g P) := by
  rw [GetModularity_eq_cm g P (by omega) (fun u hu => clustermap_lt hP hu)]
  congr 1
  unfold closedFormQ
  apply Finset.sum_congr rfl
  intro i _
  rw [← entryCount_eq_cm g hg hP i i, ← sum_entryCount g hg hP i]
  push_cast
  ring

/-- **C2.** With at least one non-loop adjacency entry, on every partition of the vertex set
(empty clusters allowed) `GetModularityFromClustering` returns the closed form
`Σ_i (E_ii / T - (Σ_j E_ij / T)^2)` over the clusters, a cluster without a diagonal entry
contributing `-(a_i)^2`; on two disjoint triangles with the clusters `{0,1,2}` and `{3,4,5}`
the value is exactly `1/2`. -/
theorem C2_modularity_closed_form :
    (∀ (g : Graph) (P : Partition), g.WellFormed → IsPartition g.vertex_count P →
      1 ≤ g.entries.length →
      GetModularityFromClustering g P = some (closedFormQ g P) ∧
      closedFormQ g P = ∑ i ∈ Finset.range P.length,
        (if entryCount g P i i = 0 then
            - ((∑ j ∈ Finset.range P.length, (entryCount g P i j : ℚ))
                / (g.entries.length : ℚ)) ^ 2
          else (entryCount g P i i : ℚ) / (g.entries.length : ℚ)
            - ((∑ j ∈ Finset.range P.length, (entryCount g P i j : ℚ))
                / (g.entries.length : ℚ)) ^ 2)) ∧
    GetModularityFromClustering twoTriangles [[0, 1, 2], [3, 4, 5]] = some (1 / 2) := by
  refine ⟨fun g P hg hP hT => ⟨GetModularity_closedForm g hg hP hT, ?_⟩, ?_⟩
  · unfold closedFormQ
    apply Finset.sum_congr rfl
    intro i _
    by_cases h : entryCount g P i i = 0
    · rw [if_pos h, h]; simp
    · rw [if_neg h]
  · with_unfolding_all rfl

/-- Witness for C2: the two triangles with the partition into the two triangles. -/
theorem C2_modularity_closed_form_witness :
    twoTriangles.WellFormed ∧ IsPartition 6 [[0, 1, 2], [3, 4, 5]] ∧
      1 ≤ twoTriangles.entries.length ∧
      GetModularityFromClustering twoTriangles [[0, 1, 2], [3, 4, 5]]
        = some (closedFormQ twoTriangles [[0, 1, 2], [3, 4, 5]]) :=
  ⟨by decide, by decide, by decide,
    (C2_modularity_closed_form.1 twoTriangles [[0, 1, 2], [3, 4, 5]] (by decide) (by decide)
      (by decide)).1⟩

end CGGC


namespace CGGC

/-! ## The evaluator on a graph without non-loop entries -/

theorem evalInner_noop (cm : List Nat) (i : Nat) (N : List Nat) (hN : ∀ w ∈ N, i = w)
    (st : List (List (Nat × ℚ)) × Nat) : N.foldl (evalEdgeStep cm i) st = st := by
  induction N with
  | nil => rfl
  | cons x xs ih =>
    have hx : i = x := hN x (List.mem_cons_self _ _)
    have hstep : evalEdgeStep cm i st x = st := by
      unfold evalEdgeStep; rw [if_pos hx]
    rw [List.foldl_cons, hstep]
    exact ih (fun w hw => hN w (List.mem_cons_of_mem _ hw))

theorem evalOuter_noop (g : Graph) (cm : List Nat) (us : List Nat)
    (h : ∀ u ∈ us, ∀ w ∈ g.GetNeighbors u, u = w) (st : List (List (Nat × ℚ)) × Nat) :
    us.foldl (fun st i => (g.GetNeighbors i).foldl (evalEdgeStep cm i) st) st = st := by
  induction us with
  | nil => rfl
  | cons u us ih =>
    rw [List.foldl_cons, evalInner_noop cm u _ (h u (List.mem_cons_self _ _))]
    exact ih (fun v hv => h v (List.mem_cons_of_mem _ hv))

theorem only_loops_of_entries_nil (g : Graph) (h : g.entries = []) :
    ∀ u ∈ List.range g.vertex_count, ∀ w ∈ g.GetNeighbors u, u = w := by
  intro u hu w hw
  by_contra hne
  have : (u, w) ∈ g.entries := mem_entriesOf.2 ⟨hu, hw, hne⟩
  rw [h] at this
  exact absurd this (List.not_mem_nil _)

theorem mapM_normRow_replicate (ec : ℚ) (K : Nat) :
    (List.replicate K ([] : List (Nat × ℚ))).mapM (normRow ec)
      = some (List.replicate K ([], 0)) := by
  induction K with
  | zero => rfl
  | succ K ih =>
    rw [List.replicate_succ, List.mapM_cons, ih]
    rfl

theorem foldl_qStep_replicate (K : Nat) (L : List Nat) (Q : ℚ) :
    L.foldl (qStep (List.replicate K ([], 0))) Q = Q := by
  induction L generalizing Q with
  | nil => rfl
  | cons i L ih =>
    have hrow : (List.replicate K (([] : List (Nat × ℚ)), (0 : ℚ))).getD i ([], 0) = ([], 0) := by
      rw [List.getD_eq_getElem?_getD]
      by_cases h : i < K
      · simp [List.getElem?_replicate, h]
      · simp [List.getElem?_replicate, h]
    have hstep : qStep (List.replicate K ([], 0)) Q i = Q := by
      unfold qStep
      rw [hrow]
      simp [mapFind]
    rw [List.foldl_cons, hstep]
    exact ih Q

/-- On a graph without non-loop adjacency entries the evaluator returns `0` without
dividing, whatever the clusters are. -/
theorem GetModularity_degenerate (g : Graph) (P : Partition) (h : g.entries = []) :
    GetModularityFromClustering g P = some 0 := by
  have hloop : evalEdgeLoop g (clustermapLoop P 0 (List.replicate g.vertex_count 0)) P.length
      = (List.replicate P.length [], 0) := by
    unfold evalEdgeLoop
    exact evalOuter_noop g _ _ (only_loops_of_entries_nil g h) _
  simp only [GetModularityFromClustering, hloop, mapM_normRow_replicate, Option.map_some',
    foldl_qStep_replicate]

/-- **C9.** For every graph without non-loop adjacency entries (self-loops allowed) and
every partition, `GetModularityFromClustering` returns exactly `0`; the result `some` of the
model records that no division by the zero edge count was executed. -/
theorem C9_evaluator_degenerate (g : Graph) (P : Partition) (h : g.entries = []) :
    GetModularityFromClustering g P = some 0 :=
  GetModularity_degenerate g P h

/-- Witness for C9: five vertices of which vertex `2` carries a self-loop, no other entry. -/
theorem C9_evaluator_degenerate_witness :
    (⟨5, fun v => if v = 2 then [2] else []⟩ : Graph).entries = [] ∧
      GetModularityFromClustering ⟨5, fun v => if v = 2 then [2] else []⟩
        [[0, 1], [2], [], [3, 4]] = some 0 :=
  ⟨by decide, C9_evaluator_degenerate _ _ (by decide)⟩

end CGGC


namespace CGGC

/-! ## Slots of the partition builder -/

theorem slotFun_eq_of_lt {sl : List (Option (List Nat))} {i : Nat} (h : i < sl.length) :
    slotFun sl i = sl[i] := by
  unfold slotFun
  rw [List.getD_eq_getElem?_getD, List.getElem?_eq_getElem h]; rfl

theorem slotFun_eq_none_of_le {sl : List (Option (List Nat))} {i : Nat} (h : sl.length ≤ i) :
    slotFun sl i = none := by
  unfold slotFun
  rw [List.getD_eq_getElem?_getD, List.getElem?_eq_none h]; rfl

theorem slotFun_set (sl : List (Option (List Nat))) (a : Nat) (x : Option (List Nat))
    (ha : a < sl.length) (i : Nat) :
    slotFun (sl.set a x) i = if i = a then x else slotFun sl i := by
  unfold slotFun
  rw [getD_set_eq]
  by_cases h : a = i
  · subst h; simp [ha]
  · have : ¬ i = a := fun h2 => h h2.symm
    simp [h, this]

theorem RemoveEmptyEntries_eq_specCompact (sl : List (Option (List Nat))) :
    RemoveEmptyEntries sl = specCompact sl.length (slotFun sl) := by
  have h : (List.range sl.length).map (fun i => sl.getD i none) = sl := by
    apply List.ext_getElem
    · simp
    · intro i h1 h2
      simp only [List.getElem_map, List.getElem_range]
      rw [List.getD_eq_getElem?_getD, List.getElem?_eq_getElem h2]; rfl
  unfold RemoveEmptyEntries specCompact
  conv_lhs => rw [← h]
  rw [List.filterMap_map]
  rfl

theorem joinStep_spec (sl : List (Option (List Nat))) (a b : Nat) (hab : a ≠ b)
    (ha : content (slotFun sl) a ≠ []) (hb : content (slotFun sl) b ≠ []) :
    ∃ sl2, joinStep sl (a, b) = some sl2 ∧ sl2.length = sl.length ∧
      slotFun sl2 = specJoin (slotFun sl) (a, b) := by
  have hla : a < sl.length := by
    by_contra h
    rw [content, slotFun_eq_none_of_le (Nat.le_of_not_lt h)] at ha
    exact ha rfl
  have hlb : b < sl.length := by
    by_contra h
    rw [content, slotFun_eq_none_of_le (Nat.le_of_not_lt h)] at hb
    exact hb rfl
  cases hsa : sl[a] with
  | none =>
    rw [content, slotFun_eq_of_lt hla, hsa] at ha
    exact absurd rfl ha
  | some la =>
    cases hsb : sl[b] with
    | none =>
      rw [content, slotFun_eq_of_lt hlb, hsb] at hb
      exact absurd rfl hb
    | some lb =>
      refine ⟨(sl.set a (some (la ++ lb))).set b none, ?_, by simp, ?_⟩
      · simp only [joinStep, List.getElem?_eq_getElem hla, List.getElem?_eq_getElem hlb, hsa, hsb,
          if_neg hab]
      · funext i
        rw [slotFun_set _ _ _ (by simpa using hlb), slotFun_set _ _ _ hla]
        simp only [specJoin, slotFun_eq_of_lt hla, slotFun_eq_of_lt hlb, hsa, hsb,
          Option.getD_some]

theorem replay_range_eq_take (joins : List (Nat × Nat)) (k : Nat) (hk : k ≤ joins.length)
    (sl : List (Option (List Nat))) :
    (List.range k).foldlM (fun s step => (joins[step]?).bind (joinStep s)) sl =
      (joins.take k).foldlM joinStep sl := by
  induction k with
  | zero => simp
  | succ k ih =>
    have hk2 : k < joins.length := hk
    rw [List.range_succ, List.foldlM_append, ih (Nat.le_of_lt hk2), List.take_succ,
      List.foldlM_append, List.getElem?_eq_getElem hk2]
    congr 1
    funext init
    simp only [List.foldlM, List.getElem?_eq_getElem hk2, Option.toList, Option.bind_eq_bind,
      Option.some_bind, bind_pure]

/-! ## The replay on slot functions -/

theorem content_specJoin (s : Nat → Option (List Nat)) (a b i : Nat) :
    content (specJoin s (a, b)) i =
      if i = b then [] else if i = a then content s a ++ content s b else content s i := by
  unfold content specJoin
  by_cases h1 : i = b
  · simp [h1]
  · by_cases h2 : i = a
    · subst h2; simp [h1]
    · simp [h1, h2]

theorem SlotInv.join {m n : Nat} {s : Nat → Option (List Nat)} {live : List Nat}
    (h : SlotInv m n s live) {a b : Nat} (hab : a ≠ b) (ha : a ∈ live) :
    SlotInv m n (specJoin s (a, b)) (live.erase b) := by
  have hca := (h.live_iff a).1 ha
  have hmem : ∀ i v, v ∈ content (specJoin s (a, b)) i →
      (i ≠ b ∧ ((i = a ∧ (v ∈ content s a ∨ v ∈ content s b)) ∨ (i ≠ a ∧ v ∈ content s i))) := by
    intro i v hv
    rw [content_specJoin] at hv
    by_cases h1 : i = b
    · rw [if_pos h1] at hv; exact absurd hv (List.not_mem_nil _)
    · rw [if_neg h1] at hv
      by_cases h2 : i = a
      · rw [if_pos h2, List.mem_append] at hv; exact ⟨h1, Or.inl ⟨h2, hv⟩⟩
      · rw [if_neg h2] at hv; exact ⟨h1, Or.inr ⟨h2, hv⟩⟩
  refine ⟨h.live_nodup.erase b, ?_, ?_, ?_, ?_, ?_⟩
  · intro i
    rw [h.live_nodup.mem_erase_iff, content_specJoin]
    by_cases h1 : i = b
    · simp [h1]
    · by_cases h2 : i = a
      · subst h2
        simp only [h1, if_false, if_true, ne_eq, not_false_eq_true, true_and]
        constructor
        · intro _ hnil
          exact hca (List.append_eq_nil.1 hnil).1
        · intro _; exact ha
      · simp only [h1, h2, if_false, ne_eq, not_false_eq_true, true_and]
        exact h.live_iff i
  · intro i hi
    rw [content_specJoin] at hi
    by_cases h1 : i = b
    · rw [if_pos h1] at hi; exact absurd rfl hi
    · rw [if_neg h1] at hi
      by_cases h2 : i = a
      · rw [h2]; exact h.bound a hca
      · rw [if_neg h2] at hi; exact h.bound i hi
  · intro i
    rw [content_specJoin]
    by_cases h1 : i = b
    · rw [if_pos h1]; exact List.nodup_nil
    · rw [if_neg h1]
      by_cases h2 : i = a
      · rw [if_pos h2, List.nodup_append]
        exact ⟨h.nodup a, h.nodup b, fun v hva hvb => hab (h.disj a b v hva hvb)⟩
      · rw [if_neg h2]; exact h.nodup i
  · intro i j v hvi hvj
    obtain ⟨hi1, hi2⟩ := hmem i v hvi
    obtain ⟨hj1, hj2⟩ := hmem j v hvj
    rcases hi2 with ⟨hia, hi3⟩ | ⟨hia, hi3⟩
    · rcases hj2 with ⟨hja, _⟩ | ⟨hja, hj3⟩
      · rw [hia, hja]
      · rcases hi3 with hi3 | hi3
        · exact absurd (h.disj j a v hj3 hi3) hja
        · exact absurd (h.disj j b v hj3 hi3) hj1
    · rcases hj2 with ⟨hja, hj3⟩ | ⟨_, hj3⟩
      · rcases hj3 with hj3 | hj3
        · exact absurd (h.disj i a v hi3 hj3) hia
        · exact absurd (h.disj i b v hi3 hj3) hi1
      · exact h.disj i j v hi3 hj3
  · intro v
    rw [h.cover v]
    constructor
    · rintro ⟨i, hi⟩
      by_cases h1 : i = b
      · refine ⟨a, ?_⟩
        rw [content_specJoin, if_neg hab, if_pos rfl, List.mem_append]
        exact Or.inr (h1 ▸ hi)
      · by_cases h2 : i = a
        · refine ⟨a, ?_⟩
          rw [content_specJoin, if_neg hab, if_pos rfl, List.mem_append]
          exact Or.inl (h2 ▸ hi)
        · refine ⟨i, ?_⟩
          rw [content_specJoin, if_neg h1, if_neg h2]
          exact hi
    · rintro ⟨i, hi⟩
      obtain ⟨_, hi2⟩ := hmem i v hi
      rcases hi2 with ⟨_, hi3 | hi3⟩ | ⟨_, hi3⟩
      · exact ⟨a, hi3⟩
      · exact ⟨b, hi3⟩
      · exact ⟨i, hi3⟩

/-- A valid list of joins replays without fault; the resulting slots are those of the
replay in the words of the spec, and the invariant is kept. -/
theorem replay_spec (m n : Nat) (js : List (Nat × Nat)) :
    ∀ (sl : List (Option (List Nat))) (live : List Nat), SlotInv m n (slotFun sl) live →
      validJoins live js = true →
      ∃ sl2 live2, js.foldlM joinStep sl = some sl2 ∧ sl2.length = sl.length ∧
        slotFun sl2 = specReplay js (slotFun sl) ∧ SlotInv m n (slotFun sl2) live2 ∧
        live2.length + js.length = live.length ∧
        (∀ i, content (slotFun sl) i ≠ [] → ∃ k, ∀ v ∈ content (slotFun sl) i,
          v ∈ content (slotFun sl2) k) := by
  induction js with
  | nil =>
    intro sl live hinv _
    exact ⟨sl, live, rfl, rfl, rfl, hinv, rfl, fun i _ => ⟨i, fun v hv => hv⟩⟩
  | cons j js ih =>
    intro sl live hinv hvalid
    obtain ⟨a, b⟩ := j
    simp only [validJoins, Bool.and_eq_true, decide_eq_true_eq] at hvalid
    obtain ⟨⟨⟨hab, ha⟩, hb⟩, hrest⟩ := hvalid
    obtain ⟨sl1, h1, h2, h3⟩ := joinStep_spec sl a b hab ((hinv.live_iff a).1 ha)
      ((hinv.live_iff b).1 hb)
    have hinv1 : SlotInv m n (slotFun sl1) (live.erase b) := by
      rw [h3]; exact hinv.join hab ha
    obtain ⟨sl2, live2, h4, h5, h6, h7, h8, h9⟩ := ih sl1 (live.erase b) hinv1 hrest
    refine ⟨sl2, live2, ?_, by rw [h5, h2], ?_, h7, ?_, ?_⟩
    · simp only [List.foldlM, h1, Option.bind_eq_bind, Option.some_bind]
      exact h4
    · rw [h6, h3]; rfl
    · rw [List.length_erase_of_mem hb] at h8
      have : 0 < live.length := List.length_pos_of_mem hb
      simp only [List.length_cons]
      omega
    · intro i hi
      have hstep : ∃ k, content (slotFun sl1) k ≠ [] ∧
          ∀ v ∈ content (slotFun sl) i, v ∈ content (slotFun sl1) k := by
        rw [h3]
        by_cases hib : i = b
        · refine ⟨a, (hinv1.live_iff a).1 ?_ |> fun h => by rw [h3] at h; exact h, ?_⟩
          · rw [hinv.live_nodup.mem_erase_iff]; exact ⟨hab, ha⟩
          · intro v hv
            rw [content_specJoin, if_neg hab, if_pos rfl, List.mem_append]
            exact Or.inr (hib ▸ hv)
        · by_cases hia : i = a
          · refine ⟨a, (hinv1.live_iff a).1 ?_ |> fun h => by rw [h3] at h; exact h, ?_⟩
            · rw [hinv.live_nodup.mem_erase_iff]; exact ⟨hab, ha⟩
            · intro v hv
              rw [content_specJoin, if_neg hab, if_pos rfl, List.mem_append]
              exact Or.inl (hia ▸ hv)
          · refine ⟨i, ?_, ?_⟩
            · rw [content_specJoin, if_neg hib, if_neg hia]; exact hi
            · intro v hv
              rw [content_specJoin, if_neg hib, if_neg hia]; exact hv
      obtain ⟨k, hk1, hk2⟩ := hstep
      obtain ⟨k2, hk3⟩ := h9 k hk1
      exact ⟨k2, fun v hv => hk3 v (hk2 v hv)⟩

/-! ## Compaction -/

theorem compactFun_eq (s : Nat → Option (List Nat)) (i : Nat) :
    nonEmptySlot (s i) = if content s i = [] then none else some (content s i) := by
  unfold content nonEmptySlot
  cases h : s i with
  | none => simp
  | some l =>
    cases l with
    | nil => simp
    | cons x xs => simp

theorem mem_specCompact {n : Nat} {s : Nat → Option (List Nat)} {C : List Nat} :
    C ∈ specCompact n s ↔ ∃ i, i < n ∧ content s i = C ∧ C ≠ [] := by
  unfold specCompact
  rw [List.mem_filterMap]
  constructor
  · rintro ⟨i, hi, h⟩
    rw [compactFun_eq] at h
    by_cases hc : content s i = []
    · rw [if_pos hc] at h; exact Option.noConfusion h
    · rw [if_neg hc] at h
      injection h with h
      exact ⟨i, List.mem_range.1 hi, h, h ▸ hc⟩
  · rintro ⟨i, hi, h1, h2⟩
    refine ⟨i, List.mem_range.2 hi, ?_⟩
    rw [compactFun_eq, if_neg (h1 ▸ h2), h1]

theorem flatten_filterMap_compact (s : Nat → Option (List Nat)) (l : List Nat) :
    (l.filterMap fun i => nonEmptySlot (s i)).flatten = l.flatMap (content s) := by
  induction l with
  | nil => rfl
  | cons i l ih =>
    rw [List.filterMap_cons, List.flatMap_cons, compactFun_eq]
    by_cases hc : content s i = []
    · rw [if_pos hc, hc]; exact ih
    · rw [if_neg hc]
      simp only [List.flatten_cons, ih]

theorem length_filterMap_compact (s : Nat → Option (List Nat)) (l : List Nat) :
    (l.filterMap fun i => nonEmptySlot (s i)).length = (l.filter fun i => decide (content s i ≠ [])).length := by
  induction l with
  | nil => rfl
  | cons i l ih =>
    rw [List.filterMap_cons, compactFun_eq]
    by_cases hc : content s i = []
    · rw [if_pos hc]
      simp only [List.filter_cons, hc, ne_eq, not_true_eq_false, decide_False]
      exact ih
    · rw [if_neg hc]
      simp only [List.filter_cons, hc, ne_eq, not_false_eq_true, decide_True, if_true,
        List.length_cons, ih]

/-- The compaction of slots that satisfy the invariant is a partition of `{0..n-1}` without
empty cluster, with one cluster per live slot. -/
theorem specCompact_spec {m n : Nat} {s : Nat → Option (List Nat)} {live : List Nat}
    (h : SlotInv m n s live) :
    IsPartition n (specCompact m s) ∧ (∀ C ∈ specCompact m s, C ≠ []) ∧
      (specCompact m s).length = live.length := by
  refine ⟨⟨?_, ?_, ?_⟩, ?_, ?_⟩
  · unfold specCompact
    rw [flatten_filterMap_compact, List.nodup_flatMap]
    refine ⟨fun i _ => h.nodup i, ?_⟩
    apply List.Nodup.pairwise_of_forall_ne (List.nodup_range m)
    intro a _ b _ hab v hva hvb
    exact hab (h.disj a b v hva hvb)
  · intro v hv
    unfold specCompact at hv
    rw [flatten_filterMap_compact, List.mem_flatMap] at hv
    obtain ⟨i, _, hvi⟩ := hv
    exact (h.cover v).2 ⟨i, hvi⟩
  · intro v hv
    obtain ⟨i, hvi⟩ := (h.cover v).1 hv
    unfold specCompact
    rw [flatten_filterMap_compact, List.mem_flatMap]
    exact ⟨i, List.mem_range.2 (h.bound i (List.ne_nil_of_mem hvi)), hvi⟩
  · intro C hC
    obtain ⟨i, _, _, hne⟩ := mem_specCompact.1 hC
    exact hne
  · unfold specCompact
    rw [length_filterMap_compact]
    apply List.Perm.length_eq
    rw [List.perm_ext_iff_of_nodup ((List.nodup_range m).filter _) h.live_nodup]
    intro i
    rw [List.mem_filter, List.mem_range, decide_eq_true_eq, h.live_iff i]
    exact ⟨fun hh => hh.2, fun hh => ⟨h.bound i hh, hh⟩⟩

end CGGC


namespace CGGC

/-! ## GetPartitionFromJoins from singletons -/

theorem slotFun_singletons (n : Nat) :
    slotFun ((List.range n).map fun i => some [i]) = singletonSlots n := by
  funext i
  unfold slotFun singletonSlots
  rw [List.getD_eq_getElem?_getD, List.getElem?_map]
  by_cases h : i < n
  · rw [List.getElem?_range h, if_pos h]; rfl
  · rw [List.getElem?_eq_none (by simpa using h), if_neg h]; rfl

theorem content_singletons (n i : Nat) :
    content (singletonSlots n) i = if i < n then [i] else [] := by
  unfold content singletonSlots
  by_cases h : i < n
  · simp [h]
  · simp [h]

theorem SlotInv_singletons (n : Nat) : SlotInv n n (singletonSlots n) (List.range n) := by
  refine ⟨List.nodup_range n, ?_, ?_, ?_, ?_, ?_⟩
  · intro i
    rw [content_singletons, List.mem_range]
    by_cases h : i < n
    · simp [h]
    · simp [h]
  · intro i hi
    rw [content_singletons] at hi
    by_contra h
    rw [if_neg h] at hi
    exact hi rfl
  · intro i
    rw [content_singletons]
    by_cases h : i < n
    · rw [if_pos h]; exact List.nodup_singleton i
    · rw [if_neg h]; exact List.nodup_nil
  · intro i j v hi hj
    rw [content_singletons] at hi hj
    by_cases h1 : i < n
    · by_cases h2 : j < n
      · rw [if_pos h1, List.mem_singleton] at hi
        rw [if_pos h2, List.mem_singleton] at hj
        rw [← hi, ← hj]
      · rw [if_neg h2] at hj; exact absurd hj (List.not_mem_nil _)
    · rw [if_neg h1] at hi; exact absurd hi (List.not_mem_nil _)
  · intro v
    constructor
    · intro hv
      exact ⟨v, by rw [content_singletons, if_pos hv]; exact List.mem_singleton_self v⟩
    · rintro ⟨i, hi⟩
      rw [content_singletons] at hi
      by_cases h1 : i < n
      · rw [if_pos h1, List.mem_singleton] at hi
        rw [hi]; exact h1
      · rw [if_neg h1] at hi; exact absurd hi (List.not_mem_nil _)

theorem specCompact_singletons (n : Nat) :
    specCompact n (singletonSlots n) = (List.range n).map fun i => [i] := by
  unfold specCompact
  rw [← List.filterMap_eq_map]
  apply List.filterMap_congr
  intro i hi
  simp [singletonSlots, List.mem_range.1 hi, nonEmptySlot]

/-- The builder started from singletons, on a valid prefix of joins. -/
theorem GetPartitionFromJoins_singletons (graph : Graph) (joins : List (Nat × Nat))
    (bestStep : Int) (h2 : bestStep < joins.length)
    (hv : validJoins (List.range graph.vertex_count)
      (joins.take (bestStep + 1).toNat) = true) :
    ∃ R, GetPartitionFromJoins graph joins bestStep none = some R ∧
      IsPartition graph.vertex_count R ∧ (∀ C ∈ R, C ≠ []) ∧
      R.length + (bestStep + 1).toNat = graph.vertex_count ∧
      R = specCompact graph.vertex_count
        (specReplay (joins.take (bestStep + 1).toNat) (singletonSlots graph.vertex_count)) := by
  have hk : (bestStep + 1).toNat ≤ joins.length := by omega
  have hinv0 : SlotInv graph.vertex_count graph.vertex_count
      (slotFun ((List.range graph.vertex_count).map fun i => some [i]))
      (List.range graph.vertex_count) := by
    rw [slotFun_singletons]; exact SlotInv_singletons _
  obtain ⟨sl2, live2, r1, r2, r3, r4, r5, _⟩ := replay_spec graph.vertex_count graph.vertex_count
    (joins.take (bestStep + 1).toNat) _ _ hinv0 hv
  have hlen : sl2.length = graph.vertex_count := by rw [r2]; simp
  have hrun : GetPartitionFromJoins graph joins bestStep none =
      some (RemoveEmptyEntries sl2) := by
    simp only [GetPartitionFromJoins, replayJoins, Option.some_bind,
      replay_range_eq_take joins _ hk, r1, Option.map_some']
  obtain ⟨c1, c2, c3⟩ := specCompact_spec r4
  rw [RemoveEmptyEntries_eq_specCompact, hlen] at hrun
  refine ⟨_, hrun, c1, c2, ?_, ?_⟩
  · rw [c3]
    simp only [List.length_take, List.length_range] at r5
    rw [Nat.min_eq_left hk] at r5
    exact r5
  · rw [r3, slotFun_singletons]

/-- **C6.** `GetPartitionFromJoins` with `partial_partition == NULL`: for a `best_step` with
`-1 ≤ best_step < |joins|` whose records `joins[0..best_step]` are valid (each `(a, b)` has
`a ≠ b` and names two slots not retired by an earlier replayed join), the result is a
partition of `{0..n-1}` without empty cluster that has `n - (best_step + 1)` clusters; it
lists, in increasing slot id, the surviving slots of the replay in which each join `(a, b)`
appends the list of slot `b` to the end of the list of slot `a`; for `best_step = -1` it is
the list of singletons `[0], [1], ..., [n-1]`. -/
theorem C6_GetPartitionFromJoins_singletons (graph : Graph) (joins : List (Nat × Nat))
    (bestStep : Int) (h1 : -1 ≤ bestStep) (h2 : bestStep < joins.length)
    (hv : validJoins (List.range graph.vertex_count)
      (joins.take (bestStep + 1).toNat) = true) :
    ∃ R, GetPartitionFromJoins graph joins bestStep none = some R ∧
      IsPartition graph.vertex_count R ∧ (∀ C ∈ R, C ≠ []) ∧
      (R.length : Int) = (graph.vertex_count : Int) - (bestStep + 1) ∧
      R = specCompact graph.vertex_count
        (specReplay (joins.take (bestStep + 1).toNat) (singletonSlots graph.vertex_count)) ∧
      (bestStep = -1 → R = (List.range graph.vertex_count).map fun i => [i]) := by
  obtain ⟨R, r1, r2, r3, r4, r5⟩ := GetPartitionFromJoins_singletons graph joins bestStep h2 hv
  refine ⟨R, r1, r2, r3, by omega, r5, ?_⟩
  intro hb
  rw [r5, hb]
  exact specCompact_singletons _

/-- Witness for C6: six vertices, three of five recorded joins replayed. -/
theorem C6_GetPartitionFromJoins_singletons_witness :
    ∃ R, GetPartitionFromJoins twoTriangles [(0, 1), (3, 4), (0, 2), (0, 0), (0, 0)] 2 none
        = some R ∧
      IsPartition twoTriangles.vertex_count R ∧ (∀ C ∈ R, C ≠ []) ∧
      (R.length : Int) = (twoTriangles.vertex_count : Int) - (2 + 1) ∧
      R = specCompact twoTriangles.vertex_count
        (specReplay (List.take ((2 : Int) + 1).toNat [(0, 1), (3, 4), (0, 2), (0, 0), (0, 0)])
          (singletonSlots twoTriangles.vertex_count)) ∧
      ((2 : Int) = -1 → R = (List.range twoTriangles.vertex_count).map fun i => [i]) :=
  C6_GetPartitionFromJoins_singletons twoTriangles [(0, 1), (3, 4), (0, 2), (0, 0), (0, 0)] 2
    (by decide) (by decide) (by decide)

end CGGC


namespace CGGC

/-! ## GetPartitionFromJoins from an initial partition -/

theorem set_getElem_same {α : Type} (l : List α) (i : Nat) (h : i < l.length) :
    l.set i l[i] = l := by
  apply List.ext_getElem (by simp)
  intro j h1 h2
  rw [List.getElem_set]
  by_cases hij : i = j
  · subst hij; simp
  · simp [hij]

theorem placeVertex_fold (pos : Nat) (L : List Nat) :
    ∀ (sl : List (Option (List Nat))) (l0 : List Nat) (hpos : pos < sl.length),
      sl[pos] = some l0 →
      L.foldlM (placeVertex pos) sl = some (sl.set pos (some (l0 ++ L))) := by
  induction L with
  | nil =>
    intro sl l0 hpos h
    simp only [List.foldlM, List.append_nil]
    rw [← h, set_getElem_same sl pos hpos]
    rfl
  | cons v L ih =>
    intro sl l0 hpos h
    have hstep : placeVertex pos sl v = some (sl.set pos (some (l0 ++ [v]))) := by
      simp only [placeVertex, List.getElem?_eq_getElem hpos, h]
    simp only [List.foldlM, hstep, Option.bind_eq_bind, Option.some_bind]
    rw [ih (sl.set pos (some (l0 ++ [v]))) (l0 ++ [v]) (by simpa using hpos) (by simp),
      List.set_set]
    simp

theorem placeCluster_spec (sl : List (Option (List Nat))) (x : Nat) (xs : List Nat)
    (hx : slotFun sl x = some []) :
    placeCluster sl (x :: xs) = some (sl.set x (some (x :: xs))) ∧ x < sl.length := by
  have hlt : x < sl.length := by
    by_contra h
    rw [slotFun_eq_none_of_le (Nat.le_of_not_lt h)] at hx
    exact Option.noConfusion hx
  rw [slotFun_eq_of_lt hlt] at hx
  refine ⟨?_, hlt⟩
  have := placeVertex_fold x (x :: xs) sl [] hlt hx
  simpa [placeCluster] using this

theorem placeLoop_spec (Q : List (List Nat)) :
    ∀ (sl : List (Option (List Nat))),
      (∀ C ∈ Q, C ≠ [] ∧ slotFun sl (C.headD 0) = some []) →
      Q.Pairwise (fun C D => C.headD 0 ≠ D.headD 0) →
      ∃ sl2, Q.foldlM placeCluster sl = some sl2 ∧ sl2.length = sl.length ∧
        (∀ C ∈ Q, slotFun sl2 (C.headD 0) = some C) ∧
        (∀ i, (∀ C ∈ Q, C.headD 0 ≠ i) → slotFun sl2 i = slotFun sl i) := by
  induction Q with
  | nil =>
    intro sl _ _
    exact ⟨sl, rfl, rfl, fun _ h => absurd h (List.not_mem_nil _), fun _ _ => rfl⟩
  | cons C Q ih =>
    intro sl hQ hpw
    rw [List.pairwise_cons] at hpw
    obtain ⟨hCne, hC0⟩ := hQ C (List.mem_cons_self _ _)
    cases C with
    | nil => exact absurd rfl hCne
    | cons x xs =>
      simp only [List.headD_cons] at hC0
      obtain ⟨hp, hlt⟩ := placeCluster_spec sl x xs hC0
      obtain ⟨sl2, h1, h2, h3, h4⟩ := ih (sl.set x (some (x :: xs))) (by
        intro D hD
        refine ⟨(hQ D (List.mem_cons_of_mem _ hD)).1, ?_⟩
        rw [slotFun_set _ _ _ hlt, if_neg]
        · exact (hQ D (List.mem_cons_of_mem _ hD)).2
        · intro h
          exact hpw.1 D hD (by simp only [List.headD_cons]; exact h.symm)) hpw.2
      refine ⟨sl2, ?_, by rw [h2, List.length_set], ?_, ?_⟩
      · simp only [List.foldlM, hp, Option.bind_eq_bind, Option.some_bind]
        exact h1
      · intro D hD
        rcases List.mem_cons.1 hD with rfl | hD
        · simp only [List.headD_cons]
          rw [h4 x (fun E hE => by
            have := hpw.1 E hE
            simp only [List.headD_cons] at this
            exact fun h => this h.symm), slotFun_set _ _ _ hlt, if_pos rfl]
        · exact h3 D hD
      · intro i hi
        rw [h4 i (fun E hE => hi E (List.mem_cons_of_mem _ hE)), slotFun_set _ _ _ hlt, if_neg]
        intro h
        exact hi (x :: xs) (List.mem_cons_self _ _) (by simp only [List.headD_cons]; exact h.symm)

theorem headD_mem {C : List Nat} (h : C ≠ []) : C.headD 0 ∈ C := by
  cases C with
  | nil => exact absurd rfl h
  | cons x xs => simp

theorem heads_pairwise {n : Nat} {P : Partition} (hP : IsPartition n P)
    (hne : ∀ C ∈ P, C ≠ []) : P.Pairwise (fun C D => C.headD 0 ≠ D.headD 0) := by
  have hpw := (List.nodup_flatten.1 hP.1).2
  apply List.Pairwise.imp_of_mem _ hpw
  intro C D hC hD hdis h
  exact hdis (headD_mem (hne C hC)) (h ▸ headD_mem (hne D hD))

theorem slotFun_replicate (n i : Nat) :
    slotFun (List.replicate n (some [])) i = if i < n then some [] else none := by
  unfold slotFun
  rw [List.getD_eq_getElem?_getD]
  by_cases h : i < n
  · simp [List.getElem?_replicate, h]
  · simp [List.getElem?_replicate, h]

/-- The placement of the clusters of a partition with non-empty clusters: every cluster
sits in the slot of its first vertex, every other slot is empty. -/
theorem place_spec {n : Nat} {P : Partition} (hP : IsPartition n P)
    (hne : ∀ C ∈ P, C ≠ []) :
    ∃ sl, P.foldlM placeCluster (List.replicate n (some [])) = some sl ∧ sl.length = n ∧
      (∀ C ∈ P, slotFun sl (C.headD 0) = some C) ∧
      (∀ i, (∀ C ∈ P, C.headD 0 ≠ i) → content (slotFun sl) i = []) ∧
      SlotInv n n (slotFun sl) (P.map fun C => C.headD 0) := by
  obtain ⟨sl, h1, h2, h3, h4⟩ := placeLoop_spec P (List.replicate n (some [])) (by
    intro C hC
    refine ⟨hne C hC, ?_⟩
    rw [slotFun_replicate, if_pos (hP.lt_of_mem hC (headD_mem (hne C hC)))])
    (heads_pairwise hP hne)
  have h5 : ∀ i, (∀ C ∈ P, C.headD 0 ≠ i) → content (slotFun sl) i = [] := by
    intro i hi
    rw [content, h4 i hi, slotFun_replicate]
    by_cases h : i < n
    · simp [h]
    · simp [h]
  have hcont : ∀ i, content (slotFun sl) i ≠ [] →
      ∃ C ∈ P, C.headD 0 = i ∧ content (slotFun sl) i = C := by
    intro i hi
    by_contra hcon
    apply hi
    apply h5
    intro C hC hh
    apply hcon
    refine ⟨C, hC, hh, ?_⟩
    rw [content, ← hh, h3 C hC]; rfl
  have hcontC : ∀ C ∈ P, content (slotFun sl) (C.headD 0) = C := by
    intro C hC; rw [content, h3 C hC]; rfl
  refine ⟨sl, h1, by simpa using h2, h3, h5, ?_, ?_, ?_, ?_, ?_, ?_⟩
  · rw [List.Nodup, List.pairwise_map]
    exact heads_pairwise hP hne
  · intro i
    rw [List.mem_map]
    constructor
    · rintro ⟨C, hC, rfl⟩
      rw [hcontC C hC]; exact hne C hC
    · intro hi
      obtain ⟨C, hC, hh, _⟩ := hcont i hi
      exact ⟨C, hC, hh⟩
  · intro i hi
    obtain ⟨C, hC, hh, _⟩ := hcont i hi
    rw [← hh]
    exact hP.lt_of_mem hC (headD_mem (hne C hC))
  · intro i
    by_cases hi : content (slotFun sl) i = []
    · rw [hi]; exact List.nodup_nil
    · obtain ⟨C, hC, _, hh⟩ := hcont i hi
      rw [hh]
      exact (List.nodup_flatten.1 hP.1).1 C hC
  · intro i j v hvi hvj
    obtain ⟨C, hC, hh1, hh2⟩ := hcont i (List.ne_nil_of_mem hvi)
    obtain ⟨D, hD, hh3, hh4⟩ := hcont j (List.ne_nil_of_mem hvj)
    rw [hh2] at hvi
    rw [hh4] at hvj
    have := hP.eq_of_mem hC hD hvi hvj
    rw [← hh1, ← hh3, this]
  · intro v
    constructor
    · intro hv
      obtain ⟨C, hC, hvC⟩ := hP.exists_mem hv
      exact ⟨C.headD 0, by rw [hcontC C hC]; exact hvC⟩
    · rintro ⟨i, hvi⟩
      obtain ⟨C, hC, _, hh2⟩ := hcont i (List.ne_nil_of_mem hvi)
      rw [hh2] at hvi
      exact hP.lt_of_mem hC hvi

theorem nodup_of_flatten_nodup {L : List (List Nat)} (h : L.flatten.Nodup)
    (hne : ∀ C ∈ L, C ≠ []) : L.Nodup := by
  have hpw := (List.nodup_flatten.1 h).2
  rw [List.Nodup]
  apply List.Pairwise.imp_of_mem _ hpw
  intro C D hC _ hdis hCD
  obtain ⟨v, hv⟩ := List.exists_mem_of_ne_nil C (hne C hC)
  exact hdis hv (hCD ▸ hv)

/-- The builder started from a partition with non-empty clusters, on a valid prefix. -/
theorem GetPartitionFromJoins_seeded (graph : Graph) {P : Partition}
    (hP : IsPartition graph.vertex_count P) (hne : ∀ C ∈ P, C ≠ [])
    (joins : List (Nat × Nat)) (bestStep : Int) (h2 : bestStep < joins.length)
    (hv : validJoins (P.map fun C => C.headD 0) (joins.take (bestStep + 1).toNat) = true) :
    ∃ R, GetPartitionFromJoins graph joins bestStep (some P) = some R ∧
      IsPartition graph.vertex_count R ∧
      (∀ C ∈ P, ∃ D, (D ∈ R ∧ ∀ v ∈ C, v ∈ D) ∧ ∀ D2, (D2 ∈ R ∧ ∀ v ∈ C, v ∈ D2) → D2 = D) ∧
      R.length + (bestStep + 1).toNat = P.length ∧
      (bestStep = -1 → R.Perm P ∧ R.Pairwise (fun C D => C.headD 0 < D.headD 0)) := by
  have hk : (bestStep + 1).toNat ≤ joins.length := by omega
  obtain ⟨sl, p1, p2, p3, p4, p5⟩ := place_spec hP hne
  obtain ⟨sl2, live2, r1, r2, r3, r4, r5, r6⟩ := replay_spec graph.vertex_count graph.vertex_count
    (joins.take (bestStep + 1).toNat) sl _ p5 hv
  have hlen : sl2.length = graph.vertex_count := by rw [r2, p2]
  have hrun : GetPartitionFromJoins graph joins bestStep (some P) =
      some (RemoveEmptyEntries sl2) := by
    simp only [GetPartitionFromJoins, replayJoins, p1, Option.some_bind,
      replay_range_eq_take joins _ hk, r1, Option.map_some']
  obtain ⟨c1, c2, c3⟩ := specCompact_spec r4
  rw [RemoveEmptyEntries_eq_specCompact, hlen] at hrun
  have hcontC : ∀ C ∈ P, content (slotFun sl) (C.headD 0) = C := by
    intro C hC; rw [content, p3 C hC]; rfl
  have hcont : ∀ i, content (slotFun sl) i ≠ [] →
      ∃ C ∈ P, C.headD 0 = i ∧ content (slotFun sl) i = C := by
    intro i hi
    by_contra hcon
    apply hi
    apply p4
    intro C hC hh
    exact hcon ⟨C, hC, hh, by rw [← hh]; exact hcontC C hC⟩
  refine ⟨_, hrun, c1, ?_, ?_, ?_⟩
  · intro C hC
    obtain ⟨k, hk1⟩ := r6 (C.headD 0) (by rw [hcontC C hC]; exact hne C hC)
    rw [hcontC C hC] at hk1
    have hhead := hk1 _ (headD_mem (hne C hC))
    have hkne : content (slotFun sl2) k ≠ [] := List.ne_nil_of_mem hhead
    refine ⟨content (slotFun sl2) k, ⟨mem_specCompact.2 ⟨k, r4.bound k hkne, rfl, hkne⟩, hk1⟩, ?_⟩
    rintro D2 ⟨hD2, hsub⟩
    obtain ⟨k2, _, hk2, _⟩ := mem_specCompact.1 hD2
    have hh2 := hsub _ (headD_mem (hne C hC))
    rw [← hk2] at hh2
    rw [← hk2, r4.disj k2 k _ hh2 hhead]
  · rw [c3]
    simp only [List.length_take, List.length_map] at r5
    rw [Nat.min_eq_left hk] at r5
    exact r5
  · intro hb
    have hz : (bestStep + 1).toNat = 0 := by rw [hb]; rfl
    rw [hz, List.take_zero] at r1
    simp only [List.foldlM] at r1
    injection r1 with r1
    subst r1
    constructor
    · rw [List.perm_ext_iff_of_nodup (nodup_of_flatten_nodup c1.1 c2)
        (nodup_of_flatten_nodup hP.1 hne)]
      intro D
      rw [mem_specCompact]
      constructor
      · rintro ⟨i, _, hi2, hi3⟩
        obtain ⟨C, hC, _, hh⟩ := hcont i (hi2 ▸ hi3)
        rw [← hi2, hh]; exact hC
      · intro hD
        exact ⟨D.headD 0, hP.lt_of_mem hD (headD_mem (hne D hD)), hcontC D hD, hne D hD⟩
    · unfold specCompact
      rw [List.pairwise_filterMap]
      apply List.Pairwise.imp _ (List.pairwise_lt_range graph.vertex_count)
      intro a a2 hlt b hb b2 hb2
      have key : ∀ i D, D ∈ nonEmptySlot (slotFun sl i) → D.headD 0 = i := by
        intro i D hD
        rw [Option.mem_def, compactFun_eq] at hD
        by_cases hc : content (slotFun sl) i = []
        · rw [if_pos hc] at hD; exact Option.noConfusion hD
        · rw [if_neg hc] at hD
          injection hD with hD
          obtain ⟨C, _, hh1, hh2⟩ := hcont i hc
          rw [← hD, hh2, hh1]
      rw [key a b hb, key a2 b2 hb2]
      exact hlt

/-- **C7.** `GetPartitionFromJoins` with an initial partition `P` of the vertex set whose
clusters are non-empty: every cluster of `P` is placed unchanged in the slot named by its
first vertex and distinct clusters get distinct slots; for a `best_step` with
`-1 ≤ best_step < |joins|` whose records `joins[0..best_step]` have `a ≠ b` and name slots
that hold a cluster, the result is a partition of the vertex set in which every cluster of
`P` lies inside exactly one result cluster, with `|P| - (best_step + 1)` clusters; for
`best_step = -1` the result is a rearrangement of the clusters of `P` in ascending first
vertex id. -/
theorem C7_GetPartitionFromJoins_initial (graph : Graph) (P : Partition)
    (hP : IsPartition graph.vertex_count P) (hne : ∀ C ∈ P, C ≠ []) :
    (∃ sl, P.foldlM placeCluster (List.replicate graph.vertex_count (some [])) = some sl ∧
      (∀ C ∈ P, slotFun sl (C.headD 0) = some C) ∧
      (∀ C ∈ P, ∀ D ∈ P, C.headD 0 = D.headD 0 → C = D)) ∧
    (∀ (joins : List (Nat × Nat)) (bestStep : Int), -1 ≤ bestStep → bestStep < joins.length →
      validJoins (P.map fun C => C.headD 0) (joins.take (bestStep + 1).toNat) = true →
      ∃ R, GetPartitionFromJoins graph joins bestStep (some P) = some R ∧
        IsPartition graph.vertex_count R ∧
        (∀ C ∈ P, ∃ D, (D ∈ R ∧ ∀ v ∈ C, v ∈ D) ∧
          ∀ D2, (D2 ∈ R ∧ ∀ v ∈ C, v ∈ D2) → D2 = D) ∧
        (R.length : Int) = (P.length : Int) - (bestStep + 1) ∧
        (bestStep = -1 → R.Perm P ∧ R.Pairwise (fun C D => C.headD 0 < D.headD 0))) := by
  constructor
  · obtain ⟨sl, p1, _, p3, _, _⟩ := place_spec hP hne
    refine ⟨sl, p1, p3, ?_⟩
    intro C hC D hD h
    exact hP.eq_of_mem hC hD (headD_mem (hne C hC)) (h ▸ headD_mem (hne D hD))
  · intro joins bestStep h1 h2 hv
    obtain ⟨R, r1, r2, r3, r4, r5⟩ := GetPartitionFromJoins_seeded graph hP hne joins bestStep
      h2 hv
    exact ⟨R, r1, r2, r3, by omega, r5⟩

/-- Witness for C7: three clusters on the six vertices, one join replayed. -/
theorem C7_GetPartitionFromJoins_initial_witness :
    IsPartition twoTriangles.vertex_count [[4, 5], [1, 0], [3, 2]] ∧
    (-1 : Int) ≤ 0 ∧ (0 : Int) < ([(4, 1), (0, 0)] : List (Nat × Nat)).length ∧
    validJoins ([[4, 5], [1, 0], [3, 2]].map fun C => C.headD 0)
      (List.take ((0 : Int) + 1).toNat [(4, 1), (0, 0)]) = true ∧
    ∃ R, GetPartitionFromJoins twoTriangles [(4, 1), (0, 0)] 0 (some [[4, 5], [1, 0], [3, 2]])
        = some R ∧
      IsPartition twoTriangles.vertex_count R ∧
      (∀ C ∈ [[4, 5], [1, 0], [3, 2]], ∃ D, (D ∈ R ∧ ∀ v ∈ C, v ∈ D) ∧
        ∀ D2, (D2 ∈ R ∧ ∀ v ∈ C, v ∈ D2) → D2 = D) ∧
      (R.length : Int) = (([[4, 5], [1, 0], [3, 2]] : Partition).length : Int) - (0 + 1) ∧
      ((0 : Int) = -1 → R.Perm [[4, 5], [1, 0], [3, 2]] ∧
        R.Pairwise (fun C D => C.headD 0 < D.headD 0)) :=
  ⟨by decide, by decide, by decide, by decide,
    (C7_GetPartitionFromJoins_initial twoTriangles [[4, 5], [1, 0], [3, 2]] (by decide)
      (by decide)).2 [(4, 1), (0, 0)] 0 (by decide) (by decide) (by decide)⟩

end CGGC


namespace CGGC

/-! ## RefineCluster: compaction of the input -/

theorem RemoveEmptyEntries_map_some (P : Partition) :
    RemoveEmptyEntries (P.map some) = P.filter fun C => decide (C ≠ []) := by
  induction P with
  | nil => rfl
  | cons C P ih =>
    unfold RemoveEmptyEntries at ih ⊢
    rw [List.map_cons, List.filterMap_cons, List.filter_cons]
    cases C with
    | nil =>
      have h1 : decide (([] : List Nat) ≠ []) = false := by simp
      simp only [nonEmptySlot, h1, Bool.false_eq_true, if_false]
      exact ih
    | cons x xs =>
      have h2 : decide (x :: xs ≠ []) = true := by simp
      simp only [nonEmptySlot, h2, if_true]
      rw [ih]

theorem flatten_filter_ne_nil (P : Partition) :
    (P.filter fun C => decide (C ≠ [])).flatten = P.flatten := by
  induction P with
  | nil => rfl
  | cons C P ih =>
    rw [List.filter_cons]
    cases C with
    | nil =>
      have h1 : decide (([] : List Nat) ≠ []) = false := by simp
      simp only [h1, Bool.false_eq_true, if_false, List.flatten_cons, List.nil_append]
      exact ih
    | cons x xs =>
      have h2 : decide (x :: xs ≠ []) = true := by simp
      simp only [h2, if_true, List.flatten_cons, ih]

theorem IsPartition.compact {n : Nat} {P : Partition} (hP : IsPartition n P) :
    IsPartition n (RemoveEmptyEntries (P.map some)) := by
  unfold IsPartition
  rw [RemoveEmptyEntries_map_some, flatten_filter_ne_nil]
  exact hP

theorem compact_ne_nil (P : Partition) : ∀ C ∈ RemoveEmptyEntries (P.map some), C ≠ [] := by
  intro C hC
  rw [RemoveEmptyEntries_map_some, List.mem_filter] at hC
  simpa using hC.2

theorem compact_of_ne_nil {P : Partition} (h : ∀ C ∈ P, C ≠ []) :
    RemoveEmptyEntries (P.map some) = P := by
  rw [RemoveEmptyEntries_map_some, List.filter_eq_self]
  intro C hC
  simpa using h C hC

theorem compact_length_le (P : Partition) :
    (RemoveEmptyEntries (P.map some)).length ≤ P.length := by
  rw [RemoveEmptyEntries_map_some]
  exact List.length_filter_le _ _

/-! ## RefineCluster: the first initialisation loop -/

theorem refineInit_inner (graph : Graph) (i : Nat) (cluster : List Nat) :
    ∀ (a : Int) (m : List Nat),
      cluster.foldl (fun (s : Int × List Nat) vertexid =>
        (s.1 + ((graph.GetNeighbors vertexid).length : Int), s.2.set vertexid i)) (a, m)
      = (a + (cluster.map fun v => ((graph.GetNeighbors v).length : Int)).sum,
          cluster.foldl (fun m v => m.set v i) m) := by
  induction cluster with
  | nil => intro a m; simp
  | cons x xs ih =>
    intro a m
    simp only [List.foldl_cons, List.map_cons, List.sum_cons]
    rw [ih]
    congr 1
    ring

theorem refineInitClusters_spec (graph : Graph) (Q : List (List Nat)) :
    ∀ (i : Nat) (st : List Int × List Nat), i + Q.length ≤ st.1.length →
      (refineInitClusters graph Q i st).2 = clustermapLoop Q i st.2 ∧
      (refineInitClusters graph Q i st).1.length = st.1.length ∧
      (∀ j (hj : j < Q.length), (refineInitClusters graph Q i st).1.getD (i + j) 0 =
        (Q[j].map fun v => ((graph.GetNeighbors v).length : Int)).sum) := by
  induction Q with
  | nil =>
    intro i st _
    exact ⟨rfl, rfl, fun j hj => absurd hj (by simp)⟩
  | cons C Q ih =>
    intro i st hlen
    simp only [List.length_cons] at hlen
    simp only [refineInitClusters, clustermapLoop, refineInit_inner, zero_add]
    obtain ⟨h1, h2, h3⟩ := ih (i + 1)
      (st.1.set i (C.map fun v => ((graph.GetNeighbors v).length : Int)).sum,
        C.foldl (fun m v => m.set v i) st.2) (by simp only [List.length_set]; omega)
    refine ⟨h1, by rw [h2, List.length_set], ?_⟩
    intro j hj
    cases j with
    | zero =>
      -- the entry written for this cluster is not touched by the later clusters
      have hkeep : ∀ (Q2 : List (List Nat)) (k : Nat) (s : List Int × List Nat) (p : Nat),
          p < k → (refineInitClusters graph Q2 k s).1.getD p 0 = s.1.getD p 0 := by
        intro Q2
        induction Q2 with
        | nil => intro k s p _; rfl
        | cons D Q2 ih2 =>
          intro k s p hp
          simp only [refineInitClusters, refineInit_inner, zero_add]
          rw [ih2 (k + 1) _ p (by omega)]
          dsimp only
          rw [getD_set_eq, if_neg (by omega)]
      have e0 : i + 0 = i := rfl
      rw [e0, hkeep Q (i + 1) _ i (by omega)]
      dsimp only
      rw [getD_set_eq, if_pos ⟨rfl, by omega⟩]
      rfl
    | succ j =>
      have := h3 j (by simpa using hj)
      rw [show i + (j + 1) = i + 1 + j by omega, this]
      rfl

/-! ## RefineCluster: the loop that fills `links` -/

theorem refineLinkStep_eq (cm : List Nat) (i : Nat) (st : List (List (Nat × Int)) × ℚ)
    (nb : Nat) (h : i ≠ nb) :
    refineLinkStep cm i st nb =
      (st.1.set i (mapSet (st.1.getD i []) (cm.getD nb 0)
        (1 + mapGet (st.1.getD i []) (cm.getD nb 0) 0)), st.2 + 1) := by
  unfold refineLinkStep
  rw [if_neg h]
  dsimp only
  congr 2
  unfold mapGet
  cases mapFind (st.1.getD i []) (cm.getD nb 0) <;> simp

theorem refineLink_inner (cm : List Nat) (i : Nat) (N : List Nat) :
    ∀ st : List (List (Nat × Int)) × ℚ, i < st.1.length →
      (N.foldl (refineLinkStep cm i) st).1.length = st.1.length ∧
      (∀ u, u ≠ i → (N.foldl (refineLinkStep cm i) st).1.getD u [] = st.1.getD u []) ∧
      (∀ X, mapGet ((N.foldl (refineLinkStep cm i) st).1.getD i []) X 0 =
        mapGet (st.1.getD i []) X 0 +
          (N.countP (fun w => decide (i ≠ w) && decide (cm.getD w 0 = X)) : Int)) ∧
      (∀ k ∈ ((N.foldl (refineLinkStep cm i) st).1.getD i []).map Prod.fst,
        k ∈ (st.1.getD i []).map Prod.fst ∨ ∃ w ∈ N, cm.getD w 0 = k) ∧
      (N.foldl (refineLinkStep cm i) st).2 = st.2 + (N.countP (fun w => decide (i ≠ w)) : ℚ) := by
  induction N with
  | nil => intro st _; simp
  | cons x xs ih =>
    intro st hi
    simp only [List.foldl_cons]
    by_cases hx : i = x
    · have hstep : refineLinkStep cm i st x = st := by
        unfold refineLinkStep; rw [if_pos hx]
      rw [hstep]
      obtain ⟨r1, r2, r3, r4, r5⟩ := ih st hi
      refine ⟨r1, r2, ?_, ?_, ?_⟩
      · intro X; rw [r3 X, List.countP_cons]; simp [-List.getD_eq_getElem?_getD, hx]
      · intro k hk
        rcases r4 k hk with h | ⟨w, hw, h⟩
        · exact Or.inl h
        · exact Or.inr ⟨w, List.mem_cons_of_mem _ hw, h⟩
      · rw [r5, List.countP_cons]; simp [hx]
    · rw [refineLinkStep_eq cm i st x hx]
      obtain ⟨m1, m2, m3⟩ := mapSet_spec (st.1.getD i []) (cm.getD x 0)
        (1 + mapGet (st.1.getD i []) (cm.getD x 0) 0) (0 : Int)
      generalize mapSet (st.1.getD i []) (cm.getD x 0)
        (1 + mapGet (st.1.getD i []) (cm.getD x 0) 0) = row2 at m1 m2 m3
      obtain ⟨r1, r2, r3, r4, r5⟩ := ih (st.1.set i row2, st.2 + 1)
        (by rw [List.length_set]; exact hi)
      have hrow : (st.1.set i row2).getD i [] = row2 := by
        rw [getD_set_eq, if_pos ⟨rfl, hi⟩]
      dsimp only at r1 r2 r3 r4 r5
      rw [hrow] at r3 r4
      refine ⟨by rw [r1, List.length_set], ?_, ?_, ?_, ?_⟩
      · intro u hu
        rw [r2 u hu, getD_set_eq, if_neg (fun h => hu h.1.symm)]
      · intro X
        rw [r3 X, m1 X, List.countP_cons]
        by_cases hX : cm.getD x 0 = X
        · subst hX
          simp [-List.getD_eq_getElem?_getD, hx]; ring
        · simp [-List.getD_eq_getElem?_getD, hx, hX]
      · intro k hk
        rcases r4 k hk with h | ⟨w, hw, h⟩
        · rcases m2 k h with h2 | h2
          · exact Or.inl h2
          · exact Or.inr ⟨x, List.mem_cons_self _ _, h2.symm⟩
        · exact Or.inr ⟨w, List.mem_cons_of_mem _ hw, h⟩
      · rw [r5, List.countP_cons]
        simp [hx]; ring

theorem refineLink_outer (graph : Graph) (cm : List Nat) (us : List Nat) :
    ∀ st : List (List (Nat × Int)) × ℚ, us.Nodup → (∀ u ∈ us, u < st.1.length) →
      (us.foldl (fun st i => (graph.GetNeighbors i).foldl (refineLinkStep cm i) st) st).1.length
        = st.1.length ∧
      (∀ u, u ∉ us →
        (us.foldl (fun st i => (graph.GetNeighbors i).foldl (refineLinkStep cm i) st) st).1.getD
          u [] = st.1.getD u []) ∧
      (∀ u ∈ us, ∀ X,
        mapGet ((us.foldl (fun st i => (graph.GetNeighbors i).foldl (refineLinkStep cm i) st)
          st).1.getD u []) X 0 = mapGet (st.1.getD u []) X 0 +
          ((graph.GetNeighbors u).countP (fun w => decide (u ≠ w) && decide (cm.getD w 0 = X))
            : Int)) ∧
      (∀ u ∈ us, ∀ k ∈ ((us.foldl (fun st i => (graph.GetNeighbors i).foldl
          (refineLinkStep cm i) st) st).1.getD u []).map Prod.fst,
        k ∈ (st.1.getD u []).map Prod.fst ∨ ∃ w ∈ graph.GetNeighbors u, cm.getD w 0 = k) ∧
      (us.foldl (fun st i => (graph.GetNeighbors i).foldl (refineLinkStep cm i) st) st).2
        = st.2 + ((graph.entriesOf us).length : ℚ) := by
  induction us with
  | nil => intro st _ _; simp [Graph.entriesOf]
  | cons u us ih =>
    intro st hnd hlt
    rw [List.nodup_cons] at hnd
    simp only [List.foldl_cons]
    obtain ⟨i1, i2, i3, i4, i5⟩ := refineLink_inner cm u (graph.GetNeighbors u) st
      (hlt u (List.mem_cons_self _ _))
    obtain ⟨r1, r2, r3, r4, r5⟩ := ih ((graph.GetNeighbors u).foldl (refineLinkStep cm u) st)
      hnd.2 (fun v hv => by rw [i1]; exact hlt v (List.mem_cons_of_mem _ hv))
    refine ⟨by rw [r1, i1], ?_, ?_, ?_, ?_⟩
    · intro v hv
      rw [List.mem_cons, not_or] at hv
      rw [r2 v hv.2, i2 v hv.1]
    · intro v hv X
      rcases List.mem_cons.1 hv with rfl | hv
      · rw [r2 v hnd.1, i3 X]
      · have hvu : v ≠ u := fun h => hnd.1 (h ▸ hv)
        rw [r3 v hv X, i2 v hvu]
    · intro v hv k hk
      rcases List.mem_cons.1 hv with rfl | hv
      · rw [r2 v hnd.1] at hk
        exact i4 k hk
      · have hvu : v ≠ u := fun h => hnd.1 (h ▸ hv)
        have := r4 v hv k hk
        rw [i2 v hvu] at this
        exact this
    · rw [r5, i5, length_entriesOf_cons]
      push_cast; ring

theorem refineLink_noop (graph : Graph) (cm : List Nat) (us : List Nat)
    (h : ∀ u ∈ us, ∀ w ∈ graph.GetNeighbors u, u = w) (st : List (List (Nat × Int)) × ℚ) :
    us.foldl (fun st i => (graph.GetNeighbors i).foldl (refineLinkStep cm i) st) st = st := by
  induction us with
  | nil => rfl
  | cons u us ih =>
    have hin : ∀ (N : List Nat), (∀ w ∈ N, u = w) →
        N.foldl (refineLinkStep cm u) st = st := by
      intro N
      induction N with
      | nil => intro _; rfl
      | cons x xs ihN =>
        intro hN
        have hx : u = x := hN x (List.mem_cons_self _ _)
        have hstep : refineLinkStep cm u st x = st := by
          unfold refineLinkStep; rw [if_pos hx]
        rw [List.foldl_cons, hstep]
        exact ihN (fun w hw => hN w (List.mem_cons_of_mem _ hw))
    rw [List.foldl_cons, hin _ (h u (List.mem_cons_self _ _))]
    exact ih (fun v hv => h v (List.mem_cons_of_mem _ hv))

/-! ## RefineCluster: the scan of the adjacent clusters -/

theorem deltaQ_congr (graph : Graph) (ec : ℚ) (cd : List Int) (row1 row2 : List (Nat × Int))
    (v A X : Nat) (h : ∀ Y, mapGet row1 Y 0 = mapGet row2 Y 0) :
    deltaQ graph ec cd row1 v A X = deltaQ graph ec cd row2 v A X := by
  unfold deltaQ
  rw [h X, h A]

theorem deltaQ_touch (graph : Graph) (ec : ℚ) (cd : List Int) (row : List (Nat × Int))
    (v A X : Nat) :
    deltaQ graph ec cd (mapTouch row A 0) v A X = deltaQ graph ec cd row v A X :=
  deltaQ_congr graph ec cd _ _ v A X (mapTouch_spec row A 0).1

theorem deltaQ_eq (graph : Graph) (ec : ℚ) (hec : ec ≠ 0) (cd : List Int)
    (row : List (Nat × Int)) (v A X : Nat) :
    deltaQ graph ec cd row v A X =
      some ((((mapGet row X 0 - mapGet row A 0 : Int) : ℚ)) / ec
        - ((((cd.getD X 0 - cd.getD A 0 : Int) : ℚ)
            + ((graph.GetNeighbors v).length : ℚ)) * ((graph.GetNeighbors v).length : ℚ) / 2)
          / ec / ec) := by
  simp only [deltaQ, fdiv, hec, if_false, Option.some_bind, Option.map_some']

theorem scanStep_self (graph : Graph) (ec : ℚ) (cd : List Int) (v A : Nat)
    (st : List (Nat × Int) × Int × ℚ) : scanStep graph ec cd v A st A = some st := by
  unfold scanStep; rw [if_pos rfl]

theorem scan_spec (graph : Graph) (ec : ℚ) (cd : List Int) (v A : Nat) (KS : List Nat) :
    ∀ (row : List (Nat × Int)) (b : Int) (bd : ℚ) (r : List (Nat × Int) × Int × ℚ),
      KS.foldlM (scanStep graph ec cd v A) (row, b, bd) = some r →
      (r.1 = row ∨ r.1 = mapTouch row A 0) ∧ bd ≤ r.2.2 ∧
      ((r.2.1 = b ∧ r.2.2 = bd) ∨
        (∃ X ∈ KS, X ≠ A ∧ r.2.1 = (X : Int) ∧
          deltaQ graph ec cd row v A X = some r.2.2 ∧ bd < r.2.2)) ∧
      (∀ X ∈ KS, X ≠ A → ∃ dq, deltaQ graph ec cd row v A X = some dq ∧ dq ≤ r.2.2) := by
  induction KS with
  | nil =>
    intro row b bd r h
    simp only [List.foldlM, pure, Option.some.injEq] at h
    subst h
    exact ⟨Or.inl rfl, le_refl _, Or.inl ⟨rfl, rfl⟩, fun X hX => absurd hX (List.not_mem_nil _)⟩
  | cons Y KS ih =>
    intro row b bd r h
    rw [List.foldlM_cons] at h
    by_cases hY : A = Y
    · subst hY
      rw [scanStep_self] at h
      simp only [Option.bind_eq_bind, Option.some_bind] at h
      obtain ⟨h1, h2, h3, h4⟩ := ih row b bd r h
      refine ⟨h1, h2, ?_, ?_⟩
      · rcases h3 with h3 | ⟨X, hX, h5⟩
        · exact Or.inl h3
        · exact Or.inr ⟨X, List.mem_cons_of_mem _ hX, h5⟩
      · intro X hX hXA
        rcases List.mem_cons.1 hX with rfl | hX
        · exact absurd rfl hXA
        · exact h4 X hX hXA
    · have hstep : scanStep graph ec cd v A (row, b, bd) Y =
          (deltaQ graph ec cd row v A Y).map fun dq =>
            if dq > bd then (mapTouch row A 0, (Y : Int), dq) else (mapTouch row A 0, b, bd) := by
        unfold scanStep
        rw [if_neg hY]
        dsimp only
        rw [deltaQ_touch]
      rw [hstep] at h
      cases hdq : deltaQ graph ec cd row v A Y with
      | none =>
        rw [hdq] at h
        simp at h
      | some dq =>
        rw [hdq] at h
        simp only [Option.map_some', Option.bind_eq_bind, Option.some_bind] at h
        have hYA : Y ≠ A := fun hh => hY hh.symm
        by_cases hgt : dq > bd
        · rw [if_pos hgt] at h
          obtain ⟨h1, h2, h3, h4⟩ := ih (mapTouch row A 0) (Y : Int) dq r h
          rw [mapTouch_idem] at h1
          refine ⟨Or.inr (h1.elim id id), le_trans (le_of_lt hgt) h2, ?_, ?_⟩
          · rcases h3 with ⟨h5, h6⟩ | ⟨X, hX, h5, h6, h7, h8⟩
            · exact Or.inr ⟨Y, List.mem_cons_self _ _, hYA, h5, by rw [h6]; exact hdq,
                by rw [h6]; exact hgt⟩
            · rw [deltaQ_touch] at h7
              exact Or.inr ⟨X, List.mem_cons_of_mem _ hX, h5, h6, h7, lt_trans hgt h8⟩
          · intro X hX hXA
            rcases List.mem_cons.1 hX with rfl | hX
            · exact ⟨dq, hdq, h2⟩
            · obtain ⟨dq2, h5, h6⟩ := h4 X hX hXA
              rw [deltaQ_touch] at h5
              exact ⟨dq2, h5, h6⟩
        · rw [if_neg hgt] at h
          obtain ⟨h1, h2, h3, h4⟩ := ih (mapTouch row A 0) b bd r h
          rw [mapTouch_idem] at h1
          refine ⟨Or.inr (h1.elim id id), h2, ?_, ?_⟩
          · rcases h3 with h3 | ⟨X, hX, h5, h6, h7, h8⟩
            · exact Or.inl h3
            · rw [deltaQ_touch] at h7
              exact Or.inr ⟨X, List.mem_cons_of_mem _ hX, h5, h6, h7, h8⟩
          · intro X hX hXA
            rcases List.mem_cons.1 hX with rfl | hX
            · exact ⟨dq, hdq, le_trans (not_lt.1 hgt) h2⟩
            · obtain ⟨dq2, h5, h6⟩ := h4 X hX hXA
              rw [deltaQ_touch] at h5
              exact ⟨dq2, h5, h6⟩

theorem scan_exists (graph : Graph) (ec : ℚ) (hec : ec ≠ 0) (cd : List Int) (v A : Nat)
    (KS : List Nat) :
    ∀ (st : List (Nat × Int) × Int × ℚ),
      ∃ r, KS.foldlM (scanStep graph ec cd v A) st = some r := by
  induction KS with
  | nil => intro st; exact ⟨st, rfl⟩
  | cons Y KS ih =>
    intro st
    rw [List.foldlM_cons]
    by_cases hY : A = Y
    · subst hY
      rw [scanStep_self]
      exact ih st
    · have : ∃ st2, scanStep graph ec cd v A st Y = some st2 := by
        unfold scanStep
        rw [if_neg hY]
        dsimp only
        rw [deltaQ_eq graph ec hec]
        exact ⟨_, rfl⟩
      obtain ⟨st2, h2⟩ := this
      rw [h2]
      exact ih st2

theorem scan_nil (graph : Graph) (ec : ℚ) (st : RefineState) (v : Nat)
    (h : st.links.getD v [] = []) : scanVertex graph ec st v = some ([], -1, 0) := by
  unfold scanVertex
  dsimp only
  rw [h]
  rfl

/-! ## RefineCluster: the rebuilt partition -/

theorem rebuild_fold (cm : List Nat) (K : Nat) (L : List Nat) :
    ∀ res : List (List Nat), res.length = K → (∀ v ∈ L, cm.getD v 0 < K) →
      ∃ res2, L.foldlM (rebuildStep cm) res = some res2 ∧ res2.length = K ∧
        ∀ c, res2.getD c [] = res.getD c [] ++ L.filter (fun v => decide (cm.getD v 0 = c)) := by
  induction L with
  | nil => intro res h _; exact ⟨res, rfl, h, by simp⟩
  | cons x xs ih =>
    intro res hlen hlt
    have hx : cm.getD x 0 < res.length := by rw [hlen]; exact hlt x (List.mem_cons_self _ _)
    have hstep : rebuildStep cm res x =
        some (res.set (cm.getD x 0) (res.getD (cm.getD x 0) [] ++ [x])) := by
      unfold rebuildStep
      dsimp only
      rw [if_pos hx]
    obtain ⟨res2, h1, h2, h3⟩ := ih (res.set (cm.getD x 0) (res.getD (cm.getD x 0) [] ++ [x]))
      (by rw [List.length_set]; exact hlen) (fun v hv => hlt v (List.mem_cons_of_mem _ hv))
    refine ⟨res2, ?_, h2, ?_⟩
    · rw [List.foldlM_cons, hstep]
      exact h1
    · intro c
      rw [h3 c, getD_set_eq, List.filter_cons]
      by_cases hc : cm.getD x 0 = c
      · subst hc
        rw [if_pos ⟨rfl, hx⟩]
        simp [-List.getD_eq_getElem?_getD]
      · rw [if_neg (fun h => hc h.1)]
        simp [-List.getD_eq_getElem?_getD, hc]

theorem rebuild_spec (n K : Nat) (cm : List Nat) (h : ∀ v, v < n → cm.getD v 0 < K) :
    rebuildPartition n K cm = some (specCompact K fun c => some (clusterOf n cm c)) := by
  obtain ⟨res, h1, h2, h3⟩ := rebuild_fold cm K (List.range n) (List.replicate K [])
    (by simp) (fun v hv => h v (List.mem_range.1 hv))
  unfold rebuildPartition
  rw [h1, Option.map_some', RemoveEmptyEntries_eq_specCompact, List.length_map, h2]
  congr 1
  unfold specCompact
  apply List.filterMap_congr
  intro c hc
  have hcK : c < (res.map some).length := by
    rw [List.length_map, h2]; exact List.mem_range.1 hc
  rw [slotFun_eq_of_lt hcK, List.getElem_map]
  congr 2
  have := h3 c
  rw [getD_replicate_nil, List.nil_append, List.getD_eq_getElem?_getD,
    List.getElem?_eq_getElem (by rw [h2]; exact List.mem_range.1 hc)] at this
  exact this

theorem mem_clusterOf {n : Nat} {cm : List Nat} {c v : Nat} :
    v ∈ clusterOf n cm c ↔ v < n ∧ cm.getD v 0 = c := by
  unfold clusterOf
  rw [List.mem_filter, List.mem_range, decide_eq_true_eq]

theorem clusterSlots_inv (n K : Nat) (cm : List Nat) (h : ∀ v, v < n → cm.getD v 0 < K) :
    SlotInv K n (fun c => some (clusterOf n cm c))
      ((List.range K).filter fun c => decide (clusterOf n cm c ≠ [])) := by
  have hcont : ∀ c, content (fun c => some (clusterOf n cm c)) c = clusterOf n cm c :=
    fun c => rfl
  have hbound : ∀ c, clusterOf n cm c ≠ [] → c < K := by
    intro c hc
    obtain ⟨v, hv⟩ := List.exists_mem_of_ne_nil _ hc
    obtain ⟨hv1, hv2⟩ := mem_clusterOf.1 hv
    rw [← hv2]; exact h v hv1
  refine ⟨(List.nodup_range K).filter _, ?_, ?_, ?_, ?_, ?_⟩
  · intro c
    rw [hcont, List.mem_filter, List.mem_range, decide_eq_true_eq]
    exact ⟨fun hh => hh.2, fun hh => ⟨hbound c hh, hh⟩⟩
  · intro c hc; exact hbound c hc
  · intro c; rw [hcont]; exact (List.nodup_range n).filter _
  · intro i j v hi hj
    rw [hcont] at hi hj
    rw [← (mem_clusterOf.1 hi).2, ← (mem_clusterOf.1 hj).2]
  · intro v
    constructor
    · intro hv; exact ⟨cm.getD v 0, mem_clusterOf.2 ⟨hv, rfl⟩⟩
    · rintro ⟨c, hc⟩; exact (mem_clusterOf.1 hc).1

/-- The partition rebuilt from a cluster map with values below `K`. -/
theorem rebuild_partition (n K : Nat) (cm : List Nat) (h : ∀ v, v < n → cm.getD v 0 < K) :
    ∃ R, rebuildPartition n K cm = some R ∧ IsPartition n R ∧ (∀ C ∈ R, C ≠ []) ∧
      R.length ≤ K ∧
      (∀ C, C ∈ R ↔ ∃ c, c < K ∧ clusterOf n cm c = C ∧ C ≠ []) := by
  obtain ⟨c1, c2, _⟩ := specCompact_spec (clusterSlots_inv n K cm h)
  refine ⟨_, rebuild_spec n K cm h, c1, c2, ?_, fun C => mem_specCompact⟩
  unfold specCompact
  exact le_trans (List.length_filterMap_le _ _) (by simp)

end CGGC


namespace CGGC

/-! ## RefineCluster: the weak invariant -/

theorem refineInit_clustermap (g : Graph) (P : Partition) :
    (refineInit g P).1.clustermap =
      clustermapLoop (RemoveEmptyEntries (P.map some)) 0 (List.replicate g.vertex_count 0) := by
  unfold refineInit
  dsimp only
  exact (refineInitClusters_spec g _ 0 _ (by simp)).1

theorem refineInit_RInvW (g : Graph) (hg : g.WellFormed) {P : Partition}
    (hP : IsPartition g.vertex_count P) :
    RInvW g.vertex_count (RemoveEmptyEntries (P.map some)).length (refineInit g P).1 := by
  have hP2 := hP.compact
  have hcm := refineInit_clustermap g P
  refine ⟨?_, ?_, ?_⟩
  · rw [hcm]; exact (clustermap_spec hP2).1
  · intro v hv; rw [hcm]; exact clustermap_lt hP2 hv
  · intro u k hk
    obtain ⟨_, o2, _, o4, _⟩ := refineLink_outer g (refineInit g P).1.clustermap
      (List.range g.vertex_count) (List.replicate g.vertex_count [], 0)
      (List.nodup_range _) (fun v hv => by simpa using List.mem_range.1 hv)
    have hlinks : (refineInit g P).1.links =
        ((List.range g.vertex_count).foldl (fun st i => (g.GetNeighbors i).foldl
          (refineLinkStep (refineInit g P).1.clustermap i) st)
          (List.replicate g.vertex_count [], 0)).1 := rfl
    rw [hlinks] at hk
    by_cases hu : u ∈ List.range g.vertex_count
    · rcases o4 u hu k hk with h | ⟨w, hw, h⟩
      · dsimp only at h
        rw [getD_replicate_nil] at h
        exact absurd h (List.not_mem_nil _)
      · rw [← h, hcm]
        exact clustermap_lt hP2 (hg u (List.mem_range.1 hu) w hw)
    · rw [o2 u hu] at hk
      dsimp only at hk
      rw [getD_replicate_nil] at hk
      exact absurd hk (List.not_mem_nil _)

theorem moveLinkStep_keys (A B : Nat) (links : List (List (Nat × Int))) (nb u k : Nat)
    (hk : k ∈ ((moveLinkStep A B links nb).getD u []).map Prod.fst) :
    k ∈ (links.getD u []).map Prod.fst ∨ k = A ∨ k = B := by
  unfold moveLinkStep at hk
  dsimp only at hk
  rw [getD_set_eq] at hk
  by_cases h : nb = u ∧ nb < links.length
  · rw [if_pos h] at hk
    obtain ⟨rfl, _⟩ := h
    have hrow1 : ∀ x ∈ (mapUpdate (fun x => x - 1) (mapTouch (links.getD nb []) A 0) A).map
        Prod.fst, x ∈ (links.getD nb []).map Prod.fst ∨ x = A := by
      intro x hx
      rw [map_fst_mapUpdate] at hx
      exact (mapTouch_spec _ A 0).2.1 x hx
    by_cases hB : (mapFind (mapUpdate (fun x => x - 1)
        (mapTouch (links.getD nb []) A 0) A) B).isSome = true
    · rw [if_pos hB, map_fst_mapUpdate] at hk
      rcases hrow1 k hk with h1 | h1
      · exact Or.inl h1
      · exact Or.inr (Or.inl h1)
    · rw [if_neg hB] at hk
      rcases (mapSet_spec _ B 1 (0 : Int)).2.1 k hk with h1 | h1
      · rcases hrow1 k h1 with h2 | h2
        · exact Or.inl h2
        · exact Or.inr (Or.inl h2)
      · exact Or.inr (Or.inr h1)
  · rw [if_neg h] at hk
    exact Or.inl hk

theorem moveLinks_keys (A B : Nat) (N : List Nat) :
    ∀ (links : List (List (Nat × Int))) (u k : Nat),
      k ∈ ((N.foldl (moveLinkStep A B) links).getD u []).map Prod.fst →
      k ∈ (links.getD u []).map Prod.fst ∨ k = A ∨ k = B := by
  induction N with
  | nil => intro links u k hk; exact Or.inl hk
  | cons x xs ih =>
    intro links u k hk
    rw [List.foldl_cons] at hk
    rcases ih _ u k hk with h | h
    · exact moveLinkStep_keys A B links x u k h
    · exact Or.inr h

/-- What the scan of a vertex returns, in a state that satisfies the weak invariant. -/
theorem scanVertex_spec (g : Graph) (ec : ℚ) (st : RefineState) (v : Nat)
    (r : List (Nat × Int) × Int × ℚ) (h : scanVertex g ec st v = some r) :
    (r.1 = st.links.getD v [] ∨
      r.1 = mapTouch (st.links.getD v []) (st.clustermap.getD v 0) 0) ∧
    0 ≤ r.2.2 ∧
    (r.2.2 > 0 → ∃ X ∈ (st.links.getD v []).map Prod.fst, X ≠ st.clustermap.getD v 0 ∧
      r.2.1 = (X : Int) ∧
      deltaQ g ec st.clusterdegree (st.links.getD v []) v (st.clustermap.getD v 0) X
        = some r.2.2) ∧
    (∀ X ∈ (st.links.getD v []).map Prod.fst, X ≠ st.clustermap.getD v 0 →
      ∃ dq, deltaQ g ec st.clusterdegree (st.links.getD v []) v (st.clustermap.getD v 0) X
        = some dq ∧ dq ≤ r.2.2) := by
  unfold scanVertex at h
  dsimp only at h
  obtain ⟨h1, h2, h3, h4⟩ := scan_spec g ec st.clusterdegree v (st.clustermap.getD v 0) _ _ _ _ r h
  refine ⟨h1, h2, ?_, h4⟩
  intro hpos
  rcases h3 with ⟨_, h5⟩ | ⟨X, hX, h5, h6, h7, _⟩
  · rw [h5] at hpos; exact absurd hpos (lt_irrefl _)
  · exact ⟨X, hX, h5, h6, h7⟩

theorem afterScan_RInvW (g : Graph) (ec : ℚ) {n K : Nat} {st : RefineState}
    (hinv : RInvW n K st) {v : Nat} (hv : v < n) {r : List (Nat × Int) × Int × ℚ}
    (h : scanVertex g ec st v = some r) : RInvW n K (afterScan g st v r) := by
  obtain ⟨s1, _, s3, _⟩ := scanVertex_spec g ec st v r h
  have hA : st.clustermap.getD v 0 < K := hinv.cm_lt v hv
  have hkeys1 : ∀ u, ∀ k ∈ ((st.links.set v r.1).getD u []).map Prod.fst, k < K := by
    intro u k hk
    rw [getD_set_eq] at hk
    by_cases hc : v = u ∧ v < st.links.length
    · rw [if_pos hc] at hk
      rcases s1 with s1 | s1
      · rw [s1] at hk; exact hinv.keys_lt v k hk
      · rw [s1] at hk
        rcases (mapTouch_spec _ _ 0).2.1 k hk with h2 | h2
        · exact hinv.keys_lt v k h2
        · rw [h2]; exact hA
    · rw [if_neg hc] at hk; exact hinv.keys_lt u k hk
  unfold afterScan
  dsimp only
  by_cases hpos : r.2.2 > 0
  · rw [if_pos hpos]
    obtain ⟨X, hX, _, hX2, _⟩ := s3 hpos
    have hXK : X < K := hinv.keys_lt v X hX
    have hnat : r.2.1.toNat = X := by rw [hX2]; simp
    rw [hnat]
    unfold applyMove
    dsimp only
    refine ⟨by rw [List.length_set]; exact hinv.cm_len, ?_, ?_⟩
    · intro w hw
      dsimp only
      rw [getD_set_eq]
      by_cases hc : v = w ∧ v < st.clustermap.length
      · rw [if_pos hc]; exact hXK
      · rw [if_neg hc]; exact hinv.cm_lt w hw
    · intro u k hk
      dsimp only at hk
      rcases moveLinks_keys _ _ _ _ u k hk with h2 | h2 | h2
      · exact hkeys1 u k h2
      · rw [h2]; exact hA
      · rw [h2]; exact hXK
  · rw [if_neg hpos]
    exact ⟨hinv.cm_len, hinv.cm_lt, hkeys1⟩

theorem pass_RInvW (g : Graph) (ec : ℚ) {n K : Nat} (L : List Nat) :
    ∀ (st : RefineState) (b : Bool) (r : RefineState × Bool), (∀ v ∈ L, v < n) →
      RInvW n K st → L.foldlM (vertexStep g ec) (st, b) = some r → RInvW n K r.1 := by
  induction L with
  | nil =>
    intro st b r _ hinv h
    simp only [List.foldlM, pure, Option.some.injEq] at h
    subst h; exact hinv
  | cons v L ih =>
    intro st b r hlt hinv h
    rw [List.foldlM_cons] at h
    cases hs : scanVertex g ec st v with
    | none =>
      simp only [vertexStep, hs, Option.map_none', Option.bind_eq_bind, Option.none_bind] at h
      exact Option.noConfusion h
    | some r1 =>
      simp only [vertexStep, hs, Option.map_some', Option.bind_eq_bind, Option.some_bind] at h
      exact ih _ _ r (fun w hw => hlt w (List.mem_cons_of_mem _ hw))
        (afterScan_RInvW g ec hinv (hlt v (List.mem_cons_self _ _)) hs) h

theorem refineLoop_RInvW (g : Graph) (ec : ℚ) {K : Nat} (fuel : Nat) :
    ∀ (st st2 : RefineState), RInvW g.vertex_count K st →
      refineLoop g ec fuel st = .ok st2 → RInvW g.vertex_count K st2 := by
  induction fuel with
  | zero => intro st st2 _ h; simp [refineLoop] at h
  | succ fuel ih =>
    intro st st2 hinv h
    unfold refineLoop at h
    cases hp : refinePass g ec st with
    | none => rw [hp] at h; simp at h
    | some r =>
      obtain ⟨st1, b⟩ := r
      rw [hp] at h
      have hinv1 : RInvW g.vertex_count K st1 :=
        pass_RInvW g ec _ st false (st1, b) (fun v hv => List.mem_range.1 hv) hinv hp
      cases b with
      | true => exact ih st1 st2 hinv1 h
      | false =>
        simp only [Except.ok.injEq] at h
        subst h; exact hinv1

/-- Whenever the refinement loop finishes, the returned partition is a partition of the
vertex set without empty cluster, with at most as many clusters as the input. -/
theorem RefineCluster_partition (g : Graph) (hg : g.WellFormed) {P : Partition}
    (hP : IsPartition g.vertex_count P) (fuel : Nat) (R : Partition)
    (h : RefineCluster fuel g P = .ok R) :
    IsPartition g.vertex_count R ∧ (∀ C ∈ R, C ≠ []) ∧ R.length ≤ P.length := by
  unfold RefineCluster at h
  dsimp only at h
  cases hl : refineLoop g (refineInit g P).2 fuel (refineInit g P).1 with
  | error f => rw [hl] at h; simp at h
  | ok st =>
    rw [hl] at h
    have hinv := refineLoop_RInvW g _ fuel _ st (refineInit_RInvW g hg hP) hl
    obtain ⟨R2, r1, r2, r3, r4, _⟩ := rebuild_partition g.vertex_count
      (RemoveEmptyEntries (P.map some)).length st.clustermap hinv.cm_lt
    simp only [r1, Except.ok.injEq] at h
    subst h
    exact ⟨r2, r3, le_trans r4 (compact_length_le P)⟩

end CGGC


namespace CGGC

/-! ## RefineCluster on a graph without non-loop entries -/

theorem refineInit_degenerate (g : Graph) (P : Partition) (h : g.entries = []) :
    (refineInit g P).1.links = List.replicate g.vertex_count [] ∧ (refineInit g P).2 = 0 := by
  unfold refineInit
  dsimp only
  rw [refineLink_noop g _ _ (only_loops_of_entries_nil g h)]
  exact ⟨rfl, by norm_num⟩

theorem vertexStep_idle (g : Graph) (ec : ℚ) (st : RefineState) (b : Bool) (v : Nat)
    (h : st.links = List.replicate g.vertex_count []) :
    vertexStep g ec (st, b) v = some (st, b) := by
  have hrow : st.links.getD v [] = [] := by rw [h, getD_replicate_nil]
  unfold vertexStep
  dsimp only
  rw [scan_nil g ec st v hrow]
  simp only [Option.map_some', afterScan, gt_iff_lt, lt_self_iff_false, if_false]
  congr 2
  cases st with
  | mk cd cm links =>
    simp only at h
    subst h
    simp

theorem refinePass_idle (g : Graph) (ec : ℚ) (st : RefineState)
    (h : st.links = List.replicate g.vertex_count []) :
    refinePass g ec st = some (st, false) := by
  unfold refinePass
  generalize List.range g.vertex_count = L
  induction L with
  | nil => rfl
  | cons v L ih =>
    rw [List.foldlM_cons, vertexStep_idle g ec st false v h]
    exact ih

theorem sorted_cluster_eq {n : Nat} {P : Partition} (hP : IsPartition n P) (c : Nat)
    (hc : c < P.length) :
    clusterOf n (clustermapLoop P 0 (List.replicate n 0)) c =
      (List.range n).filter fun v => decide (v ∈ P[c]) := by
  unfold clusterOf
  apply List.filter_congr
  intro v hv
  rw [decide_eq_decide, clustermap_eq_iff hP (List.mem_range.1 hv) c,
    List.getD_eq_getElem?_getD, List.getElem?_eq_getElem hc]
  rfl

theorem map_eq_range_map {α β : Type} (g : α → β) (l : List α) (d : α) :
    l.map g = (List.range l.length).map fun c => g (l.getD c d) := by
  apply List.ext_getElem (by simp)
  intro i h1 h2
  simp only [List.getElem_map, List.getElem_range]
  rw [List.getD_eq_getElem?_getD, List.getElem?_eq_getElem (by simpa using h1)]
  rfl

/-- On a graph without non-loop entries the first pass accepts no move and divides nothing,
and the result lists the clusters of the input in order, each in ascending vertex id. -/
theorem RefineCluster_degenerate (g : Graph) (P : Partition) (hent : g.entries = [])
    (hP : IsPartition g.vertex_count P) (hne : ∀ C ∈ P, C ≠ []) :
    refinePass g (refineInit g P).2 (refineInit g P).1 = some ((refineInit g P).1, false) ∧
      ∀ fuel, RefineCluster (fuel + 1) g P =
        .ok (P.map fun C => (List.range g.vertex_count).filter fun v => decide (v ∈ C)) := by
  obtain ⟨hl, _⟩ := refineInit_degenerate g P hent
  have hpass := refinePass_idle g (refineInit g P).2 (refineInit g P).1 hl
  refine ⟨hpass, ?_⟩
  intro fuel
  have hloop : refineLoop g (refineInit g P).2 (fuel + 1) (refineInit g P).1
      = .ok (refineInit g P).1 := by
    simp only [refineLoop, hpass]
  have hcm : (refineInit g P).1.clustermap =
      clustermapLoop P 0 (List.replicate g.vertex_count 0) := by
    unfold refineInit
    dsimp only
    rw [compact_of_ne_nil hne]
    exact (refineInitClusters_spec g P 0 _ (by simp)).1
  have hreb := rebuild_spec g.vertex_count P.length
    (clustermapLoop P 0 (List.replicate g.vertex_count 0)) (fun v hv => clustermap_lt hP hv)
  have hres : specCompact P.length
      (fun c => some (clusterOf g.vertex_count
        (clustermapLoop P 0 (List.replicate g.vertex_count 0)) c)) =
      P.map fun C => (List.range g.vertex_count).filter fun v => decide (v ∈ C) := by
    rw [map_eq_range_map _ P []]
    unfold specCompact
    rw [← List.filterMap_eq_map]
    apply List.filterMap_congr
    intro c hc
    have hcl := List.mem_range.1 hc
    show nonEmptySlot (some (clusterOf g.vertex_count
      (clustermapLoop P 0 (List.replicate g.vertex_count 0)) c)) =
      some ((List.range g.vertex_count).filter fun v => decide (v ∈ P.getD c []))
    rw [sorted_cluster_eq hP c hcl, List.getD_eq_getElem?_getD,
      List.getElem?_eq_getElem hcl, Option.getD_some]
    have hmem := List.getElem_mem hcl
    obtain ⟨w, hw⟩ := List.exists_mem_of_ne_nil _ (hne _ hmem)
    have hw2 : w ∈ (List.range g.vertex_count).filter fun v => decide (v ∈ P[c]) := by
      rw [List.mem_filter, List.mem_range, decide_eq_true_eq]
      exact ⟨hP.lt_of_mem hmem hw, hw⟩
    cases hf : (List.range g.vertex_count).filter fun v => decide (v ∈ P[c]) with
    | nil => rw [hf] at hw2; exact absurd hw2 (List.not_mem_nil _)
    | cons x xs => rfl
  simp only [RefineCluster, hloop, hcm, compact_of_ne_nil hne, hreb, hres]

/-- **C10.** For a graph without non-loop adjacency entries and a partition of the vertex
set with non-empty clusters, the first pass of `RefineCluster` accepts no move and executes
no division by the zero edge count, the loop ends after that pass, and the result has the
clusters of the input in the same order, each with the same vertices listed in ascending
vertex id. -/
theorem C10_refine_degenerate (g : Graph) (P : Partition) (hent : g.entries = [])
    (hP : IsPartition g.vertex_count P) (hne : ∀ C ∈ P, C ≠ []) :
    (refineInit g P).2 = 0 ∧
    refinePass g (refineInit g P).2 (refineInit g P).1 = some ((refineInit g P).1, false) ∧
    (∀ fuel, RefineCluster (fuel + 1) g P =
      .ok (P.map fun C => (List.range g.vertex_count).filter fun v => decide (v ∈ C))) ∧
    (∀ C ∈ P, ∀ v, v ∈ ((List.range g.vertex_count).filter fun v => decide (v ∈ C)) ↔ v ∈ C) := by
  obtain ⟨h1, h2⟩ := RefineCluster_degenerate g P hent hP hne
  refine ⟨(refineInit_degenerate g P hent).2, h1, h2, ?_⟩
  intro C hC v
  rw [List.mem_filter, List.mem_range, decide_eq_true_eq]
  exact ⟨fun h => h.2, fun h => ⟨hP.lt_of_mem hC h, h⟩⟩

/-- Witness for C10: five vertices, a self-loop at vertex `2`, clusters given out of order. -/
theorem C10_refine_degenerate_witness :
    (⟨5, fun v => if v = 2 then [2] else []⟩ : Graph).entries = [] ∧
    IsPartition 5 [[3, 0], [2], [4, 1]] ∧
    RefineCluster 1 ⟨5, fun v => if v = 2 then [2] else []⟩ [[3, 0], [2], [4, 1]]
      = .ok [[0, 3], [2], [1, 4]] :=
  ⟨by decide, by decide,
    (C10_refine_degenerate ⟨5, fun v => if v = 2 then [2] else []⟩ [[3, 0], [2], [4, 1]]
      (by decide) (by decide) (by decide)).2.2.1 0⟩

end CGGC


namespace CGGC

/-- **C4.** For every graph on `{0..n-1}` and every partition `P` of the vertex set, whenever
the loop `while (improvement_found)` of `RefineCluster` finishes, `RefineCluster` returns a
partition in which every vertex lies in exactly one cluster, no cluster is empty, and there
are at most as many clusters as in `P`. -/
theorem C4_refine_output_partition (g : Graph) (hg : g.WellFormed) (P : Partition)
    (hP : IsPartition g.vertex_count P) (fuel : Nat) (st : RefineState)
    (h : refineLoop g (refineInit g P).2 fuel (refineInit g P).1 = .ok st) :
    ∃ R, RefineCluster fuel g P = .ok R ∧
      IsPartition g.vertex_count R ∧ (∀ C ∈ R, C ≠ []) ∧ R.length ≤ P.length := by
  have hinv := refineLoop_RInvW g _ fuel _ st (refineInit_RInvW g hg hP) h
  obtain ⟨R, r1, _⟩ := rebuild_partition g.vertex_count
    (RemoveEmptyEntries (P.map some)).length st.clustermap hinv.cm_lt
  have hrun : RefineCluster fuel g P = .ok R := by
    simp only [RefineCluster, h, r1]
  exact ⟨R, hrun, RefineCluster_partition g hg hP fuel R hrun⟩

/-- Witness for C4: the two triangles, started from the six singletons. -/
theorem C4_refine_output_partition_witness :
    twoTriangles.WellFormed ∧
    IsPartition twoTriangles.vertex_count [[0], [1], [2], [3], [4], [5]] ∧
    refineLoop twoTriangles (refineInit twoTriangles [[0], [1], [2], [3], [4], [5]]).2 3
      (refineInit twoTriangles [[0], [1], [2], [3], [4], [5]]).1 =
      .ok ⟨[0, 6, 0, 0, 6, 0], [1, 1, 1, 4, 4, 4],
        [[(1, 2), (2, 0), (0, 0)], [(0, 0), (2, 0), (1, 2)], [(0, 0), (1, 2), (2, 0)],
          [(4, 2), (5, 0), (3, 0)], [(3, 0), (5, 0), (4, 2)], [(3, 0), (4, 2), (5, 0)]]⟩ ∧
    ∃ R, RefineCluster 3 twoTriangles [[0], [1], [2], [3], [4], [5]] = .ok R ∧
      IsPartition twoTriangles.vertex_count R ∧ (∀ C ∈ R, C ≠ []) ∧
      R.length ≤ ([[0], [1], [2], [3], [4], [5]] : Partition).length :=
  ⟨by decide, by decide, by with_unfolding_all rfl,
    C4_refine_output_partition twoTriangles (by decide) [[0], [1], [2], [3], [4], [5]]
      (by decide) 3 _ (by with_unfolding_all rfl)⟩

end CGGC


namespace CGGC

/-! ## Modularity of a cluster map -/

theorem sum_countP_weighted {α : Type} (f : α → Nat) (h : Nat → ℚ) (K : Nat) (L : List α)
    (hf : ∀ x ∈ L, f x < K) :
    ∑ X ∈ Finset.range K, (L.countP (fun x => decide (f x = X)) : ℚ) * h X
      = (L.map fun x => h (f x)).sum := by
  induction L with
  | nil => simp
  | cons x xs ih =>
    have hx : f x < K := hf x (List.mem_cons_self _ _)
    simp only [List.countP_cons, List.map_cons, List.sum_cons, decide_eq_true_eq]
    rw [← ih (fun y hy => hf y (List.mem_cons_of_mem _ hy))]
    have : ∀ X ∈ Finset.range K,
        (((xs.countP (fun x => decide (f x = X)) + if f x = X then 1 else 0 : ℕ) : ℚ)) * h X
        = (if f x = X then h X else 0) + (xs.countP (fun x => decide (f x = X)) : ℚ) * h X := by
      intro X _
      by_cases hX : f x = X
      · simp [hX]; ring
      · simp [hX]
    rw [Finset.sum_congr rfl this, Finset.sum_add_distrib, Finset.sum_ite_eq]
    simp [hx]

/-- The evaluator in terms of the cluster map of the partition. -/
theorem GetModularity_eq_map (g : Graph) (P : Partition) (hT : g.entries.length ≠ 0)
    (hcm : ∀ u, u < g.vertex_count →
      (clustermapLoop P 0 (List.replicate g.vertex_count 0)).getD u 0 < P.length) :
    GetModularityFromClustering g P = some (modularityOfMap g P.length
      fun v => (clustermapLoop P 0 (List.replicate g.vertex_count 0)).getD v 0) := by
  rw [GetModularity_eq_cm g P hT hcm]
  congr 1
  unfold modularityOfMap intraCount clusterEntries
  rw [Finset.sum_sub_distrib, ← Finset.sum_div]
  congr 1
  · congr 1
    rw [← sum_countP_fiber (fun e : Nat × Nat => decide
      ((clustermapLoop P 0 (List.replicate g.vertex_count 0)).getD e.1 0 =
        (clustermapLoop P 0 (List.replicate g.vertex_count 0)).getD e.2 0))
      (fun e => (clustermapLoop P 0 (List.replicate g.vertex_count 0)).getD e.1 0) P.length]
    · push_cast
      apply Finset.sum_congr rfl
      intro X _
      congr 1
      apply List.countP_congr
      intro e _
      simp only [Bool.and_eq_true, decide_eq_true_eq]
      constructor
      · rintro ⟨h1, h2⟩; exact ⟨by rw [h1, h2], h1⟩
      · rintro ⟨h1, h2⟩; exact ⟨h2, by rw [← h1, h2]⟩
    · intro e he
      obtain ⟨h1, _, _⟩ := mem_entriesOf.1 he
      exact hcm e.1 (List.mem_range.1 h1)
  · apply Finset.sum_congr rfl
    intro X _
    ring

/-- The modularity of a cluster map depends only on which vertices share a cluster. -/
theorem modularityOfMap_congr (g : Graph) (hg : g.WellFormed) (K K2 : Nat) (c c2 : Nat → Nat)
    (hc : ∀ u, u < g.vertex_count → c u < K) (hc2 : ∀ u, u < g.vertex_count → c2 u < K2)
    (hrel : ∀ u w, u < g.vertex_count → w < g.vertex_count → (c u = c w ↔ c2 u = c2 w)) :
    modularityOfMap g K c = modularityOfMap g K2 c2 := by
  have hlt1 : ∀ e ∈ g.entries, e.1 < g.vertex_count := fun e he =>
    List.mem_range.1 (mem_entriesOf.1 he).1
  have hlt2 : ∀ e ∈ g.entries, e.2 < g.vertex_count := fun e he =>
    hg e.1 (hlt1 e he) e.2 (mem_entriesOf.1 he).2.1
  unfold modularityOfMap
  congr 1
  · congr 2
    unfold intraCount
    apply List.countP_congr
    intro e he
    rw [decide_eq_true_eq, decide_eq_true_eq]
    exact hrel e.1 e.2 (hlt1 e he) (hlt2 e he)
  · have key : ∀ (K : Nat) (c : Nat → Nat), (∀ u, u < g.vertex_count → c u < K) →
        ∑ X ∈ Finset.range K, ((clusterEntries g c X : ℚ) / (g.entries.length : ℚ)) ^ 2
        = (g.entries.map fun e => (clusterEntries g c (c e.1) : ℚ)
            / (g.entries.length : ℚ) ^ 2).sum := by
      intro K c hc
      rw [← sum_countP_weighted (fun e : Nat × Nat => c e.1)
        (fun X => (clusterEntries g c X : ℚ) / (g.entries.length : ℚ) ^ 2) K g.entries
        (fun e he => hc e.1 (hlt1 e he))]
      apply Finset.sum_congr rfl
      intro X _
      unfold clusterEntries
      ring
    rw [key K c hc, key K2 c2 hc2]
    congr 1
    apply List.map_congr_left
    intro e he
    congr 2
    unfold clusterEntries
    apply List.countP_congr
    intro e2 he2
    rw [decide_eq_true_eq, decide_eq_true_eq]
    exact hrel e2.1 e.1 (hlt1 e2 he2) (hlt1 e he)

theorem clustermap_rel {n : Nat} {P : Partition} (hP : IsPartition n P) {u w : Nat}
    (hu : u < n) (hw : w < n) :
    (clustermapLoop P 0 (List.replicate n 0)).getD u 0 =
      (clustermapLoop P 0 (List.replicate n 0)).getD w 0 ↔ SameCluster P u w :=
  membership_eq_iff hP (clustermap_spec hP).2 hu hw

/-- The evaluator on a partition in terms of any cluster map with the same clusters. -/
theorem GetModularity_of_rel (g : Graph) (hg : g.WellFormed) (hT : g.entries.length ≠ 0)
    {P : Partition} (hP : IsPartition g.vertex_count P) (K : Nat) (c : Nat → Nat)
    (hc : ∀ u, u < g.vertex_count → c u < K)
    (hrel : ∀ u w, u < g.vertex_count → w < g.vertex_count →
      (SameCluster P u w ↔ c u = c w)) :
    GetModularityFromClustering g P = some (modularityOfMap g K c) := by
  rw [GetModularity_eq_map g P hT (fun u hu => clustermap_lt hP hu)]
  congr 1
  apply modularityOfMap_congr g hg _ _ _ _ (fun u hu => clustermap_lt hP hu) hc
  intro u w hu hw
  rw [clustermap_rel hP hu hw, hrel u w hu hw]

/-- The partition rebuilt from a cluster map and its modularity. -/
theorem rebuild_modularity (g : Graph) (hg : g.WellFormed) (hT : g.entries.length ≠ 0)
    (K : Nat) (cm : List Nat) (h : ∀ v, v < g.vertex_count → cm.getD v 0 < K) :
    ∃ R, rebuildPartition g.vertex_count K cm = some R ∧ IsPartition g.vertex_count R ∧
      (∀ C ∈ R, C ≠ []) ∧
      (∀ C, C ∈ R ↔ ∃ c, c < K ∧ clusterOf g.vertex_count cm c = C ∧ C ≠ []) ∧
      GetModularityFromClustering g R = some (modularityOfMap g K fun v => cm.getD v 0) := by
  obtain ⟨R, r1, r2, r3, _, r5⟩ := rebuild_partition g.vertex_count K cm h
  refine ⟨R, r1, r2, r3, r5, ?_⟩
  apply GetModularity_of_rel g hg hT r2 K _ h
  intro u w hu hw
  constructor
  · rintro ⟨C, hC, huC, hwC⟩
    obtain ⟨c, _, hc, _⟩ := (r5 C).1 hC
    rw [← hc] at huC hwC
    rw [(mem_clusterOf.1 huC).2, (mem_clusterOf.1 hwC).2]
  · intro hcw
    refine ⟨clusterOf g.vertex_count cm (cm.getD u 0), ?_, mem_clusterOf.2 ⟨hu, rfl⟩,
      mem_clusterOf.2 ⟨hw, hcw.symm⟩⟩
    exact (r5 _).2 ⟨cm.getD u 0, h u hu, rfl,
      List.ne_nil_of_mem (mem_clusterOf.2 ⟨hu, rfl⟩)⟩

end CGGC


namespace CGGC

/-! ## Counting per vertex -/

theorem list_sum_range {β : Type} [AddCommMonoid β] (f : Nat → β) (n : Nat) :
    ((List.range n).map f).sum = ∑ i ∈ Finset.range n, f i := by
  induction n with
  | zero => simp
  | succ n ih =>
    rw [List.range_succ, List.map_append, List.sum_append, ih, Finset.sum_range_succ]
    simp

theorem countP_entriesOf_sum (g : Graph) (p : Nat × Nat → Bool) (us : List Nat) :
    ((g.entriesOf us).countP p : Int) =
      (us.map fun u => (((g.GetNeighbors u).countP
        (fun w => decide (u ≠ w) && p (u, w)) : Nat) : Int)).sum := by
  induction us with
  | nil => simp [Graph.entriesOf]
  | cons u us ih =>
    rw [countP_entriesOf_cons, List.map_cons, List.sum_cons, ← ih]
    push_cast; ring

theorem countP_entries_eq (g : Graph) (p : Nat × Nat → Bool) :
    (g.entries.countP p : Int) =
      ∑ u ∈ Finset.range g.vertex_count,
        (((g.GetNeighbors u).countP (fun w => decide (u ≠ w) && p (u, w)) : Nat) : Int) := by
  unfold Graph.entries
  rw [countP_entriesOf_sum, list_sum_range]

theorem countP_noloop (g : Graph) (hs : g.NoSelfLoops) {u : Nat} (hu : u < g.vertex_count)
    (q : Nat → Bool) :
    (g.GetNeighbors u).countP (fun w => decide (u ≠ w) && q w) =
      (g.GetNeighbors u).countP q := by
  apply List.countP_congr
  intro w hw
  have : u ≠ w := fun h => hs u hu (h ▸ hw)
  simp [this]

/-- Entries leaving cluster `X`, per vertex, on a graph without self-loops. -/
theorem clusterEntries_eq (g : Graph) (hs : g.NoSelfLoops) (c : Nat → Nat) (X : Nat) :
    (clusterEntries g c X : Int) =
      ∑ u ∈ Finset.range g.vertex_count,
        if c u = X then ((g.GetNeighbors u).length : Int) else 0 := by
  unfold clusterEntries
  rw [countP_entries_eq]
  apply Finset.sum_congr rfl
  intro u hu
  rw [countP_noloop g hs (Finset.mem_range.1 hu) (fun _ => decide (c u = X))]
  by_cases h : c u = X
  · simp [h]
  · simp [h]

/-- Entries inside clusters, per vertex, on a graph without self-loops. -/
theorem intraCount_eq (g : Graph) (hs : g.NoSelfLoops) (c : Nat → Nat) :
    (intraCount g c : Int) =
      ∑ u ∈ Finset.range g.vertex_count,
        (((g.GetNeighbors u).countP fun w => decide (c w = c u) : Nat) : Int) := by
  unfold intraCount
  rw [countP_entries_eq]
  apply Finset.sum_congr rfl
  intro u hu
  rw [countP_noloop g hs (Finset.mem_range.1 hu) (fun w => decide (c u = c w))]
  congr 1
  apply List.countP_congr
  intro w _
  simp only [decide_eq_true_eq]
  exact ⟨fun h => h.symm, fun h => h.symm⟩

/-! ## The effect of one vertex move on the counts -/

theorem countP_update (c : Nat → Nat) (v B Y : Nat) (L : List Nat) (hL : L.Nodup) :
    ((L.countP fun w => decide (Function.update c v B w = Y) : Nat) : Int) =
      (L.countP fun w => decide (c w = Y) : Nat)
        + (if v ∈ L then (if B = Y then 1 else 0) - (if c v = Y then 1 else 0) else 0) := by
  induction L with
  | nil => simp
  | cons x xs ih =>
    rw [List.nodup_cons] at hL
    rw [List.countP_cons, List.countP_cons]
    push_cast
    rw [ih hL.2]
    by_cases hx : x = v
    · subst hx
      have hnot : x ∉ xs := hL.1
      simp only [Function.update_same, decide_eq_true_eq, List.mem_cons, true_or, if_true, hnot,
        if_false]
      split_ifs <;> simp
    · have hvx : ¬ v = x := fun h => hx h.symm
      simp only [Function.update_noteq hx, decide_eq_true_eq, List.mem_cons, hvx, false_or]
      ring

theorem sum_ite_mem_list (n : Nat) (h : Nat → Int) (L : List Nat) (hL : L.Nodup)
    (hlt : ∀ x ∈ L, x < n) :
    ∑ u ∈ Finset.range n, (if u ∈ L then h u else 0) = (L.map h).sum := by
  induction L with
  | nil => simp
  | cons x xs ih =>
    rw [List.nodup_cons] at hL
    rw [List.map_cons, List.sum_cons, ← ih hL.2 (fun y hy => hlt y (List.mem_cons_of_mem _ hy))]
    have hx : x ∈ Finset.range n := Finset.mem_range.2 (hlt x (List.mem_cons_self _ _))
    have : ∀ u ∈ Finset.range n, (if u ∈ x :: xs then h u else 0)
        = (if u = x then h u else 0) + (if u ∈ xs then h u else 0) := by
      intro u _
      by_cases hux : u = x
      · subst hux; simp [hL.1]
      · simp [hux]
    rw [Finset.sum_congr rfl this, Finset.sum_add_distrib, Finset.sum_ite_eq' _ x h, if_pos hx]

theorem sum_indicator_diff (c : Nat → Nat) (A B : Nat) (L : List Nat) :
    (L.map fun u => ((if c u = B then 1 else 0) - (if c u = A then 1 else 0) : Int)).sum
      = ((L.countP fun w => decide (c w = B) : Nat) : Int)
        - ((L.countP fun w => decide (c w = A) : Nat) : Int) := by
  induction L with
  | nil => simp
  | cons x xs ih =>
    rw [List.map_cons, List.sum_cons, ih, List.countP_cons, List.countP_cons]
    push_cast
    simp only [decide_eq_true_eq]
    ring

/-- Moving `v` from its cluster `A` to `B` changes the entries leaving a cluster by the
degree of `v`, at `A` and `B` only. -/
theorem clusterEntries_move (g : Graph) (hs : g.NoSelfLoops) (c : Nat → Nat) (v B X : Nat)
    (hv : v < g.vertex_count) :
    (clusterEntries g (Function.update c v B) X : Int) =
      clusterEntries g c X + (if B = X then ((g.GetNeighbors v).length : Int) else 0)
        - (if c v = X then ((g.GetNeighbors v).length : Int) else 0) := by
  rw [clusterEntries_eq g hs, clusterEntries_eq g hs]
  have hvm : v ∈ Finset.range g.vertex_count := Finset.mem_range.2 hv
  have : ∀ u ∈ Finset.range g.vertex_count,
      (if Function.update c v B u = X then ((g.GetNeighbors u).length : Int) else 0)
      = (if c u = X then ((g.GetNeighbors u).length : Int) else 0)
        + (if u = v then ((if B = X then ((g.GetNeighbors v).length : Int) else 0)
            - (if c v = X then ((g.GetNeighbors v).length : Int) else 0)) else 0) := by
    intro u _
    by_cases huv : u = v
    · subst huv
      simp only [Function.update_same, if_true]
      ring
    · simp [Function.update_noteq huv, huv]
  rw [Finset.sum_congr rfl this, Finset.sum_add_distrib, Finset.sum_ite_eq' _ v, if_pos hvm]
  ring

/-- Moving `v` from its cluster `A` to another cluster `B` changes the number of entries
inside clusters by twice the difference of the links of `v` to `B` and to `A`. -/
theorem intraCount_move (g : Graph) (hg : g.Simple) (c : Nat → Nat) (v B : Nat)
    (hv : v < g.vertex_count) (hAB : c v ≠ B) :
    (intraCount g (Function.update c v B) : Int) =
      intraCount g c
        + 2 * ((((g.GetNeighbors v).countP fun w => decide (c w = B) : Nat) : Int)
          - (((g.GetNeighbors v).countP fun w => decide (c w = c v) : Nat) : Int)) := by
  obtain ⟨hwf, hsym, hs, hnd⟩ := hg
  rw [intraCount_eq g hs, intraCount_eq g hs]
  have hvm : v ∈ Finset.range g.vertex_count := Finset.mem_range.2 hv
  have hvN : v ∉ g.GetNeighbors v := hs v hv
  have hterm : ∀ u ∈ Finset.range g.vertex_count,
      (((g.GetNeighbors u).countP fun w =>
          decide (Function.update c v B w = Function.update c v B u) : Nat) : Int)
      = (((g.GetNeighbors u).countP fun w => decide (c w = c u) : Nat) : Int)
        + ((if u = v then ((((g.GetNeighbors v).countP fun w => decide (c w = B) : Nat) : Int)
            - (((g.GetNeighbors v).countP fun w => decide (c w = c v) : Nat) : Int)) else 0)
          + (if u ∈ g.GetNeighbors v then
              ((if c u = B then 1 else 0) - (if c u = c v then 1 else 0) : Int) else 0)) := by
    intro u hu
    have hun := Finset.mem_range.1 hu
    by_cases huv : u = v
    · subst huv
      rw [Function.update_same, countP_update c u B B _ (hnd u hun), if_neg hvN, if_pos rfl,
        if_neg hvN]
      ring
    · rw [Function.update_noteq huv, countP_update c v B (c u) _ (hnd u hun), if_neg huv]
      have hiff : v ∈ g.GetNeighbors u ↔ u ∈ g.GetNeighbors v := hsym u hun v hv
      by_cases hmem : u ∈ g.GetNeighbors v
      · rw [if_pos (hiff.2 hmem), if_pos hmem]
        have e1 : (B = c u) ↔ (c u = B) := ⟨fun h => h.symm, fun h => h.symm⟩
        have e2 : (c v = c u) ↔ (c u = c v) := ⟨fun h => h.symm, fun h => h.symm⟩
        simp only [e1, e2]
        ring
      · rw [if_neg (fun h => hmem (hiff.1 h)), if_neg hmem]
        ring
  rw [Finset.sum_congr rfl hterm, Finset.sum_add_distrib, Finset.sum_add_distrib,
    Finset.sum_ite_eq' _ v, if_pos hvm,
    sum_ite_mem_list g.vertex_count _ _ (hnd v hv) (fun x hx => hwf v hv x hx),
    sum_indicator_diff]
  ring

end CGGC


namespace CGGC

/-! ## The gain of one vertex move -/

/-- Closed form of the change of modularity when `v` moves from its cluster to `B`. -/
theorem modularity_move (g : Graph) (hg : g.Simple) (K : Nat) (c : Nat → Nat) (v B : Nat)
    (hv : v < g.vertex_count) (hA : c v < K) (hB : B < K) (hAB : c v ≠ B) :
    modularityOfMap g K (Function.update c v B) - modularityOfMap g K c =
      2 * ((((g.GetNeighbors v).countP fun w => decide (c w = B) : Nat) : ℚ)
          - (((g.GetNeighbors v).countP fun w => decide (c w = c v) : Nat) : ℚ))
        / (g.entries.length : ℚ)
      - 2 * ((g.GetNeighbors v).length : ℚ)
          * ((clusterEntries g c B : ℚ) - (clusterEntries g c (c v) : ℚ)
              + ((g.GetNeighbors v).length : ℚ))
        / (g.entries.length : ℚ) ^ 2 := by
  have hI := congrArg (Int.cast : Int → ℚ) (intraCount_move g hg c v B hv hAB)
  push_cast at hI
  have hD : ∀ X, (clusterEntries g (Function.update c v B) X : ℚ) =
      clusterEntries g c X + (if B = X then ((g.GetNeighbors v).length : ℚ) else 0)
        - (if c v = X then ((g.GetNeighbors v).length : ℚ) else 0) := by
    intro X
    have := congrArg (Int.cast : Int → ℚ) (clusterEntries_move g hg.2.2.1 c v B X hv)
    push_cast at this
    exact this
  unfold modularityOfMap
  rw [hI]
  have hsum : ∑ X ∈ Finset.range K,
        ((clusterEntries g (Function.update c v B) X : ℚ) / (g.entries.length : ℚ)) ^ 2
      - ∑ X ∈ Finset.range K, ((clusterEntries g c X : ℚ) / (g.entries.length : ℚ)) ^ 2
      = 2 * ((g.GetNeighbors v).length : ℚ)
          * ((clusterEntries g c B : ℚ) - (clusterEntries g c (c v) : ℚ)
              + ((g.GetNeighbors v).length : ℚ))
        / (g.entries.length : ℚ) ^ 2 := by
    rw [← Finset.sum_sub_distrib,
      Finset.sum_eq_add_of_mem (c v) B (Finset.mem_range.2 hA) (Finset.mem_range.2 hB) hAB]
    · rw [hD (c v), hD B, if_neg (fun h => hAB h.symm), if_pos rfl, if_pos rfl, if_neg hAB]
      ring
    · intro X _ hX
      rw [hD X, if_neg (fun h => hX.2 h.symm), if_neg (fun h => hX.1 h.symm)]
      ring
  linear_combination (-1 : ℚ) * hsum

/-! ## RefineCluster: the bookkeeping invariant -/

theorem getD_of_lt {α : Type} (l : List α) (i : Nat) (d : α) (h : i < l.length) :
    l.getD i d = l[i] := by
  rw [List.getD_eq_getElem?_getD, List.getElem?_eq_getElem h]; rfl

theorem degreeSum_eq (g : Graph) (hs : g.NoSelfLoops) (cm : List Nat) (X : Nat) :
    degreeSum g cm X = (clusterEntries g (fun v => cm.getD v 0) X : Int) := by
  rw [clusterEntries_eq g hs]
  rfl

theorem cmFun_set (cm : List Nat) (v B : Nat) (hv : v < cm.length) :
    (fun u => (cm.set v B).getD u 0) = Function.update (fun u => cm.getD u 0) v B := by
  funext u
  rw [getD_set_eq, Function.update_apply]
  by_cases h : v = u
  · subst h; simp [hv]
  · have : ¬ u = v := fun h2 => h h2.symm
    simp [h, this]

theorem refineInit_edgeCount (g : Graph) (P : Partition) :
    (refineInit g P).2 = (g.entries.length : ℚ) / 2 := by
  obtain ⟨_, _, _, _, o5⟩ := refineLink_outer g (refineInit g P).1.clustermap
    (List.range g.vertex_count) (List.replicate g.vertex_count [], 0)
    (List.nodup_range _) (fun v hv => by simpa using List.mem_range.1 hv)
  have : (refineInit g P).2 =
      ((List.range g.vertex_count).foldl (fun st i => (g.GetNeighbors i).foldl
        (refineLinkStep (refineInit g P).1.clustermap i) st)
        (List.replicate g.vertex_count [], 0)).2 / 2 := rfl
  rw [this, o5]
  simp [Graph.entries]

theorem refineInit_RInv (g : Graph) (hg : g.Simple) {P : Partition}
    (hP : IsPartition g.vertex_count P) :
    RInv g (RemoveEmptyEntries (P.map some)).length (refineInit g P).1 := by
  have hP2 := hP.compact
  have hcm := refineInit_clustermap g P
  obtain ⟨o1, _, o3, _, _⟩ := refineLink_outer g (refineInit g P).1.clustermap
    (List.range g.vertex_count) (List.replicate g.vertex_count [], 0)
    (List.nodup_range _) (fun v hv => by simpa using List.mem_range.1 hv)
  have hlinks : (refineInit g P).1.links =
      ((List.range g.vertex_count).foldl (fun st i => (g.GetNeighbors i).foldl
        (refineLinkStep (refineInit g P).1.clustermap i) st)
        (List.replicate g.vertex_count [], 0)).1 := rfl
  obtain ⟨_, c2, c3⟩ := refineInitClusters_spec g (RemoveEmptyEntries (P.map some)) 0
    (List.replicate (RemoveEmptyEntries (P.map some)).length 0,
      List.replicate g.vertex_count 0) (by simp)
  have hcd : (refineInit g P).1.clusterdegree =
      (refineInitClusters g (RemoveEmptyEntries (P.map some)) 0
        (List.replicate (RemoveEmptyEntries (P.map some)).length 0,
          List.replicate g.vertex_count 0)).1 := rfl
  refine ⟨refineInit_RInvW g hg.1 hP, ?_, ?_, ?_, ?_⟩
  · rw [hlinks, o1]; simp
  · rw [hcd, c2]; simp
  · intro X hX
    have := c3 X hX
    rw [Nat.zero_add] at this
    rw [hcd, this]
    unfold degreeSum
    have hXmem := List.getElem_mem hX
    rw [← sum_ite_mem_list g.vertex_count _ _ ((List.nodup_flatten.1 hP2.1).1 _ hXmem)
      (fun x hx => hP2.lt_of_mem hXmem hx)]
    apply Finset.sum_congr rfl
    intro u hu
    have hiff := clustermap_eq_iff hP2 (Finset.mem_range.1 hu) X
    rw [getD_of_lt _ X [] hX] at hiff
    rw [hcm]
    by_cases hm : u ∈ (RemoveEmptyEntries (P.map some))[X]
    · rw [if_pos hm, if_pos (hiff.2 hm)]
    · rw [if_neg hm, if_neg (fun h => hm (hiff.1 h))]
  · intro u hu X
    rw [hlinks, o3 u (List.mem_range.2 hu) X]
    dsimp only
    rw [getD_replicate_nil]
    simp only [mapGet, mapFind, Option.getD_none, zero_add]
    unfold linkCount
    rw [countP_noloop g hg.2.2.1 hu]

theorem moveLinkStep_get (A B : Nat) (hAB : A ≠ B) (links : List (List (Nat × Int)))
    (nb : Nat) (hnb : nb < links.length) :
    (moveLinkStep A B links nb).length = links.length ∧
    (∀ u, u ≠ nb → (moveLinkStep A B links nb).getD u [] = links.getD u []) ∧
    (∀ Y, mapGet ((moveLinkStep A B links nb).getD nb []) Y 0 =
      mapGet (links.getD nb []) Y 0 + ((if B = Y then 1 else 0) - (if A = Y then 1 else 0))) := by
  unfold moveLinkStep
  dsimp only
  refine ⟨by rw [List.length_set], ?_, ?_⟩
  · intro u hu
    rw [getD_set_eq, if_neg (fun h => hu h.1.symm)]
  · intro Y
    rw [getD_set_eq, if_pos ⟨rfl, hnb⟩]
    obtain ⟨t1, _, _, t4⟩ := mapTouch_spec (links.getD nb []) A (0 : Int)
    have hrow1 : ∀ Z, mapGet (mapUpdate (fun x => x - 1)
        (mapTouch (links.getD nb []) A 0) A) Z 0 =
        mapGet (links.getD nb []) Z 0 - (if A = Z then 1 else 0) := by
      intro Z
      rw [mapGet_mapUpdate _ _ _ _ _ t4, t1 Z]
      by_cases hZ : A = Z
      · rw [if_pos hZ, if_pos hZ]
      · rw [if_neg hZ, if_neg hZ]; ring
    by_cases hB : (mapFind (mapUpdate (fun x => x - 1)
        (mapTouch (links.getD nb []) A 0) A) B).isSome = true
    · rw [if_pos hB, mapGet_mapUpdate _ _ _ _ _ ((mapFind_isSome_iff _ B).1 hB), hrow1 Y]
      by_cases hY : B = Y
      · rw [if_pos hY, if_pos hY]; ring
      · rw [if_neg hY, if_neg hY]; ring
    · rw [if_neg hB, (mapSet_spec _ B 1 (0 : Int)).1 Y]
      have hBk : B ∉ (mapUpdate (fun x => x - 1)
          (mapTouch (links.getD nb []) A 0) A).map Prod.fst :=
        fun hm => hB ((mapFind_isSome_iff _ B).2 hm)
      by_cases hY : B = Y
      · rw [if_pos hY, if_pos hY]
        have h0 := mapGet_of_not_mem _ B (0 : Int) hBk
        rw [hrow1 B, if_neg hAB] at h0
        subst hY
        rw [if_neg hAB]
        linarith
      · rw [if_neg hY, if_neg hY, hrow1 Y]; ring

theorem moveLinks_get (A B : Nat) (hAB : A ≠ B) (N : List Nat) :
    ∀ (links : List (List (Nat × Int))), N.Nodup → (∀ x ∈ N, x < links.length) →
      (N.foldl (moveLinkStep A B) links).length = links.length ∧
      ∀ u Y, mapGet ((N.foldl (moveLinkStep A B) links).getD u []) Y 0 =
        mapGet (links.getD u []) Y 0
          + (if u ∈ N then ((if B = Y then 1 else 0) - (if A = Y then 1 else 0)) else 0) := by
  induction N with
  | nil => intro links _ _; simp
  | cons x xs ih =>
    intro links hnd hlt
    rw [List.nodup_cons] at hnd
    obtain ⟨s1, s2, s3⟩ := moveLinkStep_get A B hAB links x (hlt x (List.mem_cons_self _ _))
    obtain ⟨r1, r2⟩ := ih (moveLinkStep A B links x) hnd.2
      (fun y hy => by rw [s1]; exact hlt y (List.mem_cons_of_mem _ hy))
    rw [List.foldl_cons]
    refine ⟨by rw [r1, s1], ?_⟩
    intro u Y
    rw [r2 u Y]
    by_cases hux : u = x
    · subst hux
      rw [s3 Y, if_neg hnd.1, if_pos (List.mem_cons_self _ _)]
      ring
    · rw [s2 u hux]
      by_cases hmem : u ∈ xs
      · rw [if_pos hmem, if_pos (List.mem_cons_of_mem _ hmem)]
      · rw [if_neg hmem, if_neg (fun h => (List.mem_cons.1 h).elim hux hmem)]

/-- The bookkeeping invariant is kept by the scan of a vertex, with or without a move. -/
theorem afterScan_RInv (g : Graph) (hg : g.Simple) (ec : ℚ) {K : Nat} {st : RefineState}
    (hinv : RInv g K st) {v : Nat} (hv : v < g.vertex_count)
    {r : List (Nat × Int) × Int × ℚ} (h : scanVertex g ec st v = some r) :
    RInv g K (afterScan g st v r) := by
  obtain ⟨hwf, hsym, hs, hnd⟩ := hg
  have hweak := afterScan_RInvW g ec hinv.weak hv h
  obtain ⟨s1, _, s3, _⟩ := scanVertex_spec g ec st v r h
  have hA : st.clustermap.getD v 0 < K := hinv.weak.cm_lt v hv
  have hvl : v < st.links.length := by rw [hinv.links_len]; exact hv
  have hget1 : ∀ u, u < g.vertex_count → ∀ X,
      mapGet ((st.links.set v r.1).getD u []) X 0 = (linkCount g st.clustermap u X : Int) := by
    intro u hu X
    rw [getD_set_eq]
    by_cases hc : v = u ∧ v < st.links.length
    · rw [if_pos hc]
      obtain ⟨rfl, _⟩ := hc
      rcases s1 with s1 | s1
      · rw [s1]; exact hinv.links_eq v hv X
      · rw [s1, (mapTouch_spec _ _ 0).1 X]; exact hinv.links_eq v hv X
    · rw [if_neg hc]; exact hinv.links_eq u hu X
  by_cases hpos : r.2.2 > 0
  · obtain ⟨B, hBk, hBA, hB2, _⟩ := s3 hpos
    have hBK : B < K := hinv.weak.keys_lt v B hBk
    have hnat : r.2.1.toNat = B := by rw [hB2]; simp
    have hAB : st.clustermap.getD v 0 ≠ B := fun hh => hBA hh.symm
    have hvcm : v < st.clustermap.length := by rw [hinv.weak.cm_len]; exact hv
    have hst : afterScan g st v r = applyMove g ⟨st.clusterdegree, st.clustermap,
        st.links.set v r.1⟩ v (st.clustermap.getD v 0) B := by
      unfold afterScan
      dsimp only
      rw [if_pos hpos, hnat]
    obtain ⟨m1, m2⟩ := moveLinks_get (st.clustermap.getD v 0) B hAB (g.GetNeighbors v)
      (st.links.set v r.1) (hnd v hv)
      (fun x hx => by rw [List.length_set, hinv.links_len]; exact hwf v hv x hx)
    rw [hst] at hweak ⊢
    refine ⟨hweak, ?_, ?_, ?_, ?_⟩
    · show ((g.GetNeighbors v).foldl (moveLinkStep (st.clustermap.getD v 0) B)
        (st.links.set v r.1)).length = g.vertex_count
      rw [m1, List.length_set, hinv.links_len]
    · show ((st.clusterdegree.set (st.clustermap.getD v 0) _).set B _).length = K
      rw [List.length_set, List.length_set, hinv.cd_len]
    · intro X hX
      show ((st.clusterdegree.set (st.clustermap.getD v 0)
          (st.clusterdegree.getD (st.clustermap.getD v 0) 0 - ((g.GetNeighbors v).length : Int))).set
          B ((st.clusterdegree.set (st.clustermap.getD v 0)
            (st.clusterdegree.getD (st.clustermap.getD v 0) 0
              - ((g.GetNeighbors v).length : Int))).getD B 0
            + ((g.GetNeighbors v).length : Int))).getD X 0
        = degreeSum g (st.clustermap.set v B) X
      rw [degreeSum_eq g hs, cmFun_set _ _ _ hvcm, clusterEntries_move g hs _ v B X hv,
        ← degreeSum_eq g hs, ← hinv.cd_eq X hX]
      have hAl : st.clustermap.getD v 0 < st.clusterdegree.length := by
        rw [hinv.cd_len]; exact hA
      have hBl : B < (st.clusterdegree.set (st.clustermap.getD v 0)
          (st.clusterdegree.getD (st.clustermap.getD v 0) 0
            - ((g.GetNeighbors v).length : Int))).length := by
        rw [List.length_set, hinv.cd_len]; exact hBK
      rw [getD_set_eq, getD_set_eq, getD_set_eq]
      by_cases hXB : B = X
      · subst hXB
        rw [if_pos ⟨rfl, hBl⟩, if_neg (fun hh => hAB hh.1), if_pos rfl, if_neg hAB]
        ring
      · rw [if_neg (fun hh => hXB hh.1), if_neg hXB]
        by_cases hXA : st.clustermap.getD v 0 = X
        · rw [if_pos ⟨hXA, hAl⟩, if_pos hXA]
          subst hXA
          ring
        · rw [if_neg (fun hh => hXA hh.1), if_neg hXA]
          ring
    · intro u hu X
      show mapGet (((g.GetNeighbors v).foldl (moveLinkStep (st.clustermap.getD v 0) B)
        (st.links.set v r.1)).getD u []) X 0 = (linkCount g (st.clustermap.set v B) u X : Int)
      rw [m2 u X, hget1 u hu X]
      unfold linkCount
      have hcu := countP_update (fun w => st.clustermap.getD w 0) v B X (g.GetNeighbors u)
        (hnd u hu)
      rw [← cmFun_set _ _ _ hvcm] at hcu
      rw [hcu]
      have hiff : v ∈ g.GetNeighbors u ↔ u ∈ g.GetNeighbors v := hsym u hu v hv
      by_cases hmem : u ∈ g.GetNeighbors v
      · rw [if_pos hmem, if_pos (hiff.2 hmem)]
      · rw [if_neg hmem, if_neg (fun hh => hmem (hiff.1 hh))]
  · have hst : afterScan g st v r = ⟨st.clusterdegree, st.clustermap, st.links.set v r.1⟩ := by
      unfold afterScan
      dsimp only
      rw [if_neg hpos]
    rw [hst] at hweak ⊢
    exact ⟨hweak, by show (st.links.set v r.1).length = _; rw [List.length_set, hinv.links_len],
      hinv.cd_len, hinv.cd_eq, hget1⟩

theorem Reachable.inv {g : Graph} (hg : g.Simple) {P : Partition}
    (hP : IsPartition g.vertex_count P) {st : RefineState} (h : Reachable g P st) :
    RInv g (RemoveEmptyEntries (P.map some)).length st := by
  induction h with
  | init => exact refineInit_RInv g hg hP
  | step st v r _ hv hs ih => exact afterScan_RInv g hg _ ih hv hs

/-- In a state that satisfies the bookkeeping invariant, the value `deltaQ` computed for
the move of `v` to the cluster `X` is the change of the modularity of the cluster map. -/
theorem deltaQ_gain (g : Graph) (hg : g.Simple) (hT : g.entries.length ≠ 0) {K : Nat}
    {st : RefineState} (hinv : RInv g K st) {v X : Nat} (hv : v < g.vertex_count)
    (hX : X < K) (hXA : X ≠ st.clustermap.getD v 0) :
    deltaQ g ((g.entries.length : ℚ) / 2) st.clusterdegree (st.links.getD v []) v
        (st.clustermap.getD v 0) X =
      some (modularityOfMap g K (fun u => (st.clustermap.set v X).getD u 0)
        - modularityOfMap g K (fun u => st.clustermap.getD u 0)) := by
  have hT2 : (g.entries.length : ℚ) ≠ 0 := by exact_mod_cast hT
  have hec : (g.entries.length : ℚ) / 2 ≠ 0 := by
    intro h0
    apply hT2
    linarith
  have hA : st.clustermap.getD v 0 < K := hinv.weak.cm_lt v hv
  have hvcm : v < st.clustermap.length := by rw [hinv.weak.cm_len]; exact hv
  rw [deltaQ_eq g _ hec, cmFun_set _ _ _ hvcm,
    modularity_move g hg K _ v X hv hA hX (fun hh => hXA hh.symm),
    hinv.links_eq v hv X, hinv.links_eq v hv (st.clustermap.getD v 0),
    hinv.cd_eq X hX, hinv.cd_eq _ hA, degreeSum_eq g hg.2.2.1, degreeSum_eq g hg.2.2.1]
  congr 1
  unfold linkCount
  push_cast
  field_simp
  ring

end CGGC


namespace CGGC

/-! ## The cluster map of a partition after a vertex move -/

theorem foldl_set_getD (i : Nat) (C : List Nat) :
    ∀ (m : List Nat) (u : Nat),
      (C.foldl (fun m v => m.set v i) m).getD u 0 =
        if u ∈ C ∧ u < m.length then i else m.getD u 0 := by
  induction C with
  | nil => intro m u; simp
  | cons x xs ih =>
    intro m u
    rw [List.foldl_cons, ih, List.length_set, getD_set_eq]
    by_cases h3 : u < m.length
    · by_cases h1 : x = u
      · subst h1
        simp [-List.getD_eq_getElem?_getD, h3]
      · have h1b : ¬ u = x := fun h => h1 h.symm
        by_cases h2 : u ∈ xs
        · simp [-List.getD_eq_getElem?_getD, h2, h3]
        · simp [-List.getD_eq_getElem?_getD, h1, h1b, h2, h3]
    · by_cases h1 : x = u
      · subst h1
        simp [-List.getD_eq_getElem?_getD, h3]
      · simp [-List.getD_eq_getElem?_getD, h1, h3]

theorem clustermapLoop_length (Q : List (List Nat)) :
    ∀ (i : Nat) (m : List Nat), (clustermapLoop Q i m).length = m.length := by
  induction Q with
  | nil => intro i m; rfl
  | cons C Q ih => intro i m; rw [clustermapLoop, ih, length_foldl_set]

theorem clustermapLoop_not_mem (Q : List (List Nat)) :
    ∀ (i : Nat) (m : List Nat) (u : Nat), (∀ C ∈ Q, u ∉ C) →
      (clustermapLoop Q i m).getD u 0 = m.getD u 0 := by
  induction Q with
  | nil => intro i m u _; rfl
  | cons C Q ih =>
    intro i m u h
    rw [clustermapLoop, ih _ _ u (fun D hD => h D (List.mem_cons_of_mem _ hD)), foldl_set_getD,
      if_neg (fun hh => h C (List.mem_cons_self _ _) hh.1)]

/-- A vertex listed in exactly one cluster is mapped to the index of that cluster. -/
theorem clustermapLoop_unique (Q : List (List Nat)) :
    ∀ (i : Nat) (m : List Nat) (u j : Nat) (hj : j < Q.length), u < m.length → u ∈ Q[j] →
      (∀ j2 (h2 : j2 < Q.length), j2 ≠ j → u ∉ Q[j2]) →
      (clustermapLoop Q i m).getD u 0 = i + j := by
  induction Q with
  | nil => intro i m u j hj; exact absurd hj (by simp)
  | cons C Q ih =>
    intro i m u j hj hu hmem huniq
    rw [clustermapLoop]
    cases j with
    | zero =>
      rw [clustermapLoop_not_mem, foldl_set_getD, if_pos ⟨hmem, hu⟩]
      · rfl
      · intro D hD huD
        obtain ⟨k, hk, rfl⟩ := List.getElem_of_mem hD
        exact huniq (k + 1) (by simpa using hk) (by omega) (by simpa using huD)
    | succ j =>
      have hj2 : j < Q.length := by simpa using hj
      rw [ih (i + 1) _ u j hj2 (by rw [length_foldl_set]; exact hu) (by simpa using hmem)]
      · omega
      · intro j2 h2 hne
        have := huniq (j2 + 1) (by simpa using h2) (by omega)
        simpa using this

theorem moveVertex_length (P : Partition) (v c : Nat) : (moveVertex P v c).length = P.length := by
  unfold moveVertex; simp

theorem mem_moveVertex {n : Nat} {P : Partition} (hP : IsPartition n P) (v c : Nat)
    (hc : c < P.length) (j : Nat) (hj : j < P.length)
    (hj2 : j < (moveVertex P v c).length) (u : Nat) :
    u ∈ (moveVertex P v c)[j] ↔ (u = v ∧ j = c) ∨ (u ≠ v ∧ u ∈ P[j]) := by
  have hnd : ∀ k (hk : k < P.length), (P[k]).Nodup := fun k hk =>
    (List.nodup_flatten.1 hP.1).1 _ (List.getElem_mem hk)
  unfold moveVertex
  rw [List.getElem_set]
  by_cases hcj : c = j
  · subst hcj
    rw [if_pos rfl, getD_of_lt _ c [] hc, List.mem_append, (hnd c hc).mem_erase_iff,
      List.mem_singleton]
    constructor
    · rintro (h | h)
      · exact Or.inr h
      · exact Or.inl ⟨h, rfl⟩
    · rintro (h | h)
      · exact Or.inr h.1
      · exact Or.inl h
  · rw [if_neg hcj, List.getElem_map, (hnd j hj).mem_erase_iff]
    constructor
    · intro h; exact Or.inr h
    · rintro (h | h)
      · exact absurd h.2.symm hcj
      · exact h

/-- The cluster map of the partition with `v` moved to cluster `c`. -/
theorem clustermap_moveVertex {n : Nat} {P : Partition} (hP : IsPartition n P) (v c : Nat)
    (hv : v < n) (hc : c < P.length) (u : Nat) (hu : u < n) :
    (clustermapLoop (moveVertex P v c) 0 (List.replicate n 0)).getD u 0 =
      ((clustermapLoop P 0 (List.replicate n 0)).set v c).getD u 0 := by
  have hlen := (clustermap_spec hP).1
  rw [getD_set_eq]
  by_cases hvu : v = u
  · subst hvu
    rw [if_pos ⟨rfl, by rw [hlen]; exact hv⟩]
    have := clustermapLoop_unique (moveVertex P v c) 0 (List.replicate n 0) v c
      (by rw [moveVertex_length]; exact hc) (by simpa using hv)
      ((mem_moveVertex hP v c hc c hc (by rw [moveVertex_length]; exact hc) v).2 (Or.inl ⟨rfl, rfl⟩))
      (by
        intro j2 h2 hne hmem
        rw [moveVertex_length] at h2
        rcases (mem_moveVertex hP v c hc j2 h2 (by rw [moveVertex_length]; exact h2) v).1 hmem with h | h
        · exact hne h.2
        · exact h.1 rfl)
    rw [this, Nat.zero_add]
  · rw [if_neg (fun h => hvu h.1)]
    obtain ⟨C, hC, huC⟩ := hP.exists_mem hu
    obtain ⟨j, hj, rfl⟩ := List.getElem_of_mem hC
    have huv : u ≠ v := fun h => hvu h.symm
    have := clustermapLoop_unique (moveVertex P v c) 0 (List.replicate n 0) u j
      (by rw [moveVertex_length]; exact hj) (by simpa using hu)
      ((mem_moveVertex hP v c hc j hj (by rw [moveVertex_length]; exact hj) u).2 (Or.inr ⟨huv, huC⟩))
      (by
        intro j2 h2 hne hmem
        rw [moveVertex_length] at h2
        rcases (mem_moveVertex hP v c hc j2 h2 (by rw [moveVertex_length]; exact h2) u).1 hmem with h | h
        · exact huv h.1
        · exact hne (by
            have := hP.eq_of_mem (List.getElem_mem h2) hC h.2 huC
            have e1 := (clustermap_spec hP).2 j2 h2 u h.2
            have e2 := (clustermap_spec hP).2 j hj u huC
            rw [← e1, ← e2]))
    rw [this, Nat.zero_add, (clustermap_spec hP).2 j hj u huC]

/-- The evaluator on the partition with `v` moved to cluster `c`. -/
theorem GetModularity_moveVertex (g : Graph) (hg : g.WellFormed) (hT : g.entries.length ≠ 0)
    {P : Partition} (hP : IsPartition g.vertex_count P) (v c : Nat)
    (hv : v < g.vertex_count) (hc : c < P.length) :
    GetModularityFromClustering g (moveVertex P v c) = some (modularityOfMap g P.length
      fun u => ((clustermapLoop P 0 (List.replicate g.vertex_count 0)).set v c).getD u 0) := by
  have hlt : ∀ u, u < g.vertex_count →
      ((clustermapLoop P 0 (List.replicate g.vertex_count 0)).set v c).getD u 0 < P.length := by
    intro u hu
    rw [getD_set_eq]
    by_cases h : v = u ∧ v < (clustermapLoop P 0 (List.replicate g.vertex_count 0)).length
    · rw [if_pos h]; exact hc
    · rw [if_neg h]; exact clustermap_lt hP hu
  rw [GetModularity_eq_map g _ hT (by
    intro u hu
    rw [clustermap_moveVertex hP v c hv hc u hu, moveVertex_length]
    exact hlt u hu), moveVertex_length]
  congr 1
  apply modularityOfMap_congr g hg _ _ _ _ _ hlt
  · intro u w hu hw
    rw [clustermap_moveVertex hP v c hv hc u hu, clustermap_moveVertex hP v c hv hc w hw]
  · intro u hu
    rw [clustermap_moveVertex hP v c hv hc u hu]
    exact hlt u hu

/-! ## Accepted moves raise the modularity -/

theorem sameCluster_compact (P : Partition) (u w : Nat) :
    SameCluster (RemoveEmptyEntries (P.map some)) u w ↔ SameCluster P u w := by
  rw [RemoveEmptyEntries_map_some]
  constructor
  · rintro ⟨C, hC, h1, h2⟩
    exact ⟨C, (List.mem_filter.1 hC).1, h1, h2⟩
  · rintro ⟨C, hC, h1, h2⟩
    refine ⟨C, List.mem_filter.2 ⟨hC, ?_⟩, h1, h2⟩
    simpa using List.ne_nil_of_mem h1

/-- The evaluator on the input of `RefineCluster`, in terms of the initial cluster map. -/
theorem GetModularity_input (g : Graph) (hg : g.WellFormed) (hT : g.entries.length ≠ 0)
    {P : Partition} (hP : IsPartition g.vertex_count P) :
    GetModularityFromClustering g P =
      some (modularityOfMap g (RemoveEmptyEntries (P.map some)).length
        fun u => (refineInit g P).1.clustermap.getD u 0) := by
  rw [refineInit_clustermap]
  apply GetModularity_of_rel g hg hT hP _ _ (fun u hu => clustermap_lt hP.compact hu)
  intro u w hu hw
  rw [clustermap_rel hP.compact hu hw, sameCluster_compact]

theorem afterScan_clustermap (g : Graph) (st : RefineState) (v : Nat)
    (r : List (Nat × Int) × Int × ℚ) (hpos : r.2.2 > 0) :
    (afterScan g st v r).clustermap = st.clustermap.set v r.2.1.toNat := by
  unfold afterScan
  dsimp only
  rw [if_pos hpos]
  rfl

/-- An accepted move changes the modularity of the current clustering by `bestDeltaQ`. -/
theorem accepted_move_gain (g : Graph) (hg : g.Simple) (hT : g.entries.length ≠ 0) {K : Nat}
    {st : RefineState} (hinv : RInv g K st) {v : Nat} (hv : v < g.vertex_count)
    {r : List (Nat × Int) × Int × ℚ}
    (hs : scanVertex g ((g.entries.length : ℚ) / 2) st v = some r) (hpos : r.2.2 > 0) :
    r.2.2 = modularityOfMap g K (fun u => (afterScan g st v r).clustermap.getD u 0)
      - modularityOfMap g K (fun u => st.clustermap.getD u 0) := by
  obtain ⟨_, _, s3, _⟩ := scanVertex_spec g _ st v r hs
  obtain ⟨X, hXk, hXA, hX2, hdq⟩ := s3 hpos
  have hXK : X < K := hinv.weak.keys_lt v X hXk
  rw [deltaQ_gain g hg hT hinv hv hXK hXA] at hdq
  injection hdq with hdq
  have hnat : r.2.1.toNat = X := by rw [hX2]; simp
  rw [afterScan_clustermap g st v r hpos, hnat, hdq]

theorem pass_reachable (g : Graph) (P : Partition) (L : List Nat) :
    ∀ (st : RefineState) (b : Bool) (r : RefineState × Bool),
      (∀ v ∈ L, v < g.vertex_count) → Reachable g P st →
      L.foldlM (vertexStep g (refineInit g P).2) (st, b) = some r → Reachable g P r.1 := by
  induction L with
  | nil =>
    intro st b r _ hr h
    simp only [List.foldlM, pure, Option.some.injEq] at h
    subst h; exact hr
  | cons v L ih =>
    intro st b r hlt hr h
    rw [List.foldlM_cons] at h
    cases hs : scanVertex g (refineInit g P).2 st v with
    | none =>
      simp only [vertexStep, hs, Option.map_none', Option.bind_eq_bind, Option.none_bind] at h
      exact Option.noConfusion h
    | some r1 =>
      simp only [vertexStep, hs, Option.map_some', Option.bind_eq_bind, Option.some_bind] at h
      exact ih _ _ r (fun w hw => hlt w (List.mem_cons_of_mem _ hw))
        (Reachable.step st v r1 hr (hlt v (List.mem_cons_self _ _)) hs) h

theorem refineLoop_reachable (g : Graph) (P : Partition) (fuel : Nat) :
    ∀ (st st2 : RefineState), Reachable g P st →
      refineLoop g (refineInit g P).2 fuel st = .ok st2 → Reachable g P st2 := by
  induction fuel with
  | zero => intro st st2 _ h; simp [refineLoop] at h
  | succ fuel ih =>
    intro st st2 hr h
    unfold refineLoop at h
    cases hp : refinePass g (refineInit g P).2 st with
    | none => rw [hp] at h; simp at h
    | some r =>
      obtain ⟨st1, b⟩ := r
      rw [hp] at h
      have hr1 : Reachable g P st1 :=
        pass_reachable g P _ st false (st1, b) (fun v hv => List.mem_range.1 hv) hr hp
      cases b with
      | true => exact ih st1 st2 hr1 h
      | false =>
        simp only [Except.ok.injEq] at h
        subst h; exact hr1

/-- **C3.** For a simple undirected graph with at least one edge and a partition `P` of the
vertex set: (1) for every vertex `v` and every cluster `c` of the compacted input that does
not hold `v`, the value `deltaQ = term1 - term2` that `RefineCluster` computes from its
initial `links` and `clusterdegree` equals `GetModularityFromClustering` of the partition
with `v` moved to `c` minus `GetModularityFromClustering` of `P` (exact arithmetic);
(2) in every state of the run, a move that `RefineCluster` accepts (`bestDeltaQ > 0`) raises
the modularity of the current clustering by exactly `bestDeltaQ`, hence strictly;
(3) the state in which the loop ends is one of these states. -/
theorem C3_refine_delta_is_gain (g : Graph) (hg : g.Simple) (hT : 0 < g.entries.length)
    (P : Partition) (hP : IsPartition g.vertex_count P) :
    (∀ v c, v < g.vertex_count → c < (RemoveEmptyEntries (P.map some)).length →
      v ∉ (RemoveEmptyEntries (P.map some)).getD c [] →
      ∃ q0 q1, GetModularityFromClustering g P = some q0 ∧
        GetModularityFromClustering g (moveVertex (RemoveEmptyEntries (P.map some)) v c)
          = some q1 ∧
        deltaQ g (refineInit g P).2 (refineInit g P).1.clusterdegree
          ((refineInit g P).1.links.getD v []) v ((refineInit g P).1.clustermap.getD v 0) c
          = some (q1 - q0)) ∧
    (∀ st v r, Reachable g P st → v < g.vertex_count →
      scanVertex g (refineInit g P).2 st v = some r → r.2.2 > 0 →
      ∃ R0 R1 q0 q1,
        rebuildPartition g.vertex_count (RemoveEmptyEntries (P.map some)).length st.clustermap
          = some R0 ∧
        rebuildPartition g.vertex_count (RemoveEmptyEntries (P.map some)).length
          (afterScan g st v r).clustermap = some R1 ∧
        GetModularityFromClustering g R0 = some q0 ∧
        GetModularityFromClustering g R1 = some q1 ∧
        r.2.2 = q1 - q0 ∧ q0 < q1) ∧
    (∀ fuel st, refineLoop g (refineInit g P).2 fuel (refineInit g P).1 = .ok st →
      Reachable g P st) := by
  have hT0 : g.entries.length ≠ 0 := by omega
  have hP2 := hP.compact
  refine ⟨?_, ?_, ?_⟩
  · intro v c hv hc hvc
    have hinv := refineInit_RInv g hg hP
    have hcA : c ≠ (refineInit g P).1.clustermap.getD v 0 := by
      intro h
      apply hvc
      rw [refineInit_clustermap] at h
      exact (clustermap_eq_iff hP2 hv c).1 h.symm
    refine ⟨_, _, GetModularity_input g hg.1 hT0 hP,
      GetModularity_moveVertex g hg.1 hT0 hP2 v c hv hc, ?_⟩
    rw [refineInit_edgeCount, deltaQ_gain g hg hT0 hinv hv hc hcA, refineInit_clustermap]
  · intro st v r hr hv hs hpos
    have hinv := hr.inv hg hP
    have hinv2 := afterScan_RInv g hg _ hinv hv hs
    obtain ⟨R0, a1, _, _, _, a5⟩ := rebuild_modularity g hg.1 hT0 _ st.clustermap
      hinv.weak.cm_lt
    obtain ⟨R1, b1, _, _, _, b5⟩ := rebuild_modularity g hg.1 hT0 _
      (afterScan g st v r).clustermap hinv2.weak.cm_lt
    rw [refineInit_edgeCount] at hs
    have hgain := accepted_move_gain g hg hT0 hinv hv hs hpos
    refine ⟨R0, R1, _, _, a1, b1, a5, b5, hgain, ?_⟩
    linarith
  · intro fuel st h
    exact refineLoop_reachable g P fuel _ st Reachable.init h

/-- Witness for C3: the two triangles, input `{0,1}, {2,3}, {}, {4,5}`, vertex `2` moved to
the cluster of `0` and `1`. -/
theorem C3_refine_delta_is_gain_witness :
    twoTriangles.Simple ∧ 0 < twoTriangles.entries.length ∧
    IsPartition twoTriangles.vertex_count [[0, 1], [2, 3], [], [4, 5]] ∧
    ∃ q0 q1, GetModularityFromClustering twoTriangles [[0, 1], [2, 3], [], [4, 5]] = some q0 ∧
      GetModularityFromClustering twoTriangles
        (moveVertex (RemoveEmptyEntries ([[0, 1], [2, 3], [], [4, 5]].map some)) 2 0) = some q1 ∧
      deltaQ twoTriangles (refineInit twoTriangles [[0, 1], [2, 3], [], [4, 5]]).2
        (refineInit twoTriangles [[0, 1], [2, 3], [], [4, 5]]).1.clusterdegree
        ((refineInit twoTriangles [[0, 1], [2, 3], [], [4, 5]]).1.links.getD 2 []) 2
        ((refineInit twoTriangles [[0, 1], [2, 3], [], [4, 5]]).1.clustermap.getD 2 0) 0
        = some (q1 - q0) :=
  ⟨by decide, by decide, by decide,
    (C3_refine_delta_is_gain twoTriangles (by decide) (by decide)
      [[0, 1], [2, 3], [], [4, 5]] (by decide)).1 2 0 (by decide) (by decide) (by decide)⟩

end CGGC


namespace CGGC

/-! ## The pass that ends the loop -/

theorem pass_flag_true (g : Graph) (ec : ℚ) (L : List Nat) :
    ∀ (st : RefineState) (r : RefineState × Bool),
      L.foldlM (vertexStep g ec) (st, true) = some r → r.2 = true := by
  induction L with
  | nil =>
    intro st r h
    simp only [List.foldlM, pure, Option.some.injEq] at h
    subst h; rfl
  | cons v L ih =>
    intro st r h
    rw [List.foldlM_cons] at h
    cases hs : scanVertex g ec st v with
    | none =>
      simp only [vertexStep, hs, Option.map_none', Option.bind_eq_bind, Option.none_bind] at h
      exact Option.noConfusion h
    | some r1 =>
      simp only [vertexStep, hs, Option.map_some', Option.bind_eq_bind, Option.some_bind,
        ite_self] at h
      exact ih _ r h

/-- No improving move over the clusters to which `u` has a link, as found by a scan. -/
theorem pass_nomove (g : Graph) (ec : ℚ) (L : List Nat) :
    ∀ (st : RefineState) (b : Bool) (r : RefineState × Bool),
      L.foldlM (vertexStep g ec) (st, b) = some r → r.2 = false →
      r.1.clustermap = st.clustermap ∧ r.1.clusterdegree = st.clusterdegree ∧
      (∀ u X, mapGet (r.1.links.getD u []) X 0 = mapGet (st.links.getD u []) X 0) ∧
      (∀ u ∈ L, ∀ X, mapGet (st.links.getD u []) X 0 ≠ 0 → X ≠ st.clustermap.getD u 0 →
        ∃ dq, deltaQ g ec st.clusterdegree (st.links.getD u []) u (st.clustermap.getD u 0) X
          = some dq ∧ dq ≤ 0) := by
  induction L with
  | nil =>
    intro st b r h _
    simp only [List.foldlM, pure, Option.some.injEq] at h
    subst h
    exact ⟨rfl, rfl, fun _ _ => rfl, fun u hu => absurd hu (List.not_mem_nil _)⟩
  | cons v L ih =>
    intro st b r h hflag
    rw [List.foldlM_cons] at h
    cases hs : scanVertex g ec st v with
    | none =>
      simp only [vertexStep, hs, Option.map_none', Option.bind_eq_bind, Option.none_bind] at h
      exact Option.noConfusion h
    | some r1 =>
      simp only [vertexStep, hs, Option.map_some', Option.bind_eq_bind, Option.some_bind] at h
      obtain ⟨s1, _, _, s4⟩ := scanVertex_spec g ec st v r1 hs
      have hnp : ¬ r1.2.2 > 0 := by
        intro hpos
        rw [if_pos hpos] at h
        have := pass_flag_true g ec L _ r h
        rw [this] at hflag
        exact Bool.noConfusion hflag
      have hst : afterScan g st v r1 =
          ⟨st.clusterdegree, st.clustermap, st.links.set v r1.1⟩ := by
        unfold afterScan
        dsimp only
        rw [if_neg hnp]
      rw [hst] at h
      obtain ⟨i1, i2, i3, i4⟩ := ih _ _ r h hflag
      have hrow : ∀ u X, mapGet ((st.links.set v r1.1).getD u []) X 0 =
          mapGet (st.links.getD u []) X 0 := by
        intro u X
        rw [getD_set_eq]
        by_cases hc : v = u ∧ v < st.links.length
        · rw [if_pos hc]
          obtain ⟨rfl, _⟩ := hc
          rcases s1 with s1 | s1
          · rw [s1]
          · rw [s1, (mapTouch_spec _ _ 0).1 X]
        · rw [if_neg hc]
      refine ⟨i1, i2, fun u X => by rw [i3 u X]; exact hrow u X, ?_⟩
      intro u hu X hX hXA
      rcases List.mem_cons.1 hu with rfl | hu
      · obtain ⟨dq, h1, h2⟩ := s4 X (mem_keys_of_mapGet_ne _ X 0 hX) hXA
        exact ⟨dq, h1, le_trans h2 (not_lt.1 hnp)⟩
      · have := i4 u hu X (by dsimp only; rw [hrow u X]; exact hX) hXA
        dsimp only at this
        rw [deltaQ_congr g ec st.clusterdegree _ (st.links.getD u []) u _ X (hrow u)] at this
        exact this

/-- When the loop ends, the final state satisfies the bookkeeping invariant and no scan
finds an improving move in it. -/
theorem refineLoop_final (g : Graph) (hg : g.Simple) (ec : ℚ) {K : Nat} (fuel : Nat) :
    ∀ (st st2 : RefineState), RInv g K st → refineLoop g ec fuel st = .ok st2 →
      RInv g K st2 ∧
      (∀ u, u < g.vertex_count → ∀ X, mapGet (st2.links.getD u []) X 0 ≠ 0 →
        X ≠ st2.clustermap.getD u 0 →
        ∃ dq, deltaQ g ec st2.clusterdegree (st2.links.getD u []) u (st2.clustermap.getD u 0) X
          = some dq ∧ dq ≤ 0) := by
  have hpassinv : ∀ (L : List Nat) (st : RefineState) (b : Bool) (r : RefineState × Bool),
      (∀ v ∈ L, v < g.vertex_count) → RInv g K st →
      L.foldlM (vertexStep g ec) (st, b) = some r → RInv g K r.1 := by
    intro L
    induction L with
    | nil =>
      intro st b r _ hinv h
      simp only [List.foldlM, pure, Option.some.injEq] at h
      subst h; exact hinv
    | cons v L ih =>
      intro st b r hlt hinv h
      rw [List.foldlM_cons] at h
      cases hs : scanVertex g ec st v with
      | none =>
        simp only [vertexStep, hs, Option.map_none', Option.bind_eq_bind, Option.none_bind] at h
        exact Option.noConfusion h
      | some r1 =>
        simp only [vertexStep, hs, Option.map_some', Option.bind_eq_bind, Option.some_bind] at h
        exact ih _ _ r (fun w hw => hlt w (List.mem_cons_of_mem _ hw))
          (afterScan_RInv g hg ec hinv (hlt v (List.mem_cons_self _ _)) hs) h
  induction fuel with
  | zero => intro st st2 _ h; simp [refineLoop] at h
  | succ fuel ih =>
    intro st st2 hinv h
    unfold refineLoop at h
    cases hp : refinePass g ec st with
    | none => rw [hp] at h; simp at h
    | some r =>
      obtain ⟨st1, b⟩ := r
      rw [hp] at h
      have hinv1 : RInv g K st1 :=
        hpassinv _ st false (st1, b) (fun v hv => List.mem_range.1 hv) hinv hp
      cases b with
      | true => exact ih st1 st2 hinv1 h
      | false =>
        simp only [Except.ok.injEq] at h
        subst h
        refine ⟨hinv1, ?_⟩
        obtain ⟨n1, n2, n3, n4⟩ := pass_nomove g ec _ st false (st1, false) hp rfl
        intro u hu X hX hXA
        dsimp only at n1 n2 n3
        have := n4 u (List.mem_range.2 hu) X (by rw [← n3 u X]; exact hX) (by rw [← n1]; exact hXA)
        rw [← n1, ← n2, ← deltaQ_congr g ec st1.clusterdegree (st1.links.getD u []) _ u _ X
          (n3 u)] at this
        exact this

/-! ## Clusters without a link to the vertex -/

/-- Counting argument: when no move of a vertex of degree `k` to a linked cluster gains,
no move to an unlinked cluster gains either. `l X` are the links of the vertex to cluster
`X`, `D X` the degree sums, `T` the number of adjacency entries. -/
theorem no_gain_unlinked (K A B : Nat) (hA : A < K) (hB : B < K) (hAB : A ≠ B)
    (l D : Nat → ℚ) (k T : ℚ) (hD : ∀ X, 0 ≤ D X) (hk : 0 ≤ k)
    (hsl : ∑ X ∈ Finset.range K, l X = k) (hsD : ∑ X ∈ Finset.range K, D X = T)
    (hlB : l B = 0)
    (hS : ∀ X, X < K → X ≠ A → l X ≠ 0 → T * (l X - l A) ≤ k * (D X - D A + k)) :
    T * (l B - l A) ≤ k * (D B - D A + k) := by
  by_contra hcon
  rw [not_le, hlB] at hcon
  have hsum : ∑ X ∈ (Finset.range K).filter (fun X => X ≠ A ∧ l X ≠ 0), T * (l X - l A)
      ≤ ∑ X ∈ (Finset.range K).filter (fun X => X ≠ A ∧ l X ≠ 0), k * (D X - D A + k) := by
    apply Finset.sum_le_sum
    intro X hX
    rw [Finset.mem_filter, Finset.mem_range] at hX
    exact hS X hX.1 hX.2.1 hX.2.2
  have hSl : ∑ X ∈ (Finset.range K).filter (fun X => X ≠ A ∧ l X ≠ 0), l X = k - l A := by
    have : ∀ X ∈ Finset.range K, l X =
        (if X ≠ A ∧ l X ≠ 0 then l X else 0) + (if X = A then l X else 0) := by
      intro X _
      by_cases h1 : X = A
      · simp [h1]
      · by_cases h2 : l X = 0
        · simp [h1, h2]
        · simp [h1, h2]
    have h1 := Finset.sum_congr (rfl : Finset.range K = Finset.range K) this
    rw [Finset.sum_add_distrib, Finset.sum_ite_eq' _ A l,
      if_pos (Finset.mem_range.2 hA)] at h1
    rw [Finset.sum_filter]
    linarith
  have hSD : ∑ X ∈ (Finset.range K).filter (fun X => X ≠ A ∧ l X ≠ 0), D X
      ≤ T - D A - D B := by
    rw [← hsD, Finset.sum_filter]
    have hle : ∀ X ∈ Finset.range K,
        (if X ≠ A ∧ l X ≠ 0 then D X else 0) + (if X = A then D X else 0)
          + (if X = B then D X else 0) ≤ D X := by
      intro X _
      by_cases h1 : X = A
      · have h2 : ¬ X = B := fun h => hAB (h1.symm.trans h)
        simp [h1, h2, hAB]
      · by_cases h2 : X = B
        · subst h2
          simp [h1, hlB]
        · by_cases h3 : l X = 0
          · simp [h1, h2, h3]; exact hD X
          · simp [h1, h2, h3]
    have := Finset.sum_le_sum hle
    rw [Finset.sum_add_distrib, Finset.sum_add_distrib, Finset.sum_ite_eq' _ A D,
      Finset.sum_ite_eq' _ B D, if_pos (Finset.mem_range.2 hA),
      if_pos (Finset.mem_range.2 hB)] at this
    linarith
  generalize hs : (((Finset.range K).filter (fun X => X ≠ A ∧ l X ≠ 0)).card : ℚ) = s at *
  have hs0 : 0 ≤ s := by rw [← hs]; exact Nat.cast_nonneg _
  have hexp : T * (k - l A) - s * (T * l A) ≤
      k * (∑ X ∈ (Finset.range K).filter (fun X => X ≠ A ∧ l X ≠ 0), D X)
        - s * (k * D A) + s * (k * k) := by
    have e1 : ∑ X ∈ (Finset.range K).filter (fun X => X ≠ A ∧ l X ≠ 0), T * (l X - l A)
        = T * (k - l A) - s * (T * l A) := by
      simp only [mul_sub, Finset.sum_sub_distrib, ← Finset.mul_sum, Finset.sum_const,
        nsmul_eq_mul, hSl, hs]
      ring
    have e2 : ∑ X ∈ (Finset.range K).filter (fun X => X ≠ A ∧ l X ≠ 0), k * (D X - D A + k)
        = k * (∑ X ∈ (Finset.range K).filter (fun X => X ≠ A ∧ l X ≠ 0), D X)
          - s * (k * D A) + s * (k * k) := by
      simp only [mul_sub, mul_add, Finset.sum_sub_distrib, Finset.sum_add_distrib,
        ← Finset.mul_sum, Finset.sum_const, nsmul_eq_mul, hs]
      ring
    rw [e1, e2] at hsum
    exact hsum
  have hkS := mul_le_mul_of_nonneg_left hSD hk
  have hDB : 0 ≤ D B := hD B
  have hcon2 : s * (k * (D B - D A + k)) ≤ s * (T * (0 - l A)) :=
    mul_le_mul_of_nonneg_left (le_of_lt hcon) hs0
  nlinarith [mul_nonneg hk hDB, mul_nonneg hs0 (mul_nonneg hk hDB), mul_self_nonneg k,
    hexp, hkS, hcon, hcon2]

theorem gain_le_iff (T lX lA k DX DA : ℚ) (hT : 0 < T) :
    2 * (lX - lA) / T - 2 * k * (DX - DA + k) / T ^ 2 ≤ 0 ↔
      T * (lX - lA) ≤ k * (DX - DA + k) := by
  have hT0 : T ≠ 0 := ne_of_gt hT
  have e : 2 * (lX - lA) / T - 2 * k * (DX - DA + k) / T ^ 2
      = (2 / T ^ 2) * (T * (lX - lA) - k * (DX - DA + k)) := by
    field_simp
    ring
  have hpos : 0 < 2 / T ^ 2 := by positivity
  rw [e]
  constructor
  · intro h
    by_contra hc
    rw [not_le] at hc
    have := mul_pos hpos (sub_pos.2 hc)
    linarith
  · intro h
    have := mul_nonneg (le_of_lt hpos) (sub_nonneg.2 h)
    linarith

/-- In a final state no move of a single vertex to another cluster id raises the
modularity of the cluster map, whether or not the vertex has a link to that cluster. -/
theorem local_optimum (g : Graph) (hg : g.Simple) (hT : g.entries.length ≠ 0) {K : Nat}
    {st : RefineState} (hinv : RInv g K st)
    (hnm : ∀ u, u < g.vertex_count → ∀ X, mapGet (st.links.getD u []) X 0 ≠ 0 →
      X ≠ st.clustermap.getD u 0 →
      ∃ dq, deltaQ g ((g.entries.length : ℚ) / 2) st.clusterdegree (st.links.getD u []) u
        (st.clustermap.getD u 0) X = some dq ∧ dq ≤ 0)
    {v B : Nat} (hv : v < g.vertex_count) (hB : B < K) (hBA : B ≠ st.clustermap.getD v 0) :
    modularityOfMap g K (fun u => (st.clustermap.set v B).getD u 0)
      - modularityOfMap g K (fun u => st.clustermap.getD u 0) ≤ 0 := by
  have hTpos : (0 : ℚ) < (g.entries.length : ℚ) := by
    exact_mod_cast Nat.pos_of_ne_zero hT
  have hA : st.clustermap.getD v 0 < K := hinv.weak.cm_lt v hv
  have hvcm : v < st.clustermap.length := by rw [hinv.weak.cm_len]; exact hv
  have hform : ∀ X, X < K → X ≠ st.clustermap.getD v 0 →
      modularityOfMap g K (fun u => (st.clustermap.set v X).getD u 0)
        - modularityOfMap g K (fun u => st.clustermap.getD u 0) =
      2 * (((linkCount g st.clustermap v X : ℕ) : ℚ)
          - ((linkCount g st.clustermap v (st.clustermap.getD v 0) : ℕ) : ℚ))
        / (g.entries.length : ℚ)
      - 2 * ((g.GetNeighbors v).length : ℚ)
          * ((clusterEntries g (fun u => st.clustermap.getD u 0) X : ℚ)
              - (clusterEntries g (fun u => st.clustermap.getD u 0)
                  (st.clustermap.getD v 0) : ℚ)
              + ((g.GetNeighbors v).length : ℚ))
        / (g.entries.length : ℚ) ^ 2 := by
    intro X hX hXA
    rw [cmFun_set _ _ _ hvcm, modularity_move g hg K _ v X hv hA hX (fun hh => hXA hh.symm)]
    rfl
  have hlinked : ∀ X, X < K → X ≠ st.clustermap.getD v 0 →
      ((linkCount g st.clustermap v X : ℕ) : ℚ) ≠ 0 →
      modularityOfMap g K (fun u => (st.clustermap.set v X).getD u 0)
        - modularityOfMap g K (fun u => st.clustermap.getD u 0) ≤ 0 := by
    intro X hX hXA hl
    have hne : mapGet (st.links.getD v []) X 0 ≠ 0 := by
      rw [hinv.links_eq v hv X]
      exact_mod_cast hl
    obtain ⟨dq, h1, h2⟩ := hnm v hv X hne hXA
    rw [deltaQ_gain g hg hT hinv hv hX hXA] at h1
    injection h1 with h1
    rw [h1]; exact h2
  by_cases hlB : ((linkCount g st.clustermap v B : ℕ) : ℚ) = 0
  · rw [hform B hB hBA, gain_le_iff _ _ _ _ _ _ hTpos]
    apply no_gain_unlinked K (st.clustermap.getD v 0) B hA hB (fun hh => hBA hh.symm)
      (fun X => ((linkCount g st.clustermap v X : ℕ) : ℚ))
      (fun X => (clusterEntries g (fun u => st.clustermap.getD u 0) X : ℚ))
    · intro X; exact Nat.cast_nonneg _
    · exact Nat.cast_nonneg _
    · rw [← Nat.cast_sum]
      congr 1
      have := sum_countP_fiber (fun _ : Nat => true) (fun w => st.clustermap.getD w 0) K
        (g.GetNeighbors v) (fun w hw => hinv.weak.cm_lt w (hg.1 v hv w hw))
      simp only [Bool.true_and, List.countP_true] at this
      exact this
    · rw [← Nat.cast_sum]
      congr 1
      have := sum_countP_fiber (fun _ : Nat × Nat => true)
        (fun e => st.clustermap.getD e.1 0) K g.entries
        (fun e he => hinv.weak.cm_lt e.1 (List.mem_range.1 (mem_entriesOf.1 he).1))
      simp only [Bool.true_and, List.countP_true] at this
      exact this
    · exact hlB
    · intro X hX hXA hl
      have h1 := hlinked X hX hXA hl
      rw [hform X hX hXA, gain_le_iff _ _ _ _ _ _ hTpos] at h1
      exact h1
  · exact hlinked B hB hBA hlB

/-! ## Local optimality of the result -/

/-- No single-vertex move on the result of `RefineCluster` raises the modularity. -/
theorem RefineCluster_local_optimum (g : Graph) (hg : g.Simple) (hT : g.entries.length ≠ 0)
    {P : Partition} (hP : IsPartition g.vertex_count P) (fuel : Nat) (R : Partition)
    (h : RefineCluster fuel g P = .ok R) (v j : Nat) (hv : v < g.vertex_count)
    (hj : j < R.length) (hvj : v ∉ R.getD j []) :
    ∃ q0 q1, GetModularityFromClustering g R = some q0 ∧
      GetModularityFromClustering g (moveVertex R v j) = some q1 ∧ q1 ≤ q0 := by
  unfold RefineCluster at h
  dsimp only at h
  cases hl : refineLoop g (refineInit g P).2 fuel (refineInit g P).1 with
  | error f => rw [hl] at h; simp at h
  | ok st =>
    rw [hl] at h
    rw [refineInit_edgeCount] at hl
    obtain ⟨hinv, hnm⟩ := refineLoop_final g hg _ fuel _ st (refineInit_RInv g hg hP) hl
    obtain ⟨R2, r1, hR, _, r5, rQ⟩ := rebuild_modularity g hg.1 hT
      (RemoveEmptyEntries (P.map some)).length st.clustermap hinv.weak.cm_lt
    simp only [r1, Except.ok.injEq] at h
    subst h
    -- the cluster id of the target cluster
    have hjm : R2[j] ∈ R2 := List.getElem_mem hj
    obtain ⟨B, hBK, hBc, _⟩ := (r5 _).1 hjm
    rw [getD_of_lt _ j [] hj] at hvj
    have hBA : B ≠ st.clustermap.getD v 0 := by
      intro hh
      apply hvj
      rw [← hBc]
      exact mem_clusterOf.2 ⟨hv, hh.symm⟩
    have hvcm : v < st.clustermap.length := by rw [hinv.weak.cm_len]; exact hv
    have hvcmR : v < (clustermapLoop R2 0 (List.replicate g.vertex_count 0)).length := by
      rw [(clustermap_spec hR).1]; exact hv
    -- same clusters in the result and in the final cluster map
    have hrel1 : ∀ w, w < g.vertex_count →
        ((clustermapLoop R2 0 (List.replicate g.vertex_count 0)).getD w 0 = j ↔
          st.clustermap.getD w 0 = B) := by
      intro w hw
      rw [clustermap_eq_iff hR hw j, getD_of_lt _ j [] hj, ← hBc]
      exact ⟨fun hm => (mem_clusterOf.1 hm).2, fun hm => mem_clusterOf.2 ⟨hw, hm⟩⟩
    have hrel2 : ∀ u w, u < g.vertex_count → w < g.vertex_count →
        ((clustermapLoop R2 0 (List.replicate g.vertex_count 0)).getD u 0 =
          (clustermapLoop R2 0 (List.replicate g.vertex_count 0)).getD w 0 ↔
          st.clustermap.getD u 0 = st.clustermap.getD w 0) := by
      intro u w hu hw
      rw [clustermap_rel hR hu hw]
      constructor
      · rintro ⟨C, hC, huC, hwC⟩
        obtain ⟨c, _, hc, _⟩ := (r5 C).1 hC
        rw [← hc] at huC hwC
        rw [(mem_clusterOf.1 huC).2, (mem_clusterOf.1 hwC).2]
      · intro hcw
        refine ⟨clusterOf g.vertex_count st.clustermap (st.clustermap.getD u 0), ?_,
          mem_clusterOf.2 ⟨hu, rfl⟩, mem_clusterOf.2 ⟨hw, hcw.symm⟩⟩
        exact (r5 _).2 ⟨st.clustermap.getD u 0, hinv.weak.cm_lt u hu, rfl,
          List.ne_nil_of_mem (mem_clusterOf.2 ⟨hu, rfl⟩)⟩
    have hmoved : modularityOfMap g R2.length
        (fun u => ((clustermapLoop R2 0 (List.replicate g.vertex_count 0)).set v j).getD u 0)
        = modularityOfMap g (RemoveEmptyEntries (P.map some)).length
          (fun u => (st.clustermap.set v B).getD u 0) := by
      apply modularityOfMap_congr g hg.1
      · intro u hu
        rw [getD_set_eq]
        by_cases hc : v = u ∧ v < (clustermapLoop R2 0 (List.replicate g.vertex_count 0)).length
        · rw [if_pos hc]; exact hj
        · rw [if_neg hc]; exact clustermap_lt hR hu
      · intro u hu
        rw [getD_set_eq]
        by_cases hc : v = u ∧ v < st.clustermap.length
        · rw [if_pos hc]; exact hBK
        · rw [if_neg hc]; exact hinv.weak.cm_lt u hu
      · intro u w hu hw
        rw [getD_set_eq, getD_set_eq, getD_set_eq, getD_set_eq]
        by_cases huv : v = u
        · by_cases hwv : v = w
          · rw [if_pos ⟨huv, hvcmR⟩, if_pos ⟨hwv, hvcmR⟩, if_pos ⟨huv, hvcm⟩,
              if_pos ⟨hwv, hvcm⟩]
            exact ⟨fun _ => rfl, fun _ => rfl⟩
          · rw [if_pos ⟨huv, hvcmR⟩, if_neg (fun hh => hwv hh.1), if_pos ⟨huv, hvcm⟩,
              if_neg (fun hh => hwv hh.1)]
            constructor
            · intro hh; exact ((hrel1 w hw).1 hh.symm).symm
            · intro hh; exact ((hrel1 w hw).2 hh.symm).symm
        · by_cases hwv : v = w
          · rw [if_neg (fun hh => huv hh.1), if_pos ⟨hwv, hvcmR⟩, if_neg (fun hh => huv hh.1),
              if_pos ⟨hwv, hvcm⟩]
            exact hrel1 u hu
          · rw [if_neg (fun hh => huv hh.1), if_neg (fun hh => hwv hh.1),
              if_neg (fun hh => huv hh.1), if_neg (fun hh => hwv hh.1)]
            exact hrel2 u w hu hw
    refine ⟨_, _, rQ, GetModularity_moveVertex g hg.1 hT hR v j hv hj, ?_⟩
    rw [hmoved]
    have := local_optimum g hg hT hinv hnm hv hBK hBA
    linarith

/-- **C5.** For a simple undirected graph with at least one edge and a partition of the
vertex set, when `RefineCluster` terminates the returned partition admits no improving
single-vertex move: moving any vertex `v` to any other cluster of the returned partition,
whether or not `v` has a neighbour there, does not raise `GetModularityFromClustering`
(exact arithmetic). -/
theorem C5_refine_local_optimum (g : Graph) (hg : g.Simple) (hT : 0 < g.entries.length)
    (P : Partition) (hP : IsPartition g.vertex_count P) (fuel : Nat) (R : Partition)
    (h : RefineCluster fuel g P = .ok R) :
    ∀ v j, v < g.vertex_count → j < R.length → v ∉ R.getD j [] →
      ∃ q0 q1, GetModularityFromClustering g R = some q0 ∧
        GetModularityFromClustering g (moveVertex R v j) = some q1 ∧ q1 ≤ q0 :=
  fun v j hv hj hvj =>
    RefineCluster_local_optimum g hg (by omega) hP fuel R h v j hv hj hvj

/-- Witness for C5: the two triangles started from the six singletons; the run ends with
the two triangles as clusters. -/
theorem C5_refine_local_optimum_witness :
    twoTriangles.Simple ∧ 0 < twoTriangles.entries.length ∧
    IsPartition twoTriangles.vertex_count [[0], [1], [2], [3], [4], [5]] ∧
    RefineCluster 3 twoTriangles [[0], [1], [2], [3], [4], [5]]
      = .ok [[0, 1, 2], [3, 4, 5]] ∧
    ∀ v j, v < twoTriangles.vertex_count → j < ([[0, 1, 2], [3, 4, 5]] : Partition).length →
      v ∉ ([[0, 1, 2], [3, 4, 5]] : Partition).getD j [] →
      ∃ q0 q1, GetModularityFromClustering twoTriangles [[0, 1, 2], [3, 4, 5]] = some q0 ∧
        GetModularityFromClustering twoTriangles (moveVertex [[0, 1, 2], [3, 4, 5]] v j)
          = some q1 ∧ q1 ≤ q0 :=
  ⟨by decide, by decide, by decide, by with_unfolding_all rfl,
    C5_refine_local_optimum twoTriangles (by decide) (by decide)
      [[0], [1], [2], [3], [4], [5]] (by decide) 3 _ (by with_unfolding_all rfl)⟩

end CGGC


namespace CGGC

/-! ## The plain RG entry point on a graph without edge -/

/-- The matrix of a graph without edge has no entry. -/
theorem ofGraph_rows_nil (g : Graph)
    (h0 : ∀ v, v < g.vertex_count → g.GetNeighbors v = []) :
    (SparseClusteringMatrix.ofGraph g).rows = List.replicate g.vertex_count [] := by
  unfold SparseClusteringMatrix.ofGraph
  dsimp only
  apply List.ext_getElem
  · simp
  · intro i h1 h2
    simp only [List.length_map, List.length_range] at h1
    simp [h0 i h1]

/-- Every row of the matrix of a graph without edge is empty. -/
theorem ofGraph_GetRow_nil (g : Graph)
    (h0 : ∀ v, v < g.vertex_count → g.GetNeighbors v = []) (i : Nat) :
    (SparseClusteringMatrix.ofGraph g).GetRow i = [] := by
  unfold SparseClusteringMatrix.GetRow
  rw [ofGraph_rows_nil g h0]
  exact getD_replicate_nil _ _

/-- With empty rows the sampling loop collects no candidate join. -/
theorem sample_nil (n step ms : Nat) (M : SparseClusteringMatrix) (A : List Nat)
    (hM : ∀ i, M.GetRow i = []) (l : List Nat) (r : Rand) (q : ℚ) :
    ∃ r2, l.foldl (sampleStep n step ms M A) (r, q, []) = (r2, q, []) := by
  induction l generalizing r with
  | nil => exact ⟨r, rfl⟩
  | cons x l ih =>
    rw [List.foldl_cons]
    have : ∃ r1, sampleStep n step ms M A (r, q, []) x = (r1, q, []) := by
      unfold sampleStep
      dsimp only
      rw [hM]
      exact ⟨_, rfl⟩
    obtain ⟨r1, e1⟩ := this
    rw [e1]
    exact ih r1

/-- With empty rows the join loop executes no join. -/
theorem joinLoop_nil (n k remaining step : Nat) (st : JoinState)
    (hM : ∀ i, st.cluster_matrix.GetRow i = []) :
    ∃ r2, joinLoop n k remaining step st = { st with rand := r2 } := by
  cases remaining with
  | zero => exact ⟨st.rand, rfl⟩
  | succ m =>
    obtain ⟨r2, e⟩ := sample_nil n step (maxSample k n step) st.cluster_matrix st.active_rows hM
      (List.range (maxSample k n step)) st.rand (-1)
    refine ⟨r2, ?_⟩
    unfold joinLoop
    dsimp only
    rw [e]
    simp

/-- The builder with `best_step = -1` returns the singletons. -/
theorem GetPartitionFromJoins_none (g : Graph) (joins : List (Nat × Nat)) :
    GetPartitionFromJoins g joins (-1) none
      = some ((List.range g.vertex_count).map fun i => [i]) := by
  obtain ⟨R, r1, -, -, -, r5⟩ := GetPartitionFromJoins_singletons g joins (-1) (by omega)
    (by simp [validJoins])
  rw [r1, r5]
  simp only [Int.reduceNeg, neg_add_cancel, Int.toNat_zero, List.take_zero, specReplay,
    List.foldl_nil]
  rw [specCompact_singletons]

/-- On a graph without edge `PerformJoins` returns its initial `best_step_q = -1` and stores
the singletons. -/
theorem PerformJoins_edgeless (g : Graph) (hn : 1 ≤ g.vertex_count)
    (h0 : ∀ v, v < g.vertex_count → g.GetNeighbors v = []) (rand : Rand) (k : Nat) :
    ∃ r2, PerformJoins g rand k
      = some (-1, (List.range g.vertex_count).map fun i => [i], r2) := by
  unfold PerformJoins
  dsimp only
  rw [if_neg (by omega)]
  obtain ⟨r2, e⟩ := joinLoop_nil g.vertex_count k (g.vertex_count - 1) 0
    ⟨rand, List.range g.vertex_count, SparseClusteringMatrix.ofGraph g,
      List.replicate (g.vertex_count - 1) (0, 0),
      (List.range g.vertex_count).foldl
        (fun Q i => Q - (SparseClusteringMatrix.ofGraph g).GetRowSum i
          * (SparseClusteringMatrix.ofGraph g).GetRowSum i) 0, -1, -1⟩
    (ofGraph_GetRow_nil g h0)
  refine ⟨r2, ?_⟩
  rw [e]
  dsimp only
  rw [GetPartitionFromJoins_none]
  rfl

/-- On a graph without edge no run of the loop of `ClusterRG` sets `best_partition`. -/
theorem clusterRGLoop_edgeless (g : Graph) (hn : 1 ≤ g.vertex_count)
    (h0 : ∀ v, v < g.vertex_count → g.GetNeighbors v = []) (k runs : Nat) (rand : Rand) :
    ∃ r2, clusterRGLoop g k runs (rand, none, -1) = .ok (r2, none, -1) := by
  induction runs generalizing rand with
  | zero => exact ⟨rand, rfl⟩
  | succ m ih =>
    obtain ⟨r1, e1⟩ := PerformJoins_edgeless g hn h0 rand k
    obtain ⟨r2, e2⟩ := ih r1
    refine ⟨r2, ?_⟩
    unfold clusterRGLoop
    dsimp only
    rw [e1]
    dsimp only
    rw [if_neg (lt_irrefl _)]
    exact e2

/-- C8 (the code departs from the stated contract): on every graph with at least one vertex
and no edge, for every `k`, every number of runs, every sequence of random draws and every
fuel, each run of `PerformJoins` does return the partition of singletons, but together with
`best_step_q = -1`, which is not greater than the initial `best_q = -1` of `ClusterRG`; so
`best_partition` is still `NULL` when `RefineCluster` dereferences it, and `ClusterRG` ends
in a null-pointer fault instead of leaving the singletons as its result. -/
theorem C8_ClusterRG_edgeless_fault (g : Graph) (hn : 1 ≤ g.vertex_count)
    (h0 : ∀ v, v < g.vertex_count → g.GetNeighbors v = []) (k runs fuel : Nat) (rand : Rand) :
    (∃ r2, PerformJoins g rand k
      = some (-1, (List.range g.vertex_count).map fun i => [i], r2)) ∧
    (∃ r2, clusterRGLoop g k runs (rand, none, -1) = .ok (r2, none, -1)) ∧
    ClusterRG fuel g rand k runs = .error .nullPointer := by
  refine ⟨PerformJoins_edgeless g hn h0 rand k, clusterRGLoop_edgeless g hn h0 k runs rand, ?_⟩
  obtain ⟨r2, e⟩ := clusterRGLoop_edgeless g hn h0 k runs rand
  unfold ClusterRG
  rw [e]

/-- The fault at the graph with five vertices and no edge, `k = 1`, one run. -/
theorem C8_ClusterRG_edgeless_fault_witness :
    (1 ≤ (edgeless 5).vertex_count ∧
      ∀ v, v < (edgeless 5).vertex_count → (edgeless 5).GetNeighbors v = []) ∧
    ((∃ r2, PerformJoins (edgeless 5) ⟨fun i => i, 0⟩ 1
      = some (-1, (List.range (edgeless 5).vertex_count).map fun i => [i], r2)) ∧
    (∃ r2, clusterRGLoop (edgeless 5) 1 1 (⟨fun i => i, 0⟩, none, -1) = .ok (r2, none, -1)) ∧
    ClusterRG 10 (edgeless 5) ⟨fun i => i, 0⟩ 1 1 = .error .nullPointer) :=
  ⟨⟨by decide, fun _ _ => rfl⟩,
    C8_ClusterRG_edgeless_fault (edgeless 5) (by decide) (fun _ _ => rfl) 1 1 10 ⟨fun i => i, 0⟩⟩

end CGGC


namespace CGGC

/-! ## CompareClusters of a partition with itself -/

/-- Marking a list of vertices keeps the length of `assigned`. -/
theorem length_markAll (xs : List Nat) :
    ∀ asg : List Bool, (xs.foldl (fun a x => a.set x true) asg).length = asg.length := by
  induction xs with
  | nil => intro asg; rfl
  | cons x xs ih => intro asg; rw [List.foldl_cons, ih, List.length_set]

/-- The marked vertices are the old ones and the listed ones. -/
theorem getD_markAll (xs : List Nat) :
    ∀ asg : List Bool, (∀ x ∈ xs, x < asg.length) → ∀ y,
      ((xs.foldl (fun a x => a.set x true) asg).getD y false = true ↔
        (y ∈ xs ∨ asg.getD y false = true)) := by
  induction xs with
  | nil => intro asg _ y; simp
  | cons x xs ih =>
    intro asg hlt y
    rw [List.foldl_cons, ih (asg.set x true) (by
      intro z hz; rw [List.length_set]; exact hlt z (List.mem_cons_of_mem _ hz)),
      getD_set_true asg x y (hlt x (List.mem_cons_self _ _)), List.mem_cons]
    tauto

/-- The sweep appends every vertex of a list of unassigned vertices that share the value
of `maps[1]` with the seed. -/
theorem sweep_append (m : List Nat) (v : Nat) (xs : List Nat) :
    ∀ (acc : List Nat) (asg : List Bool), xs.Nodup →
      (∀ x ∈ xs, x < asg.length ∧ asg.getD x false = false ∧ m.getD v 0 = m.getD x 0) →
      xs.foldl (sweepStep m v) (acc, asg)
        = (acc ++ xs, xs.foldl (fun a x => a.set x true) asg) := by
  induction xs with
  | nil => intro acc asg _ _; simp
  | cons x xs ih =>
    intro acc asg hnd h
    obtain ⟨h1, h2, h3⟩ := h x (List.mem_cons_self _ _)
    have hstep : sweepStep m v (acc, asg) x = (acc ++ [x], asg.set x true) := by
      unfold sweepStep
      dsimp only
      rw [if_pos h2, if_pos h3]
    rw [List.foldl_cons, List.foldl_cons, hstep, ih (acc ++ [x]) (asg.set x true)
      (List.nodup_cons.1 hnd).2]
    · simp
    · intro y hy
      obtain ⟨g1, g2, g3⟩ := h y (List.mem_cons_of_mem _ hy)
      refine ⟨by rw [List.length_set]; exact g1, ?_, g3⟩
      rw [getD_set_eq]
      have hne : x ≠ y := by
        rintro rfl
        exact (List.nodup_cons.1 hnd).1 hy
      rw [if_neg (fun hh => hne hh.1)]; exact g2

/-- A vertex that is assigned already seeds nothing. -/
theorem seed_skip (m : List Nat) (C : List Nat) (xs : List Nat) :
    ∀ st : Partition × List Bool, (∀ x ∈ xs, st.2.getD x false = true) →
      xs.foldl (seedStep m C) st = st := by
  induction xs with
  | nil => intro st _; rfl
  | cons x xs ih =>
    intro st h
    have hstep : seedStep m C st x = st := by
      unfold seedStep
      rw [if_neg (by rw [h x (List.mem_cons_self _ _)]; decide)]
    rw [List.foldl_cons, hstep]
    exact ih st fun y hy => h y (List.mem_cons_of_mem _ hy)

/-- A non-empty cluster of unassigned vertices with one value of `maps[1]` is copied as
it is. -/
theorem seed_cluster (m : List Nat) (C : List Nat) (hne : C ≠ []) (hnd : C.Nodup)
    (res : Partition) (asg : List Bool)
    (h : ∀ x ∈ C, x < asg.length ∧ asg.getD x false = false)
    (hm : ∀ x ∈ C, ∀ y ∈ C, m.getD x 0 = m.getD y 0) :
    C.foldl (seedStep m C) (res, asg)
      = (res ++ [C], C.foldl (fun a x => a.set x true) asg) := by
  cases C with
  | nil => exact absurd rfl hne
  | cons v rest =>
    have hv := h v (List.mem_cons_self _ _)
    have hsweep : (v :: rest).foldl (sweepStep m v) ([v], asg.set v true)
        = (v :: rest, rest.foldl (fun a x => a.set x true) (asg.set v true)) := by
      have h0 : sweepStep m v ([v], asg.set v true) v = ([v], asg.set v true) := by
        unfold sweepStep
        dsimp only
        rw [if_neg (by rw [(getD_set_true asg v v hv.1).2 (Or.inl rfl)]; decide)]
      rw [List.foldl_cons, h0, sweep_append m v rest [v] (asg.set v true)
        (List.nodup_cons.1 hnd).2]
      · simp
      · intro y hy
        obtain ⟨g1, g2⟩ := h y (List.mem_cons_of_mem _ hy)
        refine ⟨by rw [List.length_set]; exact g1, ?_,
          hm v (List.mem_cons_self _ _) y (List.mem_cons_of_mem _ hy)⟩
        rw [getD_set_eq]
        have hne2 : v ≠ y := by
          rintro rfl
          exact (List.nodup_cons.1 hnd).1 hy
        rw [if_neg (fun hh => hne2 hh.1)]; exact g2
    have hstep : seedStep m (v :: rest) (res, asg) v
        = (res ++ [v :: rest], rest.foldl (fun a x => a.set x true) (asg.set v true)) := by
      unfold seedStep
      dsimp only
      rw [if_pos hv.2, hsweep]
    rw [List.foldl_cons, hstep, List.foldl_cons]
    apply seed_skip
    intro x hx
    dsimp only
    rw [getD_markAll rest (asg.set v true) (by
      intro z hz; rw [List.length_set]; exact (h z (List.mem_cons_of_mem _ hz)).1)]
    exact Or.inl hx

/-- The loop over the clusters copies a list of non-empty clusters of unassigned vertices,
each with one value of `maps[1]`. -/
theorem compareLoop_copy (m : List Nat) (P : Partition) :
    ∀ (res : Partition) (asg : List Bool), P.flatten.Nodup →
      (∀ x ∈ P.flatten, x < asg.length ∧ asg.getD x false = false) →
      (∀ C ∈ P, C ≠ [] ∧ ∀ x ∈ C, ∀ y ∈ C, m.getD x 0 = m.getD y 0) →
      (compareLoop m P (res, asg)).1 = res ++ P := by
  induction P with
  | nil => intro res asg _ _ _; simp [compareLoop]
  | cons C P ih =>
    intro res asg hnd h hc
    rw [List.flatten_cons, List.nodup_append] at hnd
    obtain ⟨hndC, hndP, hdisj⟩ := hnd
    have hC : ∀ x ∈ C, x < asg.length ∧ asg.getD x false = false := fun x hx =>
      h x (by rw [List.flatten_cons]; exact List.mem_append_left _ hx)
    have e := seed_cluster m C (hc C (List.mem_cons_self _ _)).1 hndC res asg hC
      (hc C (List.mem_cons_self _ _)).2
    unfold compareLoop at ih ⊢
    rw [List.foldl_cons, e, ih (res ++ [C]) _ hndP]
    · simp
    · intro x hx
      have hx2 := h x (by rw [List.flatten_cons]; exact List.mem_append_right _ hx)
      refine ⟨by rw [length_markAll]; exact hx2.1, ?_⟩
      have hnot : ¬ ((C.foldl (fun a x => a.set x true) asg).getD x false = true) := by
        rw [getD_markAll C asg (fun z hz => (hC z hz).1)]
        rintro (h1 | h1)
        · exact hdisj h1 hx
        · rw [hx2.2] at h1; exact absurd h1 (by decide)
      simpa using hnot
    · intro D hD
      exact hc D (List.mem_cons_of_mem _ hD)

/-- `CompareClusters` of a partition without empty cluster with itself returns it. -/
theorem CompareClusters_self (graph : Graph) (P : Partition)
    (hP : IsPartition graph.vertex_count P) (hne : ∀ C ∈ P, C ≠ []) :
    CompareClusters graph P P = some P := by
  obtain ⟨m, h1, h2, h3⟩ := GetMembershipFromPartition_spec hP
  unfold CompareClusters
  rw [h1]
  simp only [Option.some_bind]
  rw [compareLoop_copy m P [] _ hP.1]
  · simp
  · intro x hx
    simp [hP.2.1 x hx]
  · intro C hC
    refine ⟨hne C hC, ?_⟩
    obtain ⟨j, hj, rfl⟩ := List.getElem_of_mem hC
    intro x hx y hy
    rw [h3 j hj x hx, h3 j hj y hy]

/-- **C11.** For every partition `P` of the vertex set whose clusters are all non-empty,
`CompareClusters(graph, P, P)` is `P` itself: the same clusters in the same order, each
with its vertices in the same order. -/
theorem C11_CompareClusters_idempotent (graph : Graph) (P : Partition)
    (hP : IsPartition graph.vertex_count P) (hne : ∀ C ∈ P, C ≠ []) :
    CompareClusters graph P P = some P :=
  CompareClusters_self graph P hP hne

/-- Witness for C11: a partition of the two triangles with unsorted clusters. -/
theorem C11_CompareClusters_idempotent_witness :
    IsPartition twoTriangles.vertex_count [[4, 0], [2], [5, 1, 3]] ∧
    (∀ C ∈ ([[4, 0], [2], [5, 1, 3]] : Partition), C ≠ []) ∧
    CompareClusters twoTriangles [[4, 0], [2], [5, 1, 3]] [[4, 0], [2], [5, 1, 3]]
      = some [[4, 0], [2], [5, 1, 3]] :=
  ⟨by decide, by decide,
    C11_CompareClusters_idempotent twoTriangles [[4, 0], [2], [5, 1, 3]] (by decide) (by decide)⟩

end CGGC


namespace CGGC

/-! ## The best of the runs of ClusterRG -/

/-- The loop of `ClusterRG` folds the update over the results of its runs. -/
theorem clusterRGLoop_eq (graph : Graph) (k : Nat) (runs : Nat) :
    ∀ (rand : Rand) (bp : Option Partition) (bq : ℚ) (rs : List (ℚ × Partition)),
      rgRuns graph k runs rand = some rs →
      ∃ r2, clusterRGLoop graph k runs (rand, bp, bq) = .ok (r2, rs.foldl keepBest (bp, bq)) := by
  induction runs with
  | zero =>
    intro rand bp bq rs h
    simp only [rgRuns, Option.some.injEq] at h
    subst h
    exact ⟨rand, rfl⟩
  | succ n ih =>
    intro rand bp bq rs h
    unfold rgRuns at h
    unfold clusterRGLoop
    cases hp : PerformJoins graph rand k with
    | none => rw [hp] at h; exact Option.noConfusion h
    | some r =>
      rw [hp] at h
      dsimp only at h ⊢
      cases hr : rgRuns graph k n r.2.2 with
      | none => rw [hr] at h; exact Option.noConfusion h
      | some rs2 =>
        rw [hr] at h
        simp only [Option.map_some', Option.some.injEq] at h
        subst h
        rw [List.foldl_cons]
        by_cases hq : r.1 > bq
        · rw [if_pos hq]
          obtain ⟨r2, e⟩ := ih r.2.2 (some r.2.1) r.1 rs2 hr
          refine ⟨r2, ?_⟩
          rw [e]
          simp [keepBest, hq]
        · rw [if_neg hq]
          obtain ⟨r2, e⟩ := ih r.2.2 bp bq rs2 hr
          refine ⟨r2, ?_⟩
          rw [e]
          simp [keepBest, hq]

/-- The fold of the update keeps the earliest result that is maximal, when one result is
above the initial `best_q`. -/
theorem foldl_keepBest (rs : List (ℚ × Partition)) :
    ∀ (bp : Option Partition) (bq : ℚ),
      ((∀ r ∈ rs, r.1 ≤ bq) ∧ rs.foldl keepBest (bp, bq) = (bp, bq)) ∨
      (∃ (i : Nat) (r : ℚ × Partition), rs[i]? = some r ∧ bq < r.1 ∧ rs.foldl keepBest (bp, bq) = (some r.2, r.1) ∧
        ∀ (j : Nat) (r2 : ℚ × Partition), rs[j]? = some r2 → r2.1 ≤ r.1 ∧ (j < i → r2.1 < r.1)) := by
  induction rs with
  | nil => intro bp bq; left; simp
  | cons x rs ih =>
    intro bp bq
    rw [List.foldl_cons]
    by_cases hq : x.1 > bq
    · have e : keepBest (bp, bq) x = (some x.2, x.1) := by simp [keepBest, hq]
      rw [e]
      rcases ih (some x.2) x.1 with ⟨h1, h2⟩ | ⟨i, r, h1, h2, h3, h4⟩
      · right
        refine ⟨0, x, by simp, hq, h2, ?_⟩
        intro j r2 hj
        cases j with
        | zero =>
          simp only [List.getElem?_cons_zero, Option.some.injEq] at hj
          subst hj
          exact ⟨le_refl _, fun h => absurd h (Nat.lt_irrefl 0)⟩
        | succ j =>
          rw [List.getElem?_cons_succ] at hj
          exact ⟨h1 r2 (List.getElem?_mem hj), fun h => absurd h (Nat.not_lt_zero _)⟩
      · right
        refine ⟨i + 1, r, by rw [List.getElem?_cons_succ]; exact h1, lt_trans hq h2, h3, ?_⟩
        intro j r2 hj
        cases j with
        | zero =>
          simp only [List.getElem?_cons_zero, Option.some.injEq] at hj
          subst hj
          exact ⟨le_of_lt h2, fun _ => h2⟩
        | succ j =>
          rw [List.getElem?_cons_succ] at hj
          exact ⟨(h4 j r2 hj).1, fun h => (h4 j r2 hj).2 (Nat.lt_of_succ_lt_succ h)⟩
    · have e : keepBest (bp, bq) x = (bp, bq) := by simp [keepBest, hq]
      rw [e]
      rcases ih bp bq with ⟨h1, h2⟩ | ⟨i, r, h1, h2, h3, h4⟩
      · left
        refine ⟨?_, h2⟩
        intro r hr
        rcases List.mem_cons.1 hr with rfl | hr
        · exact le_of_not_lt hq
        · exact h1 r hr
      · right
        refine ⟨i + 1, r, by rw [List.getElem?_cons_succ]; exact h1, h2, h3, ?_⟩
        intro j r2 hj
        cases j with
        | zero =>
          simp only [List.getElem?_cons_zero, Option.some.injEq] at hj
          subst hj
          exact ⟨le_of_lt (lt_of_le_of_lt (le_of_not_lt hq) h2),
            fun _ => lt_of_le_of_lt (le_of_not_lt hq) h2⟩
        | succ j =>
          rw [List.getElem?_cons_succ] at hj
          exact ⟨(h4 j r2 hj).1, fun h => (h4 j r2 hj).2 (Nat.lt_of_succ_lt_succ h)⟩

/-- `ClusterRG` refines the partition of the earliest run with the greatest `best_step_q`. -/
theorem ClusterRG_best (fuel : Nat) (graph : Graph) (rand : Rand) (k runs : Nat)
    (rs : List (ℚ × Partition)) (hrs : rgRuns graph k runs rand = some rs)
    (hq : ∃ r ∈ rs, r.1 > -1) :
    ∃ (i : Nat) (r : ℚ × Partition), rs[i]? = some r ∧
      (∀ (j : Nat) (r2 : ℚ × Partition), rs[j]? = some r2 → r2.1 ≤ r.1 ∧ (j < i → r2.1 < r.1)) ∧
      (∃ rand2, clusterRGLoop graph k runs (rand, none, -1) = .ok (rand2, some r.2, r.1)) ∧
      ClusterRG fuel graph rand k runs = RefineCluster fuel graph r.2 := by
  obtain ⟨rand2, e⟩ := clusterRGLoop_eq graph k runs rand none (-1) rs hrs
  rcases foldl_keepBest rs none (-1) with ⟨h1, _⟩ | ⟨i, r, h1, _, h3, h4⟩
  · obtain ⟨r, hr, hr2⟩ := hq
    exact absurd (h1 r hr) (not_le_of_lt hr2)
  · refine ⟨i, r, h1, h4, ⟨rand2, by rw [e, h3]⟩, ?_⟩
    unfold ClusterRG
    rw [e, h3]

/-- **C12.** For every `k` and number of runs (in particular `k >= 1`, `runs >= 1`), when the
runs of `PerformJoins` return the results `rs` and at least one `best_step_q` is greater than
`-1`, the loop of `ClusterRG` ends with `best_partition` the partition of a run `i` whose
`best_step_q` is maximal among all runs and strictly greater than that of every earlier run,
and the result of `ClusterRG` is `RefineCluster` of that partition. -/
theorem C12_ClusterRG_best_of_runs (fuel : Nat) (graph : Graph) (rand : Rand) (k runs : Nat)
    (_hk : 1 ≤ k) (_hruns : 1 ≤ runs)
    (rs : List (ℚ × Partition)) (hrs : rgRuns graph k runs rand = some rs)
    (hq : ∃ r ∈ rs, r.1 > -1) :
    ∃ (i : Nat) (r : ℚ × Partition), rs[i]? = some r ∧
      (∀ (j : Nat) (r2 : ℚ × Partition), rs[j]? = some r2 → r2.1 ≤ r.1 ∧ (j < i → r2.1 < r.1)) ∧
      (∃ rand2, clusterRGLoop graph k runs (rand, none, -1) = .ok (rand2, some r.2, r.1)) ∧
      ClusterRG fuel graph rand k runs = RefineCluster fuel graph r.2 :=
  ClusterRG_best fuel graph rand k runs rs hrs hq

/-- Witness for C12: three runs on the path of four vertices; the first run is the best
one, the later two tie below it. -/
theorem C12_ClusterRG_best_of_runs_witness :
    (1 ≤ 1 ∧ 1 ≤ 3) ∧
    rgRuns ⟨4, fun v => [[1], [0, 2], [1, 3], [2]].getD v []⟩ 1 3 ⟨fun i => i * i + 1, 0⟩
      = some [(1 / 6, [[1, 0], [2, 3]]), (0, [[2, 3, 1, 0]]), (0, [[1, 0, 2, 3]])] ∧
    (∃ r ∈ ([(1 / 6, [[1, 0], [2, 3]]), (0, [[2, 3, 1, 0]]), (0, [[1, 0, 2, 3]])] :
      List (ℚ × Partition)), r.1 > -1) ∧
    ∃ (i : Nat) (r : ℚ × Partition), ([(1 / 6, [[1, 0], [2, 3]]), (0, [[2, 3, 1, 0]]), (0, [[1, 0, 2, 3]])] :
        List (ℚ × Partition))[i]? = some r ∧
      (∀ (j : Nat) (r2 : ℚ × Partition), ([(1 / 6, [[1, 0], [2, 3]]), (0, [[2, 3, 1, 0]]), (0, [[1, 0, 2, 3]])] :
        List (ℚ × Partition))[j]? = some r2 → r2.1 ≤ r.1 ∧ (j < i → r2.1 < r.1)) ∧
      (∃ rand2, clusterRGLoop ⟨4, fun v => [[1], [0, 2], [1, 3], [2]].getD v []⟩ 1 3
        (⟨fun i => i * i + 1, 0⟩, none, -1) = .ok (rand2, some r.2, r.1)) ∧
      ClusterRG 5 ⟨4, fun v => [[1], [0, 2], [1, 3], [2]].getD v []⟩ ⟨fun i => i * i + 1, 0⟩ 1 3
        = RefineCluster 5 ⟨4, fun v => [[1], [0, 2], [1, 3], [2]].getD v []⟩ r.2 :=
  ⟨⟨by decide, by decide⟩, by with_unfolding_all rfl,
    ⟨(1 / 6, [[1, 0], [2, 3]]), by simp, by norm_num⟩,
    C12_ClusterRG_best_of_runs 5 ⟨4, fun v => [[1], [0, 2], [1, 3], [2]].getD v []⟩
      ⟨fun i => i * i + 1, 0⟩ 1 3 (by decide) (by decide) _ (by with_unfolding_all rfl)
      ⟨(1 / 6, [[1, 0], [2, 3]]), by simp, by norm_num⟩⟩

end CGGC


namespace CGGC

/-! ## The first phase of ClusterCGGC -/

/-- One call `ClusterRG(1, 1)` refines the partition of its single run of `PerformJoins`. -/
theorem ClusterRGRand_one (fuel : Nat) (graph : Graph) (rand : Rand) (q : ℚ) (P : Partition)
    (r1 : Rand) (h : PerformJoins graph rand 1 = some (q, P, r1)) (hq : q > -1) :
    ClusterRGRand fuel graph rand 1 1
      = Except.map (fun R => (R, r1)) (RefineCluster fuel graph P) := by
  unfold ClusterRGRand clusterRGLoop
  rw [h]
  dsimp only
  rw [if_pos hq]
  unfold clusterRGLoop
  dsimp only
  cases RefineCluster fuel graph P <;> rfl

/-- A call `ClusterRG(1, 1)` whose run executes no join ends in the null-pointer fault. -/
theorem ClusterRGRand_one_fault (fuel : Nat) (graph : Graph) (rand : Rand) (q : ℚ)
    (P : Partition) (r1 : Rand) (h : PerformJoins graph rand 1 = some (q, P, r1))
    (hq : ¬ q > -1) :
    ClusterRGRand fuel graph rand 1 1 = .error .nullPointer := by
  unfold ClusterRGRand clusterRGLoop
  rw [h]
  dsimp only
  rw [if_neg hq]
  unfold clusterRGLoop
  rfl

/-- The first partition of the ensemble is the refined partition of the first run. -/
theorem cggcInitial_first (fuel : Nat) (graph : Graph) (initclusters : Nat) (rand : Rand)
    (q : ℚ) (P : Partition) (r1 : Rand) (h : PerformJoins graph rand 1 = some (q, P, r1))
    (hq : q > -1) :
    cggcInitial fuel graph initclusters rand =
      match RefineCluster fuel graph P with
      | .error f => .error f
      | .ok R =>
        cggcIntersect graph (fun r => ClusterRGRand fuel graph r 1 1) (initclusters - 1)
          (R, r1) := by
  unfold cggcInitial cggcPhase
  dsimp only
  rw [ClusterRGRand_one fuel graph rand q P r1 h hq]
  cases RefineCluster fuel graph P <;> rfl

/-- Each further partition of the ensemble is the refined partition of one more run,
intersected with the partition accumulated so far. -/
theorem cggcIntersect_next (fuel : Nat) (graph : Graph) (i : Nat) (last : Partition)
    (rand : Rand) (q : ℚ) (P : Partition) (r1 : Rand)
    (h : PerformJoins graph rand 1 = some (q, P, r1)) (hq : q > -1) :
    cggcIntersect graph (fun r => ClusterRGRand fuel graph r 1 1) (i + 1) (last, rand) =
      match RefineCluster fuel graph P with
      | .error f => .error f
      | .ok R =>
        match CompareClusters graph last R with
        | none => .error .outOfRange
        | some tmp =>
          cggcIntersect graph (fun r => ClusterRGRand fuel graph r 1 1) i (tmp, r1) := by
  conv_lhs => unfold cggcIntersect
  dsimp only
  rw [ClusterRGRand_one fuel graph rand q P r1 h hq]
  cases RefineCluster fuel graph P <;> rfl

/-- The result of `ClusterCGGC` is a result of `RefineCluster`. -/
theorem ClusterCGGC_refined (fuel : Nat) (seed : RestartSeed) (graph : Graph) (rand : Rand)
    (initclusters restartk : Nat) (iterative : Bool) (R : Partition)
    (h : ClusterCGGC fuel seed graph rand initclusters restartk iterative = .ok R) :
    ∃ J, RefineCluster fuel graph J = .ok R := by
  unfold ClusterCGGC at h
  cases h1 : cggcInitial fuel graph initclusters rand with
  | error f => rw [h1] at h; exact Except.noConfusion h
  | ok lastCluster =>
    rw [h1] at h
    dsimp only at h
    cases h2 : cggcIterative fuel seed graph initclusters iterative lastCluster with
    | error f => rw [h2] at h; exact Except.noConfusion h
    | ok best =>
      rw [h2] at h
      dsimp only at h
      cases h3 : restartRun seed graph best.1 restartk best.2 with
      | error f => rw [h3] at h; exact Except.noConfusion h
      | ok j =>
        rw [h3] at h
        exact ⟨j.1, h⟩

/-- The result of `ClusterCGGC` is `RefineCluster` of the partition that the final call of
`PerformJoinsRestart` returns for the `bestClustering` left by the earlier phases. -/
theorem ClusterCGGC_final (fuel : Nat) (seed : RestartSeed) (graph : Graph) (rand : Rand)
    (initclusters restartk : Nat) (iterative : Bool) (last best : Partition × Rand)
    (J : Partition) (rJ : Rand)
    (h1 : cggcInitial fuel graph initclusters rand = .ok last)
    (h2 : cggcIterative fuel seed graph initclusters iterative last = .ok best)
    (h3 : PerformJoinsRestart seed graph best.1 best.2 restartk = some (J, rJ)) :
    ClusterCGGC fuel seed graph rand initclusters restartk iterative
      = RefineCluster fuel graph J := by
  have h4 : restartRun seed graph best.1 restartk best.2 = .ok (J, rJ) := by
    unfold restartRun
    rw [h3]
  unfold ClusterCGGC
  rw [h1]
  dsimp only
  rw [h2]
  dsimp only
  rw [h4]

/-- A result of `ClusterCGGC` comes from the three earlier phases having ended without
exception, the refinement being applied to the partition of the final restart. -/
theorem ClusterCGGC_phases (fuel : Nat) (seed : RestartSeed) (graph : Graph) (rand : Rand)
    (initclusters restartk : Nat) (iterative : Bool) (R : Partition)
    (h : ClusterCGGC fuel seed graph rand initclusters restartk iterative = .ok R) :
    ∃ (last best : Partition × Rand) (J : Partition) (rJ : Rand),
      cggcInitial fuel graph initclusters rand = .ok last ∧
      cggcIterative fuel seed graph initclusters iterative last = .ok best ∧
      PerformJoinsRestart seed graph best.1 best.2 restartk = some (J, rJ) ∧
      RefineCluster fuel graph J = .ok R := by
  unfold ClusterCGGC at h
  cases h1 : cggcInitial fuel graph initclusters rand with
  | error f => rw [h1] at h; exact Except.noConfusion h
  | ok lastCluster =>
    rw [h1] at h
    dsimp only at h
    cases h2 : cggcIterative fuel seed graph initclusters iterative lastCluster with
    | error f => rw [h2] at h; exact Except.noConfusion h
    | ok best =>
      rw [h2] at h
      dsimp only at h
      cases h3 : PerformJoinsRestart seed graph best.1 best.2 restartk with
      | none =>
        have h4 : restartRun seed graph best.1 restartk best.2 = .error .outOfRange := by
          unfold restartRun
          rw [h3]
        rw [h4] at h
        exact Except.noConfusion h
      | some j =>
        have h4 : restartRun seed graph best.1 restartk best.2 = .ok j := by
          unfold restartRun
          rw [h3]
        rw [h4] at h
        exact ⟨lastCluster, best, j.1, j.2, rfl, h2, h3, h⟩

/-- Counterexample to C13 as stated: on the two triangles, with `initclusters = 1` and the
draws `3, 10, 17, ...`, the partition `P0` of the first phase of `ClusterCGGC` is
`{0,1,2}, {3,4,5}`, while the singleton join driver replayed by the builder yields
`{1}, {2,0}, {3,4,5}`: the first phase does apply the vertex-move refinement. -/
theorem C13_initial_unrefined_counterexample :
    ∃ (P0 P : Partition),
      Except.map Prod.fst (cggcInitial 10 twoTriangles 1 ⟨fun i => i * 7 + 3, 0⟩) = .ok P0 ∧
      (PerformJoins twoTriangles ⟨fun i => i * 7 + 3, 0⟩ 1).map (fun r => r.2.1) = some P ∧
      P0 ≠ P :=
  ⟨[[0, 1, 2], [3, 4, 5]], [[1], [2, 0], [3, 4, 5]], by with_unfolding_all rfl,
    by with_unfolding_all rfl, by decide⟩

/-- **C13 (amended).** In `ClusterCGGC` the first phase calls `ClusterRG(1, 1)`: when a run
of the singleton join driver (sample size 1) returns the partition `P` with
`best_step_q > -1`, the partition that enters the ensemble is `RefineCluster` of `P`, the
vertex-move refinement applied. This holds for the initial partition `P0` and for each
further partition that the loop `i = 1 .. initclusters - 1` intersects with the accumulated
one by `CompareClusters`. Refinement is applied once more, to the final restart result:
when the first phase ends with `last`, the part `if (iterative)` with `best` and the final
call `PerformJoinsRestart(graph_, bestClustering, restartk)` returns `J`, the outcome of
`ClusterCGGC` is that of `RefineCluster` on `J`; and every result `R` of `ClusterCGGC`
arises in this way. -/
theorem C13_initial_partitions_refined (fuel : Nat) (seed : RestartSeed) (graph : Graph)
    (rand : Rand) (q : ℚ) (P : Partition) (r1 : Rand)
    (h : PerformJoins graph rand 1 = some (q, P, r1)) (hq : q > -1) :
    (∀ initclusters, cggcInitial fuel graph initclusters rand =
      match RefineCluster fuel graph P with
      | .error f => .error f
      | .ok R =>
        cggcIntersect graph (fun r => ClusterRGRand fuel graph r 1 1) (initclusters - 1)
          (R, r1)) ∧
    (∀ i last, cggcIntersect graph (fun r => ClusterRGRand fuel graph r 1 1) (i + 1)
        (last, rand) =
      match RefineCluster fuel graph P with
      | .error f => .error f
      | .ok R =>
        match CompareClusters graph last R with
        | none => .error .outOfRange
        | some tmp =>
          cggcIntersect graph (fun r => ClusterRGRand fuel graph r 1 1) i (tmp, r1)) ∧
    (∀ rand0 initclusters restartk iterative (last best : Partition × Rand) (J : Partition)
        (rJ : Rand),
      cggcInitial fuel graph initclusters rand0 = .ok last →
      cggcIterative fuel seed graph initclusters iterative last = .ok best →
      PerformJoinsRestart seed graph best.1 best.2 restartk = some (J, rJ) →
      ClusterCGGC fuel seed graph rand0 initclusters restartk iterative
        = RefineCluster fuel graph J) ∧
    (∀ rand0 initclusters restartk iterative R,
      ClusterCGGC fuel seed graph rand0 initclusters restartk iterative = .ok R →
      ∃ (last best : Partition × Rand) (J : Partition) (rJ : Rand),
        cggcInitial fuel graph initclusters rand0 = .ok last ∧
        cggcIterative fuel seed graph initclusters iterative last = .ok best ∧
        PerformJoinsRestart seed graph best.1 best.2 restartk = some (J, rJ) ∧
        RefineCluster fuel graph J = .ok R) :=
  ⟨fun initclusters => cggcInitial_first fuel graph initclusters rand q P r1 h hq,
    fun i last => cggcIntersect_next fuel graph i last rand q P r1 h hq,
    fun rand0 initclusters restartk iterative last best J rJ h1 h2 h3 =>
      ClusterCGGC_final fuel seed graph rand0 initclusters restartk iterative last best J rJ
        h1 h2 h3,
    fun rand0 initclusters restartk iterative R hR =>
      ClusterCGGC_phases fuel seed graph rand0 initclusters restartk iterative R hR⟩

/-- Witness for the amended C13: the two triangles with the draws `3, 10, 17, ...`; with
`initclusters = 2`, `restartk = 1` and the iterative part, the three phases before the
refinement end with the two triangles and `ClusterCGGC` returns their refinement. -/
theorem C13_initial_partitions_refined_witness :
    (PerformJoins twoTriangles ⟨fun i => i * 7 + 3, 0⟩ 1
      = some (5 / 18, [[1], [2, 0], [3, 4, 5]], ⟨fun i => i * 7 + 3, 7⟩) ∧
      (5 / 18 : ℚ) > -1) ∧
    (cggcInitial 10 twoTriangles 2 ⟨fun i => i * 7 + 3, 0⟩
        = .ok ([[0, 1, 2], [3, 4, 5]], ⟨fun i => i * 7 + 3, 14⟩) ∧
      cggcIterative 10 specSeed twoTriangles 2 true
          ([[0, 1, 2], [3, 4, 5]], ⟨fun i => i * 7 + 3, 14⟩)
        = .ok ([[0, 1, 2], [3, 4, 5]], ⟨fun i => i * 7 + 3, 14⟩) ∧
      PerformJoinsRestart specSeed twoTriangles [[0, 1, 2], [3, 4, 5]]
          ⟨fun i => i * 7 + 3, 14⟩ 1
        = some ([[0, 1, 2], [3, 4, 5]], ⟨fun i => i * 7 + 3, 14⟩) ∧
      ClusterCGGC 10 specSeed twoTriangles ⟨fun i => i * 7 + 3, 0⟩ 2 1 true
        = .ok [[0, 1, 2], [3, 4, 5]]) ∧
    ((∀ initclusters, cggcInitial 10 twoTriangles initclusters ⟨fun i => i * 7 + 3, 0⟩ =
      match RefineCluster 10 twoTriangles [[1], [2, 0], [3, 4, 5]] with
      | .error f => .error f
      | .ok R =>
        cggcIntersect twoTriangles (fun r => ClusterRGRand 10 twoTriangles r 1 1)
          (initclusters - 1) (R, ⟨fun i => i * 7 + 3, 7⟩)) ∧
    (∀ i last, cggcIntersect twoTriangles (fun r => ClusterRGRand 10 twoTriangles r 1 1)
        (i + 1) (last, ⟨fun i => i * 7 + 3, 0⟩) =
      match RefineCluster 10 twoTriangles [[1], [2, 0], [3, 4, 5]] with
      | .error f => .error f
      | .ok R =>
        match CompareClusters twoTriangles last R with
        | none => .error .outOfRange
        | some tmp =>
          cggcIntersect twoTriangles (fun r => ClusterRGRand 10 twoTriangles r 1 1) i
            (tmp, ⟨fun i => i * 7 + 3, 7⟩)) ∧
    (∀ rand0 initclusters restartk iterative (last best : Partition × Rand) (J : Partition)
        (rJ : Rand),
      cggcInitial 10 twoTriangles initclusters rand0 = .ok last →
      cggcIterative 10 specSeed twoTriangles initclusters iterative last = .ok best →
      PerformJoinsRestart specSeed twoTriangles best.1 best.2 restartk = some (J, rJ) →
      ClusterCGGC 10 specSeed twoTriangles rand0 initclusters restartk iterative
        = RefineCluster 10 twoTriangles J) ∧
    (∀ rand0 initclusters restartk iterative R,
      ClusterCGGC 10 specSeed twoTriangles rand0 initclusters restartk iterative = .ok R →
      ∃ (last best : Partition × Rand) (J : Partition) (rJ : Rand),
        cggcInitial 10 twoTriangles initclusters rand0 = .ok last ∧
        cggcIterative 10 specSeed twoTriangles initclusters iterative last = .ok best ∧
        PerformJoinsRestart specSeed twoTriangles best.1 best.2 restartk = some (J, rJ) ∧
        RefineCluster 10 twoTriangles J = .ok R)) :=
  ⟨⟨by with_unfolding_all rfl, by norm_num⟩,
    ⟨by with_unfolding_all rfl, by with_unfolding_all rfl, by with_unfolding_all rfl,
      by with_unfolding_all rfl⟩,
    C13_initial_partitions_refined 10 specSeed twoTriangles ⟨fun i => i * 7 + 3, 0⟩ (5 / 18)
      [[1], [2, 0], [3, 4, 5]] ⟨fun i => i * 7 + 3, 7⟩ (by with_unfolding_all rfl)
      (by norm_num)⟩

end CGGC


namespace CGGC

/-! ## The iterative loop of ClusterCGGC -/

/-- What one iteration of the loop does to the variables. -/
theorem cggcIter_spec (seed : RestartSeed) (graph : Graph) (initclusters : Nat)
    (st st2 : CggcState) (h : cggcIter seed graph initclusters st = .ok st2) :
    ∃ (P2 : Partition) (q2 : ℚ),
      cggcCandidate seed graph initclusters st = .ok (P2, st2.rand) ∧
      GetModularityFromClustering graph P2 = some q2 ∧
      st2.cur_q = q2 ∧ st2.last_q = st.cur_q ∧
      st2.bestClustering = if q2 > st.cur_q then P2 else st.bestClustering := by
  unfold cggcIter at h
  cases hc : cggcCandidate seed graph initclusters st with
  | error f => rw [hc] at h; exact Except.noConfusion h
  | ok cand =>
    rw [hc] at h
    dsimp only at h
    cases hq : GetModularityFromClustering graph cand.1 with
    | none => rw [hq] at h; exact Except.noConfusion h
    | some q =>
      rw [hq] at h
      dsimp only at h
      injection h with h
      subst h
      exact ⟨cand.1, q, rfl, hq, rfl, rfl, rfl⟩

/-- Invariant of the loop head: `bestClustering` has a modularity, not below the one at
entry, and it is `cur_q` whenever the loop condition holds. -/
theorem cggcReach_inv (seed : RestartSeed) (graph : Graph) (initclusters : Nat)
    (st0 : CggcState)
    (h0 : GetModularityFromClustering graph st0.bestClustering = some st0.cur_q)
    (st : CggcState) (h : CggcReach seed graph initclusters st0 st) :
    ∃ qb, GetModularityFromClustering graph st.bestClustering = some qb ∧ st0.cur_q ≤ qb ∧
      (st.cur_q - st.last_q > 1 / 10000 → st.cur_q = qb) := by
  induction h with
  | start => exact ⟨st0.cur_q, h0, le_refl _, fun _ => rfl⟩
  | iter st st2 _ hg hi ih =>
    obtain ⟨qb, h1, h2, h3⟩ := ih
    obtain ⟨P2, q2, _, e2, e3, e4, e5⟩ := cggcIter_spec seed graph initclusters st st2 hi
    have hcur : st.cur_q = qb := h3 hg
    by_cases hq : q2 > st.cur_q
    · rw [if_pos hq] at e5
      refine ⟨q2, by rw [e5]; exact e2, ?_, fun _ => e3⟩
      rw [hcur] at hq
      exact le_trans h2 (le_of_lt hq)
    · rw [if_neg hq] at e5
      refine ⟨qb, by rw [e5]; exact h1, h2, ?_⟩
      intro hg2
      rw [e3, e4] at hg2
      have : q2 - st.cur_q ≤ 0 := by linarith [le_of_not_lt hq]
      linarith

/-- The loop ends in a state of the loop head in which the loop condition fails. -/
theorem cggcLoop_reach (seed : RestartSeed) (graph : Graph) (initclusters : Nat)
    (st0 : CggcState) (fuel : Nat) :
    ∀ st stF, CggcReach seed graph initclusters st0 st →
      cggcLoop seed graph initclusters fuel st = .ok stF →
      CggcReach seed graph initclusters st0 stF ∧ ¬ (stF.cur_q - stF.last_q > 1 / 10000) := by
  induction fuel with
  | zero =>
    intro st stF hr h
    unfold cggcLoop at h
    by_cases hg : st.cur_q - st.last_q > 1 / 10000
    · rw [if_pos hg] at h; exact Except.noConfusion h
    · rw [if_neg hg] at h
      injection h with h
      subst h
      exact ⟨hr, hg⟩
  | succ n ih =>
    intro st stF hr h
    unfold cggcLoop at h
    by_cases hg : st.cur_q - st.last_q > 1 / 10000
    · rw [if_pos hg] at h
      cases hi : cggcIter seed graph initclusters st with
      | error f => rw [hi] at h; exact Except.noConfusion h
      | ok st2 =>
        rw [hi] at h
        exact ih st2 stF (CggcReach.iter st st2 hr hg hi) h
    · rw [if_neg hg] at h
      injection h with h
      subst h
      exact ⟨hr, hg⟩

/-- Where the loop condition fails the loop returns at once, whatever its budget. -/
theorem cggcLoop_stop (seed : RestartSeed) (graph : Graph) (initclusters : Nat)
    (st : CggcState) (hg : ¬ (st.cur_q - st.last_q > 1 / 10000)) (fuel : Nat) :
    cggcLoop seed graph initclusters fuel st = .ok st := by
  cases fuel with
  | zero => unfold cggcLoop; rw [if_neg hg]
  | succ n => unfold cggcLoop; rw [if_neg hg]

/-- The replacement rule of one iteration that starts with `cur_q` the modularity of
`bestClustering`. -/
theorem cggcIter_rule (seed : RestartSeed) (graph : Graph) (initclusters : Nat)
    (st st2 : CggcState) (qb : ℚ)
    (hb : GetModularityFromClustering graph st.bestClustering = some qb)
    (hcur : st.cur_q = qb) (hi : cggcIter seed graph initclusters st = .ok st2) :
    ∃ (P2 : Partition) (q2 : ℚ),
      cggcCandidate seed graph initclusters st = .ok (P2, st2.rand) ∧
      GetModularityFromClustering graph P2 = some q2 ∧
      (q2 > qb → st2.bestClustering = P2 ∧
        GetModularityFromClustering graph st2.bestClustering = some q2) ∧
      (¬ q2 > qb → st2.bestClustering = st.bestClustering ∧
        GetModularityFromClustering graph st2.bestClustering = some qb ∧
        ¬ (st2.cur_q - st2.last_q > 1 / 10000) ∧
        ∀ fuel, cggcLoop seed graph initclusters fuel st2 = .ok st2) := by
  obtain ⟨P2, q2, e1, e2, e3, e4, e5⟩ := cggcIter_spec seed graph initclusters st st2 hi
  rw [hcur] at e5 e4
  refine ⟨P2, q2, e1, e2, ?_, ?_⟩
  · intro hq
    rw [if_pos hq] at e5
    exact ⟨e5, by rw [e5]; exact e2⟩
  · intro hq
    rw [if_neg hq] at e5
    have hg : ¬ (st2.cur_q - st2.last_q > 1 / 10000) := by
      rw [e3, e4]
      have : q2 - qb ≤ 0 := by linarith [le_of_not_lt hq]
      intro h
      linarith
    exact ⟨e5, by rw [e5]; exact hb, hg, cggcLoop_stop seed graph initclusters st2 hg⟩

/-- **C14.** In `ClusterCGGC` with `iterative = true`, entered with the core-groups partition
`P0` of modularity `q0`: (1) at every loop head `bestClustering` has a modularity `qb`,
`qb >= q0`, and `cur_q = qb` whenever an iteration starts; (2) an iteration builds a
candidate `P2` of modularity `q2` and replaces `bestClustering` by `P2` exactly when
`q2 > qb`, so the modularity of `bestClustering` never decreases; when `q2 <= qb` the loop
condition fails afterwards and no further iteration is executed; (3) the partition that the
loop hands to the final restart has modularity at least `q0`. -/
theorem C14_cggc_replacement_rule (seed : RestartSeed) (graph : Graph) (initclusters : Nat)
    (rand0 : Rand) (P0 : Partition) (q0 : ℚ)
    (h0 : GetModularityFromClustering graph P0 = some q0) :
    (∀ st, CggcReach seed graph initclusters ⟨rand0, P0, q0, 0⟩ st →
      ∃ qb, GetModularityFromClustering graph st.bestClustering = some qb ∧ q0 ≤ qb ∧
        (st.cur_q - st.last_q > 1 / 10000 → st.cur_q = qb) ∧
        ∀ st2, st.cur_q - st.last_q > 1 / 10000 →
          cggcIter seed graph initclusters st = .ok st2 →
          ∃ (P2 : Partition) (q2 : ℚ),
            cggcCandidate seed graph initclusters st = .ok (P2, st2.rand) ∧
            GetModularityFromClustering graph P2 = some q2 ∧
            (q2 > qb → st2.bestClustering = P2 ∧
              GetModularityFromClustering graph st2.bestClustering = some q2) ∧
            (¬ q2 > qb → st2.bestClustering = st.bestClustering ∧
              GetModularityFromClustering graph st2.bestClustering = some qb ∧
              ¬ (st2.cur_q - st2.last_q > 1 / 10000) ∧
              ∀ fuel, cggcLoop seed graph initclusters fuel st2 = .ok st2)) ∧
    (∀ fuel B r, cggcIterative fuel seed graph initclusters true (P0, rand0) = .ok (B, r) →
      ∃ stF, CggcReach seed graph initclusters ⟨rand0, P0, q0, 0⟩ stF ∧
        stF.bestClustering = B ∧ ¬ (stF.cur_q - stF.last_q > 1 / 10000) ∧
        ∃ qb, GetModularityFromClustering graph B = some qb ∧ q0 ≤ qb) := by
  constructor
  · intro st hr
    obtain ⟨qb, h1, h2, h3⟩ :=
      cggcReach_inv seed graph initclusters ⟨rand0, P0, q0, 0⟩ h0 st hr
    refine ⟨qb, h1, h2, h3, ?_⟩
    intro st2 hg hi
    exact cggcIter_rule seed graph initclusters st st2 qb h1 (h3 hg) hi
  · intro fuel B r h
    unfold cggcIterative at h
    rw [if_pos rfl] at h
    dsimp only at h
    rw [h0] at h
    dsimp only at h
    cases hl : cggcLoop seed graph initclusters fuel ⟨rand0, P0, q0, 0⟩ with
    | error f => rw [hl] at h; exact Except.noConfusion h
    | ok stF =>
      rw [hl] at h
      dsimp only at h
      injection h with h
      injection h with hB hR
      obtain ⟨hr, hg⟩ := cggcLoop_reach seed graph initclusters ⟨rand0, P0, q0, 0⟩ fuel _ stF
        CggcReach.start hl
      obtain ⟨qb, h1, h2, _⟩ :=
        cggcReach_inv seed graph initclusters ⟨rand0, P0, q0, 0⟩ h0 stF hr
      exact ⟨stF, hr, hB, hg, qb, by rw [← hB]; exact h1, h2⟩

/-- Witness for C14: the two triangles, entered with the partition into the triangles. -/
theorem C14_cggc_replacement_rule_witness :
    GetModularityFromClustering twoTriangles [[0, 1, 2], [3, 4, 5]] = some (1 / 2) ∧
    ((∀ st, CggcReach specSeed twoTriangles 2
        ⟨⟨fun i => i, 0⟩, [[0, 1, 2], [3, 4, 5]], 1 / 2, 0⟩ st →
      ∃ qb, GetModularityFromClustering twoTriangles st.bestClustering = some qb ∧
        1 / 2 ≤ qb ∧
        (st.cur_q - st.last_q > 1 / 10000 → st.cur_q = qb) ∧
        ∀ st2, st.cur_q - st.last_q > 1 / 10000 →
          cggcIter specSeed twoTriangles 2 st = .ok st2 →
          ∃ (P2 : Partition) (q2 : ℚ),
            cggcCandidate specSeed twoTriangles 2 st = .ok (P2, st2.rand) ∧
            GetModularityFromClustering twoTriangles P2 = some q2 ∧
            (q2 > qb → st2.bestClustering = P2 ∧
              GetModularityFromClustering twoTriangles st2.bestClustering = some q2) ∧
            (¬ q2 > qb → st2.bestClustering = st.bestClustering ∧
              GetModularityFromClustering twoTriangles st2.bestClustering = some qb ∧
              ¬ (st2.cur_q - st2.last_q > 1 / 10000) ∧
              ∀ fuel, cggcLoop specSeed twoTriangles 2 fuel st2 = .ok st2)) ∧
    (∀ fuel B r, cggcIterative fuel specSeed twoTriangles 2 true
        ([[0, 1, 2], [3, 4, 5]], ⟨fun i => i, 0⟩) = .ok (B, r) →
      ∃ stF, CggcReach specSeed twoTriangles 2
          ⟨⟨fun i => i, 0⟩, [[0, 1, 2], [3, 4, 5]], 1 / 2, 0⟩ stF ∧
        stF.bestClustering = B ∧ ¬ (stF.cur_q - stF.last_q > 1 / 10000) ∧
        ∃ qb, GetModularityFromClustering twoTriangles B = some qb ∧ 1 / 2 ≤ qb)) :=
  ⟨by with_unfolding_all rfl,
    C14_cggc_replacement_rule specSeed twoTriangles 2 ⟨fun i => i, 0⟩ [[0, 1, 2], [3, 4, 5]]
      (1 / 2) (by with_unfolding_all rfl)⟩

end CGGC


namespace CGGC

/-! ## The steps of the join drivers -/

theorem joinLoop_zero (n k step : Nat) (st : JoinState) : joinLoop n k 0 step st = st := rfl

/-- One step of the loop of `PerformJoins`: scan, then stop or execute. -/
theorem joinLoop_succ (n k remaining step : Nat) (st : JoinState) :
    joinLoop n k (remaining + 1) step st =
      if (joinScan n k step st).2.2.length = 0 then { st with rand := (joinScan n k step st).1 }
      else joinLoop n k remaining (step + 1) (joinExecute step st (joinScan n k step st)) :=
  rfl

theorem restartLoop_zero (n k step : Nat) (st : JoinState) : restartLoop n k 0 step st = st :=
  rfl

/-- One step of the loop of `PerformJoinsRestart`: scan, then stop or execute. -/
theorem restartLoop_succ (n k remaining step : Nat) (st : JoinState) :
    restartLoop n k (remaining + 1) step st =
      if (restartScan n k step st).2.2.length = 0 then
        { st with rand := (restartScan n k step st).1 }
      else restartLoop n k remaining (step + 1)
        (joinExecute step st (restartScan n k step st)) :=
  rfl

/-- `PerformJoins` in terms of the state in which its loop ends. -/
theorem PerformJoins_eq (graph : Graph) (rand : Rand) (k : Nat) :
    PerformJoins graph rand k =
      if graph.vertex_count = 0 then none
      else (GetPartitionFromJoins graph (joinFinal graph rand k).joins
        (joinFinal graph rand k).best_step none).map fun P =>
          ((joinFinal graph rand k).best_step_q, P, (joinFinal graph rand k).rand) :=
  rfl

/-! ## The best-tie collection -/

/-- The scan of a list of entries of row `r` extends the collection by its off-diagonal
entries. -/
theorem candidate_fold (M : SparseClusteringMatrix) (r : Nat) (es : List (Nat × ℚ)) :
    ∀ (L : List (Nat × Nat × ℚ)) (st : ℚ × List (Nat × Nat)), BestTies M L st →
      BestTies M (L ++ (es.filter fun e => decide (e.1 ≠ r)).map fun e => (r, e.1, e.2))
        (es.foldl (candidateStep M r) st) := by
  induction es with
  | nil => intro L st h; simpa using h
  | cons e es ih =>
    intro L st h
    rw [List.foldl_cons]
    by_cases hd : e.1 = r
    · have e1 : candidateStep M r st e = st := by
        unfold candidateStep
        rw [if_pos hd]
      have e2 : ((e :: es).filter fun e => decide (e.1 ≠ r)) =
          es.filter fun e => decide (e.1 ≠ r) := by
        rw [List.filter_cons]
        simp [hd]
      rw [e1, e2]
      exact ih L st h
    · have e2 : ((e :: es).filter fun e => decide (e.1 ≠ r)) =
          e :: es.filter fun e => decide (e.1 ≠ r) := by
        rw [List.filter_cons]
        simp [hd]
      rw [e2, List.map_cons]
      have hL : L ++ (r, e.1, e.2) :: ((es.filter fun e => decide (e.1 ≠ r)).map
          fun e => (r, e.1, e.2)) = (L ++ [(r, e.1, e.2)]) ++
            ((es.filter fun e => decide (e.1 ≠ r)).map fun e => (r, e.1, e.2)) := by
        simp
      rw [hL]
      apply ih
      obtain ⟨h1, h2, h3, h4⟩ := h
      have hδ : entryDeltaQ M (r, e.1, e.2) = 2 * (e.2 - M.GetRowSum r * M.GetRowSum e.1) := rfl
      unfold candidateStep
      rw [if_neg hd]
      dsimp only
      rw [← hδ]
      by_cases hge : entryDeltaQ M (r, e.1, e.2) ≥ st.1
      · rw [if_pos hge]
        have horient : (if M.GetRowEntries r ≥ M.GetRowEntries e.1 then
              (entryDeltaQ M (r, e.1, e.2),
                (if entryDeltaQ M (r, e.1, e.2) > st.1 then [] else st.2) ++ [(r, e.1)])
            else (entryDeltaQ M (r, e.1, e.2),
                (if entryDeltaQ M (r, e.1, e.2) > st.1 then [] else st.2) ++ [(e.1, r)]))
            = (entryDeltaQ M (r, e.1, e.2),
                (if entryDeltaQ M (r, e.1, e.2) > st.1 then [] else st.2)
                  ++ [orientJoin M (r, e.1, e.2)]) := by
          unfold orientJoin
          dsimp only
          split <;> rfl
        rw [horient]
        refine ⟨le_trans h1 hge, ?_, Or.inr ⟨(r, e.1, e.2), by simp, rfl⟩, ?_⟩
        · intro x hx
          rcases List.mem_append.1 hx with hx | hx
          · exact le_trans (h2 x hx) hge
          · rw [List.mem_singleton] at hx
            rw [hx]
        · dsimp only
          rw [List.filter_append, List.map_append]
          have hlast : ([(r, e.1, e.2)].filter fun x =>
              decide (entryDeltaQ M x = entryDeltaQ M (r, e.1, e.2))) = [(r, e.1, e.2)] := by
            simp
          rw [hlast, List.map_singleton]
          congr 1
          by_cases hgt : entryDeltaQ M (r, e.1, e.2) > st.1
          · rw [if_pos hgt]
            symm
            rw [List.map_eq_nil_iff, List.filter_eq_nil_iff]
            intro x hx
            have := h2 x hx
            simp only [decide_eq_true_eq]
            intro heq
            rw [heq] at this
            exact absurd hgt (not_lt_of_le this)
          · rw [if_neg hgt]
            have heq : entryDeltaQ M (r, e.1, e.2) = st.1 :=
              le_antisymm (le_of_not_lt hgt) hge
            rw [heq]
            exact h4
      · rw [if_neg hge]
        have hlt : entryDeltaQ M (r, e.1, e.2) < st.1 := lt_of_not_le hge
        refine ⟨h1, ?_, ?_, ?_⟩
        · intro x hx
          rcases List.mem_append.1 hx with hx | hx
          · exact h2 x hx
          · rw [List.mem_singleton] at hx
            rw [hx]
            exact le_of_lt hlt
        · rcases h3 with h3 | ⟨x, hx, hx2⟩
          · exact Or.inl h3
          · exact Or.inr ⟨x, List.mem_append_left _ hx, hx2⟩
        · rw [List.filter_append, List.map_append]
          have hlast : ([(r, e.1, e.2)].filter fun x =>
              decide (entryDeltaQ M x = st.1)) = [] := by
            rw [List.filter_eq_nil_iff]
            intro x hx
            rw [List.mem_singleton] at hx
            rw [hx]
            simp only [decide_eq_true_eq]
            exact ne_of_lt hlt
          rw [hlast, List.map_nil, List.append_nil]
          exact h4

/-- The scan of a list of rows yields the best-tie collection over their off-diagonal
entries. -/
theorem rowScan_fold (M : SparseClusteringMatrix) (rows : List Nat) :
    ∀ (L : List (Nat × Nat × ℚ)) (st : ℚ × List (Nat × Nat)), BestTies M L st →
      BestTies M (L ++ scannedEntries M rows) (rows.foldl (rowScan M) st) := by
  induction rows with
  | nil => intro L st h; simpa [scannedEntries] using h
  | cons r rows ih =>
    intro L st h
    rw [List.foldl_cons]
    have e : L ++ scannedEntries M (r :: rows) =
        (L ++ ((M.GetRow r).filter fun e => decide (e.1 ≠ r)).map fun e => (r, e.1, e.2))
          ++ scannedEntries M rows := by
      simp [scannedEntries]
    rw [e]
    exact ih _ _ (candidate_fold M r (M.GetRow r) L st h)

/-- The empty collection. -/
theorem BestTies_nil (M : SparseClusteringMatrix) : BestTies M [] (-1, []) :=
  ⟨le_refl _, by simp, Or.inl rfl, by simp⟩

/-- The sampling loop of `PerformJoins` scans the sampled rows. -/
theorem sample_fold (n step ms : Nat) (M : SparseClusteringMatrix) (A : List Nat)
    (nums : List Nat) :
    ∀ (rand : Rand) (st : ℚ × List (Nat × Nat)),
      (nums.foldl (sampleStep n step ms M A) (rand, st)).2 =
        (sampledRows n step ms A nums rand).foldl (rowScan M) st := by
  induction nums with
  | nil => intro rand st; rfl
  | cons x nums ih =>
    intro rand st
    rw [List.foldl_cons]
    unfold sampledRows
    rw [List.foldl_cons]
    exact ih _ _

/-- The sampling loop of `PerformJoinsRestart` scans the sampled rows. -/
theorem restartSample_fold (bound : Nat) (M : SparseClusteringMatrix) (A : List Nat)
    (fuel : Nat) :
    ∀ (sample_num max_sample : Nat) (st : Rand × ℚ × List (Nat × Nat)),
      (restartSampleLoop bound M A fuel sample_num max_sample st).2 =
        (restartSampledRows bound M A fuel sample_num max_sample st).foldl (rowScan M) st.2 := by
  induction fuel with
  | zero => intro sample_num max_sample st; rfl
  | succ f ih =>
    intro sample_num max_sample st
    unfold restartSampleLoop restartSampledRows
    by_cases h : sample_num < max_sample
    · rw [if_pos h, if_pos h]
      dsimp only
      rw [List.foldl_cons]
      exact ih _ _ _
    · rw [if_neg h, if_neg h]
      rfl

/-- The sampling loop of `PerformJoinsRestart` ends by its own test within `bound`
iterations: a larger budget gives the same result. -/
theorem restartSampleLoop_fuel (bound : Nat) (M : SparseClusteringMatrix) (A : List Nat)
    (fuel : Nat) :
    ∀ (extra sample_num max_sample : Nat) (st : Rand × ℚ × List (Nat × Nat)),
      max_sample ≤ bound → bound ≤ sample_num + fuel →
      restartSampleLoop bound M A (fuel + extra) sample_num max_sample st =
        restartSampleLoop bound M A fuel sample_num max_sample st := by
  induction fuel with
  | zero =>
    intro extra sample_num max_sample st h1 h2
    cases extra with
    | zero => rfl
    | succ x =>
      have : ¬ sample_num < max_sample := by omega
      simp only [Nat.zero_add]
      unfold restartSampleLoop
      rw [if_neg this]
  | succ f ih =>
    intro extra sample_num max_sample st h1 h2
    have e : f + 1 + extra = (f + extra) + 1 := by omega
    rw [e]
    unfold restartSampleLoop
    by_cases h : sample_num < max_sample
    · rw [if_pos h, if_pos h]
      dsimp only
      apply ih
      · split_ifs with c1 c2 c3
        · omega
        · omega
        · exact c3.2.2
        · exact h1
      · omega
    · rw [if_neg h, if_neg h]

/-- The join picked from a non-empty collection is one of its records. -/
theorem chosenJoin_mem (s : Rand × ℚ × List (Nat × Nat)) (h : s.2.2.length ≠ 0) :
    chosenJoin s ∈ s.2.2 := by
  unfold chosenJoin Rand.next
  dsimp only
  have hlt : s.1.draws s.1.cursor % s.2.2.length < s.2.2.length :=
    Nat.mod_lt _ (Nat.pos_of_ne_zero h)
  rw [List.getD_eq_getElem _ _ hlt]
  exact List.getElem_mem _

end CGGC


namespace CGGC

/-! ## The best-tie collection of a step -/

/-- The scan of a step of `PerformJoins` is the best-tie collection over the entries of the
sampled rows. -/
theorem joinScan_ties (n sample_size step : Nat) (st : JoinState) :
    BestTies st.cluster_matrix
      (scannedEntries st.cluster_matrix
        (sampledRows n step (maxSample sample_size n step) st.active_rows
          (List.range (maxSample sample_size n step)) st.rand))
      (joinScan n sample_size step st).2 := by
  unfold joinScan
  rw [sample_fold]
  have h := rowScan_fold st.cluster_matrix
    (sampledRows n step (maxSample sample_size n step) st.active_rows
      (List.range (maxSample sample_size n step)) st.rand) [] (-1, [])
    (BestTies_nil st.cluster_matrix)
  simpa using h

/-- The scan of a step of `PerformJoinsRestart` is the best-tie collection over the entries
of the sampled rows. -/
theorem restartScan_ties (dimension k_restart step : Nat) (st : JoinState) :
    BestTies st.cluster_matrix
      (scannedEntries st.cluster_matrix
        (restartSampledRows (dimension - 1 - step) st.cluster_matrix st.active_rows
          (dimension - 1 - step) 0
          (if k_restart < dimension - 1 - step then k_restart else dimension - 1 - step)
          (st.rand, -1, [])))
      (restartScan dimension k_restart step st).2 := by
  unfold restartScan
  rw [restartSample_fold]
  have h := rowScan_fold st.cluster_matrix
    (restartSampledRows (dimension - 1 - step) st.cluster_matrix st.active_rows
      (dimension - 1 - step) 0
      (if k_restart < dimension - 1 - step then k_restart else dimension - 1 - step)
      (st.rand, -1, [])) [] (-1, [])
    (BestTies_nil st.cluster_matrix)
  simpa using h

/-- **C16.** In every step of `PerformJoins` and of `PerformJoinsRestart`, from any state of
the driver: after the sampled rows are scanned, `max_delta_q` is the greatest value
`2 * (M[r][c] - a[r] * a[c])` over the scanned off-diagonal entries `(r, c)` (it stays at
`-1` when no entry reaches `-1`), and `bestJoins` holds, in scan order, exactly one record
per scanned off-diagonal entry of that value, `(r, c)` if
`row_entries(r) >= row_entries(c)` and `(c, r)` otherwise; when the list is not empty the
step goes on with the executed join, which is a member of that list, written to
`joins[step]`, and `max_delta_q` is the amount added to the running modularity. -/
theorem C16_best_tie_collection (n sample_size dimension k_restart remaining step : Nat)
    (st : JoinState) :
    BestTies st.cluster_matrix
      (scannedEntries st.cluster_matrix
        (sampledRows n step (maxSample sample_size n step) st.active_rows
          (List.range (maxSample sample_size n step)) st.rand))
      (joinScan n sample_size step st).2 ∧
    BestTies st.cluster_matrix
      (scannedEntries st.cluster_matrix
        (restartSampledRows (dimension - 1 - step) st.cluster_matrix st.active_rows
          (dimension - 1 - step) 0
          (if k_restart < dimension - 1 - step then k_restart else dimension - 1 - step)
          (st.rand, -1, [])))
      (restartScan dimension k_restart step st).2 ∧
    (joinLoop n sample_size (remaining + 1) step st =
      if (joinScan n sample_size step st).2.2.length = 0 then
        { st with rand := (joinScan n sample_size step st).1 }
      else joinLoop n sample_size remaining (step + 1)
        (joinExecute step st (joinScan n sample_size step st))) ∧
    (restartLoop dimension k_restart (remaining + 1) step st =
      if (restartScan dimension k_restart step st).2.2.length = 0 then
        { st with rand := (restartScan dimension k_restart step st).1 }
      else restartLoop dimension k_restart remaining (step + 1)
        (joinExecute step st (restartScan dimension k_restart step st))) ∧
    ∀ s : Rand × ℚ × List (Nat × Nat), s.2.2.length ≠ 0 →
      chosenJoin s ∈ s.2.2 ∧
      (joinExecute step st s).joins = st.joins.set step (chosenJoin s) ∧
      (joinExecute step st s).cluster_matrix
        = st.cluster_matrix.JoinCluster (chosenJoin s).1 (chosenJoin s).2 ∧
      (joinExecute step st s).active_rows
        = ActiveRowSet.Remove st.active_rows (chosenJoin s).2 ∧
      (joinExecute step st s).Q = st.Q + s.2.1 :=
  ⟨joinScan_ties n sample_size step st, restartScan_ties dimension k_restart step st,
    joinLoop_succ n sample_size remaining step st,
    restartLoop_succ dimension k_restart remaining step st,
    fun s hs => ⟨chosenJoin_mem s hs, rfl, rfl, rfl, rfl⟩⟩

end CGGC


namespace CGGC

/-! ## The executed joins and `best_step` -/

theorem joinLoop_eq_gen (n k : Nat) (remaining : Nat) :
    ∀ step st, joinLoop n k remaining step st = genLoop (joinScan n k) remaining step st := by
  induction remaining with
  | zero => intro step st; rfl
  | succ r ih =>
    intro step st
    rw [joinLoop_succ]
    unfold genLoop
    rw [ih]

theorem joinTrace_eq_gen (n k : Nat) (remaining : Nat) :
    ∀ step st, joinTrace n k remaining step st = genTrace (joinScan n k) remaining step st := by
  induction remaining with
  | zero => intro step st; rfl
  | succ r ih =>
    intro step st
    unfold joinTrace genTrace
    rw [ih]

theorem restartLoop_eq_gen (n k : Nat) (remaining : Nat) :
    ∀ step st,
      restartLoop n k remaining step st = genLoop (restartScan n k) remaining step st := by
  induction remaining with
  | zero => intro step st; rfl
  | succ r ih =>
    intro step st
    rw [restartLoop_succ]
    unfold genLoop
    rw [ih]

theorem restartTrace_eq_gen (n k : Nat) (remaining : Nat) :
    ∀ step st,
      restartTrace n k remaining step st = genTrace (restartScan n k) remaining step st := by
  induction remaining with
  | zero => intro step st; rfl
  | succ r ih =>
    intro step st
    unfold restartTrace genTrace
    rw [ih]

/-- The loop executes at most as many joins as it has steps. -/
theorem genTrace_length (scan : Nat → JoinState → Rand × ℚ × List (Nat × Nat))
    (remaining : Nat) :
    ∀ step st, (genTrace scan remaining step st).length ≤ remaining := by
  induction remaining with
  | zero => intro step st; simp [genTrace]
  | succ r ih =>
    intro step st
    unfold genTrace
    split
    · simp
    · simp only [List.length_cons]
      exact Nat.succ_le_succ (ih _ _)

/-- The join vector after the loop: the executed joins stand at the indices from `step`
on, every other record is as before. -/
theorem genLoop_joins (scan : Nat → JoinState → Rand × ℚ × List (Nat × Nat))
    (remaining : Nat) :
    ∀ step st, step + remaining ≤ st.joins.length →
      (genLoop scan remaining step st).joins.length = st.joins.length ∧
      ∀ j, (genLoop scan remaining step st).joins[j]? =
        if step ≤ j ∧ j < step + (genTrace scan remaining step st).length then
          (genTrace scan remaining step st)[j - step]?
        else st.joins[j]? := by
  induction remaining with
  | zero =>
    intro step st _
    refine ⟨rfl, fun j => ?_⟩
    simp only [genLoop, genTrace, List.length_nil, Nat.add_zero]
    rw [if_neg (by omega)]
  | succ r ih =>
    intro step st hlen
    unfold genLoop genTrace
    by_cases h : (scan step st).2.2.length = 0
    · rw [if_pos h, if_pos h]
      refine ⟨rfl, fun j => ?_⟩
      simp only [List.length_nil, Nat.add_zero]
      rw [if_neg (by omega)]
    · rw [if_neg h, if_neg h]
      have hj : (joinExecute step st (scan step st)).joins
          = st.joins.set step (chosenJoin (scan step st)) := rfl
      obtain ⟨ih1, ih2⟩ := ih (step + 1) (joinExecute step st (scan step st)) (by
        rw [hj, List.length_set]; omega)
      refine ⟨by rw [ih1, hj, List.length_set], fun j => ?_⟩
      rw [ih2 j, hj, List.length_cons]
      by_cases c1 : step + 1 ≤ j ∧
          j < step + 1 + (genTrace scan r (step + 1)
            (joinExecute step st (scan step st))).length
      · rw [if_pos c1, if_pos (by omega)]
        have e : j - step = (j - (step + 1)) + 1 := by omega
        rw [e, List.getElem?_cons_succ]
      · rw [if_neg c1]
        by_cases c2 : j = step
        · subst c2
          rw [if_pos (by omega), Nat.sub_self, List.getElem?_cons_zero,
            List.getElem?_set_self (by omega)]
        · rw [if_neg (by omega), List.getElem?_set_ne (fun hh => c2 hh.symm)]

/-- The value of `best_step` after the loop is the one before it or the index of an
executed step. -/
theorem genLoop_best (scan : Nat → JoinState → Rand × ℚ × List (Nat × Nat))
    (remaining : Nat) :
    ∀ step st,
      (genLoop scan remaining step st).best_step = st.best_step ∨
      ((step : Int) ≤ (genLoop scan remaining step st).best_step ∧
        (genLoop scan remaining step st).best_step
          < (step : Int) + ((genTrace scan remaining step st).length : Int)) := by
  induction remaining with
  | zero => intro step st; left; rfl
  | succ r ih =>
    intro step st
    unfold genLoop genTrace
    by_cases h : (scan step st).2.2.length = 0
    · rw [if_pos h, if_pos h]
      left; rfl
    · rw [if_neg h, if_neg h]
      have hb : (joinExecute step st (scan step st)).best_step = st.best_step ∨
          (joinExecute step st (scan step st)).best_step = (step : Int) := by
        unfold joinExecute
        dsimp only
        split
        · right; rfl
        · left; rfl
      rw [List.length_cons]
      push_cast
      rcases ih (step + 1) (joinExecute step st (scan step st)) with e | ⟨e1, e2⟩
      · rcases hb with hb | hb
        · left; rw [e, hb]
        · right
          rw [e, hb]
          constructor <;> omega
      · right
        push_cast at e1 e2
        constructor <;> omega

/-- The builder reads the executed joins only: where `best_step` is `-1` or the index of
an executed step, the tail of the join vector does not matter. -/
theorem builder_executed_only (graph : Graph) (joins T : List (Nat × Nat)) (b : Int)
    (pp : Option Partition) (hb : -1 ≤ b) (hT : b < (T.length : Int))
    (hlen : T.length ≤ joins.length)
    (hj : ∀ j, j < T.length → joins[j]? = T[j]?) :
    GetPartitionFromJoins graph joins b pp = GetPartitionFromJoins graph T b pp := by
  have hk : (b + 1).toNat ≤ T.length := by omega
  have htake : joins.take (b + 1).toNat = T.take (b + 1).toNat := by
    apply List.ext_getElem?
    intro i
    rw [List.getElem?_take, List.getElem?_take]
    by_cases hi : i < (b + 1).toNat
    · rw [if_pos hi, if_pos hi]
      exact hj i (by omega)
    · rw [if_neg hi, if_neg hi]
  unfold GetPartitionFromJoins replayJoins
  dsimp only
  congr 1
  funext slots
  rw [replay_range_eq_take joins _ (by omega) slots, replay_range_eq_take T _ hk slots, htake]

/-- The facts of C20 for the common loop, started at step `0` with `best_step = -1` and a
join vector of `m` default records. -/
theorem genLoop_executed (scan : Nat → JoinState → Rand × ℚ × List (Nat × Nat)) (m : Nat)
    (st : JoinState) (hjoins : st.joins = List.replicate m (0, 0)) (hbest : st.best_step = -1)
    (graph : Graph) (pp : Option Partition) :
    (genTrace scan m 0 st).length ≤ m ∧
    ((genLoop scan m 0 st).best_step = -1 ∨
      (0 ≤ (genLoop scan m 0 st).best_step ∧
        (genLoop scan m 0 st).best_step < ((genTrace scan m 0 st).length : Int))) ∧
    (∀ j, j < (genTrace scan m 0 st).length →
      (genLoop scan m 0 st).joins[j]? = (genTrace scan m 0 st)[j]?) ∧
    (∀ j, (genTrace scan m 0 st).length ≤ j → j < m →
      (genLoop scan m 0 st).joins[j]? = some (0, 0)) ∧
    GetPartitionFromJoins graph (genLoop scan m 0 st).joins (genLoop scan m 0 st).best_step pp
      = GetPartitionFromJoins graph (genTrace scan m 0 st) (genLoop scan m 0 st).best_step
          pp := by
  have hlen := genTrace_length scan m 0 st
  obtain ⟨j1, j2⟩ := genLoop_joins scan m 0 st (by rw [hjoins]; simp)
  have hbest2 : (genLoop scan m 0 st).best_step = -1 ∨
      (0 ≤ (genLoop scan m 0 st).best_step ∧
        (genLoop scan m 0 st).best_step < ((genTrace scan m 0 st).length : Int)) := by
    rcases genLoop_best scan m 0 st with e | ⟨e1, e2⟩
    · left; rw [e, hbest]
    · right
      push_cast at e1 e2
      constructor <;> omega
  have hex : ∀ j, j < (genTrace scan m 0 st).length →
      (genLoop scan m 0 st).joins[j]? = (genTrace scan m 0 st)[j]? := by
    intro j hj
    rw [j2 j, if_pos (by omega), Nat.sub_zero]
  refine ⟨hlen, hbest2, hex, ?_, ?_⟩
  · intro j h1 h2
    rw [j2 j, if_neg (by omega), hjoins]
    simp [h2]
  · apply builder_executed_only
    · rcases hbest2 with e | ⟨e1, _⟩
      · rw [e]
      · omega
    · rcases hbest2 with e | ⟨_, e2⟩
      · rw [e]; omega
      · exact e2
    · rw [j1, hjoins]; simpa using hlen
    · exact hex

/-- **C20.** In `PerformJoins` (on any graph) and in `PerformJoinsRestart` (on any partition
and any seed of the matrix and the row set), with `T` the list of the joins executed by
the loop: at loop exit `best_step` is `-1` or an index of `T`, so `best_step` is less than
the number of executed joins; the records of the join vector below that number are the
executed joins, the records from there on are the default `(0, 0)`; and
`GetPartitionFromJoins` on the join vector is `GetPartitionFromJoins` on `T`: the builder
never replays a default record of the tail. -/
theorem C20_only_executed_joins_replayed (graph : Graph) (rand : Rand) (sample_size : Nat)
    (seed : RestartSeed) (clusters : Partition) (k_restart : Nat) :
    ((executedJoins graph rand sample_size).length ≤ graph.vertex_count - 1 ∧
      ((joinFinal graph rand sample_size).best_step = -1 ∨
        (0 ≤ (joinFinal graph rand sample_size).best_step ∧
          (joinFinal graph rand sample_size).best_step <
            ((executedJoins graph rand sample_size).length : Int))) ∧
      (∀ j, j < (executedJoins graph rand sample_size).length →
        (joinFinal graph rand sample_size).joins[j]? =
          (executedJoins graph rand sample_size)[j]?) ∧
      (∀ j, (executedJoins graph rand sample_size).length ≤ j →
        j < graph.vertex_count - 1 →
        (joinFinal graph rand sample_size).joins[j]? = some (0, 0)) ∧
      GetPartitionFromJoins graph (joinFinal graph rand sample_size).joins
          (joinFinal graph rand sample_size).best_step none
        = GetPartitionFromJoins graph (executedJoins graph rand sample_size)
          (joinFinal graph rand sample_size).best_step none) ∧
    ((restartExecuted seed graph clusters rand k_restart).length ≤ clusters.length - 1 ∧
      ((restartFinal seed graph clusters rand k_restart).best_step = -1 ∨
        (0 ≤ (restartFinal seed graph clusters rand k_restart).best_step ∧
          (restartFinal seed graph clusters rand k_restart).best_step <
            ((restartExecuted seed graph clusters rand k_restart).length : Int))) ∧
      (∀ j, j < (restartExecuted seed graph clusters rand k_restart).length →
        (restartFinal seed graph clusters rand k_restart).joins[j]? =
          (restartExecuted seed graph clusters rand k_restart)[j]?) ∧
      (∀ j, (restartExecuted seed graph clusters rand k_restart).length ≤ j →
        j < clusters.length - 1 →
        (restartFinal seed graph clusters rand k_restart).joins[j]? = some (0, 0)) ∧
      GetPartitionFromJoins graph (restartFinal seed graph clusters rand k_restart).joins
          (restartFinal seed graph clusters rand k_restart).best_step (some clusters)
        = GetPartitionFromJoins graph (restartExecuted seed graph clusters rand k_restart)
          (restartFinal seed graph clusters rand k_restart).best_step (some clusters)) := by
  constructor
  · have h := genLoop_executed (joinScan graph.vertex_count sample_size)
      (graph.vertex_count - 1) (joinInit graph rand) rfl rfl graph none
    rw [← joinLoop_eq_gen, ← joinTrace_eq_gen] at h
    exact h
  · have h := genLoop_executed (restartScan clusters.length k_restart) (clusters.length - 1)
      (restartInit seed graph clusters rand) rfl rfl graph (some clusters)
    rw [← restartLoop_eq_gen, ← restartTrace_eq_gen] at h
    exact h

end CGGC


namespace CGGC

/-! ## The bookkeeping of RefineCluster on graphs with symmetric adjacency -/

/-- A symmetric adjacency without duplicate neighbours is symmetric with multiplicities. -/
theorem countSymmetric_of_simple (g : Graph) (hsym : g.Symmetric) (hnd : g.NoDuplicates) :
    g.CountSymmetric := by
  intro u hu w hw
  have h1 := hsym u hu w hw
  by_cases hm : w ∈ g.GetNeighbors u
  · rw [List.count_eq_one_of_mem (hnd u hu) hm, List.count_eq_one_of_mem (hnd w hw) (h1.1 hm)]
  · rw [List.count_eq_zero_of_not_mem hm,
      List.count_eq_zero_of_not_mem (fun hh => hm (h1.2 hh))]

/-- The effect of one vertex move on a count over a list with repetitions. -/
theorem countP_update_count (c : Nat → Nat) (v B Y : Nat) (L : List Nat) :
    ((L.countP fun w => decide (Function.update c v B w = Y) : Nat) : Int) =
      (L.countP fun w => decide (c w = Y) : Nat)
        + (L.count v : Int) * ((if B = Y then 1 else 0) - (if c v = Y then 1 else 0)) := by
  induction L with
  | nil => simp
  | cons x xs ih =>
    rw [List.countP_cons, List.countP_cons, List.count_cons]
    push_cast
    rw [ih]
    by_cases hx : x = v
    · subst hx
      simp only [Function.update_same, decide_eq_true_eq, beq_self_eq_true, if_true]
      split_ifs <;> push_cast <;> ring
    · have hvx : ¬ v = x := fun h => hx h.symm
      have hb : (x == v) = false := by simpa using hx
      simp only [Function.update_noteq hx, decide_eq_true_eq, hb]
      simp only [Bool.false_eq_true, if_false, Nat.cast_zero, add_zero]
      ring

/-- The loop over the neighbours of a moved vertex, each neighbour with its multiplicity. -/
theorem moveLinks_count (A B : Nat) (hAB : A ≠ B) (N : List Nat) :
    ∀ (links : List (List (Nat × Int))), (∀ x ∈ N, x < links.length) →
      (N.foldl (moveLinkStep A B) links).length = links.length ∧
      ∀ u Y, mapGet ((N.foldl (moveLinkStep A B) links).getD u []) Y 0 =
        mapGet (links.getD u []) Y 0
          + (N.count u : Int) * ((if B = Y then 1 else 0) - (if A = Y then 1 else 0)) := by
  induction N with
  | nil => intro links _; simp
  | cons x xs ih =>
    intro links hlt
    obtain ⟨s1, s2, s3⟩ := moveLinkStep_get A B hAB links x (hlt x (List.mem_cons_self _ _))
    obtain ⟨r1, r2⟩ := ih (moveLinkStep A B links x)
      (fun y hy => by rw [s1]; exact hlt y (List.mem_cons_of_mem _ hy))
    rw [List.foldl_cons]
    refine ⟨by rw [r1, s1], ?_⟩
    intro u Y
    rw [r2 u Y, List.count_cons]
    by_cases hux : u = x
    · subst hux
      rw [s3 Y]
      simp only [beq_self_eq_true, if_true]
      push_cast
      ring
    · rw [s2 u hux]
      have hb : (x == u) = false := by simpa using fun h => hux h.symm
      simp [hb]

/-- The state after the initialisation satisfies the bookkeeping invariant. -/
theorem refineInit_RInv_count (g : Graph) (hwf : g.WellFormed) (hs : g.NoSelfLoops)
    {P : Partition}
    (hP : IsPartition g.vertex_count P) :
    RInv g (RemoveEmptyEntries (P.map some)).length (refineInit g P).1 := by
  have hP2 := hP.compact
  have hcm := refineInit_clustermap g P
  obtain ⟨o1, _, o3, _, _⟩ := refineLink_outer g (refineInit g P).1.clustermap
    (List.range g.vertex_count) (List.replicate g.vertex_count [], 0)
    (List.nodup_range _) (fun v hv => by simpa using List.mem_range.1 hv)
  have hlinks : (refineInit g P).1.links =
      ((List.range g.vertex_count).foldl (fun st i => (g.GetNeighbors i).foldl
        (refineLinkStep (refineInit g P).1.clustermap i) st)
        (List.replicate g.vertex_count [], 0)).1 := rfl
  obtain ⟨_, c2, c3⟩ := refineInitClusters_spec g (RemoveEmptyEntries (P.map some)) 0
    (List.replicate (RemoveEmptyEntries (P.map some)).length 0,
      List.replicate g.vertex_count 0) (by simp)
  have hcd : (refineInit g P).1.clusterdegree =
      (refineInitClusters g (RemoveEmptyEntries (P.map some)) 0
        (List.replicate (RemoveEmptyEntries (P.map some)).length 0,
          List.replicate g.vertex_count 0)).1 := rfl
  refine ⟨refineInit_RInvW g hwf hP, ?_, ?_, ?_, ?_⟩
  · rw [hlinks, o1]; simp
  · rw [hcd, c2]; simp
  · intro X hX
    have := c3 X hX
    rw [Nat.zero_add] at this
    rw [hcd, this]
    unfold degreeSum
    have hXmem := List.getElem_mem hX
    rw [← sum_ite_mem_list g.vertex_count _ _ ((List.nodup_flatten.1 hP2.1).1 _ hXmem)
      (fun x hx => hP2.lt_of_mem hXmem hx)]
    apply Finset.sum_congr rfl
    intro u hu
    have hiff := clustermap_eq_iff hP2 (Finset.mem_range.1 hu) X
    rw [getD_of_lt _ X [] hX] at hiff
    rw [hcm]
    by_cases hm : u ∈ (RemoveEmptyEntries (P.map some))[X]
    · rw [if_pos hm, if_pos (hiff.2 hm)]
    · rw [if_neg hm, if_neg (fun h => hm (hiff.1 h))]
  · intro u hu X
    rw [hlinks, o3 u (List.mem_range.2 hu) X]
    dsimp only
    rw [getD_replicate_nil]
    simp only [mapGet, mapFind, Option.getD_none, zero_add]
    unfold linkCount
    rw [countP_noloop g hs hu]

/-- The bookkeeping invariant is kept by the scan of a vertex, with or without a move, on
every graph whose adjacency is symmetric with multiplicities. -/
theorem afterScan_RInv_count (g : Graph) (hwf : g.WellFormed) (hsym : g.CountSymmetric)
    (hs : g.NoSelfLoops) (ec : ℚ) {K : Nat} {st : RefineState}
    (hinv : RInv g K st) {v : Nat} (hv : v < g.vertex_count)
    {r : List (Nat × Int) × Int × ℚ} (h : scanVertex g ec st v = some r) :
    RInv g K (afterScan g st v r) := by
  have hweak := afterScan_RInvW g ec hinv.weak hv h
  obtain ⟨s1, _, s3, _⟩ := scanVertex_spec g ec st v r h
  have hA : st.clustermap.getD v 0 < K := hinv.weak.cm_lt v hv
  have hvl : v < st.links.length := by rw [hinv.links_len]; exact hv
  have hget1 : ∀ u, u < g.vertex_count → ∀ X,
      mapGet ((st.links.set v r.1).getD u []) X 0 = (linkCount g st.clustermap u X : Int) := by
    intro u hu X
    rw [getD_set_eq]
    by_cases hc : v = u ∧ v < st.links.length
    · rw [if_pos hc]
      obtain ⟨rfl, _⟩ := hc
      rcases s1 with s1 | s1
      · rw [s1]; exact hinv.links_eq v hv X
      · rw [s1, (mapTouch_spec _ _ 0).1 X]; exact hinv.links_eq v hv X
    · rw [if_neg hc]; exact hinv.links_eq u hu X
  by_cases hpos : r.2.2 > 0
  · obtain ⟨B, hBk, hBA, hB2, _⟩ := s3 hpos
    have hBK : B < K := hinv.weak.keys_lt v B hBk
    have hnat : r.2.1.toNat = B := by rw [hB2]; simp
    have hAB : st.clustermap.getD v 0 ≠ B := fun hh => hBA hh.symm
    have hvcm : v < st.clustermap.length := by rw [hinv.weak.cm_len]; exact hv
    have hst : afterScan g st v r = applyMove g ⟨st.clusterdegree, st.clustermap,
        st.links.set v r.1⟩ v (st.clustermap.getD v 0) B := by
      unfold afterScan
      dsimp only
      rw [if_pos hpos, hnat]
    obtain ⟨m1, m2⟩ := moveLinks_count (st.clustermap.getD v 0) B hAB (g.GetNeighbors v)
      (st.links.set v r.1)
      (fun x hx => by rw [List.length_set, hinv.links_len]; exact hwf v hv x hx)
    rw [hst] at hweak ⊢
    refine ⟨hweak, ?_, ?_, ?_, ?_⟩
    · show ((g.GetNeighbors v).foldl (moveLinkStep (st.clustermap.getD v 0) B)
        (st.links.set v r.1)).length = g.vertex_count
      rw [m1, List.length_set, hinv.links_len]
    · show ((st.clusterdegree.set (st.clustermap.getD v 0) _).set B _).length = K
      rw [List.length_set, List.length_set, hinv.cd_len]
    · intro X hX
      show ((st.clusterdegree.set (st.clustermap.getD v 0)
          (st.clusterdegree.getD (st.clustermap.getD v 0) 0 - ((g.GetNeighbors v).length : Int))).set
          B ((st.clusterdegree.set (st.clustermap.getD v 0)
            (st.clusterdegree.getD (st.clustermap.getD v 0) 0
              - ((g.GetNeighbors v).length : Int))).getD B 0
            + ((g.GetNeighbors v).length : Int))).getD X 0
        = degreeSum g (st.clustermap.set v B) X
      rw [degreeSum_eq g hs, cmFun_set _ _ _ hvcm, clusterEntries_move g hs _ v B X hv,
        ← degreeSum_eq g hs, ← hinv.cd_eq X hX]
      have hAl : st.clustermap.getD v 0 < st.clusterdegree.length := by
        rw [hinv.cd_len]; exact hA
      have hBl : B < (st.clusterdegree.set (st.clustermap.getD v 0)
          (st.clusterdegree.getD (st.clustermap.getD v 0) 0
            - ((g.GetNeighbors v).length : Int))).length := by
        rw [List.length_set, hinv.cd_len]; exact hBK
      rw [getD_set_eq, getD_set_eq, getD_set_eq]
      by_cases hXB : B = X
      · subst hXB
        rw [if_pos ⟨rfl, hBl⟩, if_neg (fun hh => hAB hh.1), if_pos rfl, if_neg hAB]
        ring
      · rw [if_neg (fun hh => hXB hh.1), if_neg hXB]
        by_cases hXA : st.clustermap.getD v 0 = X
        · rw [if_pos ⟨hXA, hAl⟩, if_pos hXA]
          subst hXA
          ring
        · rw [if_neg (fun hh => hXA hh.1), if_neg hXA]
          ring
    · intro u hu X
      show mapGet (((g.GetNeighbors v).foldl (moveLinkStep (st.clustermap.getD v 0) B)
        (st.links.set v r.1)).getD u []) X 0 = (linkCount g (st.clustermap.set v B) u X : Int)
      rw [m2 u X, hget1 u hu X]
      unfold linkCount
      have hcu := countP_update_count (fun w => st.clustermap.getD w 0) v B X
        (g.GetNeighbors u)
      rw [← cmFun_set _ _ _ hvcm] at hcu
      rw [hcu, hsym u hu v hv]
  · have hst : afterScan g st v r = ⟨st.clusterdegree, st.clustermap, st.links.set v r.1⟩ := by
      unfold afterScan
      dsimp only
      rw [if_neg hpos]
    rw [hst] at hweak ⊢
    exact ⟨hweak, by show (st.links.set v r.1).length = _; rw [List.length_set, hinv.links_len],
      hinv.cd_len, hinv.cd_eq, hget1⟩


/-- Every state of `RefineCluster` satisfies the bookkeeping invariant. -/
theorem Reachable.inv_count {g : Graph} (hwf : g.WellFormed) (hsym : g.CountSymmetric)
    (hs : g.NoSelfLoops) {P : Partition} (hP : IsPartition g.vertex_count P)
    {st : RefineState} (h : Reachable g P st) :
    RInv g (RemoveEmptyEntries (P.map some)).length st := by
  induction h with
  | init => exact refineInit_RInv_count g hwf hs hP
  | step st v r _ hv hsc ih => exact afterScan_RInv_count g hwf hsym hs _ ih hv hsc

/-- No vertex is assigned to an id that is not below the cluster count. -/
theorem degreeSum_out (g : Graph) (K : Nat) (st : RefineState)
    (hinv : RInvW g.vertex_count K st) (X : Nat) (hX : K ≤ X) :
    degreeSum g st.clustermap X = 0 := by
  unfold degreeSum
  apply Finset.sum_eq_zero
  intro u hu
  have := hinv.cm_lt u (Finset.mem_range.1 hu)
  rw [if_neg (by omega)]

/-- **C18.** For every graph on `{0..n-1}` whose adjacency is symmetric (each `w` is listed
for `u` as often as `u` is listed for `w`; in particular every symmetric adjacency without
duplicate neighbours) and has no self-loop, and every input partition `P` of the vertex set:
`edgeCount` is half the number of adjacency entries, `m`, and it is a constant of the loop;
in every state of `RefineCluster` (after the initialisation and after the scan of every
vertex, with the move executed when one was accepted), `clusterdegree[c]` is the sum of the
neighbour-list sizes of the vertices assigned to `c`, and `links[u][c]`, taken as `0` when
the key is absent, is the number of neighbours of `u` assigned to `c`; the state in which
the loop ends is such a state. -/
theorem C18_refine_bookkeeping (g : Graph) (hwf : g.WellFormed) (hsym : g.CountSymmetric)
    (hs : g.NoSelfLoops) (P : Partition) (hP : IsPartition g.vertex_count P) :
    (refineInit g P).2 = (g.entries.length : ℚ) / 2 ∧
    (∀ st, Reachable g P st →
      (∀ X, st.clusterdegree.getD X 0 = degreeSum g st.clustermap X) ∧
      (∀ u, u < g.vertex_count → ∀ X,
        mapGet (st.links.getD u []) X 0 = (linkCount g st.clustermap u X : Int))) ∧
    (∀ fuel st, refineLoop g (refineInit g P).2 fuel (refineInit g P).1 = .ok st →
      Reachable g P st) := by
  refine ⟨refineInit_edgeCount g P, ?_, ?_⟩
  · intro st hr
    have hinv := Reachable.inv_count hwf hsym hs hP hr
    refine ⟨?_, hinv.links_eq⟩
    intro X
    by_cases hX : X < (RemoveEmptyEntries (P.map some)).length
    · exact hinv.cd_eq X hX
    · rw [degreeSum_out g _ st hinv.weak X (Nat.le_of_not_lt hX), List.getD_eq_default]
      rw [hinv.cd_len]
      exact Nat.le_of_not_lt hX
  · intro fuel st h
    exact refineLoop_reachable g P fuel _ st Reachable.init h

/-- Witness for C18: the two triangles, started from the six singletons. -/
theorem C18_refine_bookkeeping_witness :
    (twoTriangles.WellFormed ∧ twoTriangles.CountSymmetric ∧ twoTriangles.NoSelfLoops ∧
      IsPartition twoTriangles.vertex_count [[0], [1], [2], [3], [4], [5]]) ∧
    ((refineInit twoTriangles [[0], [1], [2], [3], [4], [5]]).2
        = (twoTriangles.entries.length : ℚ) / 2 ∧
    (∀ st, Reachable twoTriangles [[0], [1], [2], [3], [4], [5]] st →
      (∀ X, st.clusterdegree.getD X 0 = degreeSum twoTriangles st.clustermap X) ∧
      (∀ u, u < twoTriangles.vertex_count → ∀ X,
        mapGet (st.links.getD u []) X 0 = (linkCount twoTriangles st.clustermap u X : Int))) ∧
    (∀ fuel st, refineLoop twoTriangles (refineInit twoTriangles [[0], [1], [2], [3], [4], [5]]).2
        fuel (refineInit twoTriangles [[0], [1], [2], [3], [4], [5]]).1 = .ok st →
      Reachable twoTriangles [[0], [1], [2], [3], [4], [5]] st)) :=
  ⟨⟨by decide, by decide, by decide, by decide⟩,
    C18_refine_bookkeeping twoTriangles (by decide) (by decide) (by decide)
      [[0], [1], [2], [3], [4], [5]] (by decide)⟩

end CGGC


namespace CGGC

/-! ## Termination of the loop of RefineCluster -/

/-- A pass executes no division by zero when `edgeCount` is not zero. -/
theorem pass_total (g : Graph) (ec : ℚ) (hec : ec ≠ 0) (L : List Nat) :
    ∀ (st : RefineState) (b : Bool), ∃ r, L.foldlM (vertexStep g ec) (st, b) = some r := by
  induction L with
  | nil => intro st b; exact ⟨(st, b), rfl⟩
  | cons v L ih =>
    intro st b
    obtain ⟨r1, h1⟩ := scan_exists g ec hec st.clusterdegree v (st.clustermap.getD v 0)
      ((st.links.getD v []).map Prod.fst) (st.links.getD v [], (-1 : Int), (0 : ℚ))
    have hs : scanVertex g ec st v = some r1 := h1
    rw [List.foldlM_cons]
    simp only [vertexStep, hs, Option.map_some', Option.bind_eq_bind, Option.some_bind]
    exact ih _ _

/-- The bookkeeping invariant is kept by a pass. -/
theorem pass_RInv (g : Graph) (hg : g.Simple) (ec : ℚ) {K : Nat} (L : List Nat) :
    ∀ (st : RefineState) (b : Bool) (r : RefineState × Bool),
      (∀ v ∈ L, v < g.vertex_count) → RInv g K st →
      L.foldlM (vertexStep g ec) (st, b) = some r → RInv g K r.1 := by
  induction L with
  | nil =>
    intro st b r _ hinv h
    simp only [List.foldlM, pure, Option.some.injEq] at h
    subst h; exact hinv
  | cons v L ih =>
    intro st b r hlt hinv h
    rw [List.foldlM_cons] at h
    cases hs : scanVertex g ec st v with
    | none =>
      simp only [vertexStep, hs, Option.map_none', Option.bind_eq_bind, Option.none_bind] at h
      exact Option.noConfusion h
    | some r1 =>
      simp only [vertexStep, hs, Option.map_some', Option.bind_eq_bind, Option.some_bind] at h
      exact ih _ _ r (fun w hw => hlt w (List.mem_cons_of_mem _ hw))
        (afterScan_RInv g hg ec hinv (hlt v (List.mem_cons_self _ _)) hs) h

/-- A pass never lowers the modularity of the cluster map, and a pass that sets
`improvement_found` raises it. -/
theorem pass_gain (g : Graph) (hg : g.Simple) (hT : g.entries.length ≠ 0) {K : Nat}
    (L : List Nat) :
    ∀ (st : RefineState) (b : Bool) (r : RefineState × Bool),
      (∀ v ∈ L, v < g.vertex_count) → RInv g K st →
      L.foldlM (vertexStep g ((g.entries.length : ℚ) / 2)) (st, b) = some r →
      modularityOfMap g K (fun u => st.clustermap.getD u 0)
        ≤ modularityOfMap g K (fun u => r.1.clustermap.getD u 0) ∧
      (r.2 = true → b = true ∨
        modularityOfMap g K (fun u => st.clustermap.getD u 0)
          < modularityOfMap g K (fun u => r.1.clustermap.getD u 0)) := by
  induction L with
  | nil =>
    intro st b r _ _ h
    simp only [List.foldlM, pure, Option.some.injEq] at h
    subst h
    exact ⟨le_refl _, fun hb => Or.inl hb⟩
  | cons v L ih =>
    intro st b r hlt hinv h
    rw [List.foldlM_cons] at h
    cases hs : scanVertex g ((g.entries.length : ℚ) / 2) st v with
    | none =>
      simp only [vertexStep, hs, Option.map_none', Option.bind_eq_bind, Option.none_bind] at h
      exact Option.noConfusion h
    | some r1 =>
      simp only [vertexStep, hs, Option.map_some', Option.bind_eq_bind, Option.some_bind] at h
      have hv := hlt v (List.mem_cons_self _ _)
      have hinv1 := afterScan_RInv g hg _ hinv hv hs
      obtain ⟨i1, i2⟩ := ih _ _ r (fun w hw => hlt w (List.mem_cons_of_mem _ hw)) hinv1 h
      by_cases hpos : r1.2.2 > 0
      · have hgain := accepted_move_gain g hg hT hinv hv hs hpos
        have hlt2 : modularityOfMap g K (fun u => st.clustermap.getD u 0)
            < modularityOfMap g K (fun u => (afterScan g st v r1).clustermap.getD u 0) := by
          linarith
        exact ⟨le_trans (le_of_lt hlt2) i1, fun _ => Or.inr (lt_of_lt_of_le hlt2 i1)⟩
      · have hcm : (afterScan g st v r1).clustermap = st.clustermap := by
          unfold afterScan
          dsimp only
          rw [if_neg hpos]
        rw [hcm] at i1 i2
        rw [if_neg hpos] at i2
        exact ⟨i1, i2⟩

/-- A larger budget of passes does not change the result of the loop. -/
theorem refineLoop_mono (g : Graph) (ec : ℚ) (fuel : Nat) :
    ∀ (st st2 : RefineState), refineLoop g ec fuel st = .ok st2 →
      ∀ j, refineLoop g ec (fuel + j) st = .ok st2 := by
  induction fuel with
  | zero => intro st st2 h; simp [refineLoop] at h
  | succ f ih =>
    intro st st2 h j
    have e : f + 1 + j = (f + j) + 1 := by omega
    rw [e]
    unfold refineLoop at h ⊢
    cases hp : refinePass g ec st with
    | none => rw [hp] at h; simp at h
    | some r =>
      obtain ⟨st1, b⟩ := r
      rw [hp] at h
      cases b with
      | true => exact ih st1 st2 h j
      | false => exact h

/-- The number of assignments is `K ^ n`. -/
theorem betterCount_le (g : Graph) (K : Nat) (q : ℚ) :
    betterCount g K q ≤ K ^ g.vertex_count := by
  unfold betterCount
  refine le_trans (Finset.card_filter_le _ _) ?_
  rw [Finset.card_univ, Fintype.card_fun, Fintype.card_fin, Fintype.card_fin]

/-- The modularity of the cluster map of a state is the modularity of an assignment. -/
theorem modularity_assignment (g : Graph) (hg : g.WellFormed) (K : Nat) (cm : List Nat)
    (hcm : ∀ v, v < g.vertex_count → cm.getD v 0 < K) :
    ∃ c : Fin g.vertex_count → Fin K,
      modularityOfMap g K (assignmentOf g.vertex_count K c)
        = modularityOfMap g K (fun u => cm.getD u 0) := by
  refine ⟨fun i => ⟨cm.getD i.1 0, hcm i.1 i.2⟩, ?_⟩
  have hval : ∀ u, u < g.vertex_count →
      assignmentOf g.vertex_count K (fun i => ⟨cm.getD i.1 0, hcm i.1 i.2⟩) u
        = cm.getD u 0 := by
    intro u hu
    unfold assignmentOf
    rw [dif_pos hu]
  apply modularityOfMap_congr g hg K K
  · intro u hu; rw [hval u hu]; exact hcm u hu
  · exact hcm
  · intro u w hu hw
    rw [hval u hu, hval w hw]

/-- A greater modularity leaves fewer assignments above it. -/
theorem betterCount_lt (g : Graph) (hg : g.WellFormed) (K : Nat) (cm : List Nat)
    (hcm : ∀ v, v < g.vertex_count → cm.getD v 0 < K) (q : ℚ)
    (h : q < modularityOfMap g K (fun u => cm.getD u 0)) :
    betterCount g K (modularityOfMap g K (fun u => cm.getD u 0)) < betterCount g K q := by
  obtain ⟨c, hc⟩ := modularity_assignment g hg K cm hcm
  unfold betterCount
  apply Finset.card_lt_card
  rw [Finset.ssubset_iff_of_subset]
  · refine ⟨c, ?_, ?_⟩
    · rw [Finset.mem_filter]
      exact ⟨Finset.mem_univ _, by rw [hc]; exact h⟩
    · rw [Finset.mem_filter]
      rintro ⟨_, h2⟩
      rw [hc] at h2
      exact lt_irrefl _ h2
  · intro x hx
    rw [Finset.mem_filter] at hx ⊢
    exact ⟨hx.1, lt_trans h hx.2⟩

/-- The loop ends within one pass more than there are assignments above the modularity of
its first state. -/
theorem refineLoop_terminates (g : Graph) (hg : g.Simple) (hT : g.entries.length ≠ 0)
    {K : Nat} (k : Nat) :
    ∀ st : RefineState, RInv g K st →
      betterCount g K (modularityOfMap g K (fun u => st.clustermap.getD u 0)) ≤ k →
      ∃ st2, refineLoop g ((g.entries.length : ℚ) / 2) (k + 1) st = .ok st2 := by
  have hec : (g.entries.length : ℚ) / 2 ≠ 0 := by
    have : (g.entries.length : ℚ) ≠ 0 := by exact_mod_cast hT
    intro h0
    apply this
    linarith
  induction k with
  | zero =>
    intro st hinv hk
    obtain ⟨r, hr⟩ := pass_total g _ hec (List.range g.vertex_count) st false
    obtain ⟨st1, b⟩ := r
    have hp : refinePass g ((g.entries.length : ℚ) / 2) st = some (st1, b) := hr
    unfold refineLoop
    rw [hp]
    cases b with
    | false => exact ⟨st1, rfl⟩
    | true =>
      exfalso
      obtain ⟨_, h2⟩ := pass_gain g hg hT _ st false (st1, true)
        (fun v hv => List.mem_range.1 hv) hinv hr
      rcases h2 rfl with h2 | h2
      · exact Bool.noConfusion h2
      · have hinv1 := pass_RInv g hg _ _ st false (st1, true)
          (fun v hv => List.mem_range.1 hv) hinv hr
        have := betterCount_lt g hg.1 K st1.clustermap hinv1.weak.cm_lt _ h2
        omega
  | succ k ih =>
    intro st hinv hk
    obtain ⟨r, hr⟩ := pass_total g _ hec (List.range g.vertex_count) st false
    obtain ⟨st1, b⟩ := r
    have hp : refinePass g ((g.entries.length : ℚ) / 2) st = some (st1, b) := hr
    unfold refineLoop
    rw [hp]
    cases b with
    | false => exact ⟨st1, rfl⟩
    | true =>
      obtain ⟨_, h2⟩ := pass_gain g hg hT _ st false (st1, true)
        (fun v hv => List.mem_range.1 hv) hinv hr
      rcases h2 rfl with h2 | h2
      · exact Bool.noConfusion h2
      · have hinv1 := pass_RInv g hg _ _ st false (st1, true)
          (fun v hv => List.mem_range.1 hv) hinv hr
        have := betterCount_lt g hg.1 K st1.clustermap hinv1.weak.cm_lt _ h2
        exact ih st1 hinv1 (by omega)

/-- The loop of `RefineCluster` ends within `K ^ n + 1` passes, `K` the number of clusters
of the compacted input, and `RefineCluster` returns a partition. -/
theorem RefineCluster_terminates (g : Graph) (hg : g.Simple) (P : Partition)
    (hP : IsPartition g.vertex_count P) :
    ∃ st R, ∀ j,
      refineLoop g (refineInit g P).2
        ((RemoveEmptyEntries (P.map some)).length ^ g.vertex_count + 1 + j)
        (refineInit g P).1 = .ok st ∧
      RefineCluster ((RemoveEmptyEntries (P.map some)).length ^ g.vertex_count + 1 + j) g P
        = .ok R := by
  have hloop : ∃ st, refineLoop g (refineInit g P).2
      ((RemoveEmptyEntries (P.map some)).length ^ g.vertex_count + 1) (refineInit g P).1
        = .ok st := by
    by_cases hT : g.entries.length = 0
    · have hent : g.entries = [] := List.length_eq_zero.1 hT
      obtain ⟨d1, _⟩ := refineInit_degenerate g P hent
      have h1 : refineLoop g (refineInit g P).2 1 (refineInit g P).1
          = .ok (refineInit g P).1 := by
        unfold refineLoop
        rw [refinePass_idle g _ _ d1]
      refine ⟨(refineInit g P).1, ?_⟩
      have := refineLoop_mono g _ 1 _ _ h1
        ((RemoveEmptyEntries (P.map some)).length ^ g.vertex_count)
      rw [Nat.add_comm] at this
      exact this
    · rw [refineInit_edgeCount]
      exact refineLoop_terminates g hg hT _ _ (refineInit_RInv g hg hP) (betterCount_le _ _ _)
  obtain ⟨st, hst⟩ := hloop
  have hinv := refineLoop_RInvW g _ _ _ st (refineInit_RInvW g hg.1 hP) hst
  obtain ⟨R, r1, _⟩ := rebuild_partition g.vertex_count
    (RemoveEmptyEntries (P.map some)).length st.clustermap hinv.cm_lt
  refine ⟨st, R, fun j => ?_⟩
  have hj := refineLoop_mono g _ _ _ _ hst j
  refine ⟨hj, ?_⟩
  simp only [RefineCluster, hj, r1]

/-- **C19.** For every simple undirected graph on `{0..n-1}` (symmetric adjacency, no
self-loop, no duplicate neighbour) and every input partition `P` of the vertex set, with `K`
the number of clusters of the compacted input: every pass of the loop
`while (improvement_found)` that sets `improvement_found` strictly increases the modularity
of the current assignment of the vertices to the `K` cluster ids, of which there are `K ^ n`;
so the loop exits after at most `K ^ n + 1` passes (each of at most `n` vertex moves), with
the same final state for every larger budget, and `RefineCluster` returns a partition. -/
theorem C19_refine_terminates (g : Graph) (hg : g.Simple) (P : Partition)
    (hP : IsPartition g.vertex_count P) :
    (g.entries.length ≠ 0 → ∀ st st2, Reachable g P st →
      refinePass g (refineInit g P).2 st = some (st2, true) →
      modularityOfMap g (RemoveEmptyEntries (P.map some)).length
          (fun u => st.clustermap.getD u 0)
        < modularityOfMap g (RemoveEmptyEntries (P.map some)).length
          (fun u => st2.clustermap.getD u 0)) ∧
    ∃ st R, ∀ j,
      refineLoop g (refineInit g P).2
        ((RemoveEmptyEntries (P.map some)).length ^ g.vertex_count + 1 + j)
        (refineInit g P).1 = .ok st ∧
      RefineCluster ((RemoveEmptyEntries (P.map some)).length ^ g.vertex_count + 1 + j) g P
        = .ok R := by
  refine ⟨?_, RefineCluster_terminates g hg P hP⟩
  intro hT st st2 hr hp
  rw [refineInit_edgeCount] at hp
  obtain ⟨_, h2⟩ := pass_gain g hg hT _ st false (st2, true)
    (fun v hv => List.mem_range.1 hv) (Reachable.inv hg hP hr) hp
  rcases h2 rfl with h2 | h2
  · exact Bool.noConfusion h2
  · exact h2

/-- Witness for C19: the two triangles, started from the six singletons. -/
theorem C19_refine_terminates_witness :
    (twoTriangles.Simple ∧
      IsPartition twoTriangles.vertex_count [[0], [1], [2], [3], [4], [5]]) ∧
    ((twoTriangles.entries.length ≠ 0 → ∀ st st2,
      Reachable twoTriangles [[0], [1], [2], [3], [4], [5]] st →
      refinePass twoTriangles (refineInit twoTriangles [[0], [1], [2], [3], [4], [5]]).2 st
        = some (st2, true) →
      modularityOfMap twoTriangles
          (RemoveEmptyEntries (([[0], [1], [2], [3], [4], [5]] : Partition).map some)).length
          (fun u => st.clustermap.getD u 0)
        < modularityOfMap twoTriangles
          (RemoveEmptyEntries (([[0], [1], [2], [3], [4], [5]] : Partition).map some)).length
          (fun u => st2.clustermap.getD u 0)) ∧
    ∃ st R, ∀ j,
      refineLoop twoTriangles (refineInit twoTriangles [[0], [1], [2], [3], [4], [5]]).2
        ((RemoveEmptyEntries (([[0], [1], [2], [3], [4], [5]] : Partition).map some)).length
          ^ twoTriangles.vertex_count + 1 + j)
        (refineInit twoTriangles [[0], [1], [2], [3], [4], [5]]).1 = .ok st ∧
      RefineCluster
        ((RemoveEmptyEntries (([[0], [1], [2], [3], [4], [5]] : Partition).map some)).length
          ^ twoTriangles.vertex_count + 1 + j) twoTriangles [[0], [1], [2], [3], [4], [5]]
        = .ok R) :=
  ⟨⟨by decide, by decide⟩,
    C19_refine_terminates twoTriangles (by decide) [[0], [1], [2], [3], [4], [5]] (by decide)⟩

end CGGC


namespace CGGC

/-! ## Adjacency entries between clusters, and the effect of a join -/

/-- Counting under a predicate that is the disjoint union of four others. -/
theorem countP_split4 {α : Type} (l : List α) (p q1 q2 q3 q4 : α → Bool)
    (h : ∀ e ∈ l, (if p e then 1 else 0) =
      (if q1 e then 1 else 0) + (if q2 e then 1 else 0) + (if q3 e then 1 else 0)
        + (if q4 e then (1 : Nat) else 0)) :
    l.countP p = l.countP q1 + l.countP q2 + l.countP q3 + l.countP q4 := by
  induction l with
  | nil => rfl
  | cons e l ih =>
    have he := h e (List.mem_cons_self _ _)
    have hl := ih fun x hx => h x (List.mem_cons_of_mem _ hx)
    simp only [List.countP_cons]
    omega

/-- The entries between two clusters after the join `(a, b)`. -/
theorem linkEntries_join (g : Graph) (c : Nat → Nat) (a b : Nat) (hab : a ≠ b) (i j : Nat) :
    linkEntries g (cmJoin c (a, b)) i j =
      if i = b ∨ j = b then 0
      else linkEntries g c i j + (if j = a then linkEntries g c i b else 0)
        + (if i = a then linkEntries g c b j else 0)
        + (if i = a ∧ j = a then linkEntries g c b b else 0) := by
  unfold linkEntries
  by_cases hb : i = b ∨ j = b
  · rw [if_pos hb, List.countP_eq_zero]
    intro e _
    simp only [cmJoin, decide_eq_true_eq]
    rintro ⟨h1, h2⟩
    rcases hb with hb | hb
    · subst hb
      by_cases hc : c e.1 = i
      · rw [if_pos hc] at h1; exact hab h1
      · rw [if_neg hc] at h1; exact hc h1
    · subst hb
      by_cases hc : c e.2 = j
      · rw [if_pos hc] at h2; exact hab h2
      · rw [if_neg hc] at h2; exact hc h2
  · rw [if_neg hb]
    push_neg at hb
    obtain ⟨hib, hjb⟩ := hb
    have key := countP_split4 g.entries
      (fun e => decide (cmJoin c (a, b) e.1 = i ∧ cmJoin c (a, b) e.2 = j))
      (fun e => decide (c e.1 = i ∧ c e.2 = j))
      (fun e => decide (j = a ∧ c e.1 = i ∧ c e.2 = b))
      (fun e => decide (i = a ∧ c e.1 = b ∧ c e.2 = j))
      (fun e => decide ((i = a ∧ j = a) ∧ c e.1 = b ∧ c e.2 = b)) (by
        intro e _
        have hba : b ≠ a := fun h => hab h.symm
        have e1 : cmJoin c (a, b) e.1 = i ↔ (c e.1 = i ∨ (i = a ∧ c e.1 = b)) := by
          simp only [cmJoin]
          by_cases h1 : c e.1 = b
          · rw [if_pos h1, h1]
            constructor
            · intro h; exact Or.inr ⟨h.symm, rfl⟩
            · rintro (h | h)
              · exact absurd h.symm hib
              · exact h.1.symm
          · rw [if_neg h1]
            constructor
            · intro h; exact Or.inl h
            · rintro (h | h)
              · exact h
              · exact absurd h.2 h1
        have e2 : cmJoin c (a, b) e.2 = j ↔ (c e.2 = j ∨ (j = a ∧ c e.2 = b)) := by
          simp only [cmJoin]
          by_cases h1 : c e.2 = b
          · rw [if_pos h1, h1]
            constructor
            · intro h; exact Or.inr ⟨h.symm, rfl⟩
            · rintro (h | h)
              · exact absurd h.symm hjb
              · exact h.1.symm
          · rw [if_neg h1]
            constructor
            · intro h; exact Or.inl h
            · rintro (h | h)
              · exact h
              · exact absurd h.2 h1
        simp only [decide_eq_true_eq, e1, e2]
        by_cases h5 : c e.1 = i
        · have h1 : c e.1 ≠ b := fun h => hib (h5.symm.trans h)
          by_cases h6 : c e.2 = j
          · have h2 : c e.2 ≠ b := fun h => hjb (h6.symm.trans h)
            simp [h5, h6, h1, h2, hib, hjb, hab, hba, Ne.symm hib, Ne.symm hjb]
          · by_cases h2 : c e.2 = b
            · by_cases h4 : j = a
              · simp [h5, h6, h1, h2, h4, hib, hjb, hab, hba, Ne.symm hib, Ne.symm hjb]
              · simp [h5, h6, h1, h2, h4, hib, hjb, hab, hba, Ne.symm hib, Ne.symm hjb]
            · simp [h5, h6, h1, h2, hib, hjb, hab, hba, Ne.symm hib, Ne.symm hjb]
        · by_cases h1 : c e.1 = b
          · by_cases h3 : i = a
            · by_cases h6 : c e.2 = j
              · have h2 : c e.2 ≠ b := fun h => hjb (h6.symm.trans h)
                simp [h5, h6, h1, h2, h3, hib, hjb, hab, hba, Ne.symm hib, Ne.symm hjb]
              · by_cases h2 : c e.2 = b
                · by_cases h4 : j = a
                  · simp [h5, h6, h1, h2, h3, h4, hib, hjb, hab, hba, Ne.symm hib, Ne.symm hjb]
                  · simp [h5, h6, h1, h2, h3, h4, hib, hjb, hab, hba, Ne.symm hib, Ne.symm hjb]
                · simp [h5, h6, h1, h2, h3, hib, hjb, hab, hba, Ne.symm hib, Ne.symm hjb]
            · simp [h5, h1, h3, hib, hjb, hab, hba, Ne.symm hib, Ne.symm hjb]
          · simp [h5, h1, hib, hjb, hab, hba, Ne.symm hib, Ne.symm hjb])
    rw [key]
    congr 1
    · congr 1
      · congr 1
        by_cases h4 : j = a
        · simp [h4]
        · simp [h4]
      · by_cases h3 : i = a
        · simp [h3]
        · simp [h3]
    · by_cases h34 : i = a ∧ j = a
      · simp [h34]
      · rw [if_neg h34]
        rw [List.countP_eq_zero]
        intro e _
        simp only [decide_eq_true_eq]
        exact fun hh => h34 hh.1

/-- Counting under a predicate that is the disjoint union of three others. -/
theorem countP_split3 {α : Type} (l : List α) (p q1 q2 q3 : α → Bool)
    (h : ∀ e ∈ l, (if p e then 1 else 0) =
      (if q1 e then 1 else 0) + (if q2 e then 1 else 0) + (if q3 e then (1 : Nat) else 0)) :
    l.countP p = l.countP q1 + l.countP q2 + l.countP q3 := by
  induction l with
  | nil => rfl
  | cons e l ih =>
    have he := h e (List.mem_cons_self _ _)
    have hl := ih fun x hx => h x (List.mem_cons_of_mem _ hx)
    simp only [List.countP_cons]
    omega

/-- The value of the joined cluster map. -/
theorem cmJoin_eq_iff (c : Nat → Nat) (a b : Nat) (i v : Nat) (hib : i ≠ b) :
    cmJoin c (a, b) v = i ↔ (c v = i ∨ (i = a ∧ c v = b)) := by
  simp only [cmJoin]
  by_cases h1 : c v = b
  · rw [if_pos h1, h1]
    constructor
    · intro h; exact Or.inr ⟨h.symm, rfl⟩
    · rintro (h | h)
      · exact absurd h.symm hib
      · exact h.1.symm
  · rw [if_neg h1]
    constructor
    · intro h; exact Or.inl h
    · rintro (h | h)
      · exact h
      · exact absurd h.2 h1

/-- The joined cluster map never takes the value `b`. -/
theorem cmJoin_ne (c : Nat → Nat) (a b : Nat) (hab : a ≠ b) (v : Nat) :
    cmJoin c (a, b) v ≠ b := by
  simp only [cmJoin]
  by_cases h1 : c v = b
  · rw [if_pos h1]; exact hab
  · rw [if_neg h1]; exact h1

/-- Counting under a predicate that is the disjoint union of two others. -/
theorem countP_split2 {α : Type} (l : List α) (p q1 q2 : α → Bool)
    (h : ∀ e ∈ l, (if p e then 1 else 0) =
      (if q1 e then 1 else 0) + (if q2 e then (1 : Nat) else 0)) :
    l.countP p = l.countP q1 + l.countP q2 := by
  induction l with
  | nil => rfl
  | cons e l ih =>
    have he := h e (List.mem_cons_self _ _)
    have hl := ih fun x hx => h x (List.mem_cons_of_mem _ hx)
    simp only [List.countP_cons]
    omega

/-- The entries of a cluster after the join `(a, b)`. -/
theorem clusterEntries_join (g : Graph) (c : Nat → Nat) (a b : Nat) (hab : a ≠ b) (X : Nat) :
    clusterEntries g (cmJoin c (a, b)) X =
      if X = b then 0
      else clusterEntries g c X + (if X = a then clusterEntries g c b else 0) := by
  unfold clusterEntries
  have hba : b ≠ a := fun h => hab h.symm
  by_cases hb : X = b
  · rw [if_pos hb, List.countP_eq_zero]
    intro e _
    simp only [decide_eq_true_eq]
    rw [hb]
    exact cmJoin_ne c a b hab e.1
  · rw [if_neg hb]
    have key := countP_split2 g.entries
      (fun e => decide (cmJoin c (a, b) e.1 = X))
      (fun e => decide (c e.1 = X))
      (fun e => decide (X = a ∧ c e.1 = b)) (by
        intro e _
        simp only [decide_eq_true_eq, cmJoin_eq_iff c a b X e.1 hb]
        by_cases h5 : c e.1 = X
        · have h1 : c e.1 ≠ b := fun h => hb (h5.symm.trans h)
          simp [h5, h1, hb, Ne.symm hb]
        · by_cases h1 : c e.1 = b
          · by_cases h3 : X = a
            · simp [h5, h1, h3, hba, hab]
            · simp [h5, h1, h3]
          · simp [h5, h1])
    rw [key]
    congr 1
    by_cases h3 : X = a
    · rw [if_pos h3]
      apply List.countP_congr
      intro e _
      simp [h3]
    · rw [if_neg h3, List.countP_eq_zero]
      intro e _
      simp [h3]

/-- The entries inside clusters after the join `(a, b)`. -/
theorem intraCount_join (g : Graph) (c : Nat → Nat) (a b : Nat) (hab : a ≠ b) :
    intraCount g (cmJoin c (a, b)) =
      intraCount g c + linkEntries g c a b + linkEntries g c b a := by
  unfold intraCount linkEntries
  apply countP_split3
  intro e _
  have hba : b ≠ a := fun h => hab h.symm
  simp only [decide_eq_true_eq, cmJoin]
  by_cases h1 : c e.1 = b
  · by_cases h2 : c e.2 = b
    · simp [h1, h2, hab, hba]
    · by_cases h3 : c e.2 = a
      · simp [h1, h2, h3, hab, hba]
      · simp [h1, h2, h3, hab, hba, Ne.symm h3, Ne.symm h2]
  · by_cases h2 : c e.2 = b
    · by_cases h3 : c e.1 = a
      · simp [h1, h2, h3, hab, hba]
      · simp [h1, h2, h3, hab, hba]
    · by_cases h3 : c e.1 = c e.2
      · have h4 : ¬ (c e.1 = a ∧ c e.2 = b) := fun h => h2 h.2
        have h5 : ¬ (c e.1 = b ∧ c e.2 = a) := fun h => h1 h.1
        simp [h1, h2, h3, h4, h5]
      · have h4 : ¬ (c e.1 = a ∧ c e.2 = b) := fun h => h2 h.2
        have h5 : ¬ (c e.1 = b ∧ c e.2 = a) := fun h => h1 h.1
        simp [h1, h2, h3, h4, h5]

/-! ## Symmetry of the entry counts -/

/-- The adjacency entries of a graph without duplicate neighbours are pairwise distinct. -/
theorem entries_nodup (g : Graph) (hnd : g.NoDuplicates) : g.entries.Nodup := by
  unfold Graph.entries Graph.entriesOf
  rw [List.nodup_flatMap]
  constructor
  · intro u hu
    apply List.Nodup.map
    · intro x y h
      exact (Prod.mk.inj h).2
    · exact (hnd u (List.mem_range.1 hu)).filter _
  · apply List.Pairwise.imp _ (List.nodup_range g.vertex_count)
    intro u w huw
    simp only [Function.onFun]
    intro x hx hx2
    rw [List.mem_map] at hx hx2
    obtain ⟨y, _, rfl⟩ := hx
    obtain ⟨z, _, hz⟩ := hx2
    exact huw (Prod.mk.inj hz).1.symm

/-- The adjacency entries of a simple graph are closed under swapping the ends. -/
theorem entries_swap_perm (g : Graph) (hg : g.Simple) :
    (g.entries.map Prod.swap).Perm g.entries := by
  obtain ⟨hwf, hsym, _, hnd⟩ := hg
  have h1 := entries_nodup g hnd
  rw [List.perm_ext_iff_of_nodup (h1.map Prod.swap_injective) h1]
  intro e
  obtain ⟨u, w⟩ := e
  rw [List.mem_map]
  constructor
  · rintro ⟨⟨x, y⟩, hxy, he⟩
    simp only [Prod.swap_prod_mk, Prod.mk.injEq] at he
    obtain ⟨rfl, rfl⟩ := he
    obtain ⟨m1, m2, m3⟩ := mem_entriesOf.1 hxy
    have hx := List.mem_range.1 m1
    have hy := hwf x hx y m2
    exact mem_entriesOf.2 ⟨List.mem_range.2 hy, (hsym x hx y hy).1 m2, fun h => m3 h.symm⟩
  · intro huw
    obtain ⟨m1, m2, m3⟩ := mem_entriesOf.1 huw
    have hu := List.mem_range.1 m1
    have hw := hwf u hu w m2
    exact ⟨(w, u), mem_entriesOf.2 ⟨List.mem_range.2 hw, (hsym u hu w hw).1 m2,
      fun h => m3 h.symm⟩, rfl⟩

/-- On a simple graph there are as many entries from `i` to `j` as from `j` to `i`. -/
theorem linkEntries_symm (g : Graph) (hg : g.Simple) (c : Nat → Nat) (i j : Nat) :
    linkEntries g c i j = linkEntries g c j i := by
  unfold linkEntries
  rw [← (entries_swap_perm g hg).countP_eq, List.countP_map]
  apply List.countP_congr
  intro e _
  simp only [Function.comp, Prod.fst_swap, Prod.snd_swap, decide_eq_true_eq]
  tauto

/-- The change of modularity by the join `(a, b)`: twice the fraction of the entries between
the two clusters less the product of their fractions of the entries. -/
theorem modularity_join (g : Graph) (hg : g.Simple) (K : Nat) (c : Nat → Nat) (a b : Nat)
    (hab : a ≠ b) (ha : a < K) (hb : b < K) :
    modularityOfMap g K (cmJoin c (a, b)) = modularityOfMap g K c +
      2 * ((linkEntries g c a b : ℚ) / (g.entries.length : ℚ)
        - (clusterEntries g c a : ℚ) / (g.entries.length : ℚ)
          * ((clusterEntries g c b : ℚ) / (g.entries.length : ℚ))) := by
  unfold modularityOfMap
  rw [intraCount_join g c a b hab, linkEntries_symm g hg c b a]
  have hsum : ∑ X ∈ Finset.range K,
        ((clusterEntries g (cmJoin c (a, b)) X : ℚ) / (g.entries.length : ℚ)) ^ 2
      - ∑ X ∈ Finset.range K, ((clusterEntries g c X : ℚ) / (g.entries.length : ℚ)) ^ 2
      = 2 * ((clusterEntries g c a : ℚ) / (g.entries.length : ℚ)
          * ((clusterEntries g c b : ℚ) / (g.entries.length : ℚ))) := by
    rw [← Finset.sum_sub_distrib,
      Finset.sum_eq_add_of_mem a b (Finset.mem_range.2 ha) (Finset.mem_range.2 hb) hab]
    · rw [clusterEntries_join g c a b hab a, clusterEntries_join g c a b hab b,
        if_neg hab, if_pos rfl, if_pos rfl]
      push_cast
      ring
    · intro X _ hX
      rw [clusterEntries_join g c a b hab X, if_neg hX.2, if_neg hX.1]
      simp
  push_cast
  linear_combination (-1 : ℚ) * hsum

end CGGC


namespace CGGC

/-! ## Maps: erasing and setting keys -/

theorem mapFind_mapErase {α : Type} (row : List (Nat × α)) (k j : Nat) :
    mapFind (mapErase row k) j = if j = k then none else mapFind row j := by
  induction row with
  | nil => simp [mapErase, mapFind]
  | cons e r ih =>
    obtain ⟨k1, v1⟩ := e
    unfold mapErase at ih ⊢
    by_cases h1 : k1 = k
    · have hf : ((k1, v1) :: r).filter (fun e => decide (e.1 ≠ k)) =
          r.filter (fun e => decide (e.1 ≠ k)) := by
        rw [List.filter_cons]
        simp [h1]
      rw [hf, ih]
      by_cases h2 : j = k
      · rw [if_pos h2, if_pos h2]
      · rw [if_neg h2, if_neg h2]
        have : ¬ k1 = j := fun h => h2 (h.symm.trans h1)
        simp [mapFind, this]
    · have hf : ((k1, v1) :: r).filter (fun e => decide (e.1 ≠ k)) =
          (k1, v1) :: r.filter (fun e => decide (e.1 ≠ k)) := by
        rw [List.filter_cons]
        simp [h1]
      rw [hf]
      simp only [mapFind]
      by_cases h3 : k1 = j
      · have : ¬ j = k := fun h => h1 (h3.trans h)
        rw [if_pos h3, if_neg this, if_pos h3]
      · rw [if_neg h3, ih]
        by_cases h4 : j = k
        · rw [if_pos h4, if_pos h4]
        · rw [if_neg h4, if_neg h4, if_neg h3]

theorem mapGet_mapErase {α : Type} (row : List (Nat × α)) (k j : Nat) (d : α) :
    mapGet (mapErase row k) j d = if j = k then d else mapGet row j d := by
  unfold mapGet
  rw [mapFind_mapErase]
  by_cases h : j = k
  · simp [h]
  · simp [h]

theorem keys_mapErase {α : Type} (row : List (Nat × α)) (k j : Nat) :
    j ∈ (mapErase row k).map Prod.fst ↔ (j ∈ row.map Prod.fst ∧ j ≠ k) := by
  unfold mapErase
  simp only [List.mem_map, List.mem_filter, decide_eq_true_eq]
  constructor
  · rintro ⟨e, ⟨h1, h2⟩, rfl⟩
    exact ⟨⟨e, h1, rfl⟩, h2⟩
  · rintro ⟨⟨e, h1, rfl⟩, h2⟩
    exact ⟨e, ⟨h1, h2⟩, rfl⟩

theorem nodup_mapErase {α : Type} (row : List (Nat × α)) (k : Nat)
    (h : (row.map Prod.fst).Nodup) : ((mapErase row k).map Prod.fst).Nodup := by
  unfold mapErase
  exact h.sublist ((List.filter_sublist row).map Prod.fst)

theorem keys_mapSet {α : Type} (row : List (Nat × α)) (k : Nat) (v : α) (j : Nat) :
    j ∈ (mapSet row k v).map Prod.fst ↔ (j ∈ row.map Prod.fst ∨ j = k) := by
  by_cases h : (mapFind row k).isSome = true
  · have hk := (mapFind_isSome_iff row k).1 h
    have hr : mapSet row k v = mapUpdate (fun _ => v) row k := by
      simp only [mapSet, h, if_true]
    rw [hr, map_fst_mapUpdate]
    constructor
    · intro hj; exact Or.inl hj
    · rintro (hj | hj)
      · exact hj
      · rw [hj]; exact hk
  · have hr : mapSet row k v = row ++ [(k, v)] := by
      simp only [mapSet, h, if_false]
      rfl
    rw [hr]
    simp

theorem nodup_mapSet {α : Type} (row : List (Nat × α)) (k : Nat) (v : α)
    (hnd : (row.map Prod.fst).Nodup) : ((mapSet row k v).map Prod.fst).Nodup := by
  by_cases h : (mapFind row k).isSome = true
  · have hr : mapSet row k v = mapUpdate (fun _ => v) row k := by
      simp only [mapSet, h, if_true]
    rw [hr, map_fst_mapUpdate]
    exact hnd
  · have hk : k ∉ row.map Prod.fst := fun hm => h ((mapFind_isSome_iff row k).2 hm)
    have hr : mapSet row k v = row ++ [(k, v)] := by
      simp only [mapSet, h, if_false]
      rfl
    rw [hr, List.map_append, List.nodup_append]
    refine ⟨hnd, by simp, ?_⟩
    intro x hx hx2
    simp only [List.map_cons, List.map_nil, List.mem_singleton] at hx2
    rw [hx2] at hx
    exact hk hx

theorem mapGet_mapSet (row : List (Nat × ℚ)) (k : Nat) (v : ℚ) (j : Nat) :
    mapGet (mapSet row k v) j 0 = if j = k then v else mapGet row j 0 := by
  rw [(mapSet_spec row k v 0).1 j]
  by_cases h : k = j
  · rw [if_pos h, if_pos h.symm]
  · rw [if_neg h, if_neg (fun hh => h hh.symm)]

/-- The value stored under a key of the list read as a map. -/
theorem mapGet_cons (e : Nat × ℚ) (es : List (Nat × ℚ)) (x : Nat) :
    mapGet (e :: es) x 0 = if e.1 = x then e.2 else mapGet es x 0 := by
  obtain ⟨k, v⟩ := e
  unfold mapGet
  simp only [mapFind]
  by_cases h : k = x
  · simp [h]
  · simp [h]

theorem mapGet_nil (x : Nat) : mapGet ([] : List (Nat × ℚ)) x 0 = 0 := rfl

/-! ## The loop of JoinCluster over the entries of row `b` -/

/-- One entry of row `b` outside the columns `a` and `b`. -/
theorem joinRowStep_spec (a b n : Nat) (ha : a < n) (rows : List (List (Nat × ℚ)))
    (hlen : rows.length = n) (e : Nat × ℚ) (he : e.1 < n) (hea : e.1 ≠ a) (heb : e.1 ≠ b) :
    (joinRowStep a b rows e).length = n ∧
    (joinRowStep a b rows e).getD a [] =
      mapSet (rows.getD a []) e.1 (mapGet (rows.getD a []) e.1 0 + e.2) ∧
    (joinRowStep a b rows e).getD e.1 [] =
      mapSet (mapErase (rows.getD e.1 []) b) a (mapGet (rows.getD a []) e.1 0 + e.2) ∧
    ∀ i, i ≠ a → i ≠ e.1 → (joinRowStep a b rows e).getD i [] = rows.getD i [] := by
  unfold joinRowStep
  rw [if_neg (by rintro (h | h); exact hea h; exact heb h)]
  have h2 : (rows.set a (mapSet (rows.getD a []) e.1
      (mapGet (rows.getD a []) e.1 0 + e.2))).getD e.1 [] = rows.getD e.1 [] := by
    rw [getD_set_eq, if_neg (fun h => hea h.1.symm)]
  rw [h2]
  refine ⟨by rw [List.length_set, List.length_set, hlen], ?_, ?_, ?_⟩
  · rw [getD_set_eq, if_neg (fun h => hea h.1), getD_set_eq, if_pos ⟨rfl, by rw [hlen]; exact ha⟩]
  · rw [getD_set_eq, if_pos ⟨rfl, by rw [List.length_set, hlen]; exact he⟩]
  · intro i hia hie
    rw [getD_set_eq, if_neg (fun h => hie h.1.symm), getD_set_eq, if_neg (fun h => hia h.1.symm)]

/-- The loop of `JoinCluster` over a list of entries with distinct columns: row `a` receives
the entries outside the columns `a` and `b`, each row named by such an entry trades its
column `b` for a column `a`, every other row is left as it is. -/
theorem joinFold_spec (a b n : Nat) (ha : a < n) (es : List (Nat × ℚ)) :
    ∀ rows : List (List (Nat × ℚ)), rows.length = n → (es.map Prod.fst).Nodup →
      (∀ e ∈ es, e.1 < n) →
      (es.foldl (joinRowStep a b) rows).length = n ∧
      (∀ x, mapGet ((es.foldl (joinRowStep a b) rows).getD a []) x 0 =
        mapGet (rows.getD a []) x 0 + (if x ≠ a ∧ x ≠ b then mapGet es x 0 else 0)) ∧
      (∀ x, x ∈ ((es.foldl (joinRowStep a b) rows).getD a []).map Prod.fst ↔
        (x ∈ (rows.getD a []).map Prod.fst ∨ (x ∈ es.map Prod.fst ∧ x ≠ a ∧ x ≠ b))) ∧
      (((rows.getD a []).map Prod.fst).Nodup →
        (((es.foldl (joinRowStep a b) rows).getD a []).map Prod.fst).Nodup) ∧
      (∀ i, i ≠ a → i ≠ b → i ∈ es.map Prod.fst →
        (es.foldl (joinRowStep a b) rows).getD i [] =
          mapSet (mapErase (rows.getD i []) b) a
            (mapGet (rows.getD a []) i 0 + mapGet es i 0)) ∧
      (∀ i, i ≠ a → (i = b ∨ i ∉ es.map Prod.fst) →
        (es.foldl (joinRowStep a b) rows).getD i [] = rows.getD i []) := by
  induction es with
  | nil =>
    intro rows hlen _ _
    refine ⟨hlen, ?_, ?_, fun h => h, ?_, fun _ _ _ => rfl⟩
    · intro x; simp [mapGet_nil]
    · intro x; simp
    · intro i _ _ hi; simp at hi
  | cons e es ih =>
    intro rows hlen hnd hlt
    rw [List.map_cons, List.nodup_cons] at hnd
    have hlt2 : ∀ e2 ∈ es, e2.1 < n := fun e2 h2 => hlt e2 (List.mem_cons_of_mem _ h2)
    rw [List.foldl_cons]
    by_cases hab : e.1 = a ∨ e.1 = b
    · have hstep : joinRowStep a b rows e = rows := by
        unfold joinRowStep
        rw [if_pos hab]
      rw [hstep]
      obtain ⟨p1, p2, p3, p4, p5, p6⟩ := ih rows hlen hnd.2 hlt2
      refine ⟨p1, ?_, ?_, p4, ?_, ?_⟩
      · intro x
        rw [p2 x, mapGet_cons]
        by_cases hx : x ≠ a ∧ x ≠ b
        · rw [if_pos hx, if_pos hx, if_neg]
          rintro rfl
          rcases hab with h | h
          · exact hx.1 h
          · exact hx.2 h
        · rw [if_neg hx, if_neg hx]
      · intro x
        rw [p3 x, List.map_cons, List.mem_cons]
        constructor
        · rintro (h | ⟨h1, h2⟩)
          · exact Or.inl h
          · exact Or.inr ⟨Or.inr h1, h2⟩
        · rintro (h | ⟨h1 | h1, h2⟩)
          · exact Or.inl h
          · exfalso
            rcases hab with h | h
            · exact h2.1 (h1.trans h)
            · exact h2.2 (h1.trans h)
          · exact Or.inr ⟨h1, h2⟩
      · intro i hia hib hi
        rw [List.map_cons, List.mem_cons] at hi
        have hie : e.1 ≠ i := by
          rintro rfl
          rcases hab with h | h
          · exact hia h
          · exact hib h
        rcases hi with hi | hi
        · exact absurd hi.symm hie
        · rw [p5 i hia hib hi, mapGet_cons, if_neg hie]
      · intro i hia hi
        apply p6 i hia
        rcases hi with hi | hi
        · exact Or.inl hi
        · right
          intro h
          exact hi (by rw [List.map_cons]; exact List.mem_cons_of_mem _ h)
    · push_neg at hab
      obtain ⟨hea, heb⟩ := hab
      have he := hlt e (List.mem_cons_self _ _)
      obtain ⟨s1, s2, s3, s4⟩ := joinRowStep_spec a b n ha rows hlen e he hea heb
      obtain ⟨p1, p2, p3, p4, p5, p6⟩ := ih (joinRowStep a b rows e) s1 hnd.2 hlt2
      have hfresh : mapGet es e.1 0 = 0 := mapGet_of_not_mem es e.1 0 hnd.1
      refine ⟨p1, ?_, ?_, ?_, ?_, ?_⟩
      · intro x
        have e1 : mapGet ((joinRowStep a b rows e).getD a []) x 0 =
            if x = e.1 then mapGet (rows.getD a []) e.1 0 + e.2
            else mapGet (rows.getD a []) x 0 := by
          rw [s2, mapGet_mapSet]
        have e2 : mapGet (e :: es) x 0 = if e.1 = x then e.2 else mapGet es x 0 :=
          mapGet_cons e es x
        rw [p2 x, e1, e2]
        by_cases hx : x = e.1
        · subst hx
          rw [if_pos rfl, if_pos ⟨hea, heb⟩, if_pos ⟨hea, heb⟩, if_pos rfl, hfresh]
          ring
        · have hx2 : ¬ e.1 = x := fun h => hx h.symm
          rw [if_neg hx, if_neg hx2]
      · intro x
        rw [p3 x, s2, keys_mapSet, List.map_cons, List.mem_cons]
        constructor
        · rintro ((h | h) | ⟨h1, h2⟩)
          · exact Or.inl h
          · exact Or.inr ⟨Or.inl h, by rw [h]; exact ⟨hea, heb⟩⟩
          · exact Or.inr ⟨Or.inr h1, h2⟩
        · rintro (h | ⟨h1 | h1, h2⟩)
          · exact Or.inl (Or.inl h)
          · exact Or.inl (Or.inr h1)
          · exact Or.inr ⟨h1, h2⟩
      · intro h
        apply p4
        rw [s2]
        exact nodup_mapSet _ _ _ h
      · intro i hia hib hi
        rw [List.map_cons, List.mem_cons] at hi
        by_cases hie : i = e.1
        · rw [hie, p6 e.1 hea (Or.inr hnd.1), s3, mapGet_cons, if_pos rfl]
        · have hi2 : i ∈ es.map Prod.fst := by
            rcases hi with hi | hi
            · exact absurd hi hie
            · exact hi
          rw [p5 i hia hib hi2, s4 i hia hie, s2, mapGet_mapSet, if_neg hie, mapGet_cons,
            if_neg (fun h => hie h.symm)]
      · intro i hia hi
        have hie : i ≠ e.1 := by
          rcases hi with hi | hi
          · rw [hi]; exact fun h => heb h.symm
          · intro h
            apply hi
            rw [List.map_cons, h]
            exact List.mem_cons_self _ _
        have hi2 : i = b ∨ i ∉ es.map Prod.fst := by
          rcases hi with hi | hi
          · exact Or.inl hi
          · right
            intro h
            exact hi (by rw [List.map_cons]; exact List.mem_cons_of_mem _ h)
        rw [p6 i hia hi2, s4 i hia hie]

/-! ## JoinCluster on rows -/

/-- The rows after `JoinCluster`, in terms of the loop over the entries of row `b`. -/
theorem JoinCluster_rows (M : SparseClusteringMatrix) (a b : Nat) :
    (M.JoinCluster a b).rows =
      (((M.rows.getD b []).foldl (joinRowStep a b) M.rows).set a
        (mapSet (mapErase (((M.rows.getD b []).foldl (joinRowStep a b) M.rows).getD a []) b) a
          (mapGet (M.rows.getD a []) a 0 + mapGet (M.rows.getD b []) b 0
            + 2 * mapGet (M.rows.getD a []) b 0))).set b [] :=
  rfl

/-- The row sums after `JoinCluster`. -/
theorem JoinCluster_rowsum (M : SparseClusteringMatrix) (a b : Nat)
    (ha : a < M.rowsum.length) (hb : b < M.rowsum.length) (x : Nat) :
    (M.JoinCluster a b).GetRowSum x =
      if x = b then 0 else if x = a then M.GetRowSum a + M.GetRowSum b else M.GetRowSum x := by
  show ((M.rowsum.set a (M.rowsum.getD a 0 + M.rowsum.getD b 0)).set b 0).getD x 0 = _
  unfold SparseClusteringMatrix.GetRowSum
  rw [getD_set_eq, getD_set_eq, List.length_set]
  by_cases h1 : x = b
  · rw [if_pos h1, if_pos ⟨h1.symm, hb⟩]
  · rw [if_neg h1, if_neg (fun h => h1 h.1.symm)]
    by_cases h2 : x = a
    · rw [if_pos h2, if_pos ⟨h2.symm, ha⟩]
    · rw [if_neg h2, if_neg (fun h => h2 h.1.symm)]

/-- The rows after `JoinCluster(a, b)` on a matrix with `n` rows whose row `b` has distinct
columns below `n`. -/
theorem JoinCluster_spec (M : SparseClusteringMatrix) (a b n : Nat) (hab : a ≠ b)
    (hlen : M.rows.length = n) (ha : a < n) (hb : b < n)
    (hndb : ((M.rows.getD b []).map Prod.fst).Nodup)
    (hltb : ∀ x ∈ (M.rows.getD b []).map Prod.fst, x < n) :
    (M.JoinCluster a b).rows.length = n ∧
    (M.JoinCluster a b).rows.getD b [] = [] ∧
    (∀ x, mapGet ((M.JoinCluster a b).rows.getD a []) x 0 =
      if x = a then mapGet (M.rows.getD a []) a 0 + mapGet (M.rows.getD b []) b 0
        + 2 * mapGet (M.rows.getD a []) b 0
      else if x = b then 0
      else mapGet (M.rows.getD a []) x 0 + mapGet (M.rows.getD b []) x 0) ∧
    (∀ x, x ∈ ((M.JoinCluster a b).rows.getD a []).map Prod.fst ↔
      (x = a ∨ (x ≠ b ∧ (x ∈ (M.rows.getD a []).map Prod.fst
        ∨ x ∈ (M.rows.getD b []).map Prod.fst)))) ∧
    (((M.rows.getD a []).map Prod.fst).Nodup →
      (((M.JoinCluster a b).rows.getD a []).map Prod.fst).Nodup) ∧
    (∀ i, i ≠ a → i ≠ b → i ∈ (M.rows.getD b []).map Prod.fst →
      (M.JoinCluster a b).rows.getD i [] =
        mapSet (mapErase (M.rows.getD i []) b) a
          (mapGet (M.rows.getD a []) i 0 + mapGet (M.rows.getD b []) i 0)) ∧
    (∀ i, i ≠ a → i ≠ b → i ∉ (M.rows.getD b []).map Prod.fst →
      (M.JoinCluster a b).rows.getD i [] = M.rows.getD i []) := by
  have hlt : ∀ e ∈ M.rows.getD b [], e.1 < n := fun e he =>
    hltb e.1 (List.mem_map.2 ⟨e, he, rfl⟩)
  obtain ⟨p1, p2, p3, p4, p5, p6⟩ := joinFold_spec a b n ha (M.rows.getD b []) M.rows hlen
    hndb hlt
  rw [JoinCluster_rows]
  have hba : b ≠ a := fun h => hab h.symm
  refine ⟨by rw [List.length_set, List.length_set, p1], ?_, ?_, ?_, ?_, ?_, ?_⟩
  · rw [getD_set_eq, if_pos ⟨rfl, by rw [List.length_set, p1]; exact hb⟩]
  · intro x
    rw [getD_set_eq, if_neg (fun h => hba h.1), getD_set_eq, if_pos ⟨rfl, by rw [p1]; exact ha⟩,
      mapGet_mapSet]
    by_cases h1 : x = a
    · rw [if_pos h1, if_pos h1]
    · rw [if_neg h1, if_neg h1, mapGet_mapErase]
      by_cases h2 : x = b
      · rw [if_pos h2, if_pos h2]
      · rw [if_neg h2, if_neg h2, p2 x, if_pos ⟨h1, h2⟩]
  · intro x
    rw [getD_set_eq, if_neg (fun h => hba h.1), getD_set_eq, if_pos ⟨rfl, by rw [p1]; exact ha⟩,
      keys_mapSet, keys_mapErase, p3 x]
    constructor
    · rintro (⟨h1 | ⟨h1, _, _⟩, h2⟩ | h)
      · exact Or.inr ⟨h2, Or.inl h1⟩
      · exact Or.inr ⟨h2, Or.inr h1⟩
      · exact Or.inl h
    · rintro (h | ⟨h2, h1 | h1⟩)
      · exact Or.inr h
      · exact Or.inl ⟨Or.inl h1, h2⟩
      · by_cases h3 : x = a
        · exact Or.inr h3
        · exact Or.inl ⟨Or.inr ⟨h1, h3, h2⟩, h2⟩
  · intro h
    rw [getD_set_eq, if_neg (fun h => hba h.1), getD_set_eq, if_pos ⟨rfl, by rw [p1]; exact ha⟩]
    exact nodup_mapSet _ _ _ (nodup_mapErase _ _ (p4 h))
  · intro i hia hib hi
    rw [getD_set_eq, if_neg (fun h => hib h.1.symm), getD_set_eq, if_neg (fun h => hia h.1.symm),
      p5 i hia hib hi]
  · intro i hia hib hi
    rw [getD_set_eq, if_neg (fun h => hib h.1.symm), getD_set_eq, if_neg (fun h => hia h.1.symm),
      p6 i hia (Or.inr hi)]

end CGGC


namespace CGGC

/-! ## The matrix built from the graph -/

/-- A row of the matrix of a graph: one column of value `w` per neighbour. -/
theorem ofGraph_row (i : Nat) (w : ℚ) (N : List Nat) :
    ∀ acc : List (Nat × ℚ), N.Nodup → i ∉ N → (∀ x ∈ N, x ∉ acc.map Prod.fst) →
      N.foldl (fun row j => if i = j then row else mapSet row j w) acc
        = acc ++ N.map fun j => (j, w) := by
  induction N with
  | nil => intro acc _ _ _; simp
  | cons x N ih =>
    intro acc hnd hi hacc
    rw [List.nodup_cons] at hnd
    have hix : ¬ i = x := fun h => hi (h ▸ List.mem_cons_self _ _)
    have hx : x ∉ acc.map Prod.fst := hacc x (List.mem_cons_self _ _)
    have hset : mapSet acc x w = acc ++ [(x, w)] := by
      unfold mapSet
      rw [mapFind_eq_none_of_not_mem acc x hx]
      rfl
    rw [List.foldl_cons, if_neg hix, hset, ih (acc ++ [(x, w)]) hnd.2
      (fun h => hi (List.mem_cons_of_mem _ h))]
    · simp
    · intro y hy
      rw [List.map_append, List.mem_append]
      rintro (h | h)
      · exact hacc y (List.mem_cons_of_mem _ hy) h
      · simp only [List.map_cons, List.map_nil, List.mem_singleton] at h
        rw [h] at hy
        exact hnd.1 hy

/-- The rows of the matrix of a simple graph. -/
theorem ofGraph_rows (g : Graph) (hs : g.NoSelfLoops) (hnd : g.NoDuplicates) :
    (SparseClusteringMatrix.ofGraph g).rows =
      (List.range g.vertex_count).map fun i =>
        (g.GetNeighbors i).map fun j => (j, 1 / (g.entries.length : ℚ)) := by
  unfold SparseClusteringMatrix.ofGraph
  dsimp only
  apply List.map_congr_left
  intro i hi
  have hi2 := List.mem_range.1 hi
  rw [ofGraph_row i _ (g.GetNeighbors i) [] (hnd i hi2) (hs i hi2) (by simp)]
  simp

/-- Row `i` of the matrix of a simple graph. -/
theorem ofGraph_getD (g : Graph) (hs : g.NoSelfLoops) (hnd : g.NoDuplicates) (i : Nat) :
    (SparseClusteringMatrix.ofGraph g).rows.getD i [] =
      if i < g.vertex_count then
        (g.GetNeighbors i).map fun j => (j, 1 / (g.entries.length : ℚ))
      else [] := by
  rw [ofGraph_rows g hs hnd]
  by_cases h : i < g.vertex_count
  · rw [if_pos h, List.getD_eq_getElem _ _ (by simpa using h)]
    simp
  · rw [if_neg h, List.getD_eq_default _ _ (by simpa using Nat.le_of_not_lt h)]

/-- The columns of a row of equal values. -/
theorem keys_const (N : List Nat) (w : ℚ) : (N.map fun x => (x, w)).map Prod.fst = N := by
  induction N with
  | nil => rfl
  | cons x N ih => rw [List.map_cons, List.map_cons, ih]

/-- The sum of a row of equal values. -/
theorem sum_const (N : List Nat) (w : ℚ) :
    ((N.map fun x => (x, w)).map Prod.snd).sum = (N.length : ℚ) * w := by
  induction N with
  | nil => simp
  | cons x N ih =>
    rw [List.map_cons, List.map_cons, List.sum_cons, ih, List.length_cons]
    push_cast
    ring

/-- The value of a column in a row of equal values. -/
theorem mapGet_const (N : List Nat) (w : ℚ) (j : Nat) :
    mapGet (N.map fun x => (x, w)) j 0 = if j ∈ N then w else 0 := by
  induction N with
  | nil => simp [mapGet_nil]
  | cons x N ih =>
    rw [List.map_cons, mapGet_cons, ih]
    by_cases h : x = j
    · simp [h]
    · have : ¬ j = x := fun hh => h hh.symm
      simp [h, this]

/-- Under the identity cluster map the entries from `i` to `j` are the occurrences of `j`
among the neighbours of `i`. -/
theorem linkEntries_id (g : Graph) (hs : g.NoSelfLoops) (i j : Nat) :
    linkEntries g id i j =
      if i < g.vertex_count then (g.GetNeighbors i).count j else 0 := by
  have h := countP_entries_eq g (fun e => decide (id e.1 = i ∧ id e.2 = j))
  have h2 : ∀ u ∈ Finset.range g.vertex_count,
      (((g.GetNeighbors u).countP
        (fun w => decide (u ≠ w) && decide (id (u, w).1 = i ∧ id (u, w).2 = j)) : Nat) : Int)
      = if u = i then (((g.GetNeighbors i).count j : Nat) : Int) else 0 := by
    intro u hu
    rw [countP_noloop g hs (Finset.mem_range.1 hu)
      (fun w => decide (id (u, w).1 = i ∧ id (u, w).2 = j))]
    by_cases hui : u = i
    · subst hui
      rw [if_pos rfl]
      congr 1
      unfold List.count
      apply List.countP_congr
      intro w _
      simp
    · rw [if_neg hui]
      have : (g.GetNeighbors u).countP
          (fun w => decide (id (u, w).1 = i ∧ id (u, w).2 = j)) = 0 := by
        rw [List.countP_eq_zero]
        intro w _
        simp [hui]
      rw [this]
      rfl
  rw [Finset.sum_congr rfl h2, Finset.sum_ite_eq'] at h
  unfold linkEntries
  by_cases hi : i < g.vertex_count
  · rw [if_pos hi]
    rw [if_pos (Finset.mem_range.2 hi)] at h
    exact_mod_cast h
  · rw [if_neg hi]
    rw [if_neg (fun hh => hi (Finset.mem_range.1 hh))] at h
    exact_mod_cast h

/-- Under the identity cluster map the entries that start in `i` are the neighbours
of `i`. -/
theorem clusterEntries_id (g : Graph) (hs : g.NoSelfLoops) (i : Nat) :
    clusterEntries g id i = if i < g.vertex_count then (g.GetNeighbors i).length else 0 := by
  have h := clusterEntries_eq g hs id i
  simp only [id] at h
  rw [Finset.sum_ite_eq'] at h
  by_cases hi : i < g.vertex_count
  · rw [if_pos hi]
    rw [if_pos (Finset.mem_range.2 hi)] at h
    exact_mod_cast h
  · rw [if_neg hi]
    rw [if_neg (fun hh => hi (Finset.mem_range.1 hh))] at h
    exact_mod_cast h

/-- The matrix built from a simple graph satisfies the invariant under the identity
cluster map. -/
theorem MInv_init (g : Graph) (hg : g.Simple) : MInv g id (SparseClusteringMatrix.ofGraph g) := by
  obtain ⟨_, _, hs, hnd⟩ := hg
  have hrows := ofGraph_getD g hs hnd
  have hlen : (SparseClusteringMatrix.ofGraph g).rows.length = g.vertex_count := by
    rw [ofGraph_rows g hs hnd]; simp
  refine ⟨hlen, ?_, ?_, ?_, ?_, ?_, fun v hv => hv⟩
  · show ((SparseClusteringMatrix.ofGraph g).rows.map _).length = _
    rw [List.length_map, hlen]
  · intro i
    rw [hrows i]
    by_cases hi : i < g.vertex_count
    · rw [if_pos hi, keys_const]
      exact hnd i hi
    · rw [if_neg hi]
      exact List.nodup_nil
  · intro i j
    rw [hrows i, linkEntries_id g hs i j]
    by_cases hi : i < g.vertex_count
    · rw [if_pos hi, if_pos hi, keys_const, List.count_pos_iff]
    · rw [if_neg hi, if_neg hi]
      simp
  · intro i j
    rw [hrows i, linkEntries_id g hs i j]
    by_cases hi : i < g.vertex_count
    · rw [if_pos hi, if_pos hi, mapGet_const]
      by_cases hj : j ∈ g.GetNeighbors i
      · rw [if_pos hj, List.count_eq_one_of_mem (hnd i hi) hj]
        simp
      · rw [if_neg hj, List.count_eq_zero_of_not_mem hj]
        simp
    · rw [if_neg hi, if_neg hi]
      simp [mapGet_nil]
  · intro i
    show ((SparseClusteringMatrix.ofGraph g).rows.map
      (fun row => (row.map Prod.snd).sum)).getD i 0 = _
    rw [clusterEntries_id g hs i]
    by_cases hi : i < g.vertex_count
    · rw [if_pos hi, List.getD_eq_getElem _ _ (by rw [List.length_map, hlen]; exact hi),
        List.getElem_map]
      have hrow := hrows i
      rw [if_pos hi, List.getD_eq_getElem _ _ (by rw [hlen]; exact hi)] at hrow
      rw [hrow, sum_const]
      ring
    · rw [if_neg hi, List.getD_eq_default _ _ (by
        rw [List.length_map, hlen]; exact Nat.le_of_not_lt hi)]
      simp

/-! ## The invariant is kept by a join -/

/-- Entries between two clusters exist only between cluster ids below `n`. -/
theorem linkEntries_pos_lt (g : Graph) (hwf : g.WellFormed) (c : Nat → Nat)
    (hc : ∀ v, v < g.vertex_count → c v < g.vertex_count) (i j : Nat)
    (h : 0 < linkEntries g c i j) : i < g.vertex_count ∧ j < g.vertex_count := by
  unfold linkEntries at h
  rw [List.countP_pos_iff] at h
  obtain ⟨e, he, hp⟩ := h
  simp only [decide_eq_true_eq] at hp
  obtain ⟨m1, m2, _⟩ := mem_entriesOf.1 he
  have h1 := List.mem_range.1 m1
  have h2 := hwf e.1 h1 e.2 m2
  exact ⟨hp.1 ▸ hc e.1 h1, hp.2 ▸ hc e.2 h2⟩

/-- The entries between two clusters after the join `(a, b)`, case by case. -/
theorem linkEntries_join_cases (g : Graph) (c : Nat → Nat) (a b : Nat) (hab : a ≠ b) :
    (∀ x, linkEntries g (cmJoin c (a, b)) b x = 0) ∧
    (∀ i, linkEntries g (cmJoin c (a, b)) i b = 0) ∧
    linkEntries g (cmJoin c (a, b)) a a =
      linkEntries g c a a + linkEntries g c a b + linkEntries g c b a + linkEntries g c b b ∧
    (∀ x, x ≠ a → x ≠ b →
      linkEntries g (cmJoin c (a, b)) a x = linkEntries g c a x + linkEntries g c b x) ∧
    (∀ i, i ≠ a → i ≠ b →
      linkEntries g (cmJoin c (a, b)) i a = linkEntries g c i a + linkEntries g c i b) ∧
    (∀ i x, i ≠ a → i ≠ b → x ≠ a → x ≠ b →
      linkEntries g (cmJoin c (a, b)) i x = linkEntries g c i x) := by
  refine ⟨?_, ?_, ?_, ?_, ?_, ?_⟩
  · intro x
    rw [linkEntries_join g c a b hab, if_pos (Or.inl rfl)]
  · intro i
    rw [linkEntries_join g c a b hab, if_pos (Or.inr rfl)]
  · rw [linkEntries_join g c a b hab]
    simp [hab]
  · intro x hxa hxb
    rw [linkEntries_join g c a b hab]
    simp [hab, hxa, hxb]
  · intro i hia hib
    rw [linkEntries_join g c a b hab]
    simp [hab, hia, hib]
  · intro i x hia hib hxa hxb
    rw [linkEntries_join g c a b hab]
    simp [hia, hib, hxa, hxb]

/-- The invariant of the cluster matrix is kept by the join of two linked clusters. -/
theorem MInv_join (g : Graph) (hg : g.Simple) (c : Nat → Nat) (M : SparseClusteringMatrix)
    (h : MInv g c M) (a b : Nat) (hab : a ≠ b) (hE : 0 < linkEntries g c a b) :
    MInv g (cmJoin c (a, b)) (M.JoinCluster a b) := by
  have hba : b ≠ a := fun hh => hab hh.symm
  obtain ⟨ha, hb⟩ := linkEntries_pos_lt g hg.1 c h.cm_lt a b hE
  have hsym := linkEntries_symm g hg c
  have hltb : ∀ x ∈ (M.rows.getD b []).map Prod.fst, x < g.vertex_count := fun x hx =>
    (linkEntries_pos_lt g hg.1 c h.cm_lt b x ((h.key_iff b x).1 hx)).2
  obtain ⟨j1, j2, j3, j4, j5, j6, j7⟩ := JoinCluster_spec M a b g.vertex_count hab h.rows_len
    ha hb (h.nodup b) hltb
  obtain ⟨e1, e2, e3, e4, e5, e6⟩ := linkEntries_join_cases g c a b hab
  have hnk : ∀ i, i ∉ (M.rows.getD b []).map Prod.fst → linkEntries g c i b = 0 := by
    intro i hk
    rw [hsym i b]
    by_contra h0
    exact hk ((h.key_iff b i).2 (Nat.pos_of_ne_zero h0))
  have hyk : ∀ i, i ∈ (M.rows.getD b []).map Prod.fst → 0 < linkEntries g c i b := by
    intro i hk
    rw [hsym i b]
    exact (h.key_iff b i).1 hk
  refine ⟨j1, ?_, ?_, ?_, ?_, ?_, ?_⟩
  · show ((M.rowsum.set a _).set b _).length = _
    rw [List.length_set, List.length_set, h.sum_len]
  · -- distinct columns
    intro i
    by_cases hib : i = b
    · rw [hib, j2]; exact List.nodup_nil
    · by_cases hia : i = a
      · rw [hia]; exact j5 (h.nodup a)
      · by_cases hk : i ∈ (M.rows.getD b []).map Prod.fst
        · rw [j6 i hia hib hk]
          exact nodup_mapSet _ _ _ (nodup_mapErase _ _ (h.nodup i))
        · rw [j7 i hia hib hk]
          exact h.nodup i
  · -- columns
    intro i x
    by_cases hib : i = b
    · rw [hib, j2, e1 x]
      simp
    · by_cases hia : i = a
      · rw [hia, j4 x]
        by_cases hxa : x = a
        · rw [hxa, e3]
          constructor
          · intro _; omega
          · intro _; exact Or.inl rfl
        · by_cases hxb : x = b
          · rw [hxb, e2 a]
            constructor
            · rintro (h1 | ⟨h1, _⟩)
              · exact absurd h1 hba
              · exact absurd rfl h1
            · intro h0; exact absurd h0 (Nat.lt_irrefl 0)
          · rw [e4 x hxa hxb, h.key_iff a x, h.key_iff b x]
            constructor
            · rintro (h1 | ⟨_, h1 | h1⟩)
              · exact absurd h1 hxa
              · omega
              · omega
            · intro h1
              right
              refine ⟨hxb, ?_⟩
              by_cases h2 : 0 < linkEntries g c a x
              · exact Or.inl h2
              · right; omega
      · by_cases hk : i ∈ (M.rows.getD b []).map Prod.fst
        · rw [j6 i hia hib hk, keys_mapSet, keys_mapErase, h.key_iff i x]
          have hkb := hyk i hk
          by_cases hxa : x = a
          · rw [hxa, e5 i hia hib]
            constructor
            · intro _; omega
            · intro _; exact Or.inr rfl
          · by_cases hxb : x = b
            · rw [hxb, e2 i]
              constructor
              · rintro (⟨_, h1⟩ | h1)
                · exact absurd rfl h1
                · exact absurd h1 hba
              · intro h0; exact absurd h0 (Nat.lt_irrefl 0)
            · rw [e6 i x hia hib hxa hxb]
              constructor
              · rintro (⟨h1, _⟩ | h1)
                · exact h1
                · exact absurd h1 hxa
              · intro h1
                exact Or.inl ⟨h1, hxb⟩
        · rw [j7 i hia hib hk, h.key_iff i x]
          have hkb := hnk i hk
          by_cases hxa : x = a
          · rw [hxa, e5 i hia hib, hkb, Nat.add_zero]
          · by_cases hxb : x = b
            · rw [hxb, e2 i, hkb]
            · rw [e6 i x hia hib hxa hxb]
  · -- values
    intro i x
    by_cases hib : i = b
    · rw [hib, j2, e1 x]
      simp [mapGet_nil]
    · by_cases hia : i = a
      · rw [hia, j3 x]
        by_cases hxa : x = a
        · rw [if_pos hxa, hxa, e3, h.val_eq a a, h.val_eq b b, h.val_eq a b, hsym b a]
          push_cast
          ring
        · rw [if_neg hxa]
          by_cases hxb : x = b
          · rw [if_pos hxb, hxb, e2 a]
            simp
          · rw [if_neg hxb, e4 x hxa hxb, h.val_eq a x, h.val_eq b x]
            push_cast
            ring
      · by_cases hk : i ∈ (M.rows.getD b []).map Prod.fst
        · rw [j6 i hia hib hk, mapGet_mapSet]
          by_cases hxa : x = a
          · rw [if_pos hxa, hxa, e5 i hia hib, h.val_eq a i, h.val_eq b i, hsym a i, hsym b i]
            push_cast
            ring
          · rw [if_neg hxa, mapGet_mapErase]
            by_cases hxb : x = b
            · rw [if_pos hxb, hxb, e2 i]
              simp
            · rw [if_neg hxb, e6 i x hia hib hxa hxb, h.val_eq i x]
        · rw [j7 i hia hib hk, h.val_eq i x]
          have hkb := hnk i hk
          by_cases hxa : x = a
          · rw [hxa, e5 i hia hib, hkb, Nat.add_zero]
          · by_cases hxb : x = b
            · rw [hxb, e2 i, hkb]
            · rw [e6 i x hia hib hxa hxb]
  · -- row sums
    intro i
    have hs := JoinCluster_rowsum M a b (by rw [h.sum_len]; exact ha)
      (by rw [h.sum_len]; exact hb) i
    unfold SparseClusteringMatrix.GetRowSum at hs
    rw [hs, clusterEntries_join g c a b hab i]
    by_cases hib : i = b
    · rw [if_pos hib, if_pos hib]; simp
    · rw [if_neg hib, if_neg hib]
      by_cases hia : i = a
      · rw [if_pos hia, if_pos hia, h.sum_eq a, h.sum_eq b, hia]
        push_cast
        ring
      · rw [if_neg hia, if_neg hia, h.sum_eq i]
        simp
  · intro v hv
    unfold cmJoin
    dsimp only
    split
    · exact ha
    · exact h.cm_lt v hv

end CGGC


namespace CGGC

/-! ## The builder and the cluster map of the replayed joins -/

/-- The slots of the builder and the cluster map name the same clusters. -/
theorem content_cmJoin (n : Nat) (s : Nat → Option (List Nat)) (c : Nat → Nat) (a b : Nat)
    (hab : a ≠ b) (h : ∀ v i, v ∈ content s i ↔ (v < n ∧ c v = i)) :
    ∀ v i, v ∈ content (specJoin s (a, b)) i ↔ (v < n ∧ cmJoin c (a, b) v = i) := by
  intro v i
  rw [content_specJoin]
  by_cases hib : i = b
  · rw [if_pos hib, hib]
    constructor
    · intro hv; exact absurd hv (List.not_mem_nil _)
    · rintro ⟨_, hv⟩; exact absurd hv (cmJoin_ne c a b hab v)
  · rw [if_neg hib, cmJoin_eq_iff c a b i v hib]
    by_cases hia : i = a
    · rw [if_pos hia, List.mem_append, h v a, h v b, hia]
      constructor
      · rintro (⟨h1, h2⟩ | ⟨h1, h2⟩)
        · exact ⟨h1, Or.inl h2⟩
        · exact ⟨h1, Or.inr ⟨rfl, h2⟩⟩
      · rintro ⟨h1, h2 | ⟨_, h2⟩⟩
        · exact Or.inl ⟨h1, h2⟩
        · exact Or.inr ⟨h1, h2⟩
    · rw [if_neg hia, h v i]
      constructor
      · rintro ⟨h1, h2⟩; exact ⟨h1, Or.inl h2⟩
      · rintro ⟨h1, h2 | ⟨h2, _⟩⟩
        · exact ⟨h1, h2⟩
        · exact absurd h2 hia

/-- The slots after a replay and the cluster map after the same joins. -/
theorem content_cmReplay (n : Nat) (js : List (Nat × Nat)) :
    ∀ (s : Nat → Option (List Nat)) (c : Nat → Nat),
      (∀ j ∈ js, j.1 ≠ j.2) → (∀ v i, v ∈ content s i ↔ (v < n ∧ c v = i)) →
      ∀ v i, v ∈ content (js.foldl specJoin s) i ↔ (v < n ∧ js.foldl cmJoin c v = i) := by
  induction js with
  | nil => intro s c _ h; exact h
  | cons j js ih =>
    intro s c hne h
    rw [List.foldl_cons, List.foldl_cons]
    apply ih
    · intro j2 hj2; exact hne j2 (List.mem_cons_of_mem _ hj2)
    · obtain ⟨a, b⟩ := j
      exact content_cmJoin n s c a b (hne (a, b) (List.mem_cons_self _ _)) h

/-- The singleton slots and the identity cluster map. -/
theorem content_singletons_id (n : Nat) :
    ∀ v i, v ∈ content (singletonSlots n) i ↔ (v < n ∧ id v = i) := by
  intro v i
  rw [content_singletons]
  by_cases hi : i < n
  · rw [if_pos hi, List.mem_singleton]
    constructor
    · intro h; rw [h]; exact ⟨hi, rfl⟩
    · rintro ⟨_, h⟩; exact h
  · rw [if_neg hi]
    constructor
    · intro h; exact absurd h (List.not_mem_nil _)
    · rintro ⟨h1, h2⟩
      simp only [id] at h2
      rw [h2] at h1
      exact absurd h1 hi

/-- Linked joins are joins of different clusters. -/
theorem LinkedJoins.ne (g : Graph) (js : List (Nat × Nat)) :
    ∀ c, LinkedJoins g c js → ∀ j ∈ js, j.1 ≠ j.2 := by
  induction js with
  | nil => intro c _ j hj; exact absurd hj (List.not_mem_nil _)
  | cons x js ih =>
    intro c h j hj
    obtain ⟨h1, _, h3⟩ := h
    rcases List.mem_cons.1 hj with rfl | hj
    · exact h1
    · exact ih _ h3 j hj

/-- A prefix of linked joins is linked. -/
theorem LinkedJoins.take (g : Graph) (js : List (Nat × Nat)) :
    ∀ c k, LinkedJoins g c js → LinkedJoins g c (js.take k) := by
  induction js with
  | nil => intro c k _; simp [LinkedJoins]
  | cons x js ih =>
    intro c k h
    cases k with
    | zero => simp [LinkedJoins]
    | succ k =>
      obtain ⟨h1, h2, h3⟩ := h
      rw [List.take_succ_cons]
      exact ⟨h1, h2, ih _ k h3⟩

/-- Linked joins followed by linked joins. -/
theorem LinkedJoins.append (g : Graph) (js : List (Nat × Nat)) :
    ∀ c js2, LinkedJoins g c js → LinkedJoins g (js.foldl cmJoin c) js2 →
      LinkedJoins g c (js ++ js2) := by
  induction js with
  | nil => intro c js2 _ h; exact h
  | cons x js ih =>
    intro c js2 h h2
    obtain ⟨h1, h3, h4⟩ := h
    exact ⟨h1, h3, ih _ js2 h4 h2⟩

/-- The cluster map of linked joins keeps its values below `n`. -/
theorem cmReplay_lt (g : Graph) (hwf : g.WellFormed) (js : List (Nat × Nat)) :
    ∀ c, (∀ v, v < g.vertex_count → c v < g.vertex_count) → LinkedJoins g c js →
      ∀ v, v < g.vertex_count → js.foldl cmJoin c v < g.vertex_count := by
  induction js with
  | nil => intro c hc _; exact hc
  | cons x js ih =>
    intro c hc h
    obtain ⟨_, h2, h3⟩ := h
    rw [List.foldl_cons]
    apply ih _ _ h3
    intro v hv
    show (if c v = x.2 then x.1 else c v) < g.vertex_count
    split
    · exact (linkEntries_pos_lt g hwf c hc x.1 x.2 h2).1
    · exact hc v hv

/-- A cluster that is linked to another one has a member. -/
theorem linkEntries_pos_mem (g : Graph) (hwf : g.WellFormed) (c : Nat → Nat) (i j : Nat)
    (h : 0 < linkEntries g c i j) :
    (∃ v, v < g.vertex_count ∧ c v = i) ∧ (∃ v, v < g.vertex_count ∧ c v = j) := by
  unfold linkEntries at h
  rw [List.countP_pos_iff] at h
  obtain ⟨e, he, hp⟩ := h
  simp only [decide_eq_true_eq] at hp
  obtain ⟨m1, m2, _⟩ := mem_entriesOf.1 he
  have h1 := List.mem_range.1 m1
  exact ⟨⟨e.1, h1, hp.1⟩, ⟨e.2, hwf e.1 h1 e.2 m2, hp.2⟩⟩

/-- Linked joins are valid for the builder. -/
theorem LinkedJoins.valid (g : Graph) (hwf : g.WellFormed) (js : List (Nat × Nat)) :
    ∀ (c : Nat → Nat) (live : List Nat), live.Nodup →
      (∀ i, i ∈ live ↔ ∃ v, v < g.vertex_count ∧ c v = i) →
      LinkedJoins g c js → validJoins live js = true := by
  induction js with
  | nil => intro c live _ _ _; rfl
  | cons x js ih =>
    intro c live hnd hlive h
    obtain ⟨a, b⟩ := x
    obtain ⟨h1, h2, h3⟩ := h
    obtain ⟨ma, mb⟩ := linkEntries_pos_mem g hwf c a b h2
    simp only [validJoins, Bool.and_eq_true, decide_eq_true_eq]
    refine ⟨⟨⟨h1, (hlive a).2 ma⟩, (hlive b).2 mb⟩, ?_⟩
    apply ih (cmJoin c (a, b)) (live.erase b) (hnd.erase b) _ h3
    intro i
    rw [hnd.mem_erase_iff, hlive i]
    constructor
    · rintro ⟨hib, v, hv, hcv⟩
      exact ⟨v, hv, (cmJoin_eq_iff c a b i v hib).2 (Or.inl hcv)⟩
    · rintro ⟨v, hv, hcv⟩
      have hib : i ≠ b := by
        intro hib
        rw [hib] at hcv
        exact cmJoin_ne c a b h1 v hcv
      refine ⟨hib, ?_⟩
      rcases (cmJoin_eq_iff c a b i v hib).1 hcv with h4 | ⟨h4, _⟩
      · exact ⟨v, hv, h4⟩
      · rw [h4]; exact ma

/-- The builder on a prefix of linked joins, started from the singletons: the result is a
partition whose clusters are the classes of the cluster map of the prefix, and the evaluator
gives the modularity of that cluster map. -/
theorem builder_modularity (g : Graph) (hg : g.WellFormed) (hT : g.entries.length ≠ 0)
    (T : List (Nat × Nat)) (hL : LinkedJoins g id T) (b : Int) (hb : b < (T.length : Int)) :
    ∃ R, GetPartitionFromJoins g T b none = some R ∧ IsPartition g.vertex_count R ∧
      (∀ C ∈ R, C ≠ []) ∧
      R = specCompact g.vertex_count
        (specReplay (T.take (b + 1).toNat) (singletonSlots g.vertex_count)) ∧
      (∀ u w, u < g.vertex_count → w < g.vertex_count →
        (SameCluster R u w ↔ (T.take (b + 1).toNat).foldl cmJoin id u
          = (T.take (b + 1).toNat).foldl cmJoin id w)) ∧
      GetModularityFromClustering g R =
        some (modularityOfMap g g.vertex_count ((T.take (b + 1).toNat).foldl cmJoin id)) := by
  have hLt : LinkedJoins g id (T.take (b + 1).toNat) := LinkedJoins.take g T id _ hL
  have hvalid : validJoins (List.range g.vertex_count) (T.take (b + 1).toNat) = true := by
    apply LinkedJoins.valid g hg _ id (List.range g.vertex_count) (List.nodup_range _) _ hLt
    intro i
    rw [List.mem_range]
    constructor
    · intro hi; exact ⟨i, hi, rfl⟩
    · rintro ⟨v, hv, h⟩
      simp only [id] at h
      rw [← h]; exact hv
  obtain ⟨R, r1, r2, r3, _, r5⟩ := GetPartitionFromJoins_singletons g T b hb hvalid
  have hcont := content_cmReplay g.vertex_count (T.take (b + 1).toNat)
    (singletonSlots g.vertex_count) id (LinkedJoins.ne g _ id hLt)
    (content_singletons_id g.vertex_count)
  have hlt := cmReplay_lt g hg (T.take (b + 1).toNat) id (fun v hv => hv) hLt
  have hrel : ∀ u w, u < g.vertex_count → w < g.vertex_count →
      (SameCluster R u w ↔ (T.take (b + 1).toNat).foldl cmJoin id u
        = (T.take (b + 1).toNat).foldl cmJoin id w) := by
    intro u w hu hw
    constructor
    · rintro ⟨C, hC, huC, hwC⟩
      rw [r5, mem_specCompact] at hC
      obtain ⟨i, _, hi, _⟩ := hC
      rw [← hi] at huC hwC
      unfold specReplay at huC hwC
      rw [((hcont u i).1 huC).2, ((hcont w i).1 hwC).2]
    · intro h
      have hu2 : u ∈ content (specReplay (T.take (b + 1).toNat)
          (singletonSlots g.vertex_count)) ((T.take (b + 1).toNat).foldl cmJoin id u) :=
        (hcont u _).2 ⟨hu, rfl⟩
      have hw2 : w ∈ content (specReplay (T.take (b + 1).toNat)
          (singletonSlots g.vertex_count)) ((T.take (b + 1).toNat).foldl cmJoin id u) :=
        (hcont w _).2 ⟨hw, h.symm⟩
      refine ⟨_, ?_, hu2, hw2⟩
      rw [r5, mem_specCompact]
      exact ⟨_, hlt u hu, rfl, List.ne_nil_of_mem hu2⟩
  exact ⟨R, r1, r2, r3, r5, hrel, GetModularity_of_rel g hg hT r2 g.vertex_count _ hlt hrel⟩

end CGGC


namespace CGGC

/-! ## The modularity accounting of the join loop -/

/-- The value stored under a key of a map without duplicate key. -/
theorem mapGet_of_mem (row : List (Nat × ℚ)) (hnd : (row.map Prod.fst).Nodup) (k : Nat) (v : ℚ)
    (h : (k, v) ∈ row) : mapGet row k 0 = v := by
  induction row with
  | nil => exact absurd h (List.not_mem_nil _)
  | cons e r ih =>
    simp only [List.map_cons, List.nodup_cons] at hnd
    rw [mapGet_cons]
    rcases List.mem_cons.1 h with h1 | h1
    · rw [← h1]
      simp
    · have hne : e.1 ≠ k := by
        intro he
        apply hnd.1
        rw [he]
        exact List.mem_map.2 ⟨(k, v), h1, rfl⟩
      rw [if_neg hne]
      exact ih hnd.2 h1

/-- A record of the best-tie collection names two different linked clusters, and
`max_delta_q` is the change of the modularity by their join. -/
theorem chosen_linked (g : Graph) (hg : g.Simple) (c : Nat → Nat) (M : SparseClusteringMatrix)
    (h : MInv g c M) (rows : List Nat) (r : ℚ × List (Nat × Nat))
    (hB : BestTies M (scannedEntries M rows) r) (j : Nat × Nat) (hj : j ∈ r.2) :
    j.1 ≠ j.2 ∧ 0 < linkEntries g c j.1 j.2 ∧
      r.1 = 2 * ((linkEntries g c j.1 j.2 : ℚ) / (g.entries.length : ℚ)
        - (clusterEntries g c j.1 : ℚ) / (g.entries.length : ℚ)
          * ((clusterEntries g c j.2 : ℚ) / (g.entries.length : ℚ))) := by
  obtain ⟨_, _, _, hr⟩ := hB
  rw [hr, List.mem_map] at hj
  obtain ⟨e, he, hej⟩ := hj
  rw [List.mem_filter] at he
  obtain ⟨heL, hed⟩ := he
  simp only [decide_eq_true_eq] at hed
  unfold scannedEntries at heL
  rw [List.mem_flatMap] at heL
  obtain ⟨row, _, hx⟩ := heL
  rw [List.mem_map] at hx
  obtain ⟨x, hx, hxe⟩ := hx
  rw [List.mem_filter] at hx
  obtain ⟨hxr, hne⟩ := hx
  simp only [decide_eq_true_eq] at hne
  unfold SparseClusteringMatrix.GetRow at hxr
  have hval : mapGet (M.rows.getD row []) x.1 0 = x.2 :=
    mapGet_of_mem _ (h.nodup row) x.1 x.2 hxr
  have hkey : 0 < linkEntries g c row x.1 :=
    (h.key_iff row x.1).1 (List.mem_map.2 ⟨x, hxr, rfl⟩)
  have hd : r.1 = 2 * ((linkEntries g c row x.1 : ℚ) / (g.entries.length : ℚ)
        - (clusterEntries g c row : ℚ) / (g.entries.length : ℚ)
          * ((clusterEntries g c x.1 : ℚ) / (g.entries.length : ℚ))) := by
    rw [← hed, ← hxe]
    unfold entryDeltaQ SparseClusteringMatrix.GetRowSum
    dsimp only
    rw [h.sum_eq row, h.sum_eq x.1, ← hval, h.val_eq row x.1]
  rw [← hxe] at hej
  unfold orientJoin at hej
  dsimp only at hej
  split at hej
  · rw [← hej]
    exact ⟨fun hh => hne hh.symm, hkey, hd⟩
  · rw [← hej]
    refine ⟨hne, ?_, ?_⟩
    · rw [linkEntries_symm g hg c]; exact hkey
    · rw [linkEntries_symm g hg c x.1 row, hd]
      ring

/-- The prefix of `i + 1` joins of a trace that starts with the join `j`. -/
theorem take_succ_foldl (c : Nat → Nat) (j : Nat × Nat) (T : List (Nat × Nat)) (i : Nat) :
    ((j :: T).take (i + 1)).foldl cmJoin c = (T.take i).foldl cmJoin (cmJoin c j) := rfl

/-- The states and the joins of the common loop are equally many. -/
theorem genStates_length (scan : Nat → JoinState → Rand × ℚ × List (Nat × Nat))
    (remaining : Nat) :
    ∀ step st, (genStates scan remaining step st).length
      = (genTrace scan remaining step st).length := by
  induction remaining with
  | zero => intro step st; rfl
  | succ r ih =>
    intro step st
    unfold genStates genTrace
    split
    · rfl
    · simp only [List.length_cons, ih]

/-- The deltas and the joins of the common loop are equally many. -/
theorem genDeltas_length (scan : Nat → JoinState → Rand × ℚ × List (Nat × Nat))
    (remaining : Nat) :
    ∀ step st, (genDeltas scan remaining step st).length
      = (genTrace scan remaining step st).length := by
  induction remaining with
  | zero => intro step st; rfl
  | succ r ih =>
    intro step st
    unfold genDeltas genTrace
    split
    · rfl
    · simp only [List.length_cons, ih]

/-- The variable `Q` after an executed step is its initial value plus the values
`max_delta_q` of the steps so far. -/
theorem genStates_Q (scan : Nat → JoinState → Rand × ℚ × List (Nat × Nat)) (remaining : Nat) :
    ∀ step st i st2, (genStates scan remaining step st)[i]? = some st2 →
      st2.Q = st.Q + ((genDeltas scan remaining step st).take (i + 1)).sum := by
  induction remaining with
  | zero => intro step st i st2 h; simp [genStates] at h
  | succ r ih =>
    intro step st i st2 h
    unfold genStates at h
    unfold genDeltas
    by_cases h0 : (scan step st).2.2.length = 0
    · rw [if_pos h0] at h; simp at h
    · rw [if_neg h0] at h
      rw [if_neg h0]
      cases i with
      | zero =>
        simp only [List.getElem?_cons_zero, Option.some.injEq] at h
        rw [← h]
        simp [joinExecute]
      | succ i =>
        rw [List.getElem?_cons_succ] at h
        rw [ih _ _ i st2 h, List.take_succ_cons, List.sum_cons]
        simp only [joinExecute]
        ring

/-- The invariant of the join loop: the executed joins are joins of linked clusters, and
after each of them the variable `Q` is the modularity of the cluster map reached, which the
cluster matrix describes. -/
theorem genLoop_sem (g : Graph) (hg : g.Simple)
    (scan : Nat → JoinState → Rand × ℚ × List (Nat × Nat))
    (hscan : ∀ step st, ∃ rows, BestTies st.cluster_matrix
      (scannedEntries st.cluster_matrix rows) (scan step st).2)
    (remaining : Nat) :
    ∀ step st c, MInv g c st.cluster_matrix → st.Q = modularityOfMap g g.vertex_count c →
      LinkedJoins g c (genTrace scan remaining step st) ∧
      (∀ i st2, (genStates scan remaining step st)[i]? = some st2 →
        st2.Q = modularityOfMap g g.vertex_count
          (((genTrace scan remaining step st).take (i + 1)).foldl cmJoin c) ∧
        MInv g (((genTrace scan remaining step st).take (i + 1)).foldl cmJoin c)
          st2.cluster_matrix) := by
  induction remaining with
  | zero =>
    intro step st c _ _
    refine ⟨trivial, ?_⟩
    intro i st2 h
    simp [genStates] at h
  | succ r ih =>
    intro step st c hM hQ
    unfold genTrace genStates
    by_cases h0 : (scan step st).2.2.length = 0
    · rw [if_pos h0, if_pos h0]
      refine ⟨trivial, ?_⟩
      intro i st2 h
      simp at h
    · rw [if_neg h0, if_neg h0]
      obtain ⟨rows, hB⟩ := hscan step st
      obtain ⟨l1, l2, l3⟩ := chosen_linked g hg c st.cluster_matrix hM rows _ hB
        (chosenJoin (scan step st)) (chosenJoin_mem _ h0)
      obtain ⟨ha, hb⟩ := linkEntries_pos_lt g hg.1 c hM.cm_lt _ _ l2
      have hM1 : MInv g (cmJoin c (chosenJoin (scan step st)))
          (joinExecute step st (scan step st)).cluster_matrix :=
        MInv_join g hg c st.cluster_matrix hM _ _ l1 l2
      have hQ1 : (joinExecute step st (scan step st)).Q =
          modularityOfMap g g.vertex_count (cmJoin c (chosenJoin (scan step st))) := by
        have hm := modularity_join g hg g.vertex_count c _ _ l1 ha hb
        rw [hm, ← l3, ← hQ]
        rfl
      obtain ⟨i1, i2⟩ := ih (step + 1) _ _ hM1 hQ1
      refine ⟨⟨l1, l2, i1⟩, ?_⟩
      intro i st2 h
      cases i with
      | zero =>
        simp only [List.getElem?_cons_zero, Option.some.injEq] at h
        rw [← h]
        exact ⟨hQ1, hM1⟩
      | succ i =>
        rw [List.getElem?_cons_succ] at h
        rw [take_succ_foldl]
        exact i2 i st2 h

/-- The best step of the common loop: either no executed step raised `Q` above the initial
`best_step_q`, or `best_step` is an executed step and `best_step_q` the value of `Q` after
it. -/
theorem genLoop_bestq (scan : Nat → JoinState → Rand × ℚ × List (Nat × Nat)) (remaining : Nat) :
    ∀ step st,
      ((genLoop scan remaining step st).best_step = st.best_step ∧
        (genLoop scan remaining step st).best_step_q = st.best_step_q ∧
        ∀ (i : Nat) (st2 : JoinState), (genStates scan remaining step st)[i]? = some st2 →
          st2.Q ≤ st.best_step_q) ∨
      (∃ i st2, (genStates scan remaining step st)[i]? = some st2 ∧
        (genLoop scan remaining step st).best_step = ((step + i : Nat) : Int) ∧
        (genLoop scan remaining step st).best_step_q = st2.Q ∧ st.best_step_q < st2.Q) := by
  induction remaining with
  | zero =>
    intro step st
    left
    refine ⟨rfl, rfl, ?_⟩
    intro i st2 h
    simp [genStates] at h
  | succ r ih =>
    intro step st
    unfold genLoop genStates
    by_cases h0 : (scan step st).2.2.length = 0
    · rw [if_pos h0, if_pos h0]
      left
      refine ⟨rfl, rfl, ?_⟩
      intro i st2 h
      simp at h
    · rw [if_neg h0, if_neg h0]
      have hq : (joinExecute step st (scan step st)).Q = st.Q + (scan step st).2.1 := rfl
      by_cases hgt : st.Q + (scan step st).2.1 > st.best_step_q
      · have b1 : (joinExecute step st (scan step st)).best_step = (step : Int) := by
          simp only [joinExecute]; rw [if_pos hgt]
        have b2 : (joinExecute step st (scan step st)).best_step_q
            = st.Q + (scan step st).2.1 := by
          simp only [joinExecute]; rw [if_pos hgt]
        right
        rcases ih (step + 1) (joinExecute step st (scan step st)) with ⟨e1, e2, _⟩ | ⟨i, st2, e1, e2, e3, e4⟩
        · refine ⟨0, _, List.getElem?_cons_zero, ?_, ?_, ?_⟩
          · rw [e1, b1]; rfl
          · rw [e2, b2, hq]
          · rw [hq]; exact hgt
        · refine ⟨i + 1, st2, ?_, ?_, e3, ?_⟩
          · rw [List.getElem?_cons_succ]; exact e1
          · rw [e2]; congr 1; omega
          · rw [b2] at e4
            exact lt_trans hgt e4
      · have b1 : (joinExecute step st (scan step st)).best_step = st.best_step := by
          simp only [joinExecute]; rw [if_neg hgt]
        have b2 : (joinExecute step st (scan step st)).best_step_q = st.best_step_q := by
          simp only [joinExecute]; rw [if_neg hgt]
        rcases ih (step + 1) (joinExecute step st (scan step st)) with ⟨e1, e2, e3⟩ | ⟨i, st2, e1, e2, e3, e4⟩
        · left
          refine ⟨by rw [e1, b1], by rw [e2, b2], ?_⟩
          intro i st2 h
          cases i with
          | zero =>
            simp only [List.getElem?_cons_zero, Option.some.injEq] at h
            rw [← h, hq]
            exact not_lt.1 hgt
          | succ i =>
            rw [List.getElem?_cons_succ] at h
            rw [← b2]
            exact e3 i st2 h
        · right
          refine ⟨i + 1, st2, ?_, ?_, e3, ?_⟩
          · rw [List.getElem?_cons_succ]; exact e1
          · rw [e2]; congr 1; omega
          · rw [b2] at e4; exact e4

/-- The cluster sizes in adjacency entries add up to the number of entries. -/
theorem sum_clusterEntries (g : Graph) (K : Nat) (c : Nat → Nat)
    (hc : ∀ v, v < g.vertex_count → c v < K) :
    ∑ X ∈ Finset.range K, clusterEntries g c X = g.entries.length := by
  have h := sum_countP_fiber (fun _ => true) (fun e : Nat × Nat => c e.1) K g.entries
    (fun e he => hc e.1 (List.mem_range.1 (mem_entriesOf.1 he).1))
  simp only [Bool.true_and] at h
  unfold clusterEntries
  rw [h]
  simp

/-- The modularity of a cluster map of a simple graph with an edge is above `-1`. -/
theorem modularityOfMap_gt (g : Graph) (hg : g.Simple) (hT : g.entries.length ≠ 0) (K : Nat)
    (c : Nat → Nat) (hc : ∀ v, v < g.vertex_count → c v < K) :
    -1 < modularityOfMap g K c := by
  have hTq : (0 : ℚ) < (g.entries.length : ℚ) := by
    exact_mod_cast Nat.pos_of_ne_zero hT
  have hsumN := sum_clusterEntries g K c hc
  have hle : ∀ X ∈ Finset.range K, clusterEntries g c X ≤ g.entries.length := by
    intro X hX
    rw [← hsumN]
    exact Finset.single_le_sum (fun i _ => Nat.zero_le (clusterEntries g c i)) hX
  have hsum : ∑ X ∈ Finset.range K, (clusterEntries g c X : ℚ) / (g.entries.length : ℚ) = 1 := by
    rw [← Finset.sum_div, ← Nat.cast_sum, hsumN]
    exact div_self (ne_of_gt hTq)
  have ha0 : ∀ X, 0 ≤ (clusterEntries g c X : ℚ) / (g.entries.length : ℚ) :=
    fun X => div_nonneg (Nat.cast_nonneg _) (le_of_lt hTq)
  have ha1 : ∀ X ∈ Finset.range K,
      (clusterEntries g c X : ℚ) / (g.entries.length : ℚ) ≤ 1 := by
    intro X hX
    rw [div_le_one hTq]
    exact_mod_cast hle X hX
  have hsq : ∀ X ∈ Finset.range K,
      ((clusterEntries g c X : ℚ) / (g.entries.length : ℚ)) ^ 2
        ≤ (clusterEntries g c X : ℚ) / (g.entries.length : ℚ) := by
    intro X hX
    have h1 := ha1 X hX
    have h0 := ha0 X
    nlinarith
  unfold modularityOfMap
  by_cases hI : 0 < intraCount g c
  · have hIq : (0 : ℚ) < (intraCount g c : ℚ) / (g.entries.length : ℚ) :=
      div_pos (by exact_mod_cast hI) hTq
    have := Finset.sum_le_sum hsq
    rw [hsum] at this
    linarith
  · have hI0 : intraCount g c = 0 := by omega
    obtain ⟨e, he⟩ := List.exists_mem_of_length_pos (Nat.pos_of_ne_zero hT)
    have hce : c e.1 ≠ c e.2 := by
      intro hh
      have : 0 < intraCount g c := by
        unfold intraCount
        rw [List.countP_pos_iff]
        exact ⟨e, he, by simpa using hh⟩
      omega
    obtain ⟨m1, m2, m3⟩ := mem_entriesOf.1 he
    have hu := List.mem_range.1 m1
    have hw := hg.1 e.1 hu e.2 m2
    have he2 : (e.2, e.1) ∈ g.entries :=
      mem_entriesOf.2 ⟨List.mem_range.2 hw, (hg.2.1 e.1 hu e.2 hw).1 m2, fun hh => m3 hh.symm⟩
    have p1 : 0 < clusterEntries g c (c e.1) := by
      unfold clusterEntries
      rw [List.countP_pos_iff]
      exact ⟨e, he, by simp⟩
    have p2 : 0 < clusterEntries g c (c e.2) := by
      unfold clusterEntries
      rw [List.countP_pos_iff]
      exact ⟨(e.2, e.1), he2, by simp⟩
    have hX1 : c e.1 ∈ Finset.range K := Finset.mem_range.2 (hc e.1 hu)
    have hX2 : c e.2 ∈ Finset.range K := Finset.mem_range.2 (hc e.2 hw)
    have hlt : clusterEntries g c (c e.1) < g.entries.length := by
      have h2 : clusterEntries g c (c e.1) + clusterEntries g c (c e.2)
          ≤ ∑ X ∈ Finset.range K, clusterEntries g c X := by
        rw [← Finset.add_sum_erase _ _ hX1]
        apply Nat.add_le_add_left
        exact Finset.single_le_sum (fun i _ => Nat.zero_le (clusterEntries g c i))
          (Finset.mem_erase.2 ⟨fun hh => hce hh.symm, hX2⟩)
      omega
    have hstrict : ((clusterEntries g c (c e.1) : ℚ) / (g.entries.length : ℚ)) ^ 2
        < (clusterEntries g c (c e.1) : ℚ) / (g.entries.length : ℚ) := by
      have h1 : (clusterEntries g c (c e.1) : ℚ) / (g.entries.length : ℚ) < 1 := by
        rw [div_lt_one hTq]
        exact_mod_cast hlt
      have h0 : 0 < (clusterEntries g c (c e.1) : ℚ) / (g.entries.length : ℚ) :=
        div_pos (by exact_mod_cast p1) hTq
      nlinarith
    have := Finset.sum_lt_sum hsq ⟨c e.1, hX1, hstrict⟩
    rw [hsum] at this
    rw [hI0]
    simp only [Nat.cast_zero, zero_div]
    linarith

/-- Two different clusters hold together at most all adjacency entries. -/
theorem clusterEntries_two (g : Graph) (c : Nat → Nat) (i j : Nat) (hij : i ≠ j) :
    clusterEntries g c i + clusterEntries g c j ≤ g.entries.length := by
  unfold clusterEntries
  rw [← countP_split2 g.entries (fun e => decide (c e.1 = i) || decide (c e.1 = j))]
  · exact List.countP_le_length _
  · intro e _
    by_cases h1 : c e.1 = i
    · have h2 : ¬ c e.1 = j := fun hh => hij (h1.symm.trans hh)
      simp [h1, hij]
    · by_cases h2 : c e.1 = j
      · have hji : ¬ j = i := fun hh => hij hh.symm
        simp [h2, hji]
      · simp [h1, h2]

/-- Every scanned entry has a value `2 * (M[r][c] - a[r] * a[c])` of at least `-1`, so a
scan that meets an off-diagonal entry finds a candidate. -/
theorem scanned_delta_ge (g : Graph) (c : Nat → Nat) (M : SparseClusteringMatrix)
    (h : MInv g c M) (rows : List Nat) (e : Nat × Nat × ℚ) (he : e ∈ scannedEntries M rows) :
    -1 ≤ entryDeltaQ M e := by
  unfold scannedEntries at he
  rw [List.mem_flatMap] at he
  obtain ⟨row, _, hx⟩ := he
  rw [List.mem_map] at hx
  obtain ⟨x, hx, hxe⟩ := hx
  rw [List.mem_filter] at hx
  obtain ⟨hxr, hne⟩ := hx
  simp only [decide_eq_true_eq] at hne
  unfold SparseClusteringMatrix.GetRow at hxr
  have hval : mapGet (M.rows.getD row []) x.1 0 = x.2 :=
    mapGet_of_mem _ (h.nodup row) x.1 x.2 hxr
  rw [← hxe]
  unfold entryDeltaQ SparseClusteringMatrix.GetRowSum
  dsimp only
  rw [h.sum_eq row, h.sum_eq x.1, ← hval, h.val_eq row x.1]
  have hT0 : (0 : ℚ) ≤ (g.entries.length : ℚ) := Nat.cast_nonneg _
  have hE : (0 : ℚ) ≤ (linkEntries g c row x.1 : ℚ) / (g.entries.length : ℚ) :=
    div_nonneg (Nat.cast_nonneg _) hT0
  have ha : (0 : ℚ) ≤ (clusterEntries g c row : ℚ) / (g.entries.length : ℚ) :=
    div_nonneg (Nat.cast_nonneg _) hT0
  have hb : (0 : ℚ) ≤ (clusterEntries g c x.1 : ℚ) / (g.entries.length : ℚ) :=
    div_nonneg (Nat.cast_nonneg _) hT0
  have hsum : (clusterEntries g c row : ℚ) / (g.entries.length : ℚ)
      + (clusterEntries g c x.1 : ℚ) / (g.entries.length : ℚ) ≤ 1 := by
    rw [← add_div]
    apply div_le_one_of_le₀ _ hT0
    exact_mod_cast clusterEntries_two g c row x.1 (fun hh => hne hh.symm)
  nlinarith [sq_nonneg ((clusterEntries g c row : ℚ) / (g.entries.length : ℚ)
    - (clusterEntries g c x.1 : ℚ) / (g.entries.length : ℚ))]

/-- A best-tie collection over entries of which one has a value of at least `-1` is not
empty. -/
theorem ties_nonempty (M : SparseClusteringMatrix) (L : List (Nat × Nat × ℚ))
    (r : ℚ × List (Nat × Nat)) (hB : BestTies M L r) (e : Nat × Nat × ℚ) (he : e ∈ L)
    (hd : -1 ≤ entryDeltaQ M e) : r.2 ≠ [] := by
  obtain ⟨_, h2, h3, h4⟩ := hB
  rw [h4]
  intro hnil
  rw [List.map_eq_nil_iff, List.filter_eq_nil_iff] at hnil
  rcases h3 with h3 | ⟨e2, he2, h3⟩
  · apply hnil e he
    simp only [decide_eq_true_eq]
    have := h2 e he
    rw [h3] at this ⊢
    linarith
  · apply hnil e2 he2
    simp only [decide_eq_true_eq]
    exact h3

end CGGC


namespace CGGC

/-! ## The accounting of `PerformJoins` -/

theorem joinStates_eq_gen (n k : Nat) (remaining : Nat) :
    ∀ step st, joinStates n k remaining step st = genStates (joinScan n k) remaining step st := by
  induction remaining with
  | zero => intro step st; rfl
  | succ r ih =>
    intro step st
    unfold joinStates genStates
    rw [ih]

theorem joinDeltas_eq_gen (n k : Nat) (remaining : Nat) :
    ∀ step st, joinDeltas n k remaining step st = genDeltas (joinScan n k) remaining step st := by
  induction remaining with
  | zero => intro step st; rfl
  | succ r ih =>
    intro step st
    unfold joinDeltas genDeltas
    rw [ih]

/-- The loop `Q -= a_i * a_i`. -/
theorem foldl_sub_sq (a : Nat → ℚ) (L : List Nat) :
    ∀ q : ℚ, L.foldl (fun Q i => Q - a i * a i) q = q - (L.map fun i => a i ^ 2).sum := by
  induction L with
  | nil => intro q; simp
  | cons x xs ih =>
    intro q
    rw [List.foldl_cons, ih, List.map_cons, List.sum_cons]
    ring

/-- No adjacency entry joins a vertex with itself. -/
theorem intraCount_id (g : Graph) : intraCount g id = 0 := by
  unfold intraCount
  rw [List.countP_eq_zero]
  intro e he
  simp only [id, decide_eq_true_eq]
  exact (mem_entriesOf.1 he).2.2

/-- The initial `Q` of `PerformJoins` is the modularity of the singletons. -/
theorem joinInit_Q (g : Graph) (hg : g.Simple) (rand : Rand) :
    (joinInit g rand).Q = modularityOfMap g g.vertex_count id := by
  unfold joinInit
  dsimp only
  rw [foldl_sub_sq (fun i => (SparseClusteringMatrix.ofGraph g).GetRowSum i), list_sum_range]
  unfold modularityOfMap
  rw [intraCount_id]
  simp only [Nat.cast_zero, zero_div]
  congr 1
  apply Finset.sum_congr rfl
  intro i _
  unfold SparseClusteringMatrix.GetRowSum
  rw [(MInv_init g hg).sum_eq i]

/-- A graph with an adjacency entry has a vertex. -/
theorem vertex_count_pos (g : Graph) (hT : g.entries.length ≠ 0) : g.vertex_count ≠ 0 := by
  intro h
  apply hT
  unfold Graph.entries Graph.entriesOf
  rw [h]
  rfl

/-- The run of `PerformJoins` on a simple graph with an edge: the variable `Q` after every
executed step is the initial `Q` plus the values `max_delta_q` so far and also the
evaluator's modularity of the partition replayed up to that step; with an executed join the
returned value is the modularity of the stored partition, and without one the returned value
is `-1` while the stored partition has the initial `Q` as its modularity. -/
theorem PerformJoins_sem (g : Graph) (hg : g.Simple) (hT : g.entries.length ≠ 0)
    (rand : Rand) (k : Nat) :
    LinkedJoins g id (executedJoins g rand k) ∧
    (executedStates g rand k).length = (executedJoins g rand k).length ∧
    (executedDeltas g rand k).length = (executedJoins g rand k).length ∧
    (∀ (s : Nat) (st : JoinState), (executedStates g rand k)[s]? = some st →
      st.Q = (joinInit g rand).Q + ((executedDeltas g rand k).take (s + 1)).sum ∧
      st.Q = modularityOfMap g g.vertex_count
        (((executedJoins g rand k).take (s + 1)).foldl cmJoin id) ∧
      ∃ R, GetPartitionFromJoins g (joinFinal g rand k).joins (s : Int) none = some R ∧
        GetModularityFromClustering g R = some st.Q) ∧
    (∃ R, PerformJoins g rand k
        = some ((joinFinal g rand k).best_step_q, R, (joinFinal g rand k).rand) ∧
      IsPartition g.vertex_count R ∧ (∀ C ∈ R, C ≠ []) ∧
      R = specCompact g.vertex_count (specReplay
        ((executedJoins g rand k).take ((joinFinal g rand k).best_step + 1).toNat)
        (singletonSlots g.vertex_count)) ∧
      (∀ u w, u < g.vertex_count → w < g.vertex_count → (SameCluster R u w ↔
        ((executedJoins g rand k).take ((joinFinal g rand k).best_step + 1).toNat).foldl
            cmJoin id u
          = ((executedJoins g rand k).take ((joinFinal g rand k).best_step + 1).toNat).foldl
            cmJoin id w)) ∧
      (executedJoins g rand k ≠ [] →
        -1 < (joinFinal g rand k).best_step_q ∧ 0 ≤ (joinFinal g rand k).best_step ∧
        GetModularityFromClustering g R = some (joinFinal g rand k).best_step_q) ∧
      (executedJoins g rand k = [] →
        (joinFinal g rand k).best_step_q = -1 ∧ (joinFinal g rand k).best_step = -1 ∧
        GetModularityFromClustering g R = some (joinInit g rand).Q ∧
        -1 < (joinInit g rand).Q)) := by
  have hfin : joinFinal g rand k = genLoop (joinScan g.vertex_count k) (g.vertex_count - 1) 0
      (joinInit g rand) := joinLoop_eq_gen _ _ _ _ _
  have hT2 : executedJoins g rand k = genTrace (joinScan g.vertex_count k)
      (g.vertex_count - 1) 0 (joinInit g rand) := joinTrace_eq_gen _ _ _ _ _
  have hS2 : executedStates g rand k = genStates (joinScan g.vertex_count k)
      (g.vertex_count - 1) 0 (joinInit g rand) := joinStates_eq_gen _ _ _ _ _
  have hD2 : executedDeltas g rand k = genDeltas (joinScan g.vertex_count k)
      (g.vertex_count - 1) 0 (joinInit g rand) := joinDeltas_eq_gen _ _ _ _ _
  have hscan : ∀ step st, ∃ rows, BestTies st.cluster_matrix
      (scannedEntries st.cluster_matrix rows) (joinScan g.vertex_count k step st).2 :=
    fun step st => ⟨_, joinScan_ties g.vertex_count k step st⟩
  obtain ⟨s1, s2⟩ := genLoop_sem g hg _ hscan (g.vertex_count - 1) 0 (joinInit g rand) id
    (MInv_init g hg) (joinInit_Q g hg rand)
  obtain ⟨x1, x2, x3, _, x5⟩ := genLoop_executed (joinScan g.vertex_count k)
    (g.vertex_count - 1) (joinInit g rand) rfl rfl g none
  have hjlen := (genLoop_joins (joinScan g.vertex_count k) (g.vertex_count - 1) 0
    (joinInit g rand) (by simp [joinInit])).1
  have hlenS := genStates_length (joinScan g.vertex_count k) (g.vertex_count - 1) 0
    (joinInit g rand)
  have hlenD := genDeltas_length (joinScan g.vertex_count k) (g.vertex_count - 1) 0
    (joinInit g rand)
  have hQ0 := joinInit_Q g hg rand
  have hgt0 : -1 < (joinInit g rand).Q := by
    rw [hQ0]
    exact modularityOfMap_gt g hg hT _ id (fun v hv => hv)
  rw [← hfin] at x2 x3 x5 hjlen
  rw [← hT2] at s1 s2 x1 x2 x3 x5 hlenS hlenD
  rw [← hS2] at s2 hlenS
  rw [← hD2] at hlenD
  have hjl : (executedJoins g rand k).length ≤ (joinFinal g rand k).joins.length := by
    rw [hjlen]
    simpa [joinInit] using x1
  -- the states
  have hstate : ∀ (s : Nat) (st : JoinState), (executedStates g rand k)[s]? = some st →
      st.Q = (joinInit g rand).Q + ((executedDeltas g rand k).take (s + 1)).sum ∧
      st.Q = modularityOfMap g g.vertex_count
        (((executedJoins g rand k).take (s + 1)).foldl cmJoin id) ∧
      ∃ R, GetPartitionFromJoins g (joinFinal g rand k).joins (s : Int) none = some R ∧
        GetModularityFromClustering g R = some st.Q := by
    intro s st hs
    have hslt : s < (executedJoins g rand k).length := by
      rw [← hlenS]
      exact (List.getElem?_eq_some_iff.1 hs).1
    refine ⟨?_, (s2 s st hs).1, ?_⟩
    · have := genStates_Q (joinScan g.vertex_count k) (g.vertex_count - 1) 0
        (joinInit g rand) s st (by rw [← hS2]; exact hs)
      rw [← hD2] at this
      exact this
    · obtain ⟨R, r1, _, _, _, _, r6⟩ := builder_modularity g hg.1 hT (executedJoins g rand k)
        s1 (s : Int) (by exact_mod_cast hslt)
      refine ⟨R, ?_, ?_⟩
      · rw [builder_executed_only g (joinFinal g rand k).joins (executedJoins g rand k) (s : Int)
          none (by omega) (by exact_mod_cast hslt) hjl x3]
        exact r1
      · rw [r6, (s2 s st hs).1]
        rfl
  -- the best step
  have hb : (joinFinal g rand k).best_step < ((executedJoins g rand k).length : Int) := by
    rcases x2 with e | ⟨_, e⟩
    · rw [e]; omega
    · exact e
  obtain ⟨R, r1, r2, r3, r4, r5, r6⟩ := builder_modularity g hg.1 hT (executedJoins g rand k)
    s1 (joinFinal g rand k).best_step hb
  have hbq := genLoop_bestq (joinScan g.vertex_count k) (g.vertex_count - 1) 0 (joinInit g rand)
  rw [← hfin, ← hS2] at hbq
  refine ⟨s1, hlenS, hlenD, hstate, R, ?_, r2, r3, r4, r5, ?_, ?_⟩
  · rw [PerformJoins_eq, if_neg (vertex_count_pos g hT), x5, r1]
    rfl
  · intro hne
    have hpos : 0 < (executedStates g rand k).length := by
      rw [hlenS]
      exact List.length_pos.2 hne
    rcases hbq with ⟨_, _, e3⟩ | ⟨i, st2, e1, e2, e3, e4⟩
    · exfalso
      have h0 : (executedStates g rand k)[0]? = some ((executedStates g rand k)[0]) :=
        List.getElem?_eq_getElem hpos
      have hle := e3 0 _ h0
      have hq := (s2 0 _ h0).1
      have hgt := modularityOfMap_gt g hg hT g.vertex_count
        (((executedJoins g rand k).take (0 + 1)).foldl cmJoin id)
        (cmReplay_lt g hg.1 _ id (fun v hv => hv) (LinkedJoins.take g _ id _ s1))
      rw [← hq] at hgt
      have : (joinInit g rand).best_step_q = -1 := rfl
      rw [this] at hle
      linarith
    · have hi : (joinInit g rand).best_step_q = -1 := rfl
      rw [hi] at e4
      refine ⟨by rw [e3]; exact e4, by rw [e2]; omega, ?_⟩
      rw [r6, e3, (s2 i st2 e1).1, e2]
      simp
  · intro he
    have hS0 : executedStates g rand k = [] := by
      apply List.eq_nil_of_length_eq_zero
      rw [hlenS, he]; rfl
    rcases hbq with ⟨e1, e2, _⟩ | ⟨i, st2, e1, _⟩
    · have hi : (joinInit g rand).best_step_q = -1 := rfl
      have hi2 : (joinInit g rand).best_step = -1 := rfl
      rw [hi] at e2
      rw [hi2] at e1
      refine ⟨e2, e1, ?_, hgt0⟩
      rw [r6, e1, hQ0]
      rfl
    · rw [hS0] at e1
      simp at e1

end CGGC


namespace CGGC

/-! ## C17: the modularity accounting of `PerformJoins` -/

/-- **C17.** Modularity accounting in the singleton driver, for a simple undirected graph
with an edge and any run of `PerformJoins` (any random draws, any sample size): `Q` starts at
`Q0 = -Σ_i a[i]^2`; after every executed step `s` the variable `Q` is `Q0` plus the values
`max_delta_q` of the steps `0..s`, and it is the evaluator's modularity of the partition
that the builder replays from `joins[0..s]`. When at least one join is executed the value
that `PerformJoins` returns is the modularity of the partition it stores. When no join is
executed the returned value is the initial `-1` of `best_step_q`, while the stored partition
has the modularity `Q0`, which is above `-1`. -/
theorem C17_modularity_accounting (g : Graph) (hg : g.Simple) (hT : g.entries.length ≠ 0)
    (rand : Rand) (k : Nat) :
    (joinInit g rand).Q = -(∑ i ∈ Finset.range g.vertex_count,
      ((SparseClusteringMatrix.ofGraph g).GetRowSum i) ^ 2) ∧
    (executedStates g rand k).length = (executedJoins g rand k).length ∧
    (executedDeltas g rand k).length = (executedJoins g rand k).length ∧
    (∀ (s : Nat) (st : JoinState), (executedStates g rand k)[s]? = some st →
      st.Q = (joinInit g rand).Q + ((executedDeltas g rand k).take (s + 1)).sum ∧
      ∃ R, GetPartitionFromJoins g (joinFinal g rand k).joins (s : Int) none = some R ∧
        GetModularityFromClustering g R = some st.Q) ∧
    (∃ q P r, PerformJoins g rand k = some (q, P, r) ∧
      (executedJoins g rand k ≠ [] → GetModularityFromClustering g P = some q) ∧
      (executedJoins g rand k = [] → q = -1 ∧
        GetModularityFromClustering g P = some (joinInit g rand).Q ∧
        -1 < (joinInit g rand).Q)) := by
  obtain ⟨_, h2, h3, h4, R, r1, _, _, _, _, r6, r7⟩ := PerformJoins_sem g hg hT rand k
  refine ⟨?_, h2, h3, ?_, _, R, _, r1, fun hne => (r6 hne).2.2, fun he => ?_⟩
  · unfold joinInit
    dsimp only
    rw [foldl_sub_sq (fun i => (SparseClusteringMatrix.ofGraph g).GetRowSum i), list_sum_range]
    ring
  · intro s st hs
    obtain ⟨a1, _, a3⟩ := h4 s st hs
    exact ⟨a1, a3⟩
  · obtain ⟨b1, _, b3, b4⟩ := r7 he
    exact ⟨b1, b3, b4⟩

/-- The accounting at the graph with the edge `(0, 1)` and the isolated vertex `2`, sample
size `1`, every draw equal to `2`: the sampled row is row `2`, no join is executed, the value
returned is `-1` and the stored partition has the modularity `-1/2`. -/
theorem C17_modularity_accounting_witness :
    edgeAndIsolated.Simple ∧ edgeAndIsolated.entries.length ≠ 0 ∧
    executedJoins edgeAndIsolated ⟨fun _ => 2, 0⟩ 1 = [] ∧
    ∃ P r, PerformJoins edgeAndIsolated ⟨fun _ => 2, 0⟩ 1 = some (-1, P, r) ∧
      GetModularityFromClustering edgeAndIsolated P = some (-1 / 2) := by
  have he : executedJoins edgeAndIsolated ⟨fun _ => 2, 0⟩ 1 = [] := by with_unfolding_all rfl
  have hq : (joinInit edgeAndIsolated ⟨fun _ => 2, 0⟩).Q = -1 / 2 := by with_unfolding_all rfl
  obtain ⟨_, _, _, _, q, P, r, h1, _, h3⟩ :=
    C17_modularity_accounting edgeAndIsolated (by decide) (by decide) ⟨fun _ => 2, 0⟩ 1
  obtain ⟨e1, e2, _⟩ := h3 he
  rw [e1] at h1
  rw [hq] at e2
  exact ⟨by decide, by decide, he, P, r, h1, e2⟩

/-- The run of `PerformJoins` evaluated at the same input: the returned value `-1`, the
stored partition of singletons and its modularity `-1/2`. -/
theorem PerformJoins_edgeAndIsolated :
    PerformJoins edgeAndIsolated ⟨fun _ => 2, 0⟩ 1
      = some (-1, [[0], [1], [2]], ⟨fun _ => 2, 1⟩) ∧
    GetModularityFromClustering edgeAndIsolated [[0], [1], [2]] = some (-1 / 2) :=
  ⟨by with_unfolding_all rfl, by with_unfolding_all rfl⟩

end CGGC


namespace CGGC

/-! ## Refinement on a graph whose clusters stay on one side -/

/-- The rows of the vertices that are not neighbours of the moved vertex are not touched. -/
theorem moveLinks_other (A B : Nat) (N : List Nat) :
    ∀ (links : List (List (Nat × Int))) (u : Nat), u ∉ N →
      (N.foldl (moveLinkStep A B) links).getD u [] = links.getD u [] := by
  induction N with
  | nil => intro links u _; rfl
  | cons x xs ih =>
    intro links u hu
    rw [List.foldl_cons, ih _ u (fun h => hu (List.mem_cons_of_mem _ h))]
    unfold moveLinkStep
    dsimp only
    rw [getD_set_eq, if_neg]
    rintro ⟨h, _⟩
    exact hu (h ▸ List.mem_cons_self _ _)

/-- The invariant holds after the initialisation. -/
theorem refineInit_SideInv (g : Graph) (hg : g.WellFormed) (ok : Nat → Nat → Prop)
    (hside : ∀ u, u < g.vertex_count → ∀ w ∈ g.GetNeighbors u, ∀ k, ok u k ↔ ok w k)
    (P : Partition) (h0 : ∀ v, v < g.vertex_count → ok v ((refineInit g P).1.clustermap.getD v 0)) :
    SideInv g ok (refineInit g P).1 := by
  refine ⟨h0, ?_⟩
  intro u hu k hk
  obtain ⟨_, _, _, o4, _⟩ := refineLink_outer g (refineInit g P).1.clustermap
    (List.range g.vertex_count) (List.replicate g.vertex_count [], 0)
    (List.nodup_range _) (fun v hv => by simpa using List.mem_range.1 hv)
  have hlinks : (refineInit g P).1.links =
      ((List.range g.vertex_count).foldl (fun st i => (g.GetNeighbors i).foldl
        (refineLinkStep (refineInit g P).1.clustermap i) st)
        (List.replicate g.vertex_count [], 0)).1 := rfl
  rw [hlinks] at hk
  rcases o4 u (List.mem_range.2 hu) k hk with h | ⟨w, hw, h⟩
  · dsimp only at h
    rw [getD_replicate_nil] at h
    exact absurd h (List.not_mem_nil _)
  · rw [← h]
    exact (hside u hu w hw _).2 (h0 w (hg u hu w hw))

/-- The invariant is kept by the scan of a vertex and the move that follows it. -/
theorem afterScan_SideInv (g : Graph) (ok : Nat → Nat → Prop)
    (hside : ∀ u, u < g.vertex_count → ∀ w ∈ g.GetNeighbors u, ∀ k, ok u k ↔ ok w k)
    (ec : ℚ) {st : RefineState} (hinv : SideInv g ok st) {v : Nat} (hv : v < g.vertex_count)
    {r : List (Nat × Int) × Int × ℚ} (h : scanVertex g ec st v = some r) :
    SideInv g ok (afterScan g st v r) := by
  obtain ⟨s1, _, s3, _⟩ := scanVertex_spec g ec st v r h
  have hA : ok v (st.clustermap.getD v 0) := hinv.cm_ok v hv
  have hkeys1 : ∀ u, u < g.vertex_count →
      ∀ k ∈ ((st.links.set v r.1).getD u []).map Prod.fst, ok u k := by
    intro u hu k hk
    rw [getD_set_eq] at hk
    by_cases hc : v = u ∧ v < st.links.length
    · rw [if_pos hc] at hk
      rw [← hc.1]
      rcases s1 with s1 | s1
      · rw [s1] at hk; exact hinv.keys_ok v hv k hk
      · rw [s1] at hk
        rcases (mapTouch_spec _ _ 0).2.1 k hk with h2 | h2
        · exact hinv.keys_ok v hv k h2
        · rw [h2]; exact hA
    · rw [if_neg hc] at hk; exact hinv.keys_ok u hu k hk
  unfold afterScan
  dsimp only
  by_cases hpos : r.2.2 > 0
  · rw [if_pos hpos]
    obtain ⟨X, hX, _, hX2, _⟩ := s3 hpos
    have hXok : ok v X := hinv.keys_ok v hv X hX
    have hnat : r.2.1.toNat = X := by rw [hX2]; simp
    rw [hnat]
    unfold applyMove
    dsimp only
    refine ⟨?_, ?_⟩
    · intro w hw
      dsimp only
      rw [getD_set_eq]
      by_cases hc : v = w ∧ v < st.clustermap.length
      · rw [if_pos hc, ← hc.1]; exact hXok
      · rw [if_neg hc]; exact hinv.cm_ok w hw
    · intro u hu k hk
      dsimp only at hk
      by_cases hn : u ∈ g.GetNeighbors v
      · rcases moveLinks_keys _ _ _ _ u k hk with h2 | h2 | h2
        · exact hkeys1 u hu k h2
        · rw [h2]; exact (hside v hv u hn _).1 hA
        · rw [h2]; exact (hside v hv u hn _).1 hXok
      · rw [moveLinks_other _ _ _ _ u hn] at hk
        exact hkeys1 u hu k hk
  · rw [if_neg hpos]
    exact ⟨hinv.cm_ok, hkeys1⟩

/-- The invariant holds in every state of the refinement. -/
theorem Reachable.side {g : Graph} (hg : g.WellFormed) (ok : Nat → Nat → Prop)
    (hside : ∀ u, u < g.vertex_count → ∀ w ∈ g.GetNeighbors u, ∀ k, ok u k ↔ ok w k)
    {P : Partition}
    (h0 : ∀ v, v < g.vertex_count → ok v ((refineInit g P).1.clustermap.getD v 0))
    {st : RefineState} (h : Reachable g P st) : SideInv g ok st := by
  induction h with
  | init => exact refineInit_SideInv g hg ok hside P h0
  | step st v r _ hv hs ih => exact afterScan_SideInv g ok hside _ ih hv hs

/-- In a final state the move of a vertex to a cluster it has a link to is not a gain. -/
theorem nogain_linked (g : Graph) (hg : g.Simple) (hT : g.entries.length ≠ 0) {K : Nat}
    {st : RefineState} (hinv : RInv g K st)
    (hnm : ∀ u, u < g.vertex_count → ∀ X, mapGet (st.links.getD u []) X 0 ≠ 0 →
      X ≠ st.clustermap.getD u 0 →
      ∃ dq, deltaQ g ((g.entries.length : ℚ) / 2) st.clusterdegree (st.links.getD u []) u
        (st.clustermap.getD u 0) X = some dq ∧ dq ≤ 0)
    {v X : Nat} (hv : v < g.vertex_count) (hX : X < K) (hXA : X ≠ st.clustermap.getD v 0)
    (hl : linkCount g st.clustermap v X ≠ 0) :
    (g.entries.length : Int) * ((linkCount g st.clustermap v X : Int)
        - (linkCount g st.clustermap v (st.clustermap.getD v 0) : Int))
      ≤ ((g.GetNeighbors v).length : Int)
        * ((clusterEntries g (fun u => st.clustermap.getD u 0) X : Int)
          - (clusterEntries g (fun u => st.clustermap.getD u 0) (st.clustermap.getD v 0) : Int)
          + ((g.GetNeighbors v).length : Int)) := by
  have hTpos : (0 : ℚ) < (g.entries.length : ℚ) := by
    exact_mod_cast Nat.pos_of_ne_zero hT
  have hA : st.clustermap.getD v 0 < K := hinv.weak.cm_lt v hv
  have hvcm : v < st.clustermap.length := by rw [hinv.weak.cm_len]; exact hv
  have hne : mapGet (st.links.getD v []) X 0 ≠ 0 := by
    rw [hinv.links_eq v hv X]
    exact_mod_cast hl
  obtain ⟨dq, h1, h2⟩ := hnm v hv X hne hXA
  rw [deltaQ_gain g hg hT hinv hv hX hXA] at h1
  injection h1 with h1
  rw [← h1, cmFun_set _ _ _ hvcm,
    modularity_move g hg K _ v X hv hA hX (fun hh => hXA hh.symm)] at h2
  have h3 := (gain_le_iff (g.entries.length : ℚ)
    (((g.GetNeighbors v).countP fun w => decide (st.clustermap.getD w 0 = X) : Nat) : ℚ)
    (((g.GetNeighbors v).countP fun w =>
      decide (st.clustermap.getD w 0 = st.clustermap.getD v 0) : Nat) : ℚ)
    ((g.GetNeighbors v).length : ℚ)
    (clusterEntries g (fun u => st.clustermap.getD u 0) X : ℚ)
    (clusterEntries g (fun u => st.clustermap.getD u 0) (st.clustermap.getD v 0) : ℚ)
    hTpos).1 h2
  unfold linkCount
  exact_mod_cast h3

end CGGC


namespace CGGC

/-! ## Join runs on a graph without edge between its two sides -/

/-- Linked joins keep every vertex in a cluster whose id lies on the side of the vertex. -/
theorem cmReplay_side (g : Graph) (hwf : g.WellFormed) (side : Nat → Bool)
    (hside : ∀ u, u < g.vertex_count → ∀ w ∈ g.GetNeighbors u, side w = side u)
    (js : List (Nat × Nat)) :
    ∀ c : Nat → Nat, LinkedJoins g c js → (∀ v, v < g.vertex_count → side (c v) = side v) →
      ∀ v, v < g.vertex_count → side (js.foldl cmJoin c v) = side v := by
  induction js with
  | nil => intro c _ hc; exact hc
  | cons j js ih =>
    intro c hL hc
    obtain ⟨_, h2, h3⟩ := hL
    rw [List.foldl_cons]
    apply ih _ h3
    intro v hv
    unfold linkEntries at h2
    rw [List.countP_pos_iff] at h2
    obtain ⟨e, he, hp⟩ := h2
    simp only [decide_eq_true_eq] at hp
    obtain ⟨m1, m2, _⟩ := mem_entriesOf.1 he
    have hu := List.mem_range.1 m1
    have hab : side j.1 = side j.2 := by
      rw [← hp.1, ← hp.2, hc e.1 hu, hc e.2 (hwf e.1 hu e.2 m2)]
      exact (hside e.1 hu e.2 m2).symm
    show side (if c v = j.2 then j.1 else c v) = side v
    split
    · rename_i hcv
      rw [hab, ← hcv]; exact hc v hv
    · exact hc v hv

/-- The compaction of slots that hold the classes of a cluster map with ids on the side of
their members: every cluster lies on one side, and the clusters of the side `true` come
first when the ids of that side are the smaller ones. -/
theorem specCompact_sorted (n : Nat) (side : Nat → Bool) (s : Nat → Option (List Nat))
    (c : Nat → Nat) (hcont : ∀ v i, v ∈ content s i ↔ (v < n ∧ c v = i))
    (hc : ∀ v, v < n → side (c v) = side v)
    (hmono : ∀ i j, i < j → side j = true → side i = true) (m : Nat) :
    SideSorted side (specCompact m s) := by
  constructor
  · intro C hC u hu w hw
    obtain ⟨i, _, hi, _⟩ := mem_specCompact.1 hC
    rw [← hi] at hu hw
    obtain ⟨u1, u2⟩ := (hcont u i).1 hu
    obtain ⟨w1, w2⟩ := (hcont w i).1 hw
    rw [← hc u u1, ← hc w w1, u2, w2]
  · unfold specCompact
    apply List.Pairwise.filterMap _ _ (List.pairwise_lt_range m)
    intro i j hij C hC E hE u hu w hw hsw
    have hCi : content s i = C := by
      cases hsi : s i with
      | none => rw [hsi] at hC; simp [nonEmptySlot] at hC
      | some l =>
        rw [hsi] at hC
        unfold content
        rw [hsi]
        cases l with
        | nil => simp [nonEmptySlot] at hC
        | cons x xs =>
          simp only [nonEmptySlot, Option.mem_def, Option.some.injEq] at hC
          simpa using hC
    have hEj : content s j = E := by
      cases hsj : s j with
      | none => rw [hsj] at hE; simp [nonEmptySlot] at hE
      | some l =>
        rw [hsj] at hE
        unfold content
        rw [hsj]
        cases l with
        | nil => simp [nonEmptySlot] at hE
        | cons x xs =>
          simp only [nonEmptySlot, Option.mem_def, Option.some.injEq] at hE
          simpa using hE
    rw [← hCi] at hu
    rw [← hEj] at hw
    obtain ⟨u1, u2⟩ := (hcont u i).1 hu
    obtain ⟨w1, w2⟩ := (hcont w j).1 hw
    rw [← hc u u1, u2]
    apply hmono i j hij
    rw [← w2, hc w w1]
    exact hsw

/-- In a side-sorted partition the cluster index of a vertex of the side `true` is below
the cluster index of a vertex of the other side. -/
theorem clustermap_side_lt {n : Nat} {P : Partition} (hP : IsPartition n P)
    (side : Nat → Bool) (hS : SideSorted side P) (u w : Nat) (hu : u < n) (hw : w < n)
    (hsu : side u = true) (hsw : side w = false) :
    (clustermapLoop P 0 (List.replicate n 0)).getD u 0
      < (clustermapLoop P 0 (List.replicate n 0)).getD w 0 := by
  have hp := clustermap_lt hP hu
  have hq := clustermap_lt hP hw
  have hup := (clustermap_eq_iff hP hu _).1 rfl
  have hwq := (clustermap_eq_iff hP hw _).1 rfl
  rw [List.getD_eq_getElem _ _ hp] at hup
  rw [List.getD_eq_getElem _ _ hq] at hwq
  rcases Nat.lt_trichotomy ((clustermapLoop P 0 (List.replicate n 0)).getD u 0)
    ((clustermapLoop P 0 (List.replicate n 0)).getD w 0) with h | h | h
  · exact h
  · exfalso
    have hmem : P[(clustermapLoop P 0 (List.replicate n 0)).getD u 0] ∈ P :=
      List.getElem_mem _
    have hw2 : w ∈ P[(clustermapLoop P 0 (List.replicate n 0)).getD u 0] := by
      simp only [h]; exact hwq
    have := hS.1 _ hmem u hup w hw2
    rw [hsu, hsw] at this
    exact Bool.noConfusion this
  · exfalso
    have := (List.pairwise_iff_getElem.1 hS.2) _ _ hq hp h w hwq u hup hsu
    rw [hsw] at this
    exact Bool.noConfusion this

end CGGC


namespace CGGC

/-! ## The two triangles -/

theorem tt_simple : twoTriangles.Simple := by decide

theorem tt_entries : twoTriangles.entries.length = 12 := by decide

theorem tt_side : ∀ u, u < twoTriangles.vertex_count → ∀ w ∈ twoTriangles.GetNeighbors u,
    triSide w = triSide u := by decide

/-- Three cluster ids of a triangle in which no move to a linked cluster is a gain are
equal. -/
theorem tri_one (a b c : Nat) (h1 : triBlocked a b c) (h2 : triBlocked b a c)
    (h3 : triBlocked c a b) : a = b ∧ b = c := by
  unfold triBlocked at h1 h2 h3
  by_cases hab : a = b
  · subst hab
    by_cases hac : a = c
    · exact ⟨rfl, hac⟩
    · exfalso
      have hca : ¬ c = a := fun h => hac h.symm
      have := h3 hac
      simp [hac, hca] at this
  · have hba : ¬ b = a := fun h => hab h.symm
    exfalso
    by_cases hac : a = c
    · subst hac
      have := h2 hab
      simp [hab, hba] at this
    · have hca : ¬ c = a := fun h => hac h.symm
      by_cases hbc : b = c
      · subst hbc
        have := h1 hba
        simp [hab, hba] at this
      · have hcb : ¬ c = b := fun h => hbc h.symm
        have := h1 hba
        simp [hab, hba, hac, hca, hbc, hcb] at this

/-- The degree sum of a cluster of the two triangles. -/
theorem tt_clusterEntries (c : Nat → Nat) (X : Nat) :
    (clusterEntries twoTriangles c X : Int) =
      2 * ((if c 0 = X then 1 else 0) + (if c 1 = X then 1 else 0) + (if c 2 = X then 1 else 0))
      + 2 * ((if c 3 = X then 1 else 0) + (if c 4 = X then 1 else 0)
        + (if c 5 = X then 1 else 0)) := by
  rw [clusterEntries_eq twoTriangles tt_simple.2.2.1]
  have hn : twoTriangles.vertex_count = 6 := rfl
  rw [hn]
  simp only [Finset.sum_range_succ, Finset.sum_range_zero]
  have l0 : ((twoTriangles.GetNeighbors 0).length : Int) = 2 := rfl
  have l1 : ((twoTriangles.GetNeighbors 1).length : Int) = 2 := rfl
  have l2 : ((twoTriangles.GetNeighbors 2).length : Int) = 2 := rfl
  have l3 : ((twoTriangles.GetNeighbors 3).length : Int) = 2 := rfl
  have l4 : ((twoTriangles.GetNeighbors 4).length : Int) = 2 := rfl
  have l5 : ((twoTriangles.GetNeighbors 5).length : Int) = 2 := rfl
  rw [l0, l1, l2, l3, l4, l5]
  split_ifs <;> ring

/-- The links of a vertex whose neighbours are `x` and `y`. -/
theorem linkCount_pair (g : Graph) (cm : List Nat) (u x y X : Nat)
    (h : g.GetNeighbors u = [x, y]) :
    (linkCount g cm u X : Int) =
      (if cm.getD x 0 = X then 1 else 0) + (if cm.getD y 0 = X then 1 else 0) := by
  unfold linkCount
  rw [h]
  simp only [List.countP_cons, List.countP_nil, decide_eq_true_eq]
  push_cast
  split_ifs <;> simp

/-- In a final state of the refinement of the two triangles, for a vertex `u` with the
neighbours `x` and `y` and the vertices `p`, `q`, `r` of the other triangle in other
clusters, the move of `u` to the cluster of `x` is not a gain. -/
theorem tt_blocked {K : Nat} {st : RefineState} (hinv : RInv twoTriangles K st)
    (hnm : ∀ u, u < twoTriangles.vertex_count → ∀ X, mapGet (st.links.getD u []) X 0 ≠ 0 →
      X ≠ st.clustermap.getD u 0 →
      ∃ dq, deltaQ twoTriangles ((twoTriangles.entries.length : ℚ) / 2) st.clusterdegree
        (st.links.getD u []) u (st.clustermap.getD u 0) X = some dq ∧ dq ≤ 0)
    (u x y p q r : Nat) (hu : u < 6) (hx : x < 6) (hN : twoTriangles.GetNeighbors u = [x, y])
    (hD : ∀ X, (clusterEntries twoTriangles (fun v => st.clustermap.getD v 0) X : Int) =
      2 * ((if st.clustermap.getD u 0 = X then 1 else 0)
        + (if st.clustermap.getD x 0 = X then 1 else 0)
        + (if st.clustermap.getD y 0 = X then 1 else 0))
      + 2 * ((if st.clustermap.getD p 0 = X then 1 else 0)
        + (if st.clustermap.getD q 0 = X then 1 else 0)
        + (if st.clustermap.getD r 0 = X then 1 else 0)))
    (hp : ∀ v, v = u ∨ v = x → st.clustermap.getD p 0 ≠ st.clustermap.getD v 0)
    (hq : ∀ v, v = u ∨ v = x → st.clustermap.getD q 0 ≠ st.clustermap.getD v 0)
    (hr : ∀ v, v = u ∨ v = x → st.clustermap.getD r 0 ≠ st.clustermap.getD v 0) :
    triBlocked (st.clustermap.getD u 0) (st.clustermap.getD x 0) (st.clustermap.getD y 0) := by
  intro hne
  have hl : linkCount twoTriangles st.clustermap u (st.clustermap.getD x 0) ≠ 0 := by
    unfold linkCount
    rw [hN]
    simp [List.countP_cons]
  have h := nogain_linked twoTriangles tt_simple (by decide) hinv hnm hu
    (hinv.weak.cm_lt x hx) hne hl
  rw [tt_entries, hN, linkCount_pair twoTriangles _ u x y _ hN,
    linkCount_pair twoTriangles _ u x y _ hN, hD, hD,
    if_neg (hp u (Or.inl rfl)), if_neg (hq u (Or.inl rfl)), if_neg (hr u (Or.inl rfl)),
    if_neg (hp x (Or.inr rfl)), if_neg (hq x (Or.inr rfl)), if_neg (hr x (Or.inr rfl))] at h
  simp only [List.length_cons, List.length_nil] at h
  push_cast at h
  simp only [↓reduceIte] at h ⊢
  linarith

/-- In a final state of the refinement of the two triangles in which no cluster holds
vertices of both triangles, each triangle lies in one cluster. -/
theorem tt_united {K : Nat} {st : RefineState} (hinv : RInv twoTriangles K st)
    (hnm : ∀ u, u < twoTriangles.vertex_count → ∀ X, mapGet (st.links.getD u []) X 0 ≠ 0 →
      X ≠ st.clustermap.getD u 0 →
      ∃ dq, deltaQ twoTriangles ((twoTriangles.entries.length : ℚ) / 2) st.clusterdegree
        (st.links.getD u []) u (st.clustermap.getD u 0) X = some dq ∧ dq ≤ 0)
    (hsep : ∀ u w, u < 3 → 3 ≤ w → w < 6 → st.clustermap.getD u 0 ≠ st.clustermap.getD w 0) :
    (st.clustermap.getD 0 0 = st.clustermap.getD 1 0 ∧
      st.clustermap.getD 1 0 = st.clustermap.getD 2 0) ∧
    (st.clustermap.getD 3 0 = st.clustermap.getD 4 0 ∧
      st.clustermap.getD 4 0 = st.clustermap.getD 5 0) := by
  have hA : ∀ (p v : Nat), 3 ≤ p → p < 6 → v < 3 →
      st.clustermap.getD p 0 ≠ st.clustermap.getD v 0 :=
    fun p v h1 h2 h3 hh => hsep v p h3 h1 h2 hh.symm
  constructor
  · apply tri_one
    · apply tt_blocked hinv hnm 0 1 2 3 4 5 (by decide) (by decide) rfl
        (fun X => by rw [tt_clusterEntries])
      · rintro v (rfl | rfl) <;> exact hA _ _ (by decide) (by decide) (by decide)
      · rintro v (rfl | rfl) <;> exact hA _ _ (by decide) (by decide) (by decide)
      · rintro v (rfl | rfl) <;> exact hA _ _ (by decide) (by decide) (by decide)
    · apply tt_blocked hinv hnm 1 0 2 3 4 5 (by decide) (by decide) rfl
        (fun X => by rw [tt_clusterEntries]; ring)
      · rintro v (rfl | rfl) <;> exact hA _ _ (by decide) (by decide) (by decide)
      · rintro v (rfl | rfl) <;> exact hA _ _ (by decide) (by decide) (by decide)
      · rintro v (rfl | rfl) <;> exact hA _ _ (by decide) (by decide) (by decide)
    · apply tt_blocked hinv hnm 2 0 1 3 4 5 (by decide) (by decide) rfl
        (fun X => by rw [tt_clusterEntries]; ring)
      · rintro v (rfl | rfl) <;> exact hA _ _ (by decide) (by decide) (by decide)
      · rintro v (rfl | rfl) <;> exact hA _ _ (by decide) (by decide) (by decide)
      · rintro v (rfl | rfl) <;> exact hA _ _ (by decide) (by decide) (by decide)
  · apply tri_one
    · apply tt_blocked hinv hnm 3 4 5 0 1 2 (by decide) (by decide) rfl
        (fun X => by rw [tt_clusterEntries]; ring)
      · rintro v (rfl | rfl) <;> exact hsep _ _ (by decide) (by decide) (by decide)
      · rintro v (rfl | rfl) <;> exact hsep _ _ (by decide) (by decide) (by decide)
      · rintro v (rfl | rfl) <;> exact hsep _ _ (by decide) (by decide) (by decide)
    · apply tt_blocked hinv hnm 4 3 5 0 1 2 (by decide) (by decide) rfl
        (fun X => by rw [tt_clusterEntries]; ring)
      · rintro v (rfl | rfl) <;> exact hsep _ _ (by decide) (by decide) (by decide)
      · rintro v (rfl | rfl) <;> exact hsep _ _ (by decide) (by decide) (by decide)
      · rintro v (rfl | rfl) <;> exact hsep _ _ (by decide) (by decide) (by decide)
    · apply tt_blocked hinv hnm 5 3 4 0 1 2 (by decide) (by decide) rfl
        (fun X => by rw [tt_clusterEntries]; ring)
      · rintro v (rfl | rfl) <;> exact hsep _ _ (by decide) (by decide) (by decide)
      · rintro v (rfl | rfl) <;> exact hsep _ _ (by decide) (by decide) (by decide)
      · rintro v (rfl | rfl) <;> exact hsep _ _ (by decide) (by decide) (by decide)

/-- The compaction of slots of which exactly two are not empty. -/
theorem filterMap_two {α : Type} (f : Nat → Option α) (x y : Nat) (A B : α) (hxy : x < y)
    (hx : f x = some A) (hy : f y = some B) (ho : ∀ i, i ≠ x → i ≠ y → f i = none) :
    ∀ K, (List.range K).filterMap f =
      if K ≤ x then [] else if K ≤ y then [A] else [A, B] := by
  intro K
  induction K with
  | zero => simp
  | succ K ih =>
    rw [List.range_succ, List.filterMap_append, ih]
    by_cases h1 : K = x
    · subst h1
      have e1 : ¬ K + 1 ≤ K := by omega
      have e2 : K + 1 ≤ y := by omega
      rw [if_pos (le_refl K), if_neg e1, if_pos e2]
      simp [hx]
    · by_cases h2 : K = y
      · subst h2
        have e1 : ¬ K ≤ x := by omega
        have e2 : ¬ K + 1 ≤ x := by omega
        have e3 : ¬ K + 1 ≤ K := by omega
        rw [if_neg e1, if_pos (le_refl K), if_neg e2, if_neg e3]
        simp [hy]
      · have e := ho K h1 h2
        simp only [List.filterMap_cons, List.filterMap_nil, e, List.append_nil]
        by_cases c1 : K ≤ x
        · have c2 : K + 1 ≤ x := by omega
          rw [if_pos c1, if_pos c2]
        · have c2 : ¬ K + 1 ≤ x := by omega
          rw [if_neg c1, if_neg c2]
          by_cases c3 : K ≤ y
          · have c4 : K + 1 ≤ y := by omega
            rw [if_pos c3, if_pos c4]
          · have c4 : ¬ K + 1 ≤ y := by omega
            rw [if_neg c3, if_neg c4]

/-- The vertices of the two triangles with a given cluster id. -/
theorem clusterOf_six (cm : List Nat) (c : Nat) :
    clusterOf 6 cm c = [0, 1, 2, 3, 4, 5].filter fun v => decide (cm.getD v 0 = c) := rfl

/-- The refinement of the two triangles, started from a partition whose clusters lie each
in one triangle, those of the triangle `{0, 1, 2}` first, can only end with the two
triangles. -/
theorem tt_refine (P : Partition) (hP : IsPartition 6 P) (hne : ∀ C ∈ P, C ≠ [])
    (hS : SideSorted triSide P) (fuel : Nat) (R : Partition)
    (h : RefineCluster fuel twoTriangles P = .ok R) : R = [[0, 1, 2], [3, 4, 5]] := by
  unfold RefineCluster at h
  dsimp only at h
  cases hloop : refineLoop twoTriangles (refineInit twoTriangles P).2 fuel
      (refineInit twoTriangles P).1 with
  | error f => rw [hloop] at h; simp at h
  | ok st =>
    rw [hloop] at h
    dsimp only at h
    have hinit : RInv twoTriangles (RemoveEmptyEntries (P.map some)).length
        (refineInit twoTriangles P).1 := refineInit_RInv twoTriangles tt_simple hP
    obtain ⟨hinv, hnm⟩ := refineLoop_final twoTriangles tt_simple _ fuel _ st hinit hloop
    rw [refineInit_edgeCount] at hnm
    have hreach : Reachable twoTriangles P st :=
      refineLoop_reachable twoTriangles P fuel _ st Reachable.init hloop
    have hcm0 : (refineInit twoTriangles P).1.clustermap
        = clustermapLoop P 0 (List.replicate 6 0) := by
      rw [refineInit_clustermap, compact_of_ne_nil hne]
      rfl
    have hside := Reachable.side tt_simple.1
      (fun v k => ∃ u, u < 6 ∧ (refineInit twoTriangles P).1.clustermap.getD u 0 = k
        ∧ triSide u = triSide v)
      (by
        intro u hu w hw k
        have e := tt_side u hu w hw
        constructor
        · rintro ⟨t, t1, t2, t3⟩; exact ⟨t, t1, t2, by rw [t3, e]⟩
        · rintro ⟨t, t1, t2, t3⟩; exact ⟨t, t1, t2, by rw [t3, e]⟩)
      (fun v hv => ⟨v, hv, rfl, rfl⟩) hreach
    have hlt : ∀ u w, u < 3 → 3 ≤ w → w < 6 →
        st.clustermap.getD u 0 < st.clustermap.getD w 0 := by
      intro u w h1 h2 h3
      obtain ⟨u2, a1, a2, a3⟩ := hside.cm_ok u (by show u < 6; omega)
      obtain ⟨w2, b1, b2, b3⟩ := hside.cm_ok w h3
      rw [← a2, ← b2, hcm0]
      apply clustermap_side_lt hP triSide hS u2 w2 a1 b1
      · rw [a3]; simp [triSide, h1]
      · rw [b3]; simp [triSide]; omega
    obtain ⟨⟨e01, e12⟩, ⟨e34, e45⟩⟩ := tt_united hinv hnm
      (fun u w h1 h2 h3 => ne_of_lt (hlt u w h1 h2 h3))
    have hxy := hlt 0 3 (by decide) (by decide) (by decide)
    have hyK := hinv.weak.cm_lt 3 (by decide)
    have hreb := rebuild_spec 6 (RemoveEmptyEntries (P.map some)).length st.clustermap
      hinv.weak.cm_lt
    have hn : twoTriangles.vertex_count = 6 := rfl
    rw [hn, hreb] at h
    simp only [Except.ok.injEq] at h
    rw [← h]
    unfold specCompact
    have c1 : st.clustermap.getD 1 0 = st.clustermap.getD 0 0 := e01.symm
    have c2 : st.clustermap.getD 2 0 = st.clustermap.getD 0 0 := by rw [← e12, c1]
    have c4 : st.clustermap.getD 4 0 = st.clustermap.getD 3 0 := e34.symm
    have c5 : st.clustermap.getD 5 0 = st.clustermap.getD 3 0 := by rw [← e45, c4]
    have hne1 : st.clustermap.getD 0 0 ≠ st.clustermap.getD 3 0 := ne_of_lt hxy
    have hne2 : st.clustermap.getD 3 0 ≠ st.clustermap.getD 0 0 := fun hh => hne1 hh.symm
    rw [filterMap_two (fun i => nonEmptySlot (some (clusterOf 6 st.clustermap i)))
      (st.clustermap.getD 0 0) (st.clustermap.getD 3 0) [0, 1, 2] [3, 4, 5] hxy]
    · rw [if_neg (by omega), if_neg (by omega)]
    · rw [clusterOf_six]
      simp [-List.getD_eq_getElem?_getD, List.filter_cons, c1, c2, c4, c5, hne2, nonEmptySlot]
    · rw [clusterOf_six]
      simp [-List.getD_eq_getElem?_getD, List.filter_cons, c1, c2, c4, c5, hne1, nonEmptySlot]
    · intro i h1 h2
      rw [clusterOf_six]
      have h3 : ¬ st.clustermap.getD 0 0 = i := fun hh => h1 hh.symm
      have h4 : ¬ st.clustermap.getD 3 0 = i := fun hh => h2 hh.symm
      simp [-List.getD_eq_getElem?_getD, List.filter_cons, c1, c2, c4, c5, h3, h4, nonEmptySlot]

/-! ## The first step of a run -/

theorem range_getD_lt (n i : Nat) (hn : 0 < n) : (List.range n).getD i 0 < n := by
  by_cases hi : i < n
  · rw [List.getD_eq_getElem _ _ (by simpa using hi), List.getElem_range]
    exact hi
  · rw [List.getD_eq_default _ _ (by simpa using hi)]
    exact hn

theorem maxSample_pos (k n : Nat) (hn : 2 ≤ n) : 0 < maxSample k n 0 := by
  unfold maxSample
  split_ifs <;> omega

/-- On a simple graph with at least two vertices, none of them isolated, the first step of
`PerformJoins` executes a join. -/
theorem executed_ne_nil (g : Graph) (hg : g.Simple) (hn : 2 ≤ g.vertex_count)
    (hnb : ∀ v, v < g.vertex_count → g.GetNeighbors v ≠ []) (rand : Rand) (k : Nat) :
    executedJoins g rand k ≠ [] := by
  have hB := joinScan_ties g.vertex_count k 0 (joinInit g rand)
  obtain ⟨m, hm⟩ : ∃ m, maxSample k g.vertex_count 0 = m + 1 :=
    ⟨maxSample k g.vertex_count 0 - 1, by have := maxSample_pos k g.vertex_count hn; omega⟩
  have hA : (joinInit g rand).active_rows = List.range g.vertex_count := rfl
  have hM : (joinInit g rand).cluster_matrix = SparseClusteringMatrix.ofGraph g := rfl
  rw [hm, List.range_succ_eq_map, hA, hM] at hB
  unfold sampledRows at hB
  generalize hρ : (if m + 1 = g.vertex_count - 1 - 0
      then (ActiveRowSet.Get (List.range g.vertex_count) 0, (joinInit g rand).rand)
      else ActiveRowSet.GetRandomElement (List.range g.vertex_count) (joinInit g rand).rand)
    = pick at hB
  have hlt : pick.1 < g.vertex_count := by
    rw [← hρ]
    split
    · exact range_getD_lt _ _ (by omega)
    · exact range_getD_lt _ _ (by omega)
  obtain ⟨x, hx⟩ := List.exists_mem_of_ne_nil _ (hnb pick.1 hlt)
  have hne : x ≠ pick.1 := fun hh => hg.2.2.1 pick.1 hlt (hh ▸ hx)
  have hinv := MInv_init g hg
  have hkey : x ∈ ((SparseClusteringMatrix.ofGraph g).rows.getD pick.1 []).map Prod.fst := by
    rw [hinv.key_iff, linkEntries_id g hg.2.2.1, if_pos hlt]
    exact List.count_pos_iff.2 hx
  rw [List.mem_map] at hkey
  obtain ⟨e, he, hex⟩ := hkey
  have hscan : (pick.1, e.1, e.2) ∈ scannedEntries (SparseClusteringMatrix.ofGraph g)
      (pick.1 :: sampledRows g.vertex_count 0 (m + 1) (List.range g.vertex_count)
        (List.map Nat.succ (List.range m)) pick.2) := by
    unfold scannedEntries
    rw [List.flatMap_cons, List.mem_append]
    left
    rw [List.mem_map]
    refine ⟨e, ?_, rfl⟩
    rw [List.mem_filter]
    refine ⟨he, ?_⟩
    simp only [decide_eq_true_eq]
    rw [hex]; exact hne
  have hnil := ties_nonempty _ _ _ hB _ hscan
    (scanned_delta_ge g id _ hinv _ _ hscan)
  unfold executedJoins
  obtain ⟨r, hr⟩ : ∃ r, g.vertex_count - 1 = r + 1 := ⟨g.vertex_count - 2, by omega⟩
  rw [hr]
  unfold joinTrace
  rw [if_neg (fun hh => hnil (List.eq_nil_of_length_eq_zero hh))]
  exact List.cons_ne_nil _ _

/-! ## The runs of `ClusterRG` on the two triangles -/

/-- Every run of `PerformJoins` on the two triangles ends with a value above `-1` and a
partition without empty cluster whose clusters lie each in one triangle, those of the
triangle `{0, 1, 2}` first. -/
theorem tt_PerformJoins (rand : Rand) (k : Nat) :
    ∃ q P r, PerformJoins twoTriangles rand k = some (q, P, r) ∧ -1 < q ∧
      IsPartition 6 P ∧ (∀ C ∈ P, C ≠ []) ∧ P.length ≤ 6 ∧ SideSorted triSide P := by
  obtain ⟨hL, _, _, _, R, r1, r2, r3, r4, _, r6, _⟩ :=
    PerformJoins_sem twoTriangles tt_simple (by decide) rand k
  have hLt := LinkedJoins.take twoTriangles (executedJoins twoTriangles rand k) id
    ((joinFinal twoTriangles rand k).best_step + 1).toNat hL
  have hcont := content_cmReplay 6
    ((executedJoins twoTriangles rand k).take
      ((joinFinal twoTriangles rand k).best_step + 1).toNat)
    (singletonSlots 6) id (LinkedJoins.ne twoTriangles _ id hLt) (content_singletons_id 6)
  have hc := cmReplay_side twoTriangles tt_simple.1 triSide tt_side _ id hLt (fun v _ => rfl)
  have hmono : ∀ i j, i < j → triSide j = true → triSide i = true := by
    intro i j hij hj
    simp only [triSide, decide_eq_true_eq] at hj ⊢
    omega
  have hsorted := specCompact_sorted 6 triSide _ _ hcont hc hmono 6
  have hne := executed_ne_nil twoTriangles tt_simple (by decide) (by decide) rand k
  refine ⟨_, R, _, r1, (r6 hne).1, r2, r3, ?_, ?_⟩
  · rw [r4]
    unfold specCompact
    have := List.length_filterMap_le
      (fun i => nonEmptySlot (specReplay ((executedJoins twoTriangles rand k).take
        ((joinFinal twoTriangles rand k).best_step + 1).toNat)
        (singletonSlots twoTriangles.vertex_count) i)) (List.range twoTriangles.vertex_count)
    rw [List.length_range] at this
    exact this
  · rw [r4]
    exact hsorted

/-- The results of successive runs of `PerformJoins` that all have a given property. -/
theorem rgRuns_good (g : Graph) (k : Nat) (Good : ℚ × Partition → Prop)
    (h : ∀ rand, ∃ q P r, PerformJoins g rand k = some (q, P, r) ∧ Good (q, P)) :
    ∀ runs rand, ∃ rs, rgRuns g k runs rand = some rs ∧ rs.length = runs ∧
      ∀ x ∈ rs, Good x := by
  intro runs
  induction runs with
  | zero =>
    intro rand
    exact ⟨[], rfl, rfl, fun x hx => absurd hx (List.not_mem_nil _)⟩
  | succ n ih =>
    intro rand
    obtain ⟨q, P, r, h1, h2⟩ := h rand
    obtain ⟨rs, i1, i2, i3⟩ := ih r
    refine ⟨(q, P) :: rs, ?_, by simp [i2], ?_⟩
    · unfold rgRuns
      rw [h1]
      dsimp only
      rw [i1]
      rfl
    · intro x hx
      rcases List.mem_cons.1 hx with rfl | hx
      · exact h2
      · exact i3 x hx

/-- `ClusterRG` on the two triangles returns the two triangles, for every sample size,
every number of runs from one on and every sequence of draws, once the budget of passes of
the refinement is `6 ^ 6 + 1` or more. -/
theorem ClusterRG_twoTriangles (fuel : Nat) (rand : Rand) (k runs : Nat) (hruns : 1 ≤ runs)
    (hfuel : 46657 ≤ fuel) :
    ClusterRG fuel twoTriangles rand k runs = .ok [[0, 1, 2], [3, 4, 5]] := by
  obtain ⟨rs, h1, h2, h3⟩ := rgRuns_good twoTriangles k
    (fun x => -1 < x.1 ∧ IsPartition 6 x.2 ∧ (∀ C ∈ x.2, C ≠ []) ∧ x.2.length ≤ 6 ∧
      SideSorted triSide x.2)
    (fun rand => by
      obtain ⟨q, P, r, a1, a2⟩ := tt_PerformJoins rand k
      exact ⟨q, P, r, a1, a2⟩) runs rand
  have hq : ∃ r ∈ rs, r.1 > -1 := by
    obtain ⟨x, hx⟩ := List.exists_mem_of_length_pos (by omega : 0 < rs.length)
    exact ⟨x, hx, (h3 x hx).1⟩
  obtain ⟨i, r, b1, _, _, b4⟩ := ClusterRG_best fuel twoTriangles rand k runs rs h1 hq
  obtain ⟨_, g2, g3, g4, g5⟩ := h3 r (List.getElem?_mem b1)
  obtain ⟨st, R, hterm⟩ := RefineCluster_terminates twoTriangles tt_simple r.2 g2
  have hK : (RemoveEmptyEntries (r.2.map some)).length ^ twoTriangles.vertex_count + 1
      ≤ 46657 := by
    rw [compact_of_ne_nil g3]
    have : r.2.length ^ 6 ≤ 6 ^ 6 := Nat.pow_le_pow_left g4 6
    have e : twoTriangles.vertex_count = 6 := rfl
    rw [e]
    omega
  have hrun := (hterm (fuel - ((RemoveEmptyEntries (r.2.map some)).length
    ^ twoTriangles.vertex_count + 1))).2
  rw [show (RemoveEmptyEntries (r.2.map some)).length ^ twoTriangles.vertex_count + 1
    + (fuel - ((RemoveEmptyEntries (r.2.map some)).length ^ twoTriangles.vertex_count + 1))
    = fuel by omega] at hrun
  rw [b4, hrun, tt_refine r.2 g2 g3 g5 fuel R hrun]

end CGGC


namespace CGGC

/-! ## C15: the two triangles -/

/-- **C15.** On the graph of two disjoint triangles `{0, 1, 2}` and `{3, 4, 5}`, for every
sample size `k ≥ 1`, every number of runs `≥ 1` and every sequence of random draws (row
samples and tie picks), `ClusterRG` returns exactly the partition `[[0, 1, 2], [3, 4, 5]]`;
this covers the runs whose join loop stops early. The loop `while (improvement_found)` of
the refinement ends within `6 ^ 6 + 1` passes, which is the budget asked of the model. -/
theorem C15_two_triangles (fuel : Nat) (rand : Rand) (k runs : Nat) (_hk : 1 ≤ k)
    (hruns : 1 ≤ runs) (hfuel : 46657 ≤ fuel) :
    ClusterRG fuel twoTriangles rand k runs = .ok [[0, 1, 2], [3, 4, 5]] :=
  ClusterRG_twoTriangles fuel rand k runs hruns hfuel

/-- The claim at `k = 1`, one run and all draws equal to `0`: the join loop samples row `0`
in every step, executes the joins `(0, 1)` and `(0, 2)` and stops in its third step, where
row `0` has no off-diagonal entry left; the result is the two triangles. -/
theorem C15_two_triangles_witness :
    (1 ≤ 1 ∧ 1 ≤ 1 ∧ 46657 ≤ 46657) ∧
    executedJoins twoTriangles ⟨fun _ => 0, 0⟩ 1 = [(0, 1), (0, 2)] ∧
    (PerformJoins twoTriangles ⟨fun _ => 0, 0⟩ 1).map (fun r => r.2.1)
      = some [[0, 1, 2], [3], [4], [5]] ∧
    ClusterRG 46657 twoTriangles ⟨fun _ => 0, 0⟩ 1 1 = .ok [[0, 1, 2], [3, 4, 5]] :=
  ⟨⟨by decide, by decide, by decide⟩, by with_unfolding_all rfl, by with_unfolding_all rfl,
    C15_two_triangles 46657 ⟨fun _ => 0, 0⟩ 1 1 (by decide) (by decide) (by decide)⟩

end CGGC


namespace CGGC

/-! ## The evaluator never exceeds one -/

/-- The cluster map holds cluster indices below the number of clusters, whatever the
clusters hold. -/
theorem clustermapLoop_bound (Q : List (List Nat)) :
    ∀ (i : Nat) (m : List Nat) (K : Nat), i + Q.length ≤ K → (∀ u, m.getD u 0 < K) →
      ∀ u, (clustermapLoop Q i m).getD u 0 < K := by
  induction Q with
  | nil => intro i m K _ hm; exact hm
  | cons C Q ih =>
    intro i m K hK hm
    unfold clustermapLoop
    apply ih (i + 1) _ K (by simp only [List.length_cons] at hK; omega)
    intro u
    rw [foldl_set_getD]
    split
    · simp only [List.length_cons] at hK; omega
    · exact hm u

/-- Without cluster the evaluator stores nothing and returns `0`. -/
theorem GetModularity_nil (g : Graph) : GetModularityFromClustering g [] = some 0 := by
  have hlen : ∀ (cm : List Nat) (us : List Nat) (st : List (List (Nat × ℚ)) × Nat),
      st.1 = [] →
      (us.foldl (fun st i => (g.GetNeighbors i).foldl (evalEdgeStep cm i) st) st).1 = [] := by
    intro cm us
    induction us with
    | nil => intro st h; exact h
    | cons u us ih =>
      intro st h
      rw [List.foldl_cons]
      apply ih
      have hin : ∀ (N : List Nat) (st : List (List (Nat × ℚ)) × Nat), st.1 = [] →
          (N.foldl (evalEdgeStep cm u) st).1 = [] := by
        intro N
        induction N with
        | nil => intro st h; exact h
        | cons x xs ih2 =>
          intro st h
          rw [List.foldl_cons]
          apply ih2
          unfold evalEdgeStep
          split
          · exact h
          · dsimp only
            rw [h]
            rfl
      exact hin _ st h
  have h1 : (evalEdgeLoop g (clustermapLoop [] 0 (List.replicate g.vertex_count 0))
      ([] : Partition).length).1 = [] := hlen _ _ _ rfl
  unfold GetModularityFromClustering
  dsimp only
  rw [h1]
  rfl

/-- The evaluator always returns, and never a value above `1`. -/
theorem GetModularity_le_one (g : Graph) (P : Partition) :
    ∃ q, GetModularityFromClustering g P = some q ∧ q ≤ 1 := by
  by_cases hT : g.entries.length = 0
  · exact ⟨0, GetModularity_degenerate g P (List.length_eq_zero.1 hT), by norm_num⟩
  · by_cases hP : P = []
    · rw [hP]
      exact ⟨0, GetModularity_nil g, by norm_num⟩
    · have hK : 0 < P.length := List.length_pos.2 hP
      have hcm : ∀ u, (clustermapLoop P 0 (List.replicate g.vertex_count 0)).getD u 0
          < P.length := by
        apply clustermapLoop_bound P 0 _ P.length (by omega)
        intro u
        by_cases hu : u < g.vertex_count
        · rw [List.getD_eq_getElem _ _ (by simpa using hu)]
          simpa using hK
        · rw [List.getD_eq_default _ _ (by simpa using hu)]
          exact hK
      refine ⟨_, GetModularity_eq_cm g P hT (fun u _ => hcm u), ?_⟩
      have hTq : (0 : ℚ) < (g.entries.length : ℚ) := by
        exact_mod_cast Nat.pos_of_ne_zero hT
      have hle : ∀ i ∈ Finset.range P.length,
          (((g.entries.countP (fun e =>
            decide ((clustermapLoop P 0 (List.replicate g.vertex_count 0)).getD e.1 0 = i) &&
            decide ((clustermapLoop P 0 (List.replicate g.vertex_count 0)).getD e.2 0 = i))
              : ℕ) : ℚ) / (g.entries.length : ℚ)
          - (((g.entries.countP (fun e =>
            decide ((clustermapLoop P 0 (List.replicate g.vertex_count 0)).getD e.1 0 = i))
              : ℕ) : ℚ) / (g.entries.length : ℚ)) * (((g.entries.countP (fun e =>
            decide ((clustermapLoop P 0 (List.replicate g.vertex_count 0)).getD e.1 0 = i))
              : ℕ) : ℚ) / (g.entries.length : ℚ)))
          ≤ ((g.entries.countP (fun e =>
            decide ((clustermapLoop P 0 (List.replicate g.vertex_count 0)).getD e.1 0
              = (clustermapLoop P 0 (List.replicate g.vertex_count 0)).getD e.2 0) &&
            decide ((clustermapLoop P 0 (List.replicate g.vertex_count 0)).getD e.1 0 = i))
              : ℕ) : ℚ) / (g.entries.length : ℚ) := by
        intro i _
        have hsq := mul_self_nonneg (((g.entries.countP (fun e =>
            decide ((clustermapLoop P 0 (List.replicate g.vertex_count 0)).getD e.1 0 = i))
              : ℕ) : ℚ) / (g.entries.length : ℚ))
        have hc : g.entries.countP (fun e =>
            decide ((clustermapLoop P 0 (List.replicate g.vertex_count 0)).getD e.1 0 = i) &&
            decide ((clustermapLoop P 0 (List.replicate g.vertex_count 0)).getD e.2 0 = i))
          = g.entries.countP (fun e =>
            decide ((clustermapLoop P 0 (List.replicate g.vertex_count 0)).getD e.1 0
              = (clustermapLoop P 0 (List.replicate g.vertex_count 0)).getD e.2 0) &&
            decide ((clustermapLoop P 0 (List.replicate g.vertex_count 0)).getD e.1 0 = i)) := by
          apply List.countP_congr
          intro e _
          simp only [Bool.and_eq_true, decide_eq_true_eq]
          constructor
          · rintro ⟨a, b⟩; exact ⟨a.trans b.symm, a⟩
          · rintro ⟨a, b⟩; exact ⟨b, a ▸ b⟩
        rw [hc]
        linarith
      refine le_trans (Finset.sum_le_sum hle) ?_
      rw [← Finset.sum_div, ← Nat.cast_sum,
        sum_countP_fiber _ (fun e : Nat × Nat =>
          (clustermapLoop P 0 (List.replicate g.vertex_count 0)).getD e.1 0) P.length
          g.entries (fun e _ => hcm e.1)]
      rw [div_le_one hTq]
      exact_mod_cast List.countP_le_length _

end CGGC


namespace CGGC

/-! ## The bound on the iterations of the CGGC loop -/

/-- The only exception out of the intersection loop is the one of a checked access. -/
theorem cggcIntersect_fault (graph : Graph) (run : Rand → Except Fault (Partition × Rand))
    (hrun : ∀ r f, run r = .error f → f = .outOfRange) (n : Nat) :
    ∀ (st : Partition × Rand) (f : Fault),
      cggcIntersect graph run n st = .error f → f = .outOfRange := by
  induction n with
  | zero => intro st f h; simp [cggcIntersect] at h
  | succ n ih =>
    intro st f h
    unfold cggcIntersect at h
    cases hr : run st.2 with
    | error f2 =>
      rw [hr] at h
      simp only [Except.error.injEq] at h
      rw [← h]; exact hrun _ _ hr
    | ok cur =>
      rw [hr] at h
      dsimp only at h
      cases hc : CompareClusters graph st.1 cur.1 with
      | none =>
        rw [hc] at h
        simp only [Except.error.injEq] at h
        exact h.symm
      | some tmp =>
        rw [hc] at h
        exact ih _ f h

/-- An iteration of the CGGC loop never ends for want of budget. -/
theorem cggcIter_fault (seed : RestartSeed) (graph : Graph) (initclusters : Nat)
    (st : CggcState) : cggcIter seed graph initclusters st ≠ .error .outOfFuel := by
  have hrun : ∀ r f, restartRun seed graph st.bestClustering 1 r = .error f →
      f = .outOfRange := by
    intro r f h
    unfold restartRun at h
    split at h
    · simp only [Except.error.injEq] at h; exact h.symm
    · exact Except.noConfusion h
  intro h
  unfold cggcIter at h
  cases hc : cggcCandidate seed graph initclusters st with
  | error f =>
    rw [hc] at h
    simp only [Except.error.injEq] at h
    unfold cggcCandidate cggcPhase at hc
    cases hr : restartRun seed graph st.bestClustering 1 st.rand with
    | error f2 =>
      rw [hr] at hc
      simp only [Except.error.injEq] at hc
      have := hrun _ _ hr
      rw [hc, h] at this
      exact Fault.noConfusion this
    | ok last =>
      rw [hr] at hc
      have := cggcIntersect_fault graph _ hrun _ _ _ hc
      rw [h] at this
      exact Fault.noConfusion this
  | ok cand =>
    rw [hc] at h
    dsimp only at h
    cases hq : GetModularityFromClustering graph cand.1 with
    | none => rw [hq] at h; simp at h
    | some q => rw [hq] at h; simp at h

/-- A loop head at which the body is entered after `k` executed iterations: `cur_q` is
above `(k + 1) / 10000`, so `k` is below `9999`. -/
theorem cggc_guard_bound (st : CggcState) (k : Nat) (hl : (k : ℚ) / 10000 ≤ st.last_q)
    (hc : st.cur_q ≤ 1) (hg : st.cur_q - st.last_q > 1 / 10000) :
    ((k + 1 : Nat) : ℚ) / 10000 ≤ st.cur_q ∧ k + 1 ≤ 9999 := by
  have h1 : ((k + 1 : Nat) : ℚ) / 10000 < st.cur_q := by
    push_cast
    linarith
  refine ⟨le_of_lt h1, ?_⟩
  have h2 : ((k + 1 : Nat) : ℚ) < 10000 := by
    have := lt_of_lt_of_le h1 hc
    rw [div_lt_one (by norm_num)] at this
    exact this
  have h3 : k + 1 < 10000 := by exact_mod_cast h2
  omega

/-- The state after an iteration: `last_q` is the former `cur_q`, and `cur_q` is a value of
the evaluator. -/
theorem cggcIter_next (seed : RestartSeed) (graph : Graph) (initclusters : Nat)
    (st st2 : CggcState) (h : cggcIter seed graph initclusters st = .ok st2) :
    st2.last_q = st.cur_q ∧ st2.cur_q ≤ 1 := by
  obtain ⟨P2, q2, _, e2, e3, e4, _⟩ := cggcIter_spec seed graph initclusters st st2 h
  refine ⟨e4, ?_⟩
  obtain ⟨q, hq, hle⟩ := GetModularity_le_one graph P2
  rw [e2] at hq
  injection hq with hq
  rw [e3, hq]
  exact hle

/-- The body of the loop is executed at most `9999 - k` times from a loop head reached
after `k` iterations, whatever the budget. -/
theorem cggcCount_le (seed : RestartSeed) (graph : Graph) (initclusters : Nat) (fuel : Nat) :
    ∀ (st : CggcState) (k : Nat), (k : ℚ) / 10000 ≤ st.last_q → st.cur_q ≤ 1 → k ≤ 9999 →
      k + cggcCount seed graph initclusters fuel st ≤ 9999 := by
  induction fuel with
  | zero => intro st k _ _ hk; simpa [cggcCount] using hk
  | succ fuel ih =>
    intro st k hl hc hk
    unfold cggcCount
    by_cases hg : st.cur_q - st.last_q > 1 / 10000
    · rw [if_pos hg]
      obtain ⟨b1, b2⟩ := cggc_guard_bound st k hl hc hg
      cases hi : cggcIter seed graph initclusters st with
      | error f => dsimp only; omega
      | ok st2 =>
        dsimp only
        obtain ⟨n1, n2⟩ := cggcIter_next seed graph initclusters st st2 hi
        have := ih st2 (k + 1) (by rw [n1]; exact b1) n2 b2
        omega
    · rw [if_neg hg]
      omega

/-- With a budget of `9999 - k` iterations or more the loop does not run out of budget
from a loop head reached after `k` iterations, and a greater budget changes nothing. -/
theorem cggcLoop_enough (seed : RestartSeed) (graph : Graph) (initclusters : Nat)
    (fuel : Nat) :
    ∀ (st : CggcState) (k : Nat), (k : ℚ) / 10000 ≤ st.last_q → st.cur_q ≤ 1 →
      9999 ≤ k + fuel →
      cggcLoop seed graph initclusters fuel st ≠ .error .outOfFuel ∧
      ∀ j, cggcLoop seed graph initclusters (fuel + j) st
        = cggcLoop seed graph initclusters fuel st := by
  induction fuel with
  | zero =>
    intro st k hl hc hk
    have hg : ¬ (st.cur_q - st.last_q > 1 / 10000) := by
      intro hg
      have := (cggc_guard_bound st k hl hc hg).2
      omega
    constructor
    · rw [cggcLoop_stop seed graph initclusters st hg]
      exact fun h => Except.noConfusion h
    · intro j
      rw [cggcLoop_stop seed graph initclusters st hg, cggcLoop_stop seed graph initclusters st hg]
  | succ fuel ih =>
    intro st k hl hc hk
    by_cases hg : st.cur_q - st.last_q > 1 / 10000
    · obtain ⟨b1, _⟩ := cggc_guard_bound st k hl hc hg
      cases hi : cggcIter seed graph initclusters st with
      | error f =>
        have e1 : ∀ m, cggcLoop seed graph initclusters (m + 1) st = .error f := by
          intro m
          conv_lhs => unfold cggcLoop
          rw [if_pos hg, hi]
        constructor
        · rw [e1]
          intro h
          simp only [Except.error.injEq] at h
          rw [h] at hi
          exact cggcIter_fault seed graph initclusters st hi
        · intro j
          rw [show fuel + 1 + j = (fuel + j) + 1 by omega, e1, e1]
      | ok st2 =>
        have e1 : ∀ m, cggcLoop seed graph initclusters (m + 1) st
            = cggcLoop seed graph initclusters m st2 := by
          intro m
          conv_lhs => unfold cggcLoop
          rw [if_pos hg, hi]
        obtain ⟨n1, n2⟩ := cggcIter_next seed graph initclusters st st2 hi
        obtain ⟨i1, i2⟩ := ih st2 (k + 1) (by rw [n1]; exact b1) n2 (by omega)
        constructor
        · rw [e1]; exact i1
        · intro j
          rw [show fuel + 1 + j = (fuel + j) + 1 by omega, e1, e1]
          exact i2 j
    · constructor
      · rw [cggcLoop_stop seed graph initclusters st hg]
        exact fun h => Except.noConfusion h
      · intro j
        rw [cggcLoop_stop seed graph initclusters st hg,
          cggcLoop_stop seed graph initclusters st hg]

end CGGC


namespace CGGC

/-! ## C21: the CGGC loop is bounded -/

/-- **C21.** The iterative loop of `ClusterCGGC` is bounded, for every graph, every pair of
constructors of the restart driver, every `initclusters`, every random source and every
partition `P0` with which the loop is entered, `cur_q = q0` being its modularity and
`last_q = 0`: (1) `GetModularityFromClustering` returns on every graph and every partition,
and never a value above `1`; (2) an iteration of the loop that is followed by another one
leaves `cur_q` more than `0.0001` above its value before the iteration, and the first
iteration is only entered with `q0 - 0 > 0.0001`; (3) the body of the loop is executed
fewer than `10000` times, whatever the budget of the model; (4) with a
budget of `9999` iterations or more the loop does not run out of budget and a greater
budget does not change its outcome, and the same holds for the part `if (iterative)` of
`ClusterCGGC`. -/
theorem C21_cggc_loop_bounded (seed : RestartSeed) (graph : Graph) (initclusters : Nat)
    (rand0 : Rand) (P0 : Partition) (q0 : ℚ)
    (h0 : GetModularityFromClustering graph P0 = some q0) :
    (∀ (g : Graph) (P : Partition), ∃ q, GetModularityFromClustering g P = some q ∧ q ≤ 1) ∧
    (∀ st st2 : CggcState, cggcIter seed graph initclusters st = .ok st2 →
      st2.cur_q - st2.last_q > 1 / 10000 → st2.cur_q > st.cur_q + 1 / 10000) ∧
    (∀ fuel, 0 < cggcCount seed graph initclusters fuel ⟨rand0, P0, q0, 0⟩ →
      q0 - 0 > 1 / 10000) ∧
    (∀ fuel, cggcCount seed graph initclusters fuel ⟨rand0, P0, q0, 0⟩ < 10000) ∧
    (∀ j, cggcLoop seed graph initclusters (9999 + j) ⟨rand0, P0, q0, 0⟩
        ≠ .error .outOfFuel ∧
      cggcLoop seed graph initclusters (9999 + j) ⟨rand0, P0, q0, 0⟩
        = cggcLoop seed graph initclusters 9999 ⟨rand0, P0, q0, 0⟩) ∧
    (∀ j iterative, cggcIterative (9999 + j) seed graph initclusters iterative (P0, rand0)
        ≠ .error .outOfFuel ∧
      cggcIterative (9999 + j) seed graph initclusters iterative (P0, rand0)
        = cggcIterative 9999 seed graph initclusters iterative (P0, rand0)) := by
  have hq0 : q0 ≤ 1 := by
    obtain ⟨q, hq, hle⟩ := GetModularity_le_one graph P0
    rw [h0] at hq
    injection hq with hq
    rw [hq]; exact hle
  have hl0 : ((0 : Nat) : ℚ) / 10000 ≤ (⟨rand0, P0, q0, 0⟩ : CggcState).last_q := by
    simp
  have hloop : ∀ j, cggcLoop seed graph initclusters (9999 + j) ⟨rand0, P0, q0, 0⟩
        ≠ .error .outOfFuel ∧
      cggcLoop seed graph initclusters (9999 + j) ⟨rand0, P0, q0, 0⟩
        = cggcLoop seed graph initclusters 9999 ⟨rand0, P0, q0, 0⟩ := by
    intro j
    obtain ⟨a1, a2⟩ := cggcLoop_enough seed graph initclusters 9999 ⟨rand0, P0, q0, 0⟩ 0
      hl0 hq0 (by omega)
    refine ⟨?_, a2 j⟩
    rw [a2 j]; exact a1
  refine ⟨GetModularity_le_one, ?_, ?_, ?_, hloop, ?_⟩
  · intro st st2 hi hg
    obtain ⟨n1, _⟩ := cggcIter_next seed graph initclusters st st2 hi
    rw [n1] at hg
    linarith
  · intro fuel hpos
    cases fuel with
    | zero => simp [cggcCount] at hpos
    | succ fuel =>
      unfold cggcCount at hpos
      by_cases hg : (⟨rand0, P0, q0, 0⟩ : CggcState).cur_q
          - (⟨rand0, P0, q0, 0⟩ : CggcState).last_q > 1 / 10000
      · exact hg
      · rw [if_neg hg] at hpos
        exact absurd hpos (lt_irrefl 0)
  · intro fuel
    have := cggcCount_le seed graph initclusters fuel ⟨rand0, P0, q0, 0⟩ 0 hl0 hq0 (by omega)
    omega
  · intro j iterative
    obtain ⟨b1, b2⟩ := hloop j
    unfold cggcIterative
    cases iterative with
    | false => exact ⟨fun h => by simp at h, rfl⟩
    | true =>
      simp only [if_true, h0]
      rw [b2]
      refine ⟨?_, rfl⟩
      rw [← b2]
      cases hr : cggcLoop seed graph initclusters (9999 + j) ⟨rand0, P0, q0, 0⟩ with
      | error f =>
        intro h
        simp only [Except.error.injEq] at h
        rw [h] at hr
        exact b1 hr
      | ok st => exact fun h => Except.noConfusion h

/-- The claim at the two triangles with the seed of the restart driver taken from the
spec, `initclusters = 2` and the two triangles as the partition at entry (`q0 = 1/2`): the
body of the loop is executed once and the loop ends with `cur_q = last_q = 1/2`. -/
theorem C21_cggc_loop_bounded_witness :
    GetModularityFromClustering twoTriangles [[0, 1, 2], [3, 4, 5]] = some (1 / 2) ∧
    cggcCount specSeed twoTriangles 2 9999
      ⟨⟨fun i => i, 0⟩, [[0, 1, 2], [3, 4, 5]], 1 / 2, 0⟩ = 1 ∧
    ((∀ (g : Graph) (P : Partition), ∃ q, GetModularityFromClustering g P = some q ∧ q ≤ 1) ∧
    (∀ st st2 : CggcState, cggcIter specSeed twoTriangles 2 st = .ok st2 →
      st2.cur_q - st2.last_q > 1 / 10000 → st2.cur_q > st.cur_q + 1 / 10000) ∧
    (∀ fuel, 0 < cggcCount specSeed twoTriangles 2 fuel
      ⟨⟨fun i => i, 0⟩, [[0, 1, 2], [3, 4, 5]], 1 / 2, 0⟩ → (1 / 2 : ℚ) - 0 > 1 / 10000) ∧
    (∀ fuel, cggcCount specSeed twoTriangles 2 fuel
      ⟨⟨fun i => i, 0⟩, [[0, 1, 2], [3, 4, 5]], 1 / 2, 0⟩ < 10000) ∧
    (∀ j, cggcLoop specSeed twoTriangles 2 (9999 + j)
        ⟨⟨fun i => i, 0⟩, [[0, 1, 2], [3, 4, 5]], 1 / 2, 0⟩ ≠ .error .outOfFuel ∧
      cggcLoop specSeed twoTriangles 2 (9999 + j)
        ⟨⟨fun i => i, 0⟩, [[0, 1, 2], [3, 4, 5]], 1 / 2, 0⟩
        = cggcLoop specSeed twoTriangles 2 9999
          ⟨⟨fun i => i, 0⟩, [[0, 1, 2], [3, 4, 5]], 1 / 2, 0⟩) ∧
    (∀ j iterative, cggcIterative (9999 + j) specSeed twoTriangles 2 iterative
        ([[0, 1, 2], [3, 4, 5]], ⟨fun i => i, 0⟩) ≠ .error .outOfFuel ∧
      cggcIterative (9999 + j) specSeed twoTriangles 2 iterative
        ([[0, 1, 2], [3, 4, 5]], ⟨fun i => i, 0⟩)
        = cggcIterative 9999 specSeed twoTriangles 2 iterative
          ([[0, 1, 2], [3, 4, 5]], ⟨fun i => i, 0⟩))) :=
  ⟨by with_unfolding_all rfl, by with_unfolding_all rfl,
    C21_cggc_loop_bounded specSeed twoTriangles 2 ⟨fun i => i, 0⟩ [[0, 1, 2], [3, 4, 5]]
      (1 / 2) (by with_unfolding_all rfl)⟩

end CGGC
